import Mathlib

/-!
# etsl: category-partition test frame generator

A shallow embedding of the `etsl` pipeline (`etsl_tokenizer.hpp`, `etsl_predicate.hpp`,
`etsl_parser.hpp`, `etsl_frame_writer.hpp`, `algorithm.hpp`) together with theorems about it.

Conventions of the embedding:

* a C++ `char` is a `Char`, a `std::string` is a `String`, a `std::vector<T>` is a `List T`;
* a function that can throw returns `Except etsl_exception _`;
* a `std::unique_ptr<expression>` that may be null is an `Option expression`;
* the output stream of the frame writer is the list of frames written to it;
* the frame counter `int frame_num_` is an `Int` that is brought back into the range of a
  32-bit `int` after each increment (`int_wrap`).
-/

namespace etsl

/-! ## Characters and strings (`<cctype>`, `std::string`) -/

/-- The C locale `std::isspace`: space, `\t`, `\n`, `\v`, `\f`, `\r`. -/
def isspace (c : Char) : Bool :=
  c = ' ' || c = '\t' || c = '\n' || c = Char.ofNat 11 || c = Char.ofNat 12 || c = '\r'

/-- The C locale `std::isalnum`: an ASCII digit or letter. -/
def isalnum (c : Char) : Bool :=
  ('0' ≤ c && c ≤ '9') || ('A' ≤ c && c ≤ 'Z') || ('a' ≤ c && c ≤ 'z')

/-- The expression `s[0]` of a `std::string`: the first character, and the terminating NUL
when the string is empty. -/
def front (s : String) : Char :=
  match s.data with
  | [] => Char.ofNat 0
  | c :: _ => c

/-! ## Exceptions -/

/-- The exceptions of the program. `fuel_exhausted` is not an exception of the program: it is
what the recursive-descent functions of the model return when their recursion budget is used
up, which `etsl_predicate.parse` never does (see `parse_fuel_adequate`). -/
inductive etsl_exception where
  | etsl_syntax_error (line_num col_num : Nat) (what : String)
  | etsl_invalid_predicate_error (what : String)
  | fuel_exhausted
  deriving DecidableEq, Repr

/-! ## `etsl_predicate.hpp` -/

/-- The struct `etsl_predicate::expression`: a node kind with the operands it uses. -/
inductive expression where
  | kind_prop (prop_name : String)
  | kind_not (operand : expression)
  | kind_and (lhs rhs : expression)
  | kind_or (lhs rhs : expression)
  deriving DecidableEq, Repr

/-- The class `etsl_predicate`: its only member `expr_`, a possibly null pointer. -/
structure etsl_predicate where
  expr_ : Option expression := none
  deriving DecidableEq, Repr

/-- What a parsing function returns: the parsed expression (`none` for `nullptr`) and the
position of the iterator `first`, as the list of the sub-tokens not yet consumed. -/
abbrev parse_result := Except etsl_exception (Option expression × List String)

/-- The test `std::isalnum((*first)[0]) || (*first)[0] == ':'` of `parse_prop`. -/
def is_prop_name (t : String) : Bool := isalnum (front t) || front t = ':'

/-- The function `etsl_predicate::parse_prop`. -/
def parse_prop (toks : List String) : parse_result :=
  match toks with
  | [] => .ok (none, [])
  | t :: rest =>
    if is_prop_name t then .ok (some (.kind_prop t), rest)
    else .ok (none, t :: rest)

mutual

/-- The function `etsl_predicate::parse_expr`; the `while` loop is `parse_expr_loop`. -/
def parse_expr : Nat → List String → parse_result
  | 0, _ => .error .fuel_exhausted
  | n + 1, toks =>
    match parse_term n toks with
    | .error e => .error e
    | .ok (none, rest) => .ok (none, rest)
    | .ok (some expr, rest) => parse_expr_loop n expr rest

/-- The `while (first != last && *first == "||")` loop of `parse_expr`. -/
def parse_expr_loop : Nat → expression → List String → parse_result
  | 0, _, _ => .error .fuel_exhausted
  | n + 1, expr, toks =>
    match toks with
    | [] => .ok (some expr, [])
    | t :: rest =>
      if t = "||" then
        match parse_term n rest with
        | .error e => .error e
        | .ok (none, _) => .error (.etsl_invalid_predicate_error "invalid operator ||")
        | .ok (some rhs, rest') => parse_expr_loop n (.kind_or expr rhs) rest'
      else .ok (some expr, t :: rest)

/-- The function `etsl_predicate::parse_term`; the `while` loop is `parse_term_loop`. -/
def parse_term : Nat → List String → parse_result
  | 0, _ => .error .fuel_exhausted
  | n + 1, toks =>
    match parse_primary n toks with
    | .error e => .error e
    | .ok (none, rest) => .ok (none, rest)
    | .ok (some term, rest) => parse_term_loop n term rest

/-- The `while (first != last && *first == "&&")` loop of `parse_term`. -/
def parse_term_loop : Nat → expression → List String → parse_result
  | 0, _, _ => .error .fuel_exhausted
  | n + 1, term, toks =>
    match toks with
    | [] => .ok (some term, [])
    | t :: rest =>
      if t = "&&" then
        match parse_primary n rest with
        | .error e => .error e
        | .ok (none, _) => .error (.etsl_invalid_predicate_error "invalid operator &&")
        | .ok (some rhs, rest') => parse_term_loop n (.kind_and term rhs) rest'
      else .ok (some term, t :: rest)

/-- The function `etsl_predicate::parse_primary`. -/
def parse_primary : Nat → List String → parse_result
  | 0, _ => .error .fuel_exhausted
  | n + 1, toks =>
    match toks with
    | [] => parse_prop []
    | t :: rest =>
      if t = "!" then
        match parse_primary n rest with
        | .error e => .error e
        | .ok (none, _) => .error (.etsl_invalid_predicate_error "invalid operator !")
        | .ok (some operand, rest') => .ok (some (.kind_not operand), rest')
      else if t = "(" then
        match parse_expr n rest with
        | .error e => .error e
        | .ok (none, _) => .error (.etsl_invalid_predicate_error "invalid parentheses")
        | .ok (some _, []) => .error (.etsl_invalid_predicate_error "invalid parentheses")
        | .ok (some expr, t' :: rest') =>
          if t' = ")" then .ok (some expr, rest')
          else .error (.etsl_invalid_predicate_error "invalid parentheses")
      else parse_prop (t :: rest)

end

/-- The recursion budget that `etsl_predicate.parse` gives `parse_expr`: three levels
(`parse_expr`, `parse_term`, `parse_primary`) for each sub-token, and three to start. -/
def parse_fuel (toks : List String) : Nat := 3 * toks.length + 3

/-- The function `etsl_predicate::parse`: the new value of `expr_`, or the exception thrown. -/
def etsl_predicate.parse (toks : List String) : Except etsl_exception etsl_predicate :=
  match parse_expr (parse_fuel toks) toks with
  | .error e => .error e
  | .ok (none, _) => .error (.etsl_invalid_predicate_error "invalid predicate")
  | .ok (some expr, _) => .ok { expr_ := some expr }

/-- The recursion of `etsl_predicate::evaluate` below a non-null pointer. -/
def evaluate_node (prop_map : String → Bool) : expression → Bool
  | .kind_prop prop_name => prop_map prop_name
  | .kind_not operand => !evaluate_node prop_map operand
  | .kind_and lhs rhs => evaluate_node prop_map lhs && evaluate_node prop_map rhs
  | .kind_or lhs rhs => evaluate_node prop_map lhs || evaluate_node prop_map rhs

/-- The function `etsl_predicate::evaluate`: a null expression is true. -/
def evaluate (expr : Option expression) (prop_map : String → Bool) : Bool :=
  match expr with
  | none => true
  | some e => evaluate_node prop_map e

/-- The call operator `etsl_predicate::operator()`. -/
def etsl_predicate.call (pred : etsl_predicate) (prop_map : String → Bool) : Bool :=
  evaluate pred.expr_ prop_map

/-! ## `algorithm.hpp` -/

/-- The call `std::unique` followed by `erase`: of each run of equal neighbours one is kept. -/
def unique : List String → List String
  | [] => []
  | [x] => [x]
  | x :: y :: l => if x = y then unique (y :: l) else x :: unique (y :: l)

/-- The comparison of two `std::string`s by `operator<`, on their characters: the
lexicographic order of the character codes. -/
def lt_chars : List Char → List Char → Bool
  | _, [] => false
  | [], _ :: _ => true
  | a :: as, b :: bs => a < b || (a = b && lt_chars as bs)

/-- The `operator<` of `std::string`. -/
def string_lt (a b : String) : Bool := lt_chars a.data b.data

/-- The order `!(b < a)` in which `std::sort` leaves two neighbours `a`, `b`. -/
def string_le (a b : String) : Prop := string_lt b a = false

instance : DecidableRel string_le := fun a b => decEq (string_lt b a) false

/-- The function `unique_sort`: `std::sort` (the rearrangement in increasing order, here by
insertion) and then `unique`. -/
def unique_sort (vec : List String) : List String :=
  unique (vec.insertionSort string_le)

/-- The function `trim_inplace`: the leading whitespace is skipped and the rest moved to the
front, then trailing whitespace is popped. -/
def trim_inplace (s : String) : String :=
  ⟨(s.data.dropWhile isspace).rdropWhile isspace⟩

/-- An assignment through `vec.back()`: the last element is replaced by its image. -/
def modify_back {α : Type} (f : α → α) : List α → List α
  | [] => []
  | [x] => [f x]
  | x :: y :: l => x :: modify_back f (y :: l)

/-! ## `etsl_tokenizer.hpp` -/

/-- The anonymous enum of `etsl_token`. -/
inductive token_kind where
  | kind_unknown
  | kind_category
  | kind_choice
  | kind_attribute
  deriving DecidableEq, Repr

/-- The struct `etsl_token`. -/
structure etsl_token where
  kind : token_kind := .kind_unknown
  str : String := ""
  line_num : Nat := 0
  col_num : Nat := 0
  deriving DecidableEq, Repr

/-- The local variables of `etsl_tokenize`. -/
structure tokenizer_state where
  tokens : List etsl_token := [({} : etsl_token)]
  line_num : Nat := 1
  col_num : Nat := 0
  in_constraints : Bool := false
  deriving DecidableEq, Repr

/-- The three assignments through `tokens.back()` and the `emplace_back` that close a token. -/
def close_token (kind : token_kind) (s : tokenizer_state) : List etsl_token :=
  modify_back (fun t => { t with kind := kind, line_num := s.line_num, col_num := s.col_num })
    s.tokens ++ [({} : etsl_token)]

/-- The statement `tokens.back().str.push_back(c)`. -/
def push_char (c : Char) (s : tokenizer_state) : List etsl_token :=
  modify_back (fun t => { t with str := t.str.push c }) s.tokens

/-- The body of the `while (is.get(c))` loop of `etsl_tokenize` for a character `c` that is
not a carriage return, after `++col_num`; the flag returned tells whether `is.ignore` was
called. -/
def tokenize_char (c : Char) (s : tokenizer_state) : tokenizer_state × Bool :=
  if c = '\n' then ({ s with line_num := s.line_num + 1, col_num := 0 }, false)
  else if c = '#' then ({ s with line_num := s.line_num + 1, col_num := 0 }, true)
  else if c = '[' then ({ s with in_constraints := true }, false)
  else if c = ']' then
    ({ s with tokens := close_token .kind_attribute s, in_constraints := false }, false)
  else if c = ':' then
    if !s.in_constraints then ({ s with tokens := close_token .kind_category s }, false)
    else ({ s with tokens := push_char c s }, false)
  else if c = '.' then
    if !s.in_constraints then ({ s with tokens := close_token .kind_choice s }, false)
    else ({ s with tokens := push_char c s }, false)
  else ({ s with tokens := push_char c s }, false)

/-- The `while (is.get(c))` loop of `etsl_tokenize` over the characters of the stream.
`ignoring` is true while `is.ignore(max, '\n')` is consuming the stream: it discards the
characters up to and including the next newline. -/
def tokenize_loop : List Char → Bool → tokenizer_state → tokenizer_state
  | [], _, s => s
  | c :: cs, true, s => tokenize_loop cs (c != '\n') s
  | c :: cs, false, s =>
    if c = '\r' then tokenize_loop cs false s
    else
      let r := tokenize_char c { s with col_num := s.col_num + 1 }
      tokenize_loop cs r.2 r.1

/-- The function `etsl_tokenize`, on the characters of the input stream. -/
def etsl_tokenize (is : List Char) : List etsl_token :=
  ((tokenize_loop is false {}).tokens.dropLast).map
    (fun t => { t with str := trim_inplace t.str })

/-- The array `keywords` of `etsl_attr_subtokenize`. -/
def keywords : List String := ["if", "else", "property", "single", "error"]

/-- The expression `vec.back()` of a vector of strings that is never empty. -/
def back (vec : List String) : String := vec.getLastD ""

/-- The statements that close the current sub-token, if it is not empty, and emplace the
operator `op` and a new empty sub-token. -/
def push_operator (op : String) (attr_subtokens : List String) : List String :=
  modify_back (fun _ => op)
    (if back attr_subtokens ≠ "" then attr_subtokens ++ [""] else attr_subtokens) ++ [""]

/-- The `for` loop of `etsl_attr_subtokenize` over the characters from `it` on. -/
def attr_subtokenize_loop (token : etsl_token) :
    List Char → List String → Except etsl_exception (List String)
  | [], attr_subtokens => .ok attr_subtokens
  | c :: rest, attr_subtokens =>
    if isspace c then
      if back attr_subtokens ∈ keywords then
        attr_subtokenize_loop token rest (attr_subtokens ++ [""])
      else if back attr_subtokens ≠ "" then
        attr_subtokenize_loop token rest (modify_back (fun t => t.push c) attr_subtokens)
      else attr_subtokenize_loop token rest attr_subtokens
    else if c = '(' ∨ c = ')' ∨ c = '!' ∨ c = ',' then
      attr_subtokenize_loop token rest (push_operator (String.singleton c) attr_subtokens)
    else if c = '|' ∨ c = '&' then
      match rest with
      | [] => .error (.etsl_syntax_error token.line_num token.col_num "invalid attribute")
      | c' :: rest' =>
        if c ≠ c' then
          .error (.etsl_syntax_error token.line_num token.col_num "invalid attribute")
        else attr_subtokenize_loop token rest' (push_operator ⟨[c', c']⟩ attr_subtokens)
    else attr_subtokenize_loop token rest (modify_back (fun t => t.push c) attr_subtokens)

/-- The function `etsl_attr_subtokenize`. -/
def etsl_attr_subtokenize (token : etsl_token) : Except etsl_exception (List String) :=
  match attr_subtokenize_loop token token.str.data [""] with
  | .error e => .error e
  | .ok attr_subtokens =>
    let trimmed := attr_subtokens.map trim_inplace
    .ok (if back trimmed = "" then trimmed.dropLast else trimmed)

/-! ## `etsl_file.hpp` -/

/-- Modelled from the spec: the struct `etsl_choice` of `etsl_file.hpp`, a header that is not
among the sources. The fields are the ones the parser and the frame writer use; a choice is
constructed from its name alone, with no condition, no branch, empty strings and empty
property sets. -/
structure etsl_choice where
  name : String
  has_if : Bool := false
  has_else : Bool := false
  cond : etsl_predicate := {}
  single_str : String := ""
  if_single_str : String := ""
  else_single_str : String := ""
  if_props : List String := []
  else_props : List String := []
  deriving DecidableEq, Repr

/-- Modelled from the spec: the struct `etsl_category` of `etsl_file.hpp`, constructed from
its name and its `mutually_exclusive` flag, with no choices. -/
structure etsl_category where
  name : String
  mutually_exclusive : Bool
  choices : List etsl_choice := []
  deriving DecidableEq, Repr

/-- Modelled from the spec: the struct `etsl_file` of `etsl_file.hpp`, the document. -/
structure etsl_file where
  categories : List etsl_category := []
  deriving DecidableEq, Repr

/-! ## `etsl_parser.hpp` -/

/-- The anonymous enum of `etsl_parser`, the type of `attr_state_`. -/
inductive attr_state where
  | attr_state_init
  | attr_state_if
  | attr_state_else
  deriving DecidableEq, Repr

/-- The members of the class `etsl_parser` that change while it runs (the structure
cannot have the name of the class). `attr_state_` has no
initial value in the source; it is assigned by the first choice token, before any attribute
can read it. -/
structure parser_state where
  file_ : etsl_file := {}
  mutually_exclusive_choices_ : Bool := false
  attr_state_ : attr_state := .attr_state_init
  deriving DecidableEq, Repr

/-- The function `etsl_parser::parse_category`. -/
def parse_category (p : parser_state) (token : etsl_token) : parser_state :=
  match p.file_.categories.getLast? with
  | none =>
    let category : etsl_category :=
      { name := token.str, mutually_exclusive := p.mutually_exclusive_choices_ }
    { p with file_ := ⟨[category]⟩ }
  | some last =>
    if last.choices = [] then
      let flag := if last.name = "Expectations" then true else p.mutually_exclusive_choices_
      let category : etsl_category := { name := token.str, mutually_exclusive := flag }
      { p with
        mutually_exclusive_choices_ := flag,
        file_ := ⟨p.file_.categories.dropLast ++ [category]⟩ }
    else
      let category : etsl_category :=
        { name := token.str, mutually_exclusive := p.mutually_exclusive_choices_ }
      { p with file_ := ⟨p.file_.categories ++ [category]⟩ }

/-- The statement `category.choices.emplace_back(token.str)` of `parse_choice`. -/
def emplace_choice (name : String) (category : etsl_category) : etsl_category :=
  { category with choices := category.choices ++ [({ name := name } : etsl_choice)] }

/-- The function `etsl_parser::parse_choice`. -/
def parse_choice (p : parser_state) (token : etsl_token) : Except etsl_exception parser_state :=
  if p.file_.categories = [] then
    .error (.etsl_syntax_error token.line_num token.col_num "unexpected choice")
  else
    .ok { p with file_ := ⟨modify_back (emplace_choice token.str) p.file_.categories⟩ }

/-- The function `etsl_parser::attr_assert`, on the value of the predicate. -/
def attr_assert (token : etsl_token) (pred : Bool) : Except etsl_exception Unit :=
  if pred then .ok ()
  else .error (.etsl_syntax_error token.line_num token.col_num "invalid attribute expression")

/-- An assignment through the reference `choice` of `parse_attribute`, which is
`file_.categories.back().choices.back()`. -/
def modify_choice (f : etsl_choice → etsl_choice) (p : parser_state) : parser_state :=
  let in_category (category : etsl_category) : etsl_category :=
    { category with choices := modify_back f category.choices }
  { p with file_ := ⟨modify_back in_category p.file_.categories⟩ }

/-- The `push_back` of one property name in the `property` branch of `parse_attribute`. -/
def push_property (state : attr_state) (name : String) (choice : etsl_choice) : etsl_choice :=
  match state with
  | .attr_state_init =>
    { choice with if_props := choice.if_props ++ [name], else_props := choice.else_props ++ [name] }
  | .attr_state_if => { choice with if_props := choice.if_props ++ [name] }
  | .attr_state_else => { choice with else_props := choice.else_props ++ [name] }

/-- The `while (it != it_end)` loop of the `property` branch of `parse_attribute`. -/
def property_loop (token : etsl_token) (state : attr_state) :
    List String → etsl_choice → Except etsl_exception etsl_choice
  | [], choice => .ok choice
  | name :: rest, choice =>
    match rest with
    | [] => .ok (push_property state name choice)
    | sep :: rest' =>
      if sep = "," then property_loop token state rest' (push_property state name choice)
      else .error (.etsl_syntax_error token.line_num token.col_num "invalid attribute expression")

/-- The branches of `parse_attribute` on the leading sub-token `keyword`, `it` being the
sub-tokens after it and `choice` the last choice of the last category. -/
def parse_attribute_keyword (p : parser_state) (token : etsl_token) (choice : etsl_choice)
    (keyword : String) (it : List String) : Except etsl_exception parser_state :=
  if keyword = "if" then
    match attr_assert token (p.attr_state_ = .attr_state_init) with
    | .error e => .error e
    | .ok _ =>
      match etsl_predicate.parse it with
      | .error (.etsl_invalid_predicate_error what) =>
        .error (.etsl_syntax_error token.line_num token.col_num what)
      | .error e => .error e
      | .ok cond =>
        .ok (modify_choice (fun ch => { ch with cond := cond, has_if := true })
          { p with attr_state_ := .attr_state_if })
  else if keyword = "else" then
    match attr_assert token (p.attr_state_ = .attr_state_if) with
    | .error e => .error e
    | .ok _ =>
      .ok (modify_choice (fun ch => { ch with has_else := true })
        { p with attr_state_ := .attr_state_else })
  else if keyword = "single" ∨ keyword = "error" then
    match attr_assert token (it = []) with
    | .error e => .error e
    | .ok _ =>
      match p.attr_state_ with
      | .attr_state_init => .ok (modify_choice (fun ch => { ch with single_str := keyword }) p)
      | .attr_state_if => .ok (modify_choice (fun ch => { ch with if_single_str := keyword }) p)
      | .attr_state_else =>
        .ok (modify_choice (fun ch => { ch with else_single_str := keyword }) p)
  else if keyword = "property" then
    match attr_assert token (it ≠ []) with
    | .error e => .error e
    | .ok _ =>
      match property_loop token p.attr_state_ it choice with
      | .error e => .error e
      | .ok choice' => .ok (modify_choice (fun _ => choice') p)
  else .ok p

/-- The function `etsl_parser::parse_attribute`. -/
def parse_attribute (p : parser_state) (token : etsl_token) : Except etsl_exception parser_state :=
  match p.file_.categories.getLast? with
  | none => .error (.etsl_syntax_error token.line_num token.col_num "unexpected attribute")
  | some category =>
    match category.choices.getLast? with
    | none => .error (.etsl_syntax_error token.line_num token.col_num "unexpected attribute")
    | some choice =>
      match etsl_attr_subtokenize token with
      | .error e => .error e
      | .ok attr_subtokens =>
        match attr_subtokens with
        | [] => .error (.etsl_syntax_error token.line_num token.col_num
            "invalid attribute expression")
        | keyword :: it => parse_attribute_keyword p token choice keyword it

/-- The `for (const auto& t : tokens_)` loop of the constructor of `etsl_parser`. -/
def parse_tokens : List etsl_token → parser_state → Except etsl_exception parser_state
  | [], p => .ok p
  | t :: ts, p =>
    match t.kind with
    | .kind_category => parse_tokens ts (parse_category p t)
    | .kind_choice =>
      match parse_choice p t with
      | .error e => .error e
      | .ok p' => parse_tokens ts { p' with attr_state_ := .attr_state_init }
    | .kind_attribute =>
      match parse_attribute p t with
      | .error e => .error e
      | .ok p' => parse_tokens ts p'
    | .kind_unknown => .error (.etsl_syntax_error t.line_num t.col_num "invalid token")

/-- The body of the loop that adds the automatic properties, for one choice. -/
def add_automatic_properties (cat : etsl_category) (ch : etsl_choice) : etsl_choice :=
  let if_props := ch.if_props ++ [cat.name ++ ":" ++ ch.name] ++ [":" ++ ch.name]
  let else_props := ch.else_props ++ [cat.name ++ ":" ++ ch.name] ++ [":" ++ ch.name]
  if ch.name = "true" then
    { ch with if_props := if_props ++ [cat.name], else_props := else_props ++ [cat.name] }
  else { ch with if_props := if_props, else_props := else_props }

/-- The body of the last loop of the constructor, for one choice. -/
def unique_sort_choice (ch : etsl_choice) : etsl_choice :=
  { ch with if_props := unique_sort ch.if_props, else_props := unique_sort ch.else_props }

/-- The two loops over all choices that end the constructor of `etsl_parser`: the automatic
properties, then `unique_sort`. -/
def finalize (file : etsl_file) : etsl_file :=
  let added : List etsl_category := file.categories.map
    (fun cat => { cat with choices := cat.choices.map (add_automatic_properties cat) })
  ⟨added.map (fun cat => { cat with choices := cat.choices.map unique_sort_choice })⟩

/-- The function `etsl_parse`: the constructor of `etsl_parser` run on an empty file. -/
def etsl_parse (tokens : List etsl_token) : Except etsl_exception etsl_file :=
  match parse_tokens tokens {} with
  | .error e => .error e
  | .ok p => .ok (finalize p.file_)

/-! ## `etsl_frame_writer.hpp` -/

/-- The struct `category_choice_state`: the selected choice index, or `-1`, and the pointer
`props` to the property set it contributes, or null. -/
structure category_choice_state where
  selected : Int
  props : Option (List String) := none
  deriving DecidableEq, Repr

/-- What is printed of a test case after its heading. A single frame prints the text of
`single_str`, the branch `if_or_else` and the names of the category and of the choice; a
normal frame prints the key and one line per category, both computed from the state stack
(`frame_key`, `frame_lines`). -/
inductive frame_body where
  | single (single_str if_or_else category_name choice_name : String)
  | normal (state_stack : List category_choice_state)
  deriving DecidableEq, Repr

/-- The value that an `int` of 32 bits holds when the exact result of an operation on it is
`x`: the number of the range from `-2147483648` to `2147483647` that differs from `x` by a
multiple of `4294967296`. Within the range it is `x`; past it, it is what a two's complement
machine leaves (the overflow of an `int` is undefined in C++). -/
def int_wrap (x : Int) : Int := (x + 2147483648) % 4294967296 - 2147483648

/-- One test case written to the output stream: the number printed by `write_frame_heading`,
an `int`, and the body printed after it. -/
structure frame where
  num : Int
  body : frame_body
  deriving DecidableEq, Repr

/-- The members of `etsl_frame_writer` that change while it runs: the stream and the
counter `int frame_num_`. -/
structure writer where
  os_ : List frame := []
  frame_num_ : Int := 0
  deriving DecidableEq, Repr

/-- The function `write_single_frame`, with the heading of `write_frame_heading`, which
prints `frame_num_ + 1` and then increments `frame_num_`. -/
def write_single_frame (w : writer) (category : etsl_category) (choice : etsl_choice)
    (single_str if_or_else : String) : writer :=
  if single_str = "" then w
  else
    { os_ := w.os_ ++
        [⟨int_wrap (w.frame_num_ + 1),
          .single single_str if_or_else category.name choice.name⟩],
      frame_num_ := int_wrap (w.frame_num_ + 1) }

/-- The body of the inner loop of `write_single_frames`, for one choice. -/
def write_single_frames_choice (cat : etsl_category) (w : writer) (ch : etsl_choice) : writer :=
  let w1 := write_single_frame w cat ch ch.single_str ""
  let w2 := write_single_frame w1 cat ch ch.if_single_str "if"
  write_single_frame w2 cat ch ch.else_single_str "else"

/-- The function `write_single_frames`. -/
def write_single_frames (file : etsl_file) (w : writer) : writer :=
  file.categories.foldl (fun w cat => cat.choices.foldl (write_single_frames_choice cat) w) w

/-- The key printed by `write_normal_frame`: `selected + 1` for each level. -/
def frame_key (state_stack : List category_choice_state) : List Int :=
  state_stack.map (fun st => st.selected + 1)

/-- The name printed by `write_normal_frame` for the selection `sel` in `cat`; `none` stands
for an access `cat.choices[sel]` outside the vector. -/
def selected_name (cat : etsl_category) (sel : Int) : Option String :=
  if sel = -1 then some "<n/a>"
  else if sel < 0 then none
  else cat.choices[sel.toNat]?.map (fun ch => ch.name)

/-- The second loop of `write_normal_frame`: for each level `i` the name of
`file_.categories[i]` and the name of its selected choice; `none` stands for an access
outside a vector. -/
def frame_lines (file : etsl_file) (state_stack : List category_choice_state) :
    List (Option (String × String)) :=
  (List.range state_stack.length).map (fun i =>
    match file.categories[i]?, state_stack[i]? with
    | some cat, some st => (selected_name cat st.selected).map (fun name => (cat.name, name))
    | _, _ => none)

/-- The function `write_normal_frame`, with the heading of `write_frame_heading`. -/
def write_normal_frame (w : writer) (state_stack : List category_choice_state) : writer :=
  { os_ := w.os_ ++ [⟨int_wrap (w.frame_num_ + 1), .normal state_stack⟩],
    frame_num_ := int_wrap (w.frame_num_ + 1) }

/-- The function `std::lower_bound` on the range of `count` elements of `vec` from `first`.
Each round of its loop makes `count` smaller, so `count` rounds are enough; the first
argument counts the rounds left. -/
def lower_bound (vec : List String) (val : String) : Nat → Nat → Nat → Nat
  | 0, first, _ => first
  | rounds + 1, first, count =>
    if 0 < count then
      let step := count / 2
      let it := first + step
      if string_lt (vec.getD it "") val then
        lower_bound vec val rounds (it + 1) (count - (step + 1))
      else lower_bound vec val rounds first step
    else first

/-- The function `std::binary_search` on the whole of `vec`. -/
def binary_search (vec : List String) (val : String) : Bool :=
  let first := lower_bound vec val vec.length 0 vec.length
  first != vec.length && !string_lt val (vec.getD first "")

/-- The lambda `prop_map` of `visit_category`, `state_stack` being the stack below the
entry of the current level: the loop from `level - 1` down to `0`. -/
def prop_map (state_stack : List category_choice_state) (s : String) : Bool :=
  state_stack.reverse.any (fun st =>
    match st.props with
    | none => false
    | some p => binary_search p s)

/-- The body of the `for` loop of `visit_category` for the choice `ch` of index `i`, before
the test for `break`: the stream and the flag `selected` after it. `visit` is the recursive
call of `visit_category`, on the state stack whose new last entry has been assigned. -/
def visit_choice (visit : List category_choice_state → writer → writer)
    (state_stack : List category_choice_state) (i : Nat) (ch : etsl_choice)
    (selected : Bool) (w : writer) : writer × Bool :=
  if !ch.has_if then
    if ch.single_str = "" then
      (visit (state_stack ++ [{ selected := i, props := some ch.if_props }]) w, true)
    else (w, selected)
  else if ch.cond.call (prop_map state_stack) then
    if ch.single_str = "" ∧ ch.if_single_str = "" then
      (visit (state_stack ++ [{ selected := i, props := some ch.if_props }]) w, true)
    else (w, selected)
  else if ch.has_else then
    if ch.single_str = "" ∧ ch.else_single_str = "" then
      (visit (state_stack ++ [{ selected := i, props := some ch.else_props }]) w, true)
    else (w, selected)
  else (w, selected)

/-- The `for` loop of `visit_category` over the choices of `cat` from index `i` on. -/
def visit_choices (visit : List category_choice_state → writer → writer)
    (cat : etsl_category) (state_stack : List category_choice_state) :
    Nat → List etsl_choice → Bool → writer → writer × Bool
  | _, [], selected, w => (w, selected)
  | i, ch :: chs, selected, w =>
    let r := visit_choice visit state_stack i ch selected w
    if r.2 && cat.mutually_exclusive then r
    else visit_choices visit cat state_stack (i + 1) chs r.2 r.1

/-- The function `visit_category`. Its first argument is the part of `file_.categories`
from index `level = state_stack.size()` on: it is empty when `level >= categories.size()`, and
its head is `file_.categories[level]`. The state stack is passed by value: the callee gets
the stack with the entry of this level, and the caller keeps the stack below it. -/
def visit_category : List etsl_category → List category_choice_state → writer → writer
  | [], state_stack, w => write_normal_frame w state_stack
  | cat :: rest, state_stack, w =>
    let r := visit_choices (visit_category rest) cat state_stack 0 cat.choices false w
    if !r.2 then visit_category rest (state_stack ++ [{ selected := -1, props := none }]) r.1
    else r.1

/-- The function `write_normal_frames`. -/
def write_normal_frames (file : etsl_file) (w : writer) : writer :=
  visit_category file.categories [] w

/-- The function `etsl_frame_writer::write`, on a new writer. -/
def write (file : etsl_file) : writer :=
  write_normal_frames file (write_single_frames file {})

/-- The function `write_tsl_frames`: what is written to the stream. -/
def write_tsl_frames (file : etsl_file) : List frame := (write file).os_

/-- The body of `main` between reading the file and writing the frames. -/
def compile (is : List Char) : Except etsl_exception (List frame) :=
  match etsl_parse (etsl_tokenize is) with
  | .error e => .error e
  | .ok file => .ok (write_tsl_frames file)

/-! ## Definitions used to state the theorems -/

instance {ε α : Type} [DecidableEq ε] [DecidableEq α] : DecidableEq (Except ε α) := fun a b =>
  match a, b with
  | .ok x, .ok y =>
    if h : x = y then isTrue (by rw [h]) else isFalse (by intro h'; cases h'; exact h rfl)
  | .error x, .error y =>
    if h : x = y then isTrue (by rw [h]) else isFalse (by intro h'; cases h'; exact h rfl)
  | .ok _, .error _ => isFalse (by intro h; cases h)
  | .error _, .ok _ => isFalse (by intro h; cases h)

/-- The property set that `visit_choice` assigns to the new stack entry when it selects
`ch` above `state_stack`, and `none` when it does not select `ch`. -/
def branch_props (state_stack : List category_choice_state) (ch : etsl_choice) :
    Option (List String) :=
  if !ch.has_if then
    if ch.single_str = "" then some ch.if_props else none
  else if ch.cond.call (prop_map state_stack) then
    if ch.single_str = "" ∧ ch.if_single_str = "" then some ch.if_props else none
  else if ch.has_else then
    if ch.single_str = "" ∧ ch.else_single_str = "" then some ch.else_props else none
  else none

/-- The stack entries with which the `for` loop of `visit_category` calls `visit_category`,
in order, for the choices of `cat` from index `i` on. -/
def choice_entries (cat : etsl_category) (state_stack : List category_choice_state) :
    Nat → List etsl_choice → List category_choice_state
  | _, [] => []
  | i, ch :: chs =>
    match branch_props state_stack ch with
    | some p =>
      { selected := i, props := some p } ::
        (if cat.mutually_exclusive then [] else choice_entries cat state_stack (i + 1) chs)
    | none => choice_entries cat state_stack (i + 1) chs

/-- The stack entries with which `visit_category` calls itself at the level of `cat`: those
of the loop, and the not-applicable entry when the loop selects nothing. -/
def level_entries (cat : etsl_category) (state_stack : List category_choice_state) :
    List category_choice_state :=
  if choice_entries cat state_stack 0 cat.choices = [] then [{ selected := -1, props := none }]
  else choice_entries cat state_stack 0 cat.choices

/-- The state stacks with which `visit_category` calls `write_normal_frame`, in order. -/
def normal_stacks : List etsl_category → List category_choice_state →
    List (List category_choice_state)
  | [], state_stack => [state_stack]
  | cat :: rest, state_stack =>
    (level_entries cat state_stack).flatMap (fun e => normal_stacks rest (state_stack ++ [e]))

/-- The calls of `write_normal_frame` on the state stacks of a list, in order. -/
def emit (w : writer) (calls : List (List category_choice_state)) : writer :=
  calls.foldl write_normal_frame w

/-- The counter `frame_num_` after `k` increments from the value `n`. -/
def advance : Int → Nat → Int
  | n, 0 => n
  | n, k + 1 => advance (int_wrap (n + 1)) k

/-- The frames of the given bodies with the numbers that the counter gives them in their
headings, from the value `n` of the counter on. -/
def number_from : Int → List frame_body → List frame
  | _, [] => []
  | n, b :: bs => ⟨int_wrap (n + 1), b⟩ :: number_from (int_wrap (n + 1)) bs

/-- The bodies of the single frames of one choice: one for each of `single_str`,
`if_single_str`, `else_single_str` that is not empty, in this order. -/
def choice_single_bodies (cat : etsl_category) (ch : etsl_choice) : List frame_body :=
  (if ch.single_str = "" then [] else [.single ch.single_str "" cat.name ch.name]) ++
  (if ch.if_single_str = "" then [] else [.single ch.if_single_str "if" cat.name ch.name]) ++
  (if ch.else_single_str = "" then []
    else [.single ch.else_single_str "else" cat.name ch.name])

/-- The bodies of the single frames of a document: by category, then by choice. -/
def single_bodies (file : etsl_file) : List frame_body :=
  file.categories.flatMap (fun cat => cat.choices.flatMap (choice_single_bodies cat))

/-- The rule of the specification for a choice to be eligible under a property lookup: it
has no condition and no `single_str`; or its condition is true and it has neither
`single_str` nor `if_single_str`; or its condition is false, it has an `else` branch and it
has neither `single_str` nor `else_single_str`. -/
def eligible (lookup : String → Bool) (ch : etsl_choice) : Prop :=
  (ch.has_if = false ∧ ch.single_str = "") ∨
  (ch.has_if = true ∧ ch.cond.call lookup = true ∧
    ch.single_str = "" ∧ ch.if_single_str = "") ∨
  (ch.has_if = true ∧ ch.cond.call lookup = false ∧ ch.has_else = true ∧
    ch.single_str = "" ∧ ch.else_single_str = "")

instance (lookup : String → Bool) (ch : etsl_choice) : Decidable (eligible lookup ch) := by
  unfold eligible
  infer_instance

/-- Exactly one of three propositions holds. -/
def exactly_one (a b c : Prop) : Prop := (a ∧ ¬ b ∧ ¬ c) ∨ (¬ a ∧ b ∧ ¬ c) ∨ (¬ a ∧ ¬ b ∧ c)

/-- The entry `st` of a state stack at the level of `cat` records a sound selection under a
property lookup: it is the index of a choice `ch` of `cat` with an empty `single_str`, and
exactly one of these holds: `ch` has no condition; the condition of `ch` is true under the
lookup, `if_single_str` is empty and the entry contributes `if_props`; the condition is
false under the lookup, `ch` has an `else` branch, `else_single_str` is empty and the entry
contributes `else_props`. Without a condition the entry contributes `if_props`. -/
def sound_selection (lookup : String → Bool) (cat : etsl_category)
    (st : category_choice_state) : Prop :=
  ∃ (i : Nat) (ch : etsl_choice),
    st.selected = (i : Int) ∧ cat.choices[i]? = some ch ∧ ch.single_str = "" ∧
    (ch.has_if = false → st.props = some ch.if_props) ∧
    exactly_one (ch.has_if = false)
      (ch.has_if = true ∧ ch.cond.call lookup = true ∧
        ch.if_single_str = "" ∧ st.props = some ch.if_props)
      (ch.has_if = true ∧ ch.cond.call lookup = false ∧
        ch.has_else = true ∧ ch.else_single_str = "" ∧ st.props = some ch.else_props)

/-- The lookup of a property name by plain membership: the name is in the property set of
some entry of the state stack. -/
def mem_lookup (state_stack : List category_choice_state) (s : String) : Bool :=
  state_stack.any (fun st =>
    match st.props with
    | none => false
    | some p => decide (s ∈ p))

/-- The invariant of a document after assembly: the property sets of every choice are in
strictly increasing order. -/
def props_sorted (file : etsl_file) : Prop :=
  ∀ cat ∈ file.categories, ∀ ch ∈ cat.choices,
    ch.if_props.Pairwise (fun a b => string_lt a b = true) ∧
    ch.else_props.Pairwise (fun a b => string_lt a b = true)

instance (file : etsl_file) : Decidable (props_sorted file) := by
  unfold props_sorted
  infer_instance

/-! ## Example documents -/

/-- The text of the round-trip example of the specification. -/
def example_text : List Char := "A: x. [if p]\nB: y. [property p]\n".data

/-- The tokens of `example_text`. -/
def example_tokens : List etsl_token :=
  [{ kind := .kind_category, str := "A", line_num := 1, col_num := 2 },
   { kind := .kind_choice, str := "x", line_num := 1, col_num := 5 },
   { kind := .kind_attribute, str := "if p", line_num := 1, col_num := 12 },
   { kind := .kind_category, str := "B", line_num := 2, col_num := 2 },
   { kind := .kind_choice, str := "y", line_num := 2, col_num := 5 },
   { kind := .kind_attribute, str := "property p", line_num := 2, col_num := 18 }]

/-- The choice `x` of the document of `example_text`. -/
def example_x : etsl_choice :=
  { name := "x", has_if := true, cond := { expr_ := some (.kind_prop "p") },
    if_props := [":x", "A:x"], else_props := [":x", "A:x"] }

/-- The choice `y` of the document of `example_text`. -/
def example_y : etsl_choice :=
  { name := "y", if_props := [":y", "B:y", "p"], else_props := [":y", "B:y", "p"] }

/-- The category `A` of the document of `example_text`. -/
def example_A : etsl_category := { name := "A", mutually_exclusive := false, choices := [example_x] }

/-- The category `B` of the document of `example_text`. -/
def example_B : etsl_category := { name := "B", mutually_exclusive := false, choices := [example_y] }

/-- The document of `example_text`. -/
def example_file : etsl_file := { categories := [example_A, example_B] }

/-- The state stack of the only normal frame of `example_file`. -/
def example_stack : List category_choice_state :=
  [{ selected := -1, props := none }, { selected := 0, props := some [":y", "B:y", "p"] }]

/-- The text of a document with a section `Expectations`, a choice named `true` and a
choice marked `single`. -/
def sample_text : List Char :=
  ("Size: small. large. [property big]\nMode: true. [if big] fast. [single]\n" ++
    "Expectations:\nResult: ok. [if Mode] fail.\n").data

/-- The tokens of `sample_text`. -/
def sample_tokens : List etsl_token :=
  [{ kind := .kind_category, str := "Size", line_num := 1, col_num := 5 },
   { kind := .kind_choice, str := "small", line_num := 1, col_num := 12 },
   { kind := .kind_choice, str := "large", line_num := 1, col_num := 19 },
   { kind := .kind_attribute, str := "property big", line_num := 1, col_num := 34 },
   { kind := .kind_category, str := "Mode", line_num := 2, col_num := 5 },
   { kind := .kind_choice, str := "true", line_num := 2, col_num := 11 },
   { kind := .kind_attribute, str := "if big", line_num := 2, col_num := 20 },
   { kind := .kind_choice, str := "fast", line_num := 2, col_num := 26 },
   { kind := .kind_attribute, str := "single", line_num := 2, col_num := 35 },
   { kind := .kind_category, str := "Expectations", line_num := 3, col_num := 13 },
   { kind := .kind_category, str := "Result", line_num := 4, col_num := 7 },
   { kind := .kind_choice, str := "ok", line_num := 4, col_num := 11 },
   { kind := .kind_attribute, str := "if Mode", line_num := 4, col_num := 21 },
   { kind := .kind_choice, str := "fail", line_num := 4, col_num := 27 }]

/-- The choice `small` of the category `Size` of the document of `sample_text`. -/
def sample_small : etsl_choice :=
  { name := "small", if_props := [":small", "Size:small"],
    else_props := [":small", "Size:small"] }

/-- The choice `large` of the category `Size` of the document of `sample_text`. -/
def sample_large : etsl_choice :=
  { name := "large", if_props := [":large", "Size:large", "big"],
    else_props := [":large", "Size:large", "big"] }

/-- The category `Size` of the document of `sample_text`. -/
def sample_Size : etsl_category :=
  { name := "Size", mutually_exclusive := false, choices := [sample_small, sample_large] }

/-- The choice `true` of the category `Mode` of the document of `sample_text`. -/
def sample_true : etsl_choice :=
  { name := "true", has_if := true, cond := { expr_ := some (.kind_prop "big") },
    if_props := [":true", "Mode", "Mode:true"], else_props := [":true", "Mode", "Mode:true"] }

/-- The choice `fast` of the category `Mode` of the document of `sample_text`. -/
def sample_fast : etsl_choice :=
  { name := "fast", single_str := "single", if_props := [":fast", "Mode:fast"],
    else_props := [":fast", "Mode:fast"] }

/-- The category `Mode` of the document of `sample_text`. -/
def sample_Mode : etsl_category :=
  { name := "Mode", mutually_exclusive := false, choices := [sample_true, sample_fast] }

/-- The category `Result` of the document of `sample_text`. -/
def sample_Result : etsl_category :=
  { name := "Result", mutually_exclusive := true,
    choices := [
      { name := "ok", has_if := true, cond := { expr_ := some (.kind_prop "Mode") },
        if_props := [":ok", "Result:ok"], else_props := [":ok", "Result:ok"] },
      { name := "fail", if_props := [":fail", "Result:fail"],
        else_props := [":fail", "Result:fail"] }] }

/-- The document of `sample_text`. -/
def sample_file : etsl_file := { categories := [sample_Size, sample_Mode, sample_Result] }

/-- The state stack of the first normal frame of `sample_file`: small, n/a, fail. -/
def sample_stack_1 : List category_choice_state :=
  [{ selected := 0, props := some [":small", "Size:small"] },
   { selected := -1, props := none },
   { selected := 1, props := some [":fail", "Result:fail"] }]

/-- The state stack of the second normal frame of `sample_file`: large, true, ok. -/
def sample_stack_2 : List category_choice_state :=
  [{ selected := 1, props := some [":large", "Size:large", "big"] },
   { selected := 0, props := some [":true", "Mode", "Mode:true"] },
   { selected := 0, props := some [":ok", "Result:ok"] }]

/-- The frames written for `sample_file`. -/
def sample_frames : List frame :=
  [⟨1, .single "single" "" "Mode" "fast"⟩, ⟨2, .normal sample_stack_1⟩,
   ⟨3, .normal sample_stack_2⟩]

/-! ## The predicate grammar -/

/-- The lookup of the property names `a`, `b`, `c` under an assignment of truth values to
them; every other name is false. -/
def assignment (va vb vc : Bool) (s : String) : Bool :=
  if s = "a" then va else if s = "b" then vb else if s = "c" then vc else false

/-- The tree `and(a, or(b, not(c)))`. -/
def nested_tree : expression :=
  .kind_and (.kind_prop "a") (.kind_or (.kind_prop "b") (.kind_not (.kind_prop "c")))


/-- The three nonterminals of the grammar of predicates. -/
inductive nonterminal where
  | primary
  | term
  | expr
  deriving DecidableEq, Repr

/-- The grammar of the specification, `Expr := Term ('||' Term)*`,
`Term := Primary ('&&' Primary)*`, `Primary := '!' Primary | '(' Expr ')' | PropName`, as
the relation between a nonterminal, a sequence of sub-tokens that it derives and the tree
that the sequence stands for, the operators associating to the left. In a sequence derived
from a nonterminal every `&&` and `||` has a left and a right operand, every `!` has an
operand and every `(` has its `)`. -/
inductive derives : nonterminal → List String → expression → Prop where
  | prop (t : String) : is_prop_name t = true → derives .primary [t] (.kind_prop t)
  | not (l : List String) (e : expression) :
    derives .primary l e → derives .primary ("!" :: l) (.kind_not e)
  | paren (l : List String) (e : expression) :
    derives .expr l e → derives .primary ("(" :: (l ++ [")"])) e
  | primary (l : List String) (e : expression) : derives .primary l e → derives .term l e
  | and (l r : List String) (e f : expression) :
    derives .term l e → derives .primary r f → derives .term (l ++ "&&" :: r) (.kind_and e f)
  | term (l : List String) (e : expression) : derives .term l e → derives .expr l e
  | or (l r : List String) (e f : expression) :
    derives .expr l e → derives .term r f → derives .expr (l ++ "||" :: r) (.kind_or e f)

/-- No operand starts the sequence: it is empty, or its first sub-token is none of `!`, `(`
and a property name. -/
def no_operand (toks : List String) : Prop :=
  match toks with
  | [] => True
  | t :: _ => t ≠ "!" ∧ t ≠ "(" ∧ is_prop_name t = false

instance (toks : List String) : Decidable (no_operand toks) :=
  match toks with
  | [] => isTrue trivial
  | t :: _ => inferInstanceAs (Decidable (t ≠ "!" ∧ t ≠ "(" ∧ is_prop_name t = false))

/-! ## The sub-tokenizer and the token loop -/

/-- The scan of the specification for a lone operator character: reading the text from
left to right and taking each doubled `&&` or `||` as a pair, an `&` or `|` is met that
is not immediately followed by the same character. -/
def lone_operator : List Char → Bool
  | [] => false
  | c :: rest =>
    if c = '|' ∨ c = '&' then
      match rest with
      | [] => true
      | c' :: rest' => if c ≠ c' then true else lone_operator rest'
    else lone_operator rest


/-- The body of the `for (const auto& t : tokens_)` loop of the constructor of
`etsl_parser`, for one token. -/
def parse_token (p : parser_state) (t : etsl_token) : Except etsl_exception parser_state :=
  match t.kind with
  | .kind_category => .ok (parse_category p t)
  | .kind_choice =>
    match parse_choice p t with
    | .error e => .error e
    | .ok p' => .ok { p' with attr_state_ := .attr_state_init }
  | .kind_attribute => parse_attribute p t
  | .kind_unknown => .error (.etsl_syntax_error t.line_num t.col_num "invalid token")

/-- The tokens of the text `A: x. [if]`. -/
def empty_if_tokens : List etsl_token :=
  [{ kind := .kind_category, str := "A", line_num := 1, col_num := 2 },
   { kind := .kind_choice, str := "x", line_num := 1, col_num := 5 },
   { kind := .kind_attribute, str := "if", line_num := 1, col_num := 10 }]

/-! ## Documents for the attribute keywords -/

/-- The tokens of the text `A: x. [foo]`. -/
def unknown_keyword_tokens : List etsl_token :=
  [{ kind := .kind_category, str := "A", line_num := 1, col_num := 2 },
   { kind := .kind_choice, str := "x", line_num := 1, col_num := 5 },
   { kind := .kind_attribute, str := "foo", line_num := 1, col_num := 11 }]

/-- The choice of the document of the text `A: x.`, which has no attribute. -/
def plain_x : etsl_choice :=
  { name := "x", if_props := [":x", "A:x"], else_props := [":x", "A:x"] }

/-- The document of the text `A: x.`: one category with one choice. -/
def plain_file : etsl_file :=
  { categories := [{ name := "A", mutually_exclusive := false, choices := [plain_x] }] }

/-- The tokens of the text `A: x. [if p] [else x]`. -/
def else_operand_tokens : List etsl_token :=
  [{ kind := .kind_category, str := "A", line_num := 1, col_num := 2 },
   { kind := .kind_choice, str := "x", line_num := 1, col_num := 5 },
   { kind := .kind_attribute, str := "if p", line_num := 1, col_num := 12 },
   { kind := .kind_attribute, str := "else x", line_num := 1, col_num := 21 }]

/-- The tokens of the text `A: x. [if p] [else]`. -/
def else_tokens : List etsl_token :=
  [{ kind := .kind_category, str := "A", line_num := 1, col_num := 2 },
   { kind := .kind_choice, str := "x", line_num := 1, col_num := 5 },
   { kind := .kind_attribute, str := "if p", line_num := 1, col_num := 12 },
   { kind := .kind_attribute, str := "else", line_num := 1, col_num := 19 }]

/-- The choice of the document of the text `A: x. [if p] [else]`. -/
def else_x : etsl_choice :=
  { name := "x", has_if := true, has_else := true, cond := { expr_ := some (.kind_prop "p") },
    if_props := [":x", "A:x"], else_props := [":x", "A:x"] }

/-- The document of the text `A: x. [if p] [else]`. -/
def else_file : etsl_file :=
  { categories := [{ name := "A", mutually_exclusive := false, choices := [else_x] }] }

/-! ## The attribute state machine -/

/-- The leading sub-token of an attribute token, the `keyword` of `parse_attribute`, when
the sub-tokenizer returns at least one sub-token. -/
def leading_keyword (t : etsl_token) : Option String :=
  match etsl_attr_subtokenize t with
  | .ok (keyword :: _) => some keyword
  | _ => none

/-- One step of the attribute state machine in the words of the specification: a choice
token resets the state to `init`, an `if` attribute moves it to `in-if`, an `else` attribute
moves it to `in-else`, and every other token leaves it as it is. -/
def attr_state_step (s : attr_state) (t : etsl_token) : attr_state :=
  match t.kind with
  | .kind_choice => .attr_state_init
  | .kind_attribute =>
    if leading_keyword t = some "if" then .attr_state_if
    else if leading_keyword t = some "else" then .attr_state_else
    else s
  | _ => s

/-- The state of the attribute state machine after a token sequence, in the words of the
specification. -/
def attr_state_after (tokens : List etsl_token) : attr_state :=
  tokens.foldl attr_state_step .attr_state_init

/-- The consistency of the fields of a choice: an `else` branch only with a condition, a
condition exactly when `has_if` is set, and the same two property lists without one. -/
def choice_ok (ch : etsl_choice) : Prop :=
  (ch.has_else = true → ch.has_if = true) ∧
  (ch.has_if = false → ch.cond.expr_ = none ∧ ch.if_props = ch.else_props) ∧
  (ch.has_if = true → ch.cond.expr_ ≠ none)

/-- The agreement of the state `attr_state_` with the current choice: the state is `init`
exactly when the choice has no condition. -/
def current_ok (s : attr_state) (ch : etsl_choice) : Prop :=
  match s with
  | .attr_state_init => ch.has_if = false
  | .attr_state_if => ch.has_if = true
  | .attr_state_else => ch.has_if = true

/-- The invariant of the token loop of the constructor of `etsl_parser`. -/
def parser_ok (p : parser_state) : Prop :=
  (∀ cat ∈ p.file_.categories, ∀ ch ∈ cat.choices, choice_ok ch) ∧
  ∀ cat, p.file_.categories.getLast? = some cat →
    ∀ ch, cat.choices.getLast? = some ch → current_ok p.attr_state_ ch

/-- The tokens of the text `A: x. [if p]`. -/
def if_tokens : List etsl_token :=
  [{ kind := .kind_category, str := "A", line_num := 1, col_num := 2 },
   { kind := .kind_choice, str := "x", line_num := 1, col_num := 5 },
   { kind := .kind_attribute, str := "if p", line_num := 1, col_num := 12 }]

/-- The choice of the parser after the tokens of `A: x. [if p]`. -/
def if_x : etsl_choice :=
  { name := "x", has_if := true, cond := { expr_ := some (.kind_prop "p") } }

/-- The state of the parser after the tokens of `A: x. [if p]`. -/
def if_state : parser_state :=
  { file_ := { categories := [{ name := "A", mutually_exclusive := false, choices := [if_x] }] },
    attr_state_ := .attr_state_if }


/-- The effect of a `property` attribute in the words of the specification: in the state
`init` the names are appended to both `if_props` and `else_props`, in the state `in-if`
only to `if_props`, in the state `in-else` only to `else_props`. -/
def add_props (state : attr_state) (names : List String) (choice : etsl_choice) : etsl_choice :=
  match state with
  | .attr_state_init =>
    { choice with if_props := choice.if_props ++ names, else_props := choice.else_props ++ names }
  | .attr_state_if => { choice with if_props := choice.if_props ++ names }
  | .attr_state_else => { choice with else_props := choice.else_props ++ names }


/-- The attribute token `if q` at line 1, column 19. -/
def second_if_token : etsl_token :=
  { kind := .kind_attribute, str := "if q", line_num := 1, col_num := 19 }

/-- The attribute token `property a, b` at line 1, column 20. -/
def property_token : etsl_token :=
  { kind := .kind_attribute, str := "property a, b", line_num := 1, col_num := 20 }

/-- The choice `x` as the token loop constructs it. -/
def bare_x : etsl_choice := { name := "x" }

/-- The category `A` with the choice `x`, as the token loop constructs it. -/
def bare_A : etsl_category := { name := "A", mutually_exclusive := false, choices := [bare_x] }

/-- The state of the parser after the tokens of `A: x.`. -/
def plain_state : parser_state := { file_ := { categories := [bare_A] } }

/-! ## The scope of Expectations -/

/-- In the words of the specification: the category whose token precedes `rest` has
collected zero choices when the next category token arrives, that is, a category token
arrives in `rest` before any choice token. -/
def collected_none : List etsl_token → Bool
  | [] => false
  | t :: rest =>
    match t.kind with
    | .kind_category => true
    | .kind_choice => false
    | _ => collected_none rest

/-- In the words of the specification: in the token sequence a category token whose text
is exactly `Expectations` had collected zero choices when the next category token arrived. -/
def scope_entered : List etsl_token → Bool
  | [] => false
  | t :: rest =>
    (decide (t.kind = .kind_category) && decide (t.str = "Expectations") && collected_none rest)
      || scope_entered rest

/-- In the words of the specification: the names and the flags of the categories of the
document of the tokens `pre ++ tokens`, for the category tokens of `tokens`. A category that
has collected zero choices when the next category token arrives is discarded; a category
that is kept is mutually exclusive exactly when the scope was entered in the tokens up to
its own. -/
def expected_categories (pre : List etsl_token) : List etsl_token → List (String × Bool)
  | [] => []
  | t :: rest =>
    if t.kind = .kind_category ∧ collected_none rest = false then
      (t.str, scope_entered (pre ++ [t])) :: expected_categories (pre ++ [t]) rest
    else expected_categories (pre ++ [t]) rest

/-- A token sequence with neither a category token nor a choice token. -/
def undecided : List etsl_token → Bool
  | [] => true
  | t :: rest =>
    match t.kind with
    | .kind_category => false
    | .kind_choice => false
    | _ => undecided rest

/-- The name of the last category token of the sequence when no choice token follows it. -/
def pending : List etsl_token → Option String
  | [] => none
  | t :: rest =>
    if undecided rest then
      match t.kind with
      | .kind_category => some t.str
      | _ => none
    else pending rest

/-- The name of the last category of the parser when it has no choice. -/
def pending_category (p : parser_state) : Option String :=
  match p.file_.categories.getLast? with
  | none => none
  | some last => if last.choices = [] then some last.name else none

/-- The name and the flag of a category. -/
def category_flag (category : etsl_category) : String × Bool :=
  (category.name, category.mutually_exclusive)


/-- The agreement of the state of the parser with the tokens it has consumed: the flag of
the scope, the names and flags of the categories, and the category that waits for its first
choice. -/
def scope_ok (pre : List etsl_token) (p : parser_state) : Prop :=
  p.mutually_exclusive_choices_ = scope_entered pre ∧
  p.file_.categories.map category_flag = expected_categories [] pre ∧
  pending_category p = pending pre

/-- The tokens of the text `A: x. Expectations: B: y.`. -/
def scope_tokens : List etsl_token :=
  [{ kind := .kind_category, str := "A", line_num := 1, col_num := 2 },
   { kind := .kind_choice, str := "x", line_num := 1, col_num := 5 },
   { kind := .kind_category, str := "Expectations", line_num := 1, col_num := 19 },
   { kind := .kind_category, str := "B", line_num := 1, col_num := 22 },
   { kind := .kind_choice, str := "y", line_num := 1, col_num := 25 }]

/-- The choice `y` of the category `B` in a document. -/
def plain_y : etsl_choice :=
  { name := "y", if_props := [":y", "B:y"], else_props := [":y", "B:y"] }

/-- The document of the text `A: x. Expectations: B: y.`. -/
def scope_file : etsl_file :=
  { categories := [{ name := "A", mutually_exclusive := false, choices := [plain_x] },
                   { name := "B", mutually_exclusive := true, choices := [plain_y] }] }

/-! ## Comments and unterminated attribute blocks -/

/-- In the words of the specification: a `#` starts a comment that runs to the end of the
line. The flag tells whether the text ends inside a comment, `b` being the flag before
the text. -/
def in_comment : List Char → Bool → Bool
  | [], b => b
  | c :: cs, b => in_comment cs (if c = '\n' then false else b || decide (c = '#'))

/-- In the words of the specification: an attribute block is closed with `]`. The flag
tells whether the text after the `[` holds a `]` that is not in a comment, `b` telling
whether the text starts inside a comment. -/
def block_closed : List Char → Bool → Bool
  | [], _ => false
  | c :: cs, b =>
    (!b && decide (c = ']')) ||
      block_closed cs (if c = '\n' then false else b || decide (c = '#'))

/-- The frames of the text `A: x.`. -/
def plain_frames : List frame :=
  [{ num := 1, body := .normal [{ selected := 0, props := some [":x", "A:x"] }] }]

/-! ## Trailing sub-tokens and the parenthesized rendering -/

/-- The tokens of the text `A: x. [if a ) b]`. -/
def trailing_paren_tokens : List etsl_token :=
  [{ kind := .kind_category, str := "A", line_num := 1, col_num := 2 },
   { kind := .kind_choice, str := "x", line_num := 1, col_num := 5 },
   { kind := .kind_attribute, str := "if a ) b", line_num := 1, col_num := 16 }]

/-- The tokens of the text `A: x. [if a ( b]`. -/
def trailing_open_tokens : List etsl_token :=
  [{ kind := .kind_category, str := "A", line_num := 1, col_num := 2 },
   { kind := .kind_choice, str := "x", line_num := 1, col_num := 5 },
   { kind := .kind_attribute, str := "if a ( b", line_num := 1, col_num := 16 }]

/-- The tokens of the text `A: x. [if a ! b]`. -/
def trailing_not_tokens : List etsl_token :=
  [{ kind := .kind_category, str := "A", line_num := 1, col_num := 2 },
   { kind := .kind_choice, str := "x", line_num := 1, col_num := 5 },
   { kind := .kind_attribute, str := "if a ! b", line_num := 1, col_num := 16 }]

/-- The tokens of the text `A: x. [if a]`. -/
def cond_a_tokens : List etsl_token :=
  [{ kind := .kind_category, str := "A", line_num := 1, col_num := 2 },
   { kind := .kind_choice, str := "x", line_num := 1, col_num := 5 },
   { kind := .kind_attribute, str := "if a", line_num := 1, col_num := 12 }]

/-- The choice of the document of the text `A: x. [if a]`. -/
def cond_a_x : etsl_choice :=
  { name := "x", has_if := true, cond := { expr_ := some (.kind_prop "a") },
    if_props := [":x", "A:x"], else_props := [":x", "A:x"] }

/-- The document of the text `A: x. [if a]`. -/
def cond_a_file : etsl_file :=
  { categories := [{ name := "A", mutually_exclusive := false, choices := [cond_a_x] }] }

/-- The fully parenthesized rendering of an expression tree, in the words of the claim:
a property is its name, a negation is `!` and the operand in parentheses, a conjunction and
a disjunction are both operands in parentheses around `&&` and `||`. -/
def render : expression → List String
  | .kind_prop n => [n]
  | .kind_not x => ["!", "("] ++ render x ++ [")"]
  | .kind_and l r => ["("] ++ render l ++ [")", "&&", "("] ++ render r ++ [")"]
  | .kind_or l r => ["("] ++ render l ++ [")", "||", "("] ++ render r ++ [")"]

/-- Every property name of the tree begins with an alphanumeric character or `:`. -/
def names_ok : expression → Bool
  | .kind_prop n => is_prop_name n
  | .kind_not x => names_ok x
  | .kind_and l r => names_ok l && names_ok r
  | .kind_or l r => names_ok l && names_ok r

/-! ## Headers with no choice -/

/-- The invariant of the token loop for the headers: every category but the last has a
choice. -/
def headers_ok (p : parser_state) : Prop :=
  ∀ cat ∈ p.file_.categories.dropLast, cat.choices ≠ []

/-- The tokens of the text `A: x. B:`. -/
def trailing_header_tokens : List etsl_token :=
  [{ kind := .kind_category, str := "A", line_num := 1, col_num := 2 },
   { kind := .kind_choice, str := "x", line_num := 1, col_num := 5 },
   { kind := .kind_category, str := "B", line_num := 1, col_num := 8 }]

/-- The category `A` of the document of the text `A: x. B:`. -/
def trailing_header_A : etsl_category :=
  { name := "A", mutually_exclusive := false, choices := [plain_x] }

/-- The document of the text `A: x. B:`: the category `B` has no choice. -/
def trailing_header_file : etsl_file :=
  { categories := [trailing_header_A, { name := "B", mutually_exclusive := false, choices := [] }] }

/-- The two loops that end the constructor of `etsl_parser`, for one category: the
automatic properties and `unique_sort` for each of its choices. -/
def finalize_category (cat : etsl_category) : etsl_category :=
  { cat with
    choices := cat.choices.map (fun ch => unique_sort_choice (add_automatic_properties cat ch)) }

/-- The state stack of the only normal frame of the document of `A: x. B:`. -/
def trailing_header_stack : List category_choice_state :=
  [{ selected := 0, props := some [":x", "A:x"] }, { selected := -1, props := none }]

/-- The tokens of the text `A: x. Expectations:`. -/
def trailing_expectations_tokens : List etsl_token :=
  [{ kind := .kind_category, str := "A", line_num := 1, col_num := 2 },
   { kind := .kind_choice, str := "x", line_num := 1, col_num := 5 },
   { kind := .kind_category, str := "Expectations", line_num := 1, col_num := 19 }]

/-- The document of the text `A: x. Expectations:`. -/
def trailing_expectations_file : etsl_file :=
  { categories := [{ name := "A", mutually_exclusive := false, choices := [plain_x] },
                   { name := "Expectations", mutually_exclusive := false, choices := [] }] }

/-! ## The token buffer -/

/-- The current token buffer of the tokenizer, `tokens.back().str`. -/
def buffer (st : tokenizer_state) : String := (st.tokens.getLastD {}).str

/-- The state of the tokenizer after the characters of a text. -/
def tokenizer_after (s : List Char) : tokenizer_state := tokenize_loop s false {}

/-- In the words of the specification: the character finalizes the current token. It is
`]`, or it is `:` or `.` outside an attribute block. -/
def closes (in_constraints : Bool) (c : Char) : Bool :=
  c = ']' || ((c = ':' || c = '.') && !in_constraints)

/-- In the words of the specification: the kind of the token that a character finalizes. -/
def closer_kind (c : Char) : token_kind :=
  if c = ']' then .kind_attribute else if c = ':' then .kind_category else .kind_choice

/-- A character that the tokenizer handles by itself whatever the state: `#`, `[`, `]`,
carriage return and newline. -/
def is_control (c : Char) : Bool :=
  c = '#' || c = '[' || c = ']' || c = '\r' || c = '\n'

/-! ## The sub-tokens of an attribute -/

/-- The characters that `etsl_attr_subtokenize` reads as operators or parts of them. -/
def operator_chars : List Char := ['(', ')', '!', ',', '&', '|']

/-- The six operators of the sub-tokenizer. -/
def is_operator (t : String) : Bool := decide (t ∈ ["(", ")", "!", ",", "&&", "||"])

/-- A sub-token under construction that is not an operator: it is not empty, it begins with
a character that is not whitespace, and it has no operator character. -/
def is_word (w : String) : Bool :=
  match w.data with
  | [] => false
  | c :: cs => !isspace c && (c :: cs).all (fun x => decide (x ∉ operator_chars))

/-- The invariant of the loop of `etsl_attr_subtokenize`: every sub-token but the last is
an operator or a word, and the last is empty or a word. -/
def subtokens_inv (subs : List String) : Prop :=
  (∀ t ∈ subs.dropLast, is_operator t = true ∨ is_word t = true) ∧
  ∃ l, subs.getLast? = some l ∧ (l = "" ∨ is_word l = true)

/-- What the claim says of a returned sub-token: it is not empty, it neither begins nor
ends with whitespace, and it is one of the six operators or has no operator character. -/
def subtoken_ok (t : String) : Prop :=
  t ≠ "" ∧
  (∀ c, t.data.head? = some c → isspace c = false) ∧
  (∀ c, t.data.getLast? = some c → isspace c = false) ∧
  (is_operator t = true ∨ ∀ c ∈ t.data, c ∉ operator_chars)

/-! ## The keys and the selection sequences of the second phase -/

/-- The key that `write_normal_frame` prints for a frame of the second phase, and `none`
for a single frame. -/
def normal_key (f : frame) : Option (List Int) :=
  match f.body with
  | .normal state_stack => some (frame_key state_stack)
  | .single _ _ _ _ => none

/-- The keys of the frames of the second phase, in the order in which they are written. -/
def normal_keys (frames : List frame) : List (List Int) := frames.filterMap normal_key

/-- The lexicographic order of two keys: at the first level where they differ the first
key has the smaller index. -/
def key_lt (a b : List Int) : Prop := List.Lex (fun x y : Int => x < y) a b


/-- In the words of the specification: the property set that a selected choice contributes
under a property lookup, `else_props` when it has a condition that is false and `if_props`
otherwise. -/
def selected_props (lookup : String → Bool) (ch : etsl_choice) : List String :=
  if ch.has_if = true ∧ ch.cond.call lookup = false then ch.else_props else ch.if_props

/-- In the words of the specification: the entry `st` is a valid selection for the category
`cat` under the lookup of the properties of the entries before it. Either it is not
applicable and no choice of `cat` is eligible; or it is a choice of `cat` that is eligible,
with the property set that it contributes, and it is the first eligible choice when `cat` is
mutually exclusive. -/
def valid_entry (lookup : String → Bool) (cat : etsl_category) (st : category_choice_state) :
    Prop :=
  (st.selected = -1 ∧ st.props = none ∧ ∀ ch ∈ cat.choices, ¬ eligible lookup ch) ∨
  ∃ (i : Nat) (ch : etsl_choice),
    st.selected = (i : Int) ∧ cat.choices[i]? = some ch ∧ eligible lookup ch ∧
    st.props = some (selected_props lookup ch) ∧
    (cat.mutually_exclusive = true → ∀ (j : Nat) (ch' : etsl_choice), j < i →
      cat.choices[j]? = some ch' → ¬ eligible lookup ch')

/-- In the words of the specification: a selection sequence of the document, one valid
entry for each category, each under the lookup `look` of the properties of the entries
before it (`prop_map`, the binary search of the program, or `mem_lookup`, plain
membership). -/
def valid_selection (look : List category_choice_state → String → Bool) (file : etsl_file)
    (s : List category_choice_state) : Prop :=
  s.length = file.categories.length ∧
  ∀ (d : Nat) (cat : etsl_category) (st : category_choice_state),
    file.categories[d]? = some cat → s[d]? = some st → valid_entry (look (s.take d)) cat st

/-! ## A document with more frames than the counter can number -/

/-- The choice `y` of the category `A`, as `etsl_parse` returns it. -/
def overflow_y : etsl_choice :=
  { name := "y", if_props := [":y", "A:y"], else_props := [":y", "A:y"] }

/-- The category of the text `A:x.y.`, as `etsl_parse` returns it. -/
def overflow_A : etsl_category :=
  { name := "A", mutually_exclusive := false, choices := [plain_x, overflow_y] }

/-- The document of the text `A:x.y.` written thirty-one times: thirty-one categories of two
choices with no condition. -/
def overflow_file : etsl_file := { categories := List.replicate 31 overflow_A }

/-- The text `A:x.y.` written thirty-one times, 186 characters. -/
def overflow_text : List Char := (List.replicate 31 "A:x.y.".data).flatten

/-- The tokens of `overflow_text`. -/
def overflow_tokens : List etsl_token :=
  (List.range 31).flatMap (fun i =>
    [{ kind := .kind_category, str := "A", line_num := 1, col_num := 6 * i + 2 },
     { kind := .kind_choice, str := "x", line_num := 1, col_num := 6 * i + 4 },
     { kind := .kind_choice, str := "y", line_num := 1, col_num := 6 * i + 6 }])

/-! # Theorems -/

/-! ## The example documents -/

theorem etsl_tokenize_example : etsl_tokenize example_text = example_tokens := by decide

theorem etsl_parse_example : etsl_parse example_tokens = .ok example_file := by decide

theorem write_tsl_frames_example :
    write_tsl_frames example_file = [⟨1, .normal example_stack⟩] := by decide

set_option maxRecDepth 100000 in
theorem etsl_tokenize_sample : etsl_tokenize sample_text = sample_tokens := by decide

set_option maxRecDepth 100000 in
theorem etsl_parse_sample : etsl_parse sample_tokens = .ok sample_file := by decide

set_option maxRecDepth 100000 in
theorem write_tsl_frames_sample : write_tsl_frames sample_file = sample_frames := by decide

/-! ## The predicate engine -/

/-- C9: `etsl_predicate` evaluation is the boolean fold: for every lookup function a
property node is the lookup of its name, a `not` node the negation of its operand, an `and`
node the conjunction and an `or` node the disjunction of its operands, and the null
expression is true, also through the call operator of a predicate. -/
theorem evaluate_boolean_fold (prop_map : String → Bool) :
    (∀ n : String, evaluate (some (.kind_prop n)) prop_map = prop_map n) ∧
    (∀ x : expression,
      evaluate (some (.kind_not x)) prop_map = !evaluate (some x) prop_map) ∧
    (∀ l r : expression, evaluate (some (.kind_and l r)) prop_map =
      (evaluate (some l) prop_map && evaluate (some r) prop_map)) ∧
    (∀ l r : expression, evaluate (some (.kind_or l r)) prop_map =
      (evaluate (some l) prop_map || evaluate (some r) prop_map)) ∧
    evaluate none prop_map = true ∧
    etsl_predicate.call { expr_ := none } prop_map = true ∧
    (∀ e : expression, etsl_predicate.call { expr_ := some e } prop_map =
      evaluate (some e) prop_map) :=
  ⟨fun _ => rfl, fun _ => rfl, fun _ _ => rfl, fun _ _ => rfl, rfl, rfl, fun _ => rfl⟩

/-- A property name is none of the operators of the predicate grammar. -/
theorem is_prop_name_ne_operator {t : String} (h : is_prop_name t = true) :
    t ≠ "!" ∧ t ≠ "(" ∧ t ≠ ")" ∧ t ≠ "&&" ∧ t ≠ "||" := by
  refine ⟨?_, ?_, ?_, ?_, ?_⟩ <;> intro ht <;> subst ht <;> revert h <;> decide

/-- C10: the predicate parser implements the precedence `||` below `&&` below `!`: for
property names `a`, `b`, `c` (sub-tokens that begin with an alphanumeric character or a
colon), `a || b && c` parses to `or(a, and(b, c))`, `a && b || c` to `or(and(a, b), c)` and
`! a && b` to `and(not(a), b)`. -/
theorem parse_precedence (a b c : String) (ha : is_prop_name a = true)
    (hb : is_prop_name b = true) (hc : is_prop_name c = true) :
    etsl_predicate.parse [a, "||", b, "&&", c] =
      .ok { expr_ := some (.kind_or (.kind_prop a) (.kind_and (.kind_prop b) (.kind_prop c))) } ∧
    etsl_predicate.parse [a, "&&", b, "||", c] =
      .ok { expr_ := some (.kind_or (.kind_and (.kind_prop a) (.kind_prop b)) (.kind_prop c)) } ∧
    etsl_predicate.parse ["!", a, "&&", b] =
      .ok { expr_ := some (.kind_and (.kind_not (.kind_prop a)) (.kind_prop b)) } := by
  obtain ⟨ha1, ha2, -, ha4, ha5⟩ := is_prop_name_ne_operator ha
  obtain ⟨hb1, hb2, -, hb4, hb5⟩ := is_prop_name_ne_operator hb
  obtain ⟨hc1, hc2, -, hc4, hc5⟩ := is_prop_name_ne_operator hc
  refine ⟨?_, ?_, ?_⟩ <;>
  simp [etsl_predicate.parse, parse_fuel, parse_expr, parse_expr_loop, parse_term,
    parse_term_loop, parse_primary, parse_prop, *]

/-- The precedence of the parser on the property names `a`, `b`, `c`. -/
theorem parse_precedence_witness :
    etsl_predicate.parse ["a", "||", "b", "&&", "c"] =
      .ok { expr_ := some (.kind_or (.kind_prop "a")
        (.kind_and (.kind_prop "b") (.kind_prop "c"))) } ∧
    etsl_predicate.parse ["a", "&&", "b", "||", "c"] =
      .ok { expr_ := some (.kind_or (.kind_and (.kind_prop "a") (.kind_prop "b"))
        (.kind_prop "c")) } ∧
    etsl_predicate.parse ["!", "a", "&&", "b"] =
      .ok { expr_ := some (.kind_and (.kind_not (.kind_prop "a")) (.kind_prop "b")) } :=
  parse_precedence "a" "b" "c" (by decide) (by decide) (by decide)

/-! ## The recursion budget of the predicate parser -/

theorem parse_prop_spec (toks : List String) :
    parse_prop toks ≠ .error .fuel_exhausted ∧
    ∀ e rest, parse_prop toks = .ok (some e, rest) → rest.length < toks.length := by
  cases toks with
  | nil => simp [parse_prop]
  | cons t rest =>
    simp only [parse_prop]
    split_ifs
    · refine ⟨by simp, ?_⟩
      intro e rest' h
      simp only [Except.ok.injEq, Prod.mk.injEq] at h
      rw [← h.2]
      simp
    · simp

theorem parse_fuel_enough : ∀ n : Nat,
    (∀ toks : List String, 3 * toks.length + 1 ≤ n →
      parse_primary n toks ≠ .error .fuel_exhausted ∧
      ∀ e rest, parse_primary n toks = .ok (some e, rest) → rest.length < toks.length) ∧
    (∀ (term : expression) (toks : List String), 3 * toks.length + 1 ≤ n →
      parse_term_loop n term toks ≠ .error .fuel_exhausted ∧
      ∀ x rest, parse_term_loop n term toks = .ok (x, rest) → rest.length ≤ toks.length) ∧
    (∀ toks : List String, 3 * toks.length + 2 ≤ n →
      parse_term n toks ≠ .error .fuel_exhausted ∧
      ∀ e rest, parse_term n toks = .ok (some e, rest) → rest.length < toks.length) ∧
    (∀ (expr : expression) (toks : List String), 3 * toks.length + 2 ≤ n →
      parse_expr_loop n expr toks ≠ .error .fuel_exhausted ∧
      ∀ x rest, parse_expr_loop n expr toks = .ok (x, rest) → rest.length ≤ toks.length) ∧
    (∀ toks : List String, 3 * toks.length + 3 ≤ n →
      parse_expr n toks ≠ .error .fuel_exhausted ∧
      ∀ e rest, parse_expr n toks = .ok (some e, rest) → rest.length < toks.length) := by
  intro n
  induction n with
  | zero =>
    refine ⟨?_, ?_, ?_, ?_, ?_⟩ <;> intros <;> omega
  | succ n ih =>
    obtain ⟨ihp, ihtl, iht, ihel, ihe⟩ := ih
    refine ⟨?_, ?_, ?_, ?_, ?_⟩
    · -- parse_primary
      intro toks hn
      cases toks with
      | nil => exact parse_prop_spec []
      | cons t rest =>
        simp only [List.length_cons] at hn
        simp only [parse_primary]
        by_cases h1 : t = "!"
        · rw [if_pos h1]
          obtain ⟨hne, hlen⟩ := ihp rest (by omega)
          cases hr : parse_primary n rest with
          | error e =>
            rw [hr] at hne
            simp only [ne_eq, Except.error.injEq] at hne
            simp [hne]
          | ok v =>
            obtain ⟨o, r⟩ := v
            cases o with
            | none => simp
            | some operand =>
              refine ⟨by simp, ?_⟩
              intro e rest' h
              simp only [Except.ok.injEq, Prod.mk.injEq] at h
              have := hlen operand r hr
              rw [← h.2]
              simp only [List.length_cons]
              omega
        · by_cases h2 : t = "("
          · rw [if_neg h1, if_pos h2]
            obtain ⟨hne, hlen⟩ := ihe rest (by omega)
            cases hr : parse_expr n rest with
            | error e =>
              rw [hr] at hne
              simp only [ne_eq, Except.error.injEq] at hne
              simp [hne]
            | ok v =>
              obtain ⟨o, r⟩ := v
              cases o with
              | none => simp
              | some expr =>
                cases r with
                | nil => simp
                | cons t' rest' =>
                  simp only
                  split_ifs
                  · refine ⟨by simp, ?_⟩
                    intro e rest'' h
                    simp only [Except.ok.injEq, Prod.mk.injEq] at h
                    have := hlen expr _ hr
                    rw [← h.2]
                    simp only [List.length_cons] at this ⊢
                    omega
                  · simp
          · rw [if_neg h1, if_neg h2]
            exact parse_prop_spec (t :: rest)
    · -- parse_term_loop
      intro term toks hn
      cases toks with
      | nil => simp [parse_term_loop]
      | cons t rest =>
        simp only [List.length_cons] at hn
        simp only [parse_term_loop]
        by_cases h1 : t = "&&"
        · simp only [h1, if_true]
          obtain ⟨hne, hlen⟩ := ihp rest (by omega)
          cases hr : parse_primary n rest with
          | error e =>
            rw [hr] at hne
            simp only [ne_eq, Except.error.injEq] at hne
            simp [hne]
          | ok v =>
            obtain ⟨o, r⟩ := v
            cases o with
            | none => simp
            | some rhs =>
              simp only
              have hr' := hlen rhs r hr
              obtain ⟨hne2, hlen2⟩ := ihtl (.kind_and term rhs) r (by omega)
              refine ⟨hne2, ?_⟩
              intro x rest' h
              have := hlen2 x rest' h
              simp only [List.length_cons]
              omega
        · simp only [h1, if_false]
          refine ⟨by simp, ?_⟩
          intro x rest' h
          simp only [Except.ok.injEq, Prod.mk.injEq] at h
          rw [← h.2]
    · -- parse_term
      intro toks hn
      unfold parse_term
      obtain ⟨hne, hlen⟩ := ihp toks (by omega)
      cases hr : parse_primary n toks with
      | error e =>
        rw [hr] at hne
        simp only [ne_eq, Except.error.injEq] at hne
        simp [hne]
      | ok v =>
        obtain ⟨o, r⟩ := v
        cases o with
        | none => simp
        | some term =>
          simp only
          have hr' := hlen term r hr
          obtain ⟨hne2, hlen2⟩ := ihtl term r (by omega)
          refine ⟨hne2, ?_⟩
          intro e rest' h
          have := hlen2 (some e) rest' h
          omega
    · -- parse_expr_loop
      intro expr toks hn
      cases toks with
      | nil => simp [parse_expr_loop]
      | cons t rest =>
        simp only [List.length_cons] at hn
        simp only [parse_expr_loop]
        by_cases h1 : t = "||"
        · simp only [h1, if_true]
          obtain ⟨hne, hlen⟩ := iht rest (by omega)
          cases hr : parse_term n rest with
          | error e =>
            rw [hr] at hne
            simp only [ne_eq, Except.error.injEq] at hne
            simp [hne]
          | ok v =>
            obtain ⟨o, r⟩ := v
            cases o with
            | none => simp
            | some rhs =>
              simp only
              have hr' := hlen rhs r hr
              obtain ⟨hne2, hlen2⟩ := ihel (.kind_or expr rhs) r (by omega)
              refine ⟨hne2, ?_⟩
              intro x rest' h
              have := hlen2 x rest' h
              simp only [List.length_cons]
              omega
        · simp only [h1, if_false]
          refine ⟨by simp, ?_⟩
          intro x rest' h
          simp only [Except.ok.injEq, Prod.mk.injEq] at h
          rw [← h.2]
    · -- parse_expr
      intro toks hn
      unfold parse_expr
      obtain ⟨hne, hlen⟩ := iht toks (by omega)
      cases hr : parse_term n toks with
      | error e =>
        rw [hr] at hne
        simp only [ne_eq, Except.error.injEq] at hne
        simp [hne]
      | ok v =>
        obtain ⟨o, r⟩ := v
        cases o with
        | none => simp
        | some expr =>
          simp only
          have hr' := hlen expr r hr
          obtain ⟨hne2, hlen2⟩ := ihel expr r (by omega)
          refine ⟨hne2, ?_⟩
          intro e rest' h
          have := hlen2 (some e) rest' h
          omega

/-- The function `etsl_predicate.parse` never runs out of its recursion budget. -/
theorem parse_fuel_adequate (toks : List String) :
    etsl_predicate.parse toks ≠ .error .fuel_exhausted := by
  unfold etsl_predicate.parse
  have h := ((parse_fuel_enough (parse_fuel toks)).2.2.2.2 toks (by simp [parse_fuel])).1
  cases hr : parse_expr (parse_fuel toks) toks with
  | error e =>
    rw [hr] at h
    simp only [ne_eq, Except.error.injEq] at h
    simp [h]
  | ok v =>
    obtain ⟨o, r⟩ := v
    cases o <;> simp

theorem parse_primary_succ (n : Nat) (t : String) (rest : List String) :
    parse_primary (n + 1) (t :: rest) =
      if t = "!" then
        match parse_primary n rest with
        | .error e => .error e
        | .ok (none, _) => .error (.etsl_invalid_predicate_error "invalid operator !")
        | .ok (some operand, rest') => .ok (some (.kind_not operand), rest')
      else if t = "(" then
        match parse_expr n rest with
        | .error e => .error e
        | .ok (none, _) => .error (.etsl_invalid_predicate_error "invalid parentheses")
        | .ok (some _, []) => .error (.etsl_invalid_predicate_error "invalid parentheses")
        | .ok (some expr, t' :: rest') =>
          if t' = ")" then .ok (some expr, rest')
          else .error (.etsl_invalid_predicate_error "invalid parentheses")
      else parse_prop (t :: rest) := rfl

theorem parse_term_loop_succ (n : Nat) (term : expression) (t : String) (rest : List String) :
    parse_term_loop (n + 1) term (t :: rest) =
      if t = "&&" then
        match parse_primary n rest with
        | .error e => .error e
        | .ok (none, _) => .error (.etsl_invalid_predicate_error "invalid operator &&")
        | .ok (some rhs, rest') => parse_term_loop n (.kind_and term rhs) rest'
      else .ok (some term, t :: rest) := rfl

theorem parse_term_succ (n : Nat) (toks : List String) :
    parse_term (n + 1) toks =
      match parse_primary n toks with
      | .error e => .error e
      | .ok (none, rest) => .ok (none, rest)
      | .ok (some term, rest) => parse_term_loop n term rest := rfl

theorem parse_expr_loop_succ (n : Nat) (expr : expression) (t : String) (rest : List String) :
    parse_expr_loop (n + 1) expr (t :: rest) =
      if t = "||" then
        match parse_term n rest with
        | .error e => .error e
        | .ok (none, _) => .error (.etsl_invalid_predicate_error "invalid operator ||")
        | .ok (some rhs, rest') => parse_expr_loop n (.kind_or expr rhs) rest'
      else .ok (some expr, t :: rest) := rfl

theorem parse_expr_succ (n : Nat) (toks : List String) :
    parse_expr (n + 1) toks =
      match parse_term n toks with
      | .error e => .error e
      | .ok (none, rest) => .ok (none, rest)
      | .ok (some expr, rest) => parse_expr_loop n expr rest := rfl

theorem parse_fuel_mono : ∀ n : Nat,
    (∀ (toks : List String) (r : parse_result), parse_primary n toks = r →
      r ≠ .error .fuel_exhausted → parse_primary (n + 1) toks = r) ∧
    (∀ (term : expression) (toks : List String) (r : parse_result),
      parse_term_loop n term toks = r →
      r ≠ .error .fuel_exhausted → parse_term_loop (n + 1) term toks = r) ∧
    (∀ (toks : List String) (r : parse_result), parse_term n toks = r →
      r ≠ .error .fuel_exhausted → parse_term (n + 1) toks = r) ∧
    (∀ (expr : expression) (toks : List String) (r : parse_result),
      parse_expr_loop n expr toks = r →
      r ≠ .error .fuel_exhausted → parse_expr_loop (n + 1) expr toks = r) ∧
    (∀ (toks : List String) (r : parse_result), parse_expr n toks = r →
      r ≠ .error .fuel_exhausted → parse_expr (n + 1) toks = r) := by
  intro n
  induction n with
  | zero =>
    refine ⟨?_, ?_, ?_, ?_, ?_⟩ <;> intros <;> simp_all [parse_primary, parse_term_loop,
      parse_term, parse_expr_loop, parse_expr]
  | succ n ih =>
    obtain ⟨ihp, ihtl, iht, ihel, ihe⟩ := ih
    refine ⟨?_, ?_, ?_, ?_, ?_⟩
    · intro toks r hr hne
      subst hr
      cases toks with
      | nil => simp [parse_primary]
      | cons t rest =>
        rw [parse_primary_succ] at hne
        rw [parse_primary_succ (n + 1), parse_primary_succ n]
        by_cases h1 : t = "!"
        · simp only [if_pos h1] at hne ⊢
          cases hs : parse_primary n rest with
          | error e =>
            rw [hs] at hne
            have hne' : Except.error e ≠ (.error .fuel_exhausted : parse_result) := by
              simpa using hne
            rw [ihp rest _ hs hne']
          | ok v => rw [ihp rest _ hs (by simp)]
        · by_cases h2 : t = "("
          · simp only [if_neg h1, if_pos h2] at hne ⊢
            cases hs : parse_expr n rest with
            | error e =>
              rw [hs] at hne
              have hne' : Except.error e ≠ (.error .fuel_exhausted : parse_result) := by
                simpa using hne
              rw [ihe rest _ hs hne']
            | ok v => rw [ihe rest _ hs (by simp)]
          · simp only [if_neg h1, if_neg h2]
    · intro term toks r hr hne
      subst hr
      cases toks with
      | nil => simp [parse_term_loop]
      | cons t rest =>
        rw [parse_term_loop_succ] at hne
        rw [parse_term_loop_succ (n + 1), parse_term_loop_succ n]
        by_cases h1 : t = "&&"
        · simp only [if_pos h1] at hne ⊢
          cases hs : parse_primary n rest with
          | error e =>
            rw [hs] at hne
            have hne' : Except.error e ≠ (.error .fuel_exhausted : parse_result) := by
              simpa using hne
            rw [ihp rest _ hs hne']
          | ok v =>
            rw [ihp rest _ hs (by simp)]
            obtain ⟨o, r⟩ := v
            cases o with
            | none => rfl
            | some rhs =>
              rw [hs] at hne
              simp only at hne ⊢
              exact ihtl _ r _ rfl hne
        · simp only [if_neg h1]
    · intro toks r hr hne
      subst hr
      rw [parse_term_succ] at hne
      rw [parse_term_succ (n + 1), parse_term_succ n]
      cases hs : parse_primary n toks with
      | error e =>
        rw [hs] at hne
        have hne' : Except.error e ≠ (.error .fuel_exhausted : parse_result) := by
          simpa using hne
        rw [ihp toks _ hs hne']
      | ok v =>
        rw [ihp toks _ hs (by simp)]
        obtain ⟨o, r⟩ := v
        cases o with
        | none => rfl
        | some term =>
          rw [hs] at hne
          simp only at hne ⊢
          exact ihtl _ r _ rfl hne
    · intro expr toks r hr hne
      subst hr
      cases toks with
      | nil => simp [parse_expr_loop]
      | cons t rest =>
        rw [parse_expr_loop_succ] at hne
        rw [parse_expr_loop_succ (n + 1), parse_expr_loop_succ n]
        by_cases h1 : t = "||"
        · simp only [if_pos h1] at hne ⊢
          cases hs : parse_term n rest with
          | error e =>
            rw [hs] at hne
            have hne' : Except.error e ≠ (.error .fuel_exhausted : parse_result) := by
              simpa using hne
            rw [iht rest _ hs hne']
          | ok v =>
            rw [iht rest _ hs (by simp)]
            obtain ⟨o, r⟩ := v
            cases o with
            | none => rfl
            | some rhs =>
              rw [hs] at hne
              simp only at hne ⊢
              exact ihel _ r _ rfl hne
        · simp only [if_neg h1]
    · intro toks r hr hne
      subst hr
      rw [parse_expr_succ] at hne
      rw [parse_expr_succ (n + 1), parse_expr_succ n]
      cases hs : parse_term n toks with
      | error e =>
        rw [hs] at hne
        have hne' : Except.error e ≠ (.error .fuel_exhausted : parse_result) := by
          simpa using hne
        rw [iht toks _ hs hne']
      | ok v =>
        rw [iht toks _ hs (by simp)]
        obtain ⟨o, r⟩ := v
        cases o with
        | none => rfl
        | some expr =>
          rw [hs] at hne
          simp only at hne ⊢
          exact ihel _ r _ rfl hne

/-- With more than the recursion budget of `etsl_predicate.parse`, `parse_expr` returns what
it returns with that budget. -/
theorem parse_expr_fuel_irrelevant (toks : List String) (k : Nat) :
    parse_expr (parse_fuel toks + k) toks = parse_expr (parse_fuel toks) toks := by
  induction k with
  | zero => rfl
  | succ k ih =>
    have h := ((parse_fuel_enough (parse_fuel toks)).2.2.2.2 toks (by simp [parse_fuel])).1
    rw [← ih] at h
    rw [← ih]
    exact (parse_fuel_mono (parse_fuel toks + k)).2.2.2.2 toks _ rfl h

/-! ## The order of strings, `unique_sort` and `binary_search` -/

theorem lt_chars_iff_lex : ∀ (as bs : List Char), lt_chars as bs = true ↔ List.Lex (· < ·) as bs
  | _, [] => by cases ‹List Char› <;> simp [lt_chars]
  | [], _ :: _ => by simp [lt_chars, List.Lex.nil]
  | a :: as, b :: bs => by
    have ih := lt_chars_iff_lex as bs
    simp only [lt_chars, Bool.or_eq_true, decide_eq_true_eq, Bool.and_eq_true, ih]
    constructor
    · rintro (h | ⟨rfl, h⟩)
      · exact List.Lex.rel h
      · exact List.Lex.cons h
    · intro h
      cases h with
      | cons h => exact Or.inr ⟨rfl, h⟩
      | rel h => exact Or.inl h

theorem string_lt_iff (a b : String) : string_lt a b = true ↔ a < b := by
  rw [String.lt_iff_toList_lt]
  exact lt_chars_iff_lex a.data b.data

theorem string_le_iff (a b : String) : string_le a b ↔ a ≤ b := by
  unfold string_le
  rw [← not_lt, ← string_lt_iff]
  simp

theorem string_le_total : IsTotal String string_le := ⟨fun a b => by
  simp only [string_le_iff]; exact le_total a b⟩

theorem string_le_trans : IsTrans String string_le := ⟨fun a b c => by
  simp only [string_le_iff]; exact le_trans⟩

theorem sorted_insertionSort_string_le (l : List String) :
    (l.insertionSort string_le).Pairwise string_le := by
  haveI := string_le_total
  haveI := string_le_trans
  exact List.sorted_insertionSort string_le l

theorem mem_unique (x : String) : ∀ l : List String, x ∈ unique l ↔ x ∈ l
  | [] => by simp [unique]
  | [y] => by simp [unique]
  | y :: z :: l => by
    have ih := mem_unique x (z :: l)
    by_cases h : y = z
    · subst h
      simp only [unique, if_true, ih, List.mem_cons]
      tauto
    · simp only [unique, h, if_false, List.mem_cons, ih]

theorem pairwise_unique : ∀ l : List String, l.Pairwise (· ≤ ·) → (unique l).Pairwise (· < ·)
  | [], _ => by simp [unique]
  | [y], _ => by simp [unique]
  | y :: z :: l, h => by
    have ih := pairwise_unique (z :: l) (List.Pairwise.of_cons h)
    by_cases hyz : y = z
    · simp only [unique, hyz, if_true]
      exact ih
    · simp only [unique, hyz, if_false, List.pairwise_cons]
      refine ⟨fun w hw => ?_, ih⟩
      rw [mem_unique] at hw
      rw [List.pairwise_cons] at h
      have hyz' : y < z := lt_of_le_of_ne (h.1 z (List.mem_cons_self _ _)) hyz
      rcases List.mem_cons.1 hw with rfl | hw'
      · exact hyz'
      · exact lt_of_lt_of_le hyz' ((List.pairwise_cons.1 h.2).1 w hw')

theorem unique_sort_sorted (vec : List String) : (unique_sort vec).Pairwise (· < ·) := by
  apply pairwise_unique
  have h := sorted_insertionSort_string_le vec
  exact h.imp (fun {a b} hab => (string_le_iff a b).1 hab)

theorem mem_unique_sort (x : String) (vec : List String) : x ∈ unique_sort vec ↔ x ∈ vec := by
  unfold unique_sort
  rw [mem_unique]
  exact (List.perm_insertionSort string_le vec).mem_iff

theorem getD_le_of_sorted {vec : List String} (hs : vec.Pairwise (· ≤ ·)) {i j : Nat}
    (hij : i ≤ j) (hj : j < vec.length) : vec.getD i "" ≤ vec.getD j "" := by
  rcases Nat.eq_or_lt_of_le hij with rfl | hlt
  · exact le_refl _
  · rw [List.getD_eq_getElem _ _ hj, List.getD_eq_getElem _ _ (lt_trans hlt hj)]
    exact List.pairwise_iff_getElem.1 hs i j (lt_trans hlt hj) hj hlt

theorem lower_bound_spec {vec : List String} (val : String) (hs : vec.Pairwise (· ≤ ·)) :
    ∀ rounds first count : Nat, count ≤ rounds → first + count ≤ vec.length →
      (∀ i, i < first → vec.getD i "" < val) →
      (∀ i, first + count ≤ i → i < vec.length → ¬ vec.getD i "" < val) →
      lower_bound vec val rounds first count ≤ vec.length ∧
      (∀ i, i < lower_bound vec val rounds first count → vec.getD i "" < val) ∧
      (∀ i, lower_bound vec val rounds first count ≤ i → i < vec.length →
        ¬ vec.getD i "" < val) := by
  intro rounds
  induction rounds with
  | zero =>
    intro first count hc hlen hlo hhi
    have : count = 0 := by omega
    subst this
    simp only [lower_bound]
    exact ⟨by omega, hlo, fun i hi => hhi i (by omega)⟩
  | succ rounds ih =>
    intro first count hc hlen hlo hhi
    unfold lower_bound
    by_cases hpos : 0 < count
    · simp only [hpos, if_true]
      have hstep : count / 2 < count := Nat.div_lt_self hpos (by decide)
      by_cases hlt : string_lt (vec.getD (first + count / 2) "") val = true
      · simp only [hlt, if_true]
        have hlt' := (string_lt_iff _ _).1 hlt
        apply ih
        · omega
        · omega
        · intro i hi
          exact lt_of_le_of_lt (getD_le_of_sorted hs (by omega) (by omega)) hlt'
        · intro i hi hil
          exact hhi i (by omega) hil
      · simp only [hlt, if_false]
        have hlt' : ¬ vec.getD (first + count / 2) "" < val := fun h => hlt ((string_lt_iff _ _).2 h)
        apply ih
        · omega
        · omega
        · exact hlo
        · intro i hi hil hcon
          exact hlt' (lt_of_le_of_lt (getD_le_of_sorted hs hi hil) hcon)
    · simp only [hpos, if_false]
      have : count = 0 := by omega
      subst this
      exact ⟨by omega, hlo, fun i hi => hhi i (by omega)⟩

theorem binary_search_eq_mem {vec : List String} (hs : vec.Pairwise (· ≤ ·)) (val : String) :
    binary_search vec val = true ↔ val ∈ vec := by
  obtain ⟨hle, hlo, hhi⟩ := lower_bound_spec val hs vec.length 0 vec.length (le_refl _)
    (by omega) (fun i hi => absurd hi (Nat.not_lt_zero i)) (fun i hi hil => absurd hil (by omega))
  unfold binary_search
  simp only [bne_iff_ne, ne_eq, Bool.and_eq_true, Bool.not_eq_true', decide_eq_true_eq]
  constructor
  · rintro ⟨hne, hnlt⟩
    have hr : lower_bound vec val vec.length 0 vec.length < vec.length :=
      lt_of_le_of_ne hle hne
    have h1 : ¬ vec.getD (lower_bound vec val vec.length 0 vec.length) "" < val :=
      hhi _ (le_refl _) hr
    have h2 : ¬ val < vec.getD (lower_bound vec val vec.length 0 vec.length) "" := by
      intro h; rw [← string_lt_iff] at h; rw [h] at hnlt; exact absurd hnlt (by decide)
    have heq : val = vec.getD (lower_bound vec val vec.length 0 vec.length) "" :=
      le_antisymm (not_lt.1 h1) (not_lt.1 h2)
    rw [heq, List.getD_eq_getElem _ _ hr]
    exact List.getElem_mem _
  · intro hmem
    obtain ⟨k, hk, rfl⟩ := List.getElem_of_mem hmem
    have hrk : lower_bound vec vec[k] vec.length 0 vec.length ≤ k := by
      by_contra hcon
      have := hlo k (by omega)
      rw [List.getD_eq_getElem _ _ hk] at this
      exact lt_irrefl _ this
    refine ⟨by omega, ?_⟩
    have hle2 := getD_le_of_sorted hs hrk hk
    rw [List.getD_eq_getElem _ _ hk] at hle2
    cases hb : string_lt vec[k] (vec.getD (lower_bound vec vec[k] vec.length 0 vec.length) "") with
    | false => rfl
    | true => exact absurd ((string_lt_iff _ _).1 hb) (not_lt.2 hle2)

theorem pairwise_string_lt_iff (l : List String) :
    l.Pairwise (fun a b => string_lt a b = true) ↔ l.Pairwise (· < ·) :=
  ⟨fun h => h.imp (fun {a b} hab => (string_lt_iff a b).1 hab),
   fun h => h.imp (fun {a b} hab => (string_lt_iff a b).2 hab)⟩

theorem binary_search_of_sorted {vec : List String}
    (hs : vec.Pairwise (fun a b => string_lt a b = true)) (val : String) :
    binary_search vec val = decide (val ∈ vec) := by
  have h := binary_search_eq_mem (((pairwise_string_lt_iff vec).1 hs).imp le_of_lt) val
  cases hb : binary_search vec val with
  | true => exact (decide_eq_true (h.1 hb)).symm
  | false =>
    refine (decide_eq_false ?_).symm
    intro hmem
    rw [h.2 hmem] at hb
    exact absurd hb (by decide)

/-! ## The end of the constructor of `etsl_parser` -/

theorem props_sorted_finalize (file : etsl_file) : props_sorted (finalize file) := by
  intro cat hcat ch hch
  simp only [finalize, List.mem_map] at hcat
  obtain ⟨cat1, -, rfl⟩ := hcat
  simp only [List.mem_map] at hch
  obtain ⟨ch1, -, rfl⟩ := hch
  exact ⟨(pairwise_string_lt_iff _).2 (unique_sort_sorted _),
    (pairwise_string_lt_iff _).2 (unique_sort_sorted _)⟩

theorem etsl_parse_eq_finalize {tokens : List etsl_token} {file : etsl_file}
    (h : etsl_parse tokens = .ok file) : ∃ p : parser_state, file = finalize p.file_ := by
  unfold etsl_parse at h
  split at h
  · exact absurd h (by simp)
  · rename_i p _
    exact ⟨p, by injection h with h; exact h.symm⟩

theorem props_sorted_etsl_parse {tokens : List etsl_token} {file : etsl_file}
    (h : etsl_parse tokens = .ok file) : props_sorted file := by
  obtain ⟨p, rfl⟩ := etsl_parse_eq_finalize h
  exact props_sorted_finalize _

/-- C7: in the document returned by a successful `etsl_parse`, `if_props` and `else_props`
of every choice of every category are in strictly increasing order of `operator<`, hence
free of duplicates, and the `binary_search` of the generator in them agrees with plain
membership. -/
theorem etsl_parse_props_sorted (tokens : List etsl_token) (file : etsl_file)
    (h : etsl_parse tokens = .ok file) :
    ∀ cat ∈ file.categories, ∀ ch ∈ cat.choices,
      ch.if_props.Pairwise (fun a b => string_lt a b = true) ∧
      ch.else_props.Pairwise (fun a b => string_lt a b = true) ∧
      ch.if_props.Nodup ∧ ch.else_props.Nodup ∧
      (∀ s : String, binary_search ch.if_props s = decide (s ∈ ch.if_props)) ∧
      (∀ s : String, binary_search ch.else_props s = decide (s ∈ ch.else_props)) := by
  intro cat hcat ch hch
  obtain ⟨h1, h2⟩ := props_sorted_etsl_parse h cat hcat ch hch
  refine ⟨h1, h2, ?_, ?_, binary_search_of_sorted h1, binary_search_of_sorted h2⟩
  · exact ((pairwise_string_lt_iff _).1 h1).imp ne_of_lt
  · exact ((pairwise_string_lt_iff _).1 h2).imp ne_of_lt

/-! ## The frame writer: what `visit_category` writes -/

theorem visit_choice_eq (visit : List category_choice_state → writer → writer)
    (state_stack : List category_choice_state) (i : Nat) (ch : etsl_choice)
    (selected : Bool) (w : writer) :
    visit_choice visit state_stack i ch selected w =
      match branch_props state_stack ch with
      | some p => (visit (state_stack ++ [{ selected := i, props := some p }]) w, true)
      | none => (w, selected) := by
  unfold visit_choice branch_props
  split_ifs <;> rfl

theorem emit_append (w : writer) (a b : List (List category_choice_state)) :
    emit w (a ++ b) = emit (emit w a) b := by
  simp [emit]

theorem visit_choices_eq (visit : List category_choice_state → writer → writer)
    (f : List category_choice_state → List (List category_choice_state))
    (hvisit : ∀ st w, visit st w = emit w (f st))
    (cat : etsl_category) (state_stack : List category_choice_state) :
    ∀ (chs : List etsl_choice) (i : Nat) (selected : Bool) (w : writer),
      (selected = true → cat.mutually_exclusive = false) →
      visit_choices visit cat state_stack i chs selected w =
        (emit w ((choice_entries cat state_stack i chs).flatMap
            (fun e => f (state_stack ++ [e]))),
          selected || !(choice_entries cat state_stack i chs).isEmpty) := by
  intro chs
  induction chs with
  | nil =>
    intro i selected w _
    simp [visit_choices, choice_entries, emit]
  | cons ch chs ih =>
    intro i selected w hsel
    rw [visit_choices, visit_choice_eq]
    cases hb : branch_props state_stack ch with
    | none =>
      simp only [choice_entries, hb]
      have hne : (selected && cat.mutually_exclusive) = false := by
        cases selected
        · rfl
        · simp [hsel rfl]
      simp only [hne]
      exact ih (i + 1) selected w hsel
    | some p =>
      simp only [choice_entries, hb, Bool.true_and]
      cases hme : cat.mutually_exclusive with
      | true =>
        simp [hvisit, emit]
      | false =>
        simp only [Bool.false_eq_true, if_false]
        rw [ih (i + 1) true _ (fun _ => hme), hvisit]
        simp [emit_append, emit]

theorem visit_category_eq : ∀ (cats : List etsl_category)
    (state_stack : List category_choice_state) (w : writer),
    visit_category cats state_stack w = emit w (normal_stacks cats state_stack)
  | [], state_stack, w => by simp [visit_category, normal_stacks, emit]
  | cat :: rest, state_stack, w => by
    have ih := visit_category_eq rest
    rw [visit_category, visit_choices_eq (visit_category rest)
      (normal_stacks rest) ih cat state_stack cat.choices 0 false w (by simp)]
    simp only [normal_stacks, level_entries, Bool.false_or]
    cases hce : choice_entries cat state_stack 0 cat.choices with
    | nil => simp [ih, emit]
    | cons e es => simp

theorem advance_add : ∀ (a b : Nat) (n : Int), advance n (a + b) = advance (advance n a) b
  | 0, b, n => by simp [advance]
  | a + 1, b, n => by
    have h : a + 1 + b = (a + b) + 1 := by omega
    rw [h, advance, advance, advance_add a b]

theorem int_wrap_add (a b : Int) : int_wrap (int_wrap a + b) = int_wrap (a + b) := by
  unfold int_wrap
  omega

theorem int_wrap_of_lt {x : Int} (h0 : -2147483648 ≤ x) (h1 : x < 2147483648) :
    int_wrap x = x := by
  unfold int_wrap
  omega

theorem advance_succ : ∀ (k : Nat) (n : Int), advance n (k + 1) = int_wrap (n + (k + 1 : Nat))
  | 0, n => by simp [advance]
  | k + 1, n => by
    rw [advance, advance_succ k, int_wrap_add]
    congr 1
    push_cast
    omega

theorem advance_zero (k : Nat) : advance 0 k = int_wrap (k : Int) := by
  cases k with
  | zero => rfl
  | succ k => rw [advance_succ, Int.zero_add]

theorem number_from_append : ∀ (a b : List frame_body) (n : Int),
    number_from n (a ++ b) = number_from n a ++ number_from (advance n a.length) b
  | [], b, n => by simp [number_from, advance]
  | x :: a, b, n => by
    have ih := number_from_append a b (int_wrap (n + 1))
    show number_from n (x :: (a ++ b)) = _
    simp only [number_from, List.length_cons, List.cons_append, ih, advance]

theorem map_body_number_from : ∀ (bs : List frame_body) (n : Int),
    (number_from n bs).map (fun f => f.body) = bs
  | [], n => rfl
  | b :: bs, n => by simp [number_from, map_body_number_from bs]

theorem length_number_from (bs : List frame_body) (n : Int) :
    (number_from n bs).length = bs.length := by
  have h := congrArg List.length (map_body_number_from bs n)
  simpa using h

theorem num_number_from : ∀ (bs : List frame_body) (n : Int) (k : Nat) (f : frame),
    (number_from n bs)[k]? = some f → f.num = advance n (k + 1)
  | [], n, k, f, h => by simp [number_from] at h
  | b :: bs, n, 0, f, h => by
    simp only [number_from, List.getElem?_cons_zero, Option.some.injEq] at h
    subst h
    rfl
  | b :: bs, n, k + 1, f, h => by
    simp only [number_from, List.getElem?_cons_succ] at h
    rw [num_number_from bs (int_wrap (n + 1)) k f h]
    rfl

theorem writer_ext {w w' : writer} (h1 : w.os_ = w'.os_) (h2 : w.frame_num_ = w'.frame_num_) :
    w = w' := by
  cases w; cases w'; simp_all

theorem write_single_frame_eq (w : writer) (cat : etsl_category) (ch : etsl_choice)
    (single_str if_or_else : String) :
    write_single_frame w cat ch single_str if_or_else =
      ⟨w.os_ ++ number_from w.frame_num_
        (if single_str = "" then [] else [.single single_str if_or_else cat.name ch.name]),
       advance w.frame_num_ (if single_str = "" then 0 else 1)⟩ := by
  unfold write_single_frame
  split_ifs <;> simp [number_from, advance]

theorem write_single_frames_choice_eq (cat : etsl_category) (w : writer) (ch : etsl_choice) :
    write_single_frames_choice cat w ch =
      ⟨w.os_ ++ number_from w.frame_num_ (choice_single_bodies cat ch),
       advance w.frame_num_ (choice_single_bodies cat ch).length⟩ := by
  simp only [write_single_frames_choice, write_single_frame_eq, choice_single_bodies]
  by_cases h1 : ch.single_str = "" <;> by_cases h2 : ch.if_single_str = "" <;>
    by_cases h3 : ch.else_single_str = "" <;>
    simp [h1, h2, h3, number_from, advance]

theorem foldl_write_single_frames_choice (cat : etsl_category) :
    ∀ (chs : List etsl_choice) (w : writer),
      chs.foldl (write_single_frames_choice cat) w =
        ⟨w.os_ ++ number_from w.frame_num_ (chs.flatMap (choice_single_bodies cat)),
         advance w.frame_num_ (chs.flatMap (choice_single_bodies cat)).length⟩
  | [], w => by simp [number_from, advance]
  | ch :: chs, w => by
    rw [List.foldl_cons, foldl_write_single_frames_choice cat chs,
      write_single_frames_choice_eq]
    simp [number_from_append, advance_add]

theorem foldl_write_single_frames :
    ∀ (cats : List etsl_category) (w : writer),
      cats.foldl (fun w cat => cat.choices.foldl (write_single_frames_choice cat) w) w =
        ⟨w.os_ ++ number_from w.frame_num_
          (cats.flatMap (fun cat => cat.choices.flatMap (choice_single_bodies cat))),
         advance w.frame_num_
          (cats.flatMap (fun cat => cat.choices.flatMap (choice_single_bodies cat))).length⟩
  | [], w => by simp [number_from, advance]
  | cat :: cats, w => by
    rw [List.foldl_cons, foldl_write_single_frames cats, foldl_write_single_frames_choice]
    simp [number_from_append, advance_add]

theorem write_single_frames_eq (file : etsl_file) (w : writer) :
    write_single_frames file w =
      ⟨w.os_ ++ number_from w.frame_num_ (single_bodies file),
       advance w.frame_num_ (single_bodies file).length⟩ :=
  foldl_write_single_frames file.categories w

theorem emit_eq : ∀ (calls : List (List category_choice_state)) (w : writer),
    emit w calls =
      ⟨w.os_ ++ number_from w.frame_num_ (calls.map frame_body.normal),
       advance w.frame_num_ calls.length⟩
  | [], w => by simp [emit, number_from, advance]
  | s :: calls, w => by
    have ih := emit_eq calls (write_normal_frame w s)
    simp only [emit, List.foldl_cons] at ih ⊢
    rw [ih]
    simp [write_normal_frame, number_from, advance]

theorem write_normal_frames_eq (file : etsl_file) (w : writer) :
    write_normal_frames file w =
      ⟨w.os_ ++ number_from w.frame_num_
        ((normal_stacks file.categories []).map frame_body.normal),
       advance w.frame_num_ (normal_stacks file.categories []).length⟩ := by
  rw [write_normal_frames, visit_category_eq, emit_eq]

theorem write_tsl_frames_eq (file : etsl_file) :
    write_tsl_frames file = number_from 0
      (single_bodies file ++ (normal_stacks file.categories []).map frame_body.normal) := by
  rw [write_tsl_frames, write, write_normal_frames_eq, write_single_frames_eq,
    number_from_append]
  simp

theorem choice_single_bodies_single {cat : etsl_category} {ch : etsl_choice} {b : frame_body}
    (h : b ∈ choice_single_bodies cat ch) :
    ∃ s io : String, b = .single s io cat.name ch.name := by
  unfold choice_single_bodies at h
  simp only [List.mem_append] at h
  rcases h with (h | h) | h <;> split_ifs at h <;>
    first
    | exact absurd h (List.not_mem_nil _)
    | exact ⟨_, _, List.mem_singleton.1 h⟩

theorem normal_mem_write_tsl_frames (file : etsl_file) (s : List category_choice_state) :
    (∃ num : Int, (⟨num, .normal s⟩ : frame) ∈ write_tsl_frames file) ↔
      s ∈ normal_stacks file.categories [] := by
  constructor
  · rintro ⟨num, h⟩
    have hb : frame_body.normal s ∈ (write_tsl_frames file).map (fun f => f.body) :=
      List.mem_map.2 ⟨_, h, rfl⟩
    rw [write_tsl_frames_eq, map_body_number_from, List.mem_append] at hb
    rcases hb with hb | hb
    · simp only [single_bodies, List.mem_flatMap] at hb
      obtain ⟨cat, -, ch, -, hb⟩ := hb
      obtain ⟨_, _, hb⟩ := choice_single_bodies_single hb
      exact absurd hb (by simp)
    · simpa using hb
  · intro h
    have hb : frame_body.normal s ∈ (write_tsl_frames file).map (fun f => f.body) := by
      rw [write_tsl_frames_eq, map_body_number_from, List.mem_append]
      exact Or.inr (List.mem_map.2 ⟨s, h, rfl⟩)
    obtain ⟨f, hf, hfb⟩ := List.mem_map.1 hb
    refine ⟨f.num, ?_⟩
    cases f
    simp only at hfb
    subst hfb
    exact hf

/-! ## The frame writer: the entries of a state stack -/

theorem mem_choice_entries (cat : etsl_category) (state_stack : List category_choice_state) :
    ∀ (chs : List etsl_choice) (i : Nat) (e : category_choice_state),
      e ∈ choice_entries cat state_stack i chs ↔
        ∃ (k : Nat) (ch : etsl_choice) (p : List String),
          chs[k]? = some ch ∧ branch_props state_stack ch = some p ∧
          e = { selected := ((i + k : Nat) : Int), props := some p } ∧
          (cat.mutually_exclusive = true → ∀ (j : Nat) (ch' : etsl_choice), j < k →
            chs[j]? = some ch' → branch_props state_stack ch' = none) := by
  intro chs
  induction chs with
  | nil =>
    intro i e
    simp [choice_entries]
  | cons ch chs ih =>
    intro i e
    constructor
    · intro he
      unfold choice_entries at he
      cases hb : branch_props state_stack ch with
      | none =>
        simp only [hb] at he
        obtain ⟨k, ch1, p, h1, h2, h3, h4⟩ := (ih (i + 1) e).1 he
        refine ⟨k + 1, ch1, p, by simpa using h1, h2, ?_, ?_⟩
        · rw [h3]; congr 2; omega
        · intro hme j ch' hj hj'
          cases j with
          | zero =>
            simp only [List.getElem?_cons_zero, Option.some.injEq] at hj'
            subst hj'
            exact hb
          | succ j =>
            simp only [List.getElem?_cons_succ] at hj'
            exact h4 hme j ch' (by omega) hj'
      | some p =>
        simp only [hb, List.mem_cons] at he
        rcases he with he | he
        · exact ⟨0, ch, p, by simp, hb, by simpa using he, fun _ j _ hj => absurd hj (by omega)⟩
        · cases hme : cat.mutually_exclusive with
          | true => simp [hme] at he
          | false =>
            simp only [hme, Bool.false_eq_true, if_false] at he
            obtain ⟨k, ch1, p1, h1, h2, h3, -⟩ := (ih (i + 1) e).1 he
            refine ⟨k + 1, ch1, p1, by simpa using h1, h2, ?_, fun h => absurd h (by simp)⟩
            rw [h3]; congr 2; omega
    · rintro ⟨k, ch1, p, h1, h2, h3, h4⟩
      unfold choice_entries
      cases k with
      | zero =>
        simp only [List.getElem?_cons_zero, Option.some.injEq] at h1
        subst h1
        simp only [h2, List.mem_cons]
        exact Or.inl (by simpa using h3)
      | succ k =>
        simp only [List.getElem?_cons_succ] at h1
        have hrec : e ∈ choice_entries cat state_stack (i + 1) chs := by
          refine (ih (i + 1) e).2 ⟨k, ch1, p, h1, h2, ?_, ?_⟩
          · rw [h3]; congr 2; omega
          · intro hme j ch' hj hj'
            exact h4 hme (j + 1) ch' (by omega) (by simpa using hj')
        cases hb : branch_props state_stack ch with
        | none => simpa [hb] using hrec
        | some p' =>
          cases hme : cat.mutually_exclusive with
          | true =>
            have := h4 hme 0 ch (by omega) (by simp)
            rw [hb] at this
            exact absurd this (by simp)
          | false =>
            simp only [List.mem_cons, Bool.false_eq_true, if_false]
            exact Or.inr hrec

theorem choice_entries_eq_nil (cat : etsl_category) (state_stack : List category_choice_state) :
    ∀ (chs : List etsl_choice) (i : Nat),
      choice_entries cat state_stack i chs = [] ↔
        ∀ ch ∈ chs, branch_props state_stack ch = none := by
  intro chs
  induction chs with
  | nil => intro i; simp [choice_entries]
  | cons ch chs ih =>
    intro i
    unfold choice_entries
    cases hb : branch_props state_stack ch with
    | none => simp [hb, ih (i + 1)]
    | some p => simp [hb]

theorem mem_level_entries (cat : etsl_category) (state_stack : List category_choice_state)
    (e : category_choice_state) :
    e ∈ level_entries cat state_stack ↔
      (e = { selected := -1, props := none } ∧
        ∀ ch ∈ cat.choices, branch_props state_stack ch = none) ∨
      ∃ (i : Nat) (ch : etsl_choice) (p : List String),
        cat.choices[i]? = some ch ∧ branch_props state_stack ch = some p ∧
        e = { selected := (i : Int), props := some p } ∧
        (cat.mutually_exclusive = true → ∀ (j : Nat) (ch' : etsl_choice), j < i →
          cat.choices[j]? = some ch' → branch_props state_stack ch' = none) := by
  unfold level_entries
  by_cases hnil : choice_entries cat state_stack 0 cat.choices = []
  · simp only [hnil, if_true, List.mem_singleton]
    have hall := (choice_entries_eq_nil cat state_stack cat.choices 0).1 hnil
    constructor
    · intro he
      exact Or.inl ⟨he, hall⟩
    · rintro (⟨he, -⟩ | ⟨i, ch, p, h1, h2, -, -⟩)
      · exact he
      · have := hall ch (List.getElem?_mem h1)
        rw [h2] at this
        exact absurd this (by simp)
  · simp only [hnil, if_false]
    rw [mem_choice_entries]
    constructor
    · rintro ⟨k, ch, p, h1, h2, h3, h4⟩
      exact Or.inr ⟨k, ch, p, h1, h2, by simpa using h3, h4⟩
    · rintro (⟨-, hall⟩ | ⟨k, ch, p, h1, h2, h3, h4⟩)
      · exact absurd ((choice_entries_eq_nil cat state_stack cat.choices 0).2 hall) hnil
      · exact ⟨k, ch, p, h1, h2, by simpa using h3, h4⟩

theorem level_entries_ne_nil (cat : etsl_category) (state_stack : List category_choice_state) :
    level_entries cat state_stack ≠ [] := by
  unfold level_entries
  split_ifs with h
  · simp
  · exact h

theorem normal_stacks_ne_nil : ∀ (cats : List etsl_category)
    (state_stack : List category_choice_state), normal_stacks cats state_stack ≠ []
  | [], _ => by simp [normal_stacks]
  | cat :: rest, state_stack => by
    obtain ⟨e, he⟩ := List.exists_mem_of_ne_nil _ (level_entries_ne_nil cat state_stack)
    obtain ⟨s, hs⟩ := List.exists_mem_of_ne_nil _
      (normal_stacks_ne_nil rest (state_stack ++ [e]))
    intro hnil
    have : s ∈ normal_stacks (cat :: rest) state_stack := by
      simp only [normal_stacks, List.mem_flatMap]
      exact ⟨e, he, hs⟩
    rw [hnil] at this
    exact absurd this (List.not_mem_nil _)

theorem normal_stacks_spec : ∀ (cats : List etsl_category)
    (state_stack s : List category_choice_state), s ∈ normal_stacks cats state_stack →
      s.length = state_stack.length + cats.length ∧ s.take state_stack.length = state_stack ∧
      ∀ (d : Nat) (cat : etsl_category) (st : category_choice_state),
        cats[d]? = some cat → s[state_stack.length + d]? = some st →
        st ∈ level_entries cat (s.take (state_stack.length + d))
  | [], state_stack, s, h => by
    simp only [normal_stacks, List.mem_singleton] at h
    subst h
    simp
  | cat :: rest, state_stack, s, h => by
    simp only [normal_stacks, List.mem_flatMap] at h
    obtain ⟨e, he, hs⟩ := h
    obtain ⟨h1, h2, h3⟩ := normal_stacks_spec rest (state_stack ++ [e]) s hs
    simp only [List.length_append, List.length_singleton] at h1 h2 h3
    have htake : s.take state_stack.length = state_stack := by
      have := congrArg (List.take state_stack.length) h2
      rw [List.take_take] at this
      simpa using this
    have hget : s[state_stack.length]? = some e := by
      have h4 : (s.take (state_stack.length + 1))[state_stack.length]? = some e := by
        rw [h2]; simp
      rw [List.getElem?_take] at h4
      simpa using h4
    refine ⟨by simp only [List.length_cons]; omega, htake, ?_⟩
    intro d cat' st hcat hst
    cases d with
    | zero =>
      simp only [List.getElem?_cons_zero, Option.some.injEq] at hcat
      subst hcat
      simp only [Nat.add_zero] at hst ⊢
      rw [hget] at hst
      injection hst with hst
      subst hst
      rw [htake]
      exact he
    | succ d =>
      simp only [List.getElem?_cons_succ] at hcat
      have hidx : state_stack.length + (d + 1) = state_stack.length + 1 + d := by omega
      rw [hidx] at hst ⊢
      exact h3 d cat' st hcat hst

/-! ## The frame writer: selection -/

theorem branch_props_eq_none_iff (state_stack : List category_choice_state) (ch : etsl_choice) :
    branch_props state_stack ch = none ↔ ¬ eligible (prop_map state_stack) ch := by
  unfold branch_props eligible
  cases ch.has_if <;> cases ch.has_else <;> cases ch.cond.call (prop_map state_stack) <;>
    by_cases h1 : ch.single_str = "" <;> by_cases h2 : ch.if_single_str = "" <;>
    by_cases h3 : ch.else_single_str = "" <;> simp [h1, h2, h3]

theorem branch_props_eq_some_iff (state_stack : List category_choice_state) (ch : etsl_choice)
    (p : List String) :
    branch_props state_stack ch = some p ↔
      (ch.has_if = false ∧ ch.single_str = "" ∧ p = ch.if_props) ∨
      (ch.has_if = true ∧ ch.cond.call (prop_map state_stack) = true ∧
        ch.single_str = "" ∧ ch.if_single_str = "" ∧ p = ch.if_props) ∨
      (ch.has_if = true ∧ ch.cond.call (prop_map state_stack) = false ∧ ch.has_else = true ∧
        ch.single_str = "" ∧ ch.else_single_str = "" ∧ p = ch.else_props) := by
  unfold branch_props
  cases ch.has_if <;> cases ch.has_else <;> cases ch.cond.call (prop_map state_stack) <;>
    by_cases h1 : ch.single_str = "" <;> by_cases h2 : ch.if_single_str = "" <;>
    by_cases h3 : ch.else_single_str = "" <;> simp [h1, h2, h3, eq_comm]

theorem eligible_of_branch_props {state_stack : List category_choice_state} {ch : etsl_choice}
    {p : List String} (h : branch_props state_stack ch = some p) :
    eligible (prop_map state_stack) ch := by
  by_contra hne
  rw [(branch_props_eq_none_iff state_stack ch).2 hne] at h
  exact absurd h (by simp)

theorem branch_props_of_eligible {state_stack : List category_choice_state} {ch : etsl_choice}
    (h : eligible (prop_map state_stack) ch) : ∃ p, branch_props state_stack ch = some p := by
  cases hb : branch_props state_stack ch with
  | none => exact absurd h ((branch_props_eq_none_iff state_stack ch).1 hb)
  | some p => exact ⟨p, rfl⟩

theorem frame_entry {file : etsl_file} {num : Int} {state_stack : List category_choice_state}
    (hf : (⟨num, .normal state_stack⟩ : frame) ∈ write_tsl_frames file) :
    state_stack.length = file.categories.length ∧
    ∀ (d : Nat) (cat : etsl_category) (st : category_choice_state),
      file.categories[d]? = some cat → state_stack[d]? = some st →
      st ∈ level_entries cat (state_stack.take d) := by
  have hmem := (normal_mem_write_tsl_frames file state_stack).1 ⟨num, hf⟩
  obtain ⟨h1, -, h3⟩ := normal_stacks_spec file.categories [] state_stack hmem
  refine ⟨by simpa using h1, ?_⟩
  intro d cat st hcat hst
  have := h3 d cat st hcat (by simpa using hst)
  simpa using this

/-- C3: a choice whose unconditional `single_str` is not empty is never the selected choice
of its category in a normal frame, whatever its branches and its condition: the selection
recorded at the level of the category is not the index of that choice. -/
theorem single_choice_never_selected (file : etsl_file) (num : Int)
    (state_stack : List category_choice_state)
    (hf : (⟨num, .normal state_stack⟩ : frame) ∈ write_tsl_frames file)
    (d : Nat) (cat : etsl_category) (st : category_choice_state)
    (hcat : file.categories[d]? = some cat) (hst : state_stack[d]? = some st)
    (i : Nat) (ch : etsl_choice) (hch : cat.choices[i]? = some ch)
    (hsingle : ch.single_str ≠ "") :
    st.selected ≠ (i : Int) := by
  have he := (frame_entry hf).2 d cat st hcat hst
  rw [mem_level_entries] at he
  rcases he with ⟨rfl, -⟩ | ⟨k, ch', p, h1, h2, rfl, -⟩
  · simp only [ne_eq]; omega
  · intro hk
    have hki : k = i := by simpa using hk
    subst hki
    rw [hch] at h1
    injection h1 with h1
    subst h1
    rw [branch_props_eq_some_iff] at h2
    rcases h2 with ⟨-, h, -⟩ | ⟨-, -, h, -⟩ | ⟨-, -, -, h, -⟩ <;> exact hsingle h

theorem selected_name_isSome {cat : etsl_category} {state_stack : List category_choice_state}
    {st : category_choice_state} (he : st ∈ level_entries cat state_stack) :
    (st.selected = -1 ∨ (0 ≤ st.selected ∧ st.selected < (cat.choices.length : Int))) ∧
    (selected_name cat st.selected).isSome = true := by
  rw [mem_level_entries] at he
  rcases he with ⟨rfl, -⟩ | ⟨k, ch, p, h1, -, rfl, -⟩
  · exact ⟨Or.inl rfl, rfl⟩
  · obtain ⟨hk, -⟩ := List.getElem?_eq_some.1 h1
    refine ⟨Or.inr ⟨by simp, by simpa using hk⟩, ?_⟩
    have h1' : ¬ ((k : Int) = -1) := by omega
    have h2' : ¬ ((k : Int) < 0) := by omega
    simp [selected_name, h1', h2', h1]

/-- C5: frame generation is total. `visit_category` is a total function, and started on
the empty stack with any writer it returns the writer whose stream is the old stream
followed by normal frames only; each of them has exactly one selection per category of the
document, each selection is `-1` or an index into the choice list of its category, and
every access of `write_normal_frame` to a category and to a selected choice is inside the
vectors. -/
theorem frame_generation_total (file : etsl_file) (w : writer) :
    ∃ new : List frame,
      (visit_category file.categories [] w).os_ = w.os_ ++ new ∧
      ∀ f ∈ new, ∃ state_stack : List category_choice_state,
        f.body = .normal state_stack ∧
        state_stack.length = file.categories.length ∧
        (frame_key state_stack).length = file.categories.length ∧
        (∀ (d : Nat) (cat : etsl_category) (st : category_choice_state),
          file.categories[d]? = some cat → state_stack[d]? = some st →
          st.selected = -1 ∨ (0 ≤ st.selected ∧ st.selected < (cat.choices.length : Int))) ∧
        (frame_lines file state_stack).length = file.categories.length ∧
        ∀ line ∈ frame_lines file state_stack, line.isSome = true := by
  refine ⟨_, by rw [visit_category_eq, emit_eq], ?_⟩
  intro f hf
  have hb : f.body ∈ (normal_stacks file.categories []).map frame_body.normal := by
    have : f.body ∈ (number_from w.frame_num_
        ((normal_stacks file.categories []).map frame_body.normal)).map (fun f => f.body) :=
      List.mem_map.2 ⟨f, hf, rfl⟩
    rwa [map_body_number_from] at this
  obtain ⟨s, hs, hsb⟩ := List.mem_map.1 hb
  obtain ⟨h1, -, h3⟩ := normal_stacks_spec file.categories [] s hs
  have hlen : s.length = file.categories.length := by simpa using h1
  have hentry : ∀ (d : Nat) (cat : etsl_category) (st : category_choice_state),
      file.categories[d]? = some cat → s[d]? = some st →
      st ∈ level_entries cat (s.take d) := by
    intro d cat st hcat hst
    simpa using h3 d cat st hcat (by simpa using hst)
  refine ⟨s, hsb.symm, hlen, by simp [frame_key, hlen], ?_, by simp [frame_lines, hlen], ?_⟩
  · intro d cat st hcat hst
    exact (selected_name_isSome (hentry d cat st hcat hst)).1
  · intro line hline
    simp only [frame_lines, List.mem_map, List.mem_range] at hline
    obtain ⟨i, hi, rfl⟩ := hline
    have hi' : i < file.categories.length := hlen ▸ hi
    have hc : file.categories[i]? = some file.categories[i] := List.getElem?_eq_getElem hi'
    have hs' : s[i]? = some s[i] := List.getElem?_eq_getElem hi
    have := (selected_name_isSome (hentry i _ _ hc hs')).2
    simp only [hc, hs', Option.isSome_map']
    exact this

theorem prop_map_eq_mem_lookup {state_stack : List category_choice_state}
    (h : ∀ st ∈ state_stack, ∀ p, st.props = some p →
      p.Pairwise (fun a b => string_lt a b = true)) :
    prop_map state_stack = mem_lookup state_stack := by
  funext s
  rw [Bool.eq_iff_iff]
  simp only [prop_map, mem_lookup, List.any_eq_true, List.mem_reverse]
  constructor
  · rintro ⟨st, hst, hp⟩
    refine ⟨st, hst, ?_⟩
    cases hprops : st.props with
    | none => simp [hprops] at hp
    | some p =>
      simp only [hprops] at hp ⊢
      rwa [binary_search_of_sorted (h st hst p hprops)] at hp
  · rintro ⟨st, hst, hp⟩
    refine ⟨st, hst, ?_⟩
    cases hprops : st.props with
    | none => simp [hprops] at hp
    | some p =>
      simp only [hprops] at hp ⊢
      rwa [binary_search_of_sorted (h st hst p hprops)]

theorem entry_props_of_file {file : etsl_file} {num : Int}
    {state_stack : List category_choice_state}
    (hf : (⟨num, .normal state_stack⟩ : frame) ∈ write_tsl_frames file)
    {st : category_choice_state} (hst : st ∈ state_stack) {p : List String}
    (hp : st.props = some p) :
    ∃ cat ∈ file.categories, ∃ ch ∈ cat.choices, p = ch.if_props ∨ p = ch.else_props := by
  obtain ⟨hlen, hentry⟩ := frame_entry hf
  obtain ⟨d, hd, rfl⟩ := List.getElem_of_mem hst
  have hd' : d < file.categories.length := hlen ▸ hd
  have he := hentry d _ _ (List.getElem?_eq_getElem hd') (List.getElem?_eq_getElem hd)
  rw [mem_level_entries] at he
  rcases he with ⟨he, -⟩ | ⟨k, ch, q, h1, h2, he, -⟩
  · rw [he] at hp; exact absurd hp (by simp)
  · rw [he] at hp
    simp only [Option.some.injEq] at hp
    subst hp
    refine ⟨_, List.getElem_mem _, ch, List.getElem?_mem h1, ?_⟩
    rw [branch_props_eq_some_iff] at h2
    rcases h2 with ⟨-, -, h⟩ | ⟨-, -, -, -, h⟩ | ⟨-, -, -, -, -, h⟩
    · exact Or.inl h
    · exact Or.inl h
    · exact Or.inr h

theorem frame_prop_map_eq_mem_lookup {file : etsl_file} (hs : props_sorted file) {num : Int}
    {state_stack : List category_choice_state}
    (hf : (⟨num, .normal state_stack⟩ : frame) ∈ write_tsl_frames file) (d : Nat) :
    prop_map (state_stack.take d) = mem_lookup (state_stack.take d) := by
  apply prop_map_eq_mem_lookup
  intro st hst p hp
  obtain ⟨cat, hcat, ch, hch, h | h⟩ := entry_props_of_file hf (List.mem_of_mem_take hst) hp
  · rw [h]; exact (hs cat hcat ch hch).1
  · rw [h]; exact (hs cat hcat ch hch).2

theorem sound_selection_of_mem {cat : etsl_category}
    {state_stack : List category_choice_state} {st : category_choice_state}
    (he : st ∈ level_entries cat state_stack) (hsel : st.selected ≠ -1) :
    sound_selection (prop_map state_stack) cat st := by
  rw [mem_level_entries] at he
  rcases he with ⟨rfl, -⟩ | ⟨i, ch, p, h1, h2, rfl, -⟩
  · exact absurd rfl hsel
  · refine ⟨i, ch, rfl, h1, ?_⟩
    rw [branch_props_eq_some_iff] at h2
    unfold exactly_one
    rcases h2 with ⟨ha, hb, rfl⟩ | ⟨ha, hb, hc, hd, rfl⟩ | ⟨ha, hb, hc, hd, he, rfl⟩
    · exact ⟨hb, fun _ => rfl, Or.inl ⟨ha, by simp [ha], by simp [ha]⟩⟩
    · exact ⟨hc, fun h => by simp [ha] at h,
        Or.inr (Or.inl ⟨by simp [ha], ⟨ha, hb, hd, rfl⟩, by simp [hb]⟩)⟩
    · exact ⟨hd, fun h => by simp [ha] at h,
        Or.inr (Or.inr ⟨by simp [ha], by simp [hb], ⟨ha, hb, hc, he, rfl⟩⟩)⟩

/-- C1: soundness of selection. In every normal frame of every document, a selection other
than not-applicable at category `d` is the index of a choice `ch` of that category with an
empty `single_str`, and exactly one of these holds under the lookup `prop_map` of the
entries of categories `0..d-1` of the frame: `ch` has no condition; or the condition of
`ch` is true, `if_single_str` is empty and `if_props` is contributed; or the condition is
false, `ch` has an `else` branch, `else_single_str` is empty and `else_props` is
contributed. When the property sets of the document are sorted, as they are after
assembly, the same holds under the lookup by membership in the property sets contributed
by the selections of categories `0..d-1`. For the text `A: x. [if p]`, `B: y. [property p]`
there is exactly one normal frame, in which `A` is not applicable and `B` is `y`. -/
theorem selection_sound :
    (∀ (file : etsl_file) (num : Int) (state_stack : List category_choice_state),
      (⟨num, .normal state_stack⟩ : frame) ∈ write_tsl_frames file →
      ∀ (d : Nat) (cat : etsl_category) (st : category_choice_state),
      file.categories[d]? = some cat → state_stack[d]? = some st → st.selected ≠ -1 →
      sound_selection (prop_map (state_stack.take d)) cat st) ∧
    (∀ (file : etsl_file), props_sorted file →
      ∀ (num : Int) (state_stack : List category_choice_state),
      (⟨num, .normal state_stack⟩ : frame) ∈ write_tsl_frames file →
      ∀ (d : Nat) (cat : etsl_category) (st : category_choice_state),
      file.categories[d]? = some cat → state_stack[d]? = some st → st.selected ≠ -1 →
      sound_selection (mem_lookup (state_stack.take d)) cat st) ∧
    etsl_parse (etsl_tokenize "A: x. [if p]\nB: y. [property p]\n".data) = .ok example_file ∧
    write_tsl_frames example_file = [⟨1, .normal example_stack⟩] ∧
    frame_key example_stack = [0, 1] ∧
    frame_lines example_file example_stack = [some ("A", "<n/a>"), some ("B", "y")] := by
  refine ⟨?_, ?_, ?_, write_tsl_frames_example, by decide, by decide⟩
  · intro file num state_stack hf d cat st hcat hst hsel
    exact sound_selection_of_mem ((frame_entry hf).2 d cat st hcat hst) hsel
  · intro file hs num state_stack hf d cat st hcat hst hsel
    rw [← frame_prop_map_eq_mem_lookup hs hf d]
    exact sound_selection_of_mem ((frame_entry hf).2 d cat st hcat hst) hsel
  · have h := etsl_parse_example
    rw [← etsl_tokenize_example] at h
    exact h

/-- The soundness of selection at the category `Mode` of the second normal frame of
`sample_file`, in which the choice `true` is selected through its `if` branch. -/
theorem selection_sound_witness :
    sound_selection (prop_map (sample_stack_2.take 1)) sample_Mode
      { selected := 0, props := some [":true", "Mode", "Mode:true"] } ∧
    sound_selection (mem_lookup (sample_stack_2.take 1)) sample_Mode
      { selected := 0, props := some [":true", "Mode", "Mode:true"] } :=
  ⟨selection_sound.1 sample_file 3 sample_stack_2
      (by rw [write_tsl_frames_sample]; decide) 1 sample_Mode
      { selected := 0, props := some [":true", "Mode", "Mode:true"] } (by decide) (by decide)
      (by decide),
   selection_sound.2.1 sample_file (by decide) 3 sample_stack_2
      (by rw [write_tsl_frames_sample]; decide) 1 sample_Mode
      { selected := 0, props := some [":true", "Mode", "Mode:true"] } (by decide) (by decide)
      (by decide)⟩

theorem level_entries_selected_inj {cat : etsl_category}
    {state_stack : List category_choice_state} {e1 e2 : category_choice_state}
    (h1 : e1 ∈ level_entries cat state_stack) (h2 : e2 ∈ level_entries cat state_stack)
    (hsel : e1.selected = e2.selected) : e1 = e2 := by
  rw [mem_level_entries] at h1 h2
  rcases h1 with ⟨rfl, -⟩ | ⟨i1, ch1, p1, a1, b1, rfl, -⟩ <;>
    rcases h2 with ⟨rfl, -⟩ | ⟨i2, ch2, p2, a2, b2, rfl, -⟩
  · rfl
  · simp only at hsel; omega
  · simp only at hsel; omega
  · have hi : i1 = i2 := by simpa using hsel
    subst hi
    rw [a1] at a2
    injection a2 with a2
    subst a2
    rw [b1] at b2
    injection b2 with b2
    subst b2
    rfl

theorem take_eq_of_selected_eq {file : etsl_file} {num1 num2 : Int}
    {s1 s2 : List category_choice_state}
    (hf1 : (⟨num1, .normal s1⟩ : frame) ∈ write_tsl_frames file)
    (hf2 : (⟨num2, .normal s2⟩ : frame) ∈ write_tsl_frames file) :
    ∀ d : Nat, d ≤ file.categories.length →
      (∀ j, j < d → s1[j]?.map (fun st => st.selected) = s2[j]?.map (fun st => st.selected)) →
      s1.take d = s2.take d := by
  obtain ⟨hl1, he1⟩ := frame_entry hf1
  obtain ⟨hl2, he2⟩ := frame_entry hf2
  intro d
  induction d with
  | zero => intro _ _; simp
  | succ d ih =>
    intro hd hsel
    have hpre := ih (by omega) (fun j hj => hsel j (by omega))
    have hd1 : d < s1.length := by omega
    have hd2 : d < s2.length := by omega
    have hdc : d < file.categories.length := by omega
    have hc : file.categories[d]? = some file.categories[d] := List.getElem?_eq_getElem hdc
    have hg1 : s1[d]? = some s1[d] := List.getElem?_eq_getElem hd1
    have hg2 : s2[d]? = some s2[d] := List.getElem?_eq_getElem hd2
    have m1 := he1 d _ _ hc hg1
    have m2 := he2 d _ _ hc hg2
    rw [← hpre] at m2
    have hs := hsel d (by omega)
    rw [hg1, hg2] at hs
    simp only [Option.map_some', Option.some.injEq] at hs
    have heq := level_entries_selected_inj m1 m2 hs
    rw [List.take_succ, List.take_succ, hpre, hg1, hg2, heq]

theorem normal_stacks_append : ∀ (c1 c2 : List etsl_category)
    (state_stack : List category_choice_state),
    normal_stacks (c1 ++ c2) state_stack =
      (normal_stacks c1 state_stack).flatMap (fun s => normal_stacks c2 s)
  | [], c2, state_stack => by simp [normal_stacks]
  | cat :: c1, c2, state_stack => by
    simp only [List.cons_append, normal_stacks, List.flatMap_assoc]
    congr 1
    funext e
    exact normal_stacks_append c1 c2 (state_stack ++ [e])

theorem exists_frame_extending {file : etsl_file} {num : Int}
    {s : List category_choice_state}
    (hf : (⟨num, .normal s⟩ : frame) ∈ write_tsl_frames file)
    {d : Nat} {cat : etsl_category} (hcat : file.categories[d]? = some cat)
    {e : category_choice_state} (he : e ∈ level_entries cat (s.take d)) :
    ∃ (num' : Int) (s' : List category_choice_state),
      (⟨num', .normal s'⟩ : frame) ∈ write_tsl_frames file ∧
      s'.take d = s.take d ∧ s'[d]? = some e := by
  have hmem := (normal_mem_write_tsl_frames file s).1 ⟨num, hf⟩
  obtain ⟨hd, hcd⟩ := List.getElem?_eq_some.1 hcat
  have hsplit : file.categories =
      file.categories.take d ++ cat :: file.categories.drop (d + 1) := by
    rw [← hcd, List.getElem_cons_drop, List.take_append_drop]
  rw [hsplit, normal_stacks_append, List.mem_flatMap] at hmem
  obtain ⟨pre, hpre, hs⟩ := hmem
  obtain ⟨hplen, -, -⟩ := normal_stacks_spec _ _ _ hpre
  obtain ⟨-, hstake, -⟩ := normal_stacks_spec _ _ _ hs
  have hplen' : pre.length = d := by
    simp only [List.length_nil, List.length_take, Nat.zero_add] at hplen
    omega
  rw [hplen'] at hstake
  rw [hstake] at he
  obtain ⟨s', hs'⟩ := List.exists_mem_of_ne_nil _
    (normal_stacks_ne_nil (file.categories.drop (d + 1)) (pre ++ [e]))
  obtain ⟨-, hs'take, -⟩ := normal_stacks_spec _ _ _ hs'
  have hs'mem : s' ∈ normal_stacks file.categories [] := by
    rw [hsplit, normal_stacks_append, List.mem_flatMap]
    refine ⟨pre, hpre, ?_⟩
    simp only [normal_stacks, List.mem_flatMap]
    exact ⟨e, he, hs'⟩
  obtain ⟨num', hf'⟩ := (normal_mem_write_tsl_frames file s').2 hs'mem
  simp only [List.length_append, List.length_singleton, hplen'] at hs'take
  refine ⟨num', s', hf', ?_, ?_⟩
  · rw [hstake]
    have := congrArg (List.take d) hs'take
    rw [List.take_take] at this
    simpa [hplen'] using this
  · have h4 : (s'.take (d + 1))[d]? = some e := by
      rw [hs'take]; simp [hplen']
    rw [List.getElem?_take] at h4
    simpa using h4

/-- C4: for a category `d` with `mutually_exclusive` set, two normal frames that agree on
the selections of categories `0..d-1` agree on the selection of category `d`, and that
selection is the first eligible choice of the category in declaration order, or
not-applicable when no choice is eligible; for a category with `mutually_exclusive` not
set, each eligible choice is selected in some normal frame that has the same entries for
categories `0..d-1`. -/
theorem mutually_exclusive_selection (file : etsl_file) (d : Nat) (cat : etsl_category)
    (hcat : file.categories[d]? = some cat) :
    (cat.mutually_exclusive = true →
      (∀ (num1 num2 : Int) (s1 s2 : List category_choice_state),
        (⟨num1, .normal s1⟩ : frame) ∈ write_tsl_frames file →
        (⟨num2, .normal s2⟩ : frame) ∈ write_tsl_frames file →
        (∀ j, j < d →
          s1[j]?.map (fun st => st.selected) = s2[j]?.map (fun st => st.selected)) →
        s1[d]?.map (fun st => st.selected) = s2[d]?.map (fun st => st.selected)) ∧
      (∀ (num : Int) (s : List category_choice_state) (st : category_choice_state),
        (⟨num, .normal s⟩ : frame) ∈ write_tsl_frames file → s[d]? = some st →
        (st.selected = -1 ∧ ∀ ch ∈ cat.choices, ¬ eligible (prop_map (s.take d)) ch) ∨
        ∃ (i : Nat) (ch : etsl_choice), st.selected = (i : Int) ∧
          cat.choices[i]? = some ch ∧ eligible (prop_map (s.take d)) ch ∧
          ∀ (j : Nat) (ch' : etsl_choice), j < i → cat.choices[j]? = some ch' →
            ¬ eligible (prop_map (s.take d)) ch')) ∧
    (cat.mutually_exclusive = false →
      ∀ (num : Int) (s : List category_choice_state),
        (⟨num, .normal s⟩ : frame) ∈ write_tsl_frames file →
        ∀ (i : Nat) (ch : etsl_choice), cat.choices[i]? = some ch →
          eligible (prop_map (s.take d)) ch →
          ∃ (num' : Int) (s' : List category_choice_state),
            (⟨num', .normal s'⟩ : frame) ∈ write_tsl_frames file ∧
            s'.take d = s.take d ∧
            s'[d]?.map (fun st => st.selected) = some (i : Int)) := by
  obtain ⟨hd, -⟩ := List.getElem?_eq_some.1 hcat
  have hsecond : cat.mutually_exclusive = true →
      ∀ (num : Int) (s : List category_choice_state) (st : category_choice_state),
        (⟨num, .normal s⟩ : frame) ∈ write_tsl_frames file → s[d]? = some st →
        (st.selected = -1 ∧ ∀ ch ∈ cat.choices, ¬ eligible (prop_map (s.take d)) ch) ∨
        ∃ (i : Nat) (ch : etsl_choice), st.selected = (i : Int) ∧
          cat.choices[i]? = some ch ∧ eligible (prop_map (s.take d)) ch ∧
          ∀ (j : Nat) (ch' : etsl_choice), j < i → cat.choices[j]? = some ch' →
            ¬ eligible (prop_map (s.take d)) ch' := by
    intro hme num s st hf hst
    have he := (frame_entry hf).2 d cat st hcat hst
    rw [mem_level_entries] at he
    rcases he with ⟨rfl, hall⟩ | ⟨i, ch, p, h1, h2, rfl, h4⟩
    · exact Or.inl ⟨rfl, fun ch hch => (branch_props_eq_none_iff _ ch).1 (hall ch hch)⟩
    · exact Or.inr ⟨i, ch, rfl, h1, eligible_of_branch_props h2, fun j ch' hj hj' =>
        (branch_props_eq_none_iff _ ch').1 (h4 hme j ch' hj hj')⟩
  refine ⟨fun hme => ⟨?_, hsecond hme⟩, ?_⟩
  · intro num1 num2 s1 s2 hf1 hf2 hsel
    have hpre := take_eq_of_selected_eq hf1 hf2 d (by omega) hsel
    have hd1 : d < s1.length := by rw [(frame_entry hf1).1]; exact hd
    have hd2 : d < s2.length := by rw [(frame_entry hf2).1]; exact hd
    have hg1 : s1[d]? = some s1[d] := List.getElem?_eq_getElem hd1
    have hg2 : s2[d]? = some s2[d] := List.getElem?_eq_getElem hd2
    rw [hg1, hg2]
    simp only [Option.map_some', Option.some.injEq]
    rcases hsecond hme num1 s1 _ hf1 hg1 with ⟨a1, b1⟩ | ⟨i1, ch1, a1, b1, c1, d1⟩ <;>
      rcases hsecond hme num2 s2 _ hf2 hg2 with ⟨a2, b2⟩ | ⟨i2, ch2, a2, b2, c2, d2⟩
    · rw [a1, a2]
    · rw [hpre] at b1
      exact absurd c2 (b1 ch2 (List.getElem?_mem b2))
    · rw [← hpre] at b2
      exact absurd c1 (b2 ch1 (List.getElem?_mem b1))
    · rw [a1, a2]
      rw [← hpre] at c2 d2
      rcases Nat.lt_trichotomy i1 i2 with hlt | heq | hgt
      · exact absurd c1 (d2 i1 ch1 hlt b1)
      · rw [heq]
      · exact absurd c2 (d1 i2 ch2 hgt b2)
  · intro hme num s hf i ch hch hel
    obtain ⟨p, hp⟩ := branch_props_of_eligible hel
    have he : ({ selected := (i : Int), props := some p } : category_choice_state) ∈
        level_entries cat (s.take d) := by
      rw [mem_level_entries]
      exact Or.inr ⟨i, ch, p, hch, hp, rfl, fun h => by simp [hme] at h⟩
    obtain ⟨num', s', hf', h1, h2⟩ := exists_frame_extending hf hcat he
    exact ⟨num', s', hf', h1, by simp [h2]⟩

/-! ## The order of the frames and the automatic properties -/

theorem map_num_number_from : ∀ (bs : List frame_body) (n : Int),
    (number_from n bs).map (fun f => f.num) =
      (List.range' 1 bs.length).map (fun k => advance n k)
  | [], n => rfl
  | b :: bs, n => by
    have ih := map_num_number_from bs (int_wrap (n + 1))
    rw [number_from, List.map_cons, ih, List.length_cons, List.range'_succ, List.map_cons,
      List.range'_eq_map_range, List.range'_eq_map_range]
    simp only [List.map_map, advance, List.cons.injEq, true_and]
    apply List.map_congr_left
    intro k _
    show advance (int_wrap (n + 1)) (1 + k) = advance n (1 + 1 + k)
    have h : 1 + 1 + k = (1 + k) + 1 := by omega
    rw [h, advance]

theorem number_of_frame {file : etsl_file} {k : Nat} {f : frame}
    (h : (write_tsl_frames file)[k]? = some f) : f.num = int_wrap ((k : Int) + 1) := by
  rw [write_tsl_frames_eq] at h
  rw [num_number_from _ 0 k f h, advance_zero]
  rfl

theorem length_normal_stacks_replicate (cat : etsl_category) (entries : List category_choice_state)
    (h : ∀ state_stack, level_entries cat state_stack = entries) :
    ∀ (n : Nat) (state_stack : List category_choice_state),
      (normal_stacks (List.replicate n cat) state_stack).length = entries.length ^ n
  | 0, _ => rfl
  | n + 1, state_stack => by
    rw [List.replicate_succ, normal_stacks, h, List.length_flatMap]
    have hc : ∀ e ∈ entries,
        (normal_stacks (List.replicate n cat) (state_stack ++ [e])).length =
          entries.length ^ n :=
      fun e _ => length_normal_stacks_replicate cat entries h n _
    have hmap : List.map
        (List.length ∘ fun e => normal_stacks (List.replicate n cat) (state_stack ++ [e]))
        entries = List.map (fun _ => entries.length ^ n) entries :=
      List.map_congr_left (fun e he => hc e he)
    rw [hmap]
    simp [pow_succ, Nat.mul_comm]

/-- C6, as the code has it: the frames written for a document are the single frames
written by `write_single_frames` followed by normal frames only. The single frames are,
category by category and choice by choice, one frame for `single_str`, one for
`if_single_str` and one for `else_single_str`, each only when the string is not empty, so
at most three for a choice. The heading of the k-th frame of the output carries the value
of the 32-bit counter after k increments, which is k for every k below 2147483648: the
numbers are `1, 2, 3, ...` through both phases as long as the counter has not overflowed. -/
theorem frames_order_and_numbers (file : etsl_file) :
    (∃ phase_b : List frame,
      write_tsl_frames file = (write_single_frames file {}).os_ ++ phase_b ∧
      (∀ f ∈ phase_b, ∃ state_stack, f.body = .normal state_stack)) ∧
    (write_single_frames file {}).os_.map (fun f => f.body) =
      file.categories.flatMap (fun cat => cat.choices.flatMap (fun ch =>
        (if ch.single_str = "" then [] else [.single ch.single_str "" cat.name ch.name]) ++
        (if ch.if_single_str = "" then []
          else [.single ch.if_single_str "if" cat.name ch.name]) ++
        (if ch.else_single_str = "" then []
          else [.single ch.else_single_str "else" cat.name ch.name]))) ∧
    (∀ (cat : etsl_category) (ch : etsl_choice),
      (write_single_frames_choice cat {} ch).os_.length ≤ 3) ∧
    (write_tsl_frames file).map (fun f => f.num) =
      (List.range' 1 (write_tsl_frames file).length).map (fun (k : Nat) => int_wrap (k : Int)) ∧
    (∀ (k : Nat) (f : frame), (write_tsl_frames file)[k]? = some f → k + 1 < 2147483648 →
      f.num = (k : Int) + 1) ∧
    ((write_tsl_frames file).length < 2147483648 →
      (write_tsl_frames file).map (fun f => f.num) =
        (List.range' 1 (write_tsl_frames file).length).map (fun (k : Nat) => (k : Int))) := by
  have hnum : (write_tsl_frames file).map (fun f => f.num) =
      (List.range' 1 (write_tsl_frames file).length).map (fun (k : Nat) => int_wrap (k : Int)) := by
    rw [write_tsl_frames_eq, map_num_number_from, length_number_from]
    exact List.map_congr_left (fun k _ => advance_zero k)
  refine ⟨⟨number_from (advance 0 (single_bodies file).length)
      ((normal_stacks file.categories []).map frame_body.normal), ?_, ?_⟩, ?_, ?_, hnum, ?_, ?_⟩
  · rw [write_tsl_frames_eq, write_single_frames_eq, number_from_append]
    simp
  · intro f hf
    have : f.body ∈ (number_from (advance 0 (single_bodies file).length)
        ((normal_stacks file.categories []).map frame_body.normal)).map (fun f => f.body) :=
      List.mem_map.2 ⟨f, hf, rfl⟩
    rw [map_body_number_from] at this
    obtain ⟨s, -, hs⟩ := List.mem_map.1 this
    exact ⟨s, hs.symm⟩
  · rw [write_single_frames_eq]
    simp only [List.nil_append, map_body_number_from]
    rfl
  · intro cat ch
    rw [write_single_frames_choice_eq]
    simp only [List.nil_append, length_number_from, choice_single_bodies, List.length_append]
    split_ifs <;> simp
  · intro k f h hk
    rw [number_of_frame h]
    exact int_wrap_of_lt (by omega) (by omega)
  · intro hlen
    rw [hnum]
    apply List.map_congr_left
    intro k hk
    rw [List.mem_range'_1] at hk
    exact int_wrap_of_lt (by omega) (by omega)

/-- Witness for C6: the first frame of the sample document carries the number 1. -/
theorem frames_order_and_numbers_witness :
    (⟨1, .single "single" "" "Mode" "fast"⟩ : frame).num = ((0 : Nat) : Int) + 1 :=
  (frames_order_and_numbers sample_file).2.2.2.2.1 0 _ (by decide) (by decide)

set_option maxRecDepth 1000000 in
theorem etsl_tokenize_overflow : etsl_tokenize overflow_text = overflow_tokens := by decide

set_option maxRecDepth 1000000 in
theorem etsl_parse_overflow : etsl_parse overflow_tokens = .ok overflow_file := by decide

set_option maxRecDepth 1000000 in
theorem length_overflow_text : overflow_text.length = 186 := by decide

/-- Counterexample for C6: the text `A:x.y.` written thirty-one times, 186 characters, is
accepted with a document of thirty-one categories of two choices each. This document has
2147483648 normal frames and no single frame, and the last of them, the 2147483648-th frame
of the output, does not carry the number 2147483648: the counter has overflowed, and in
two's complement its value is -2147483648. -/
theorem frame_number_overflows :
    overflow_text.length = 186 ∧
    etsl_tokenize overflow_text = overflow_tokens ∧
    etsl_parse overflow_tokens = .ok overflow_file ∧
    (write_tsl_frames overflow_file).length = 2147483648 ∧
    ∃ f : frame, (write_tsl_frames overflow_file)[2147483647]? = some f ∧
      f.num = -2147483648 ∧ f.num ≠ 2147483648 := by
  refine ⟨length_overflow_text, etsl_tokenize_overflow, etsl_parse_overflow, ?_⟩
  have hs : single_bodies overflow_file = [] := by decide
  have hl : (normal_stacks overflow_file.categories []).length = 2147483648 := by
    have h := length_normal_stacks_replicate overflow_A
      [{ selected := 0, props := some [":x", "A:x"] },
       { selected := 1, props := some [":y", "A:y"] }] (fun _ => rfl) 31 []
    rw [show overflow_file.categories = List.replicate 31 overflow_A from rfl, h]
    norm_num
  have hlen : (write_tsl_frames overflow_file).length = 2147483648 := by
    rw [write_tsl_frames_eq, length_number_from, hs, List.nil_append, List.length_map, hl]
  refine ⟨hlen, ?_⟩
  have hlt : 2147483647 < (write_tsl_frames overflow_file).length := by rw [hlen]; norm_num
  refine ⟨_, List.getElem?_eq_getElem hlt, ?_⟩
  have hn := number_of_frame (List.getElem?_eq_getElem hlt)
  rw [hn]
  decide

theorem mem_props_finalize (file : etsl_file) :
    ∀ cat ∈ (finalize file).categories, ∀ ch ∈ cat.choices,
      (cat.name ++ ":" ++ ch.name ∈ ch.if_props ∧ ":" ++ ch.name ∈ ch.if_props ∧
        cat.name ++ ":" ++ ch.name ∈ ch.else_props ∧ ":" ++ ch.name ∈ ch.else_props) ∧
      (ch.name = "true" → cat.name ∈ ch.if_props ∧ cat.name ∈ ch.else_props) := by
  intro cat hcat ch hch
  simp only [finalize, List.mem_map] at hcat
  obtain ⟨cat1, ⟨cat0, -, rfl⟩, rfl⟩ := hcat
  simp only [List.mem_map] at hch
  obtain ⟨ch1, ⟨ch0, -, rfl⟩, rfl⟩ := hch
  simp only [unique_sort_choice, mem_unique_sort]
  unfold add_automatic_properties
  by_cases ht : ch0.name = "true"
  · simp [ht]
  · simp [ht]

/-- C8: in the document returned by a successful `etsl_parse`, `if_props` and `else_props`
of a choice named `X` of a category named `C` both contain `C:X` and `:X`, and also `C`
when `X` is `true`; hence in every normal frame in which that choice is the selection of
its category `d`, the lookup `prop_map` of every later level `l` is true for `C:X` and
`:X`, and for `C` when `X` is `true`. -/
theorem automatic_properties (tokens : List etsl_token) (file : etsl_file)
    (h : etsl_parse tokens = .ok file) :
    (∀ cat ∈ file.categories, ∀ ch ∈ cat.choices,
      (cat.name ++ ":" ++ ch.name ∈ ch.if_props ∧ ":" ++ ch.name ∈ ch.if_props ∧
        cat.name ++ ":" ++ ch.name ∈ ch.else_props ∧ ":" ++ ch.name ∈ ch.else_props) ∧
      (ch.name = "true" → cat.name ∈ ch.if_props ∧ cat.name ∈ ch.else_props)) ∧
    (∀ (num : Int) (state_stack : List category_choice_state),
      (⟨num, .normal state_stack⟩ : frame) ∈ write_tsl_frames file →
      ∀ (d : Nat) (cat : etsl_category) (st : category_choice_state) (i : Nat)
        (ch : etsl_choice),
      file.categories[d]? = some cat → state_stack[d]? = some st →
      st.selected = (i : Int) → cat.choices[i]? = some ch →
      ∀ l : Nat, d < l →
        prop_map (state_stack.take l) (cat.name ++ ":" ++ ch.name) = true ∧
        prop_map (state_stack.take l) (":" ++ ch.name) = true ∧
        (ch.name = "true" → prop_map (state_stack.take l) cat.name = true)) := by
  have hsorted := props_sorted_etsl_parse h
  have hmem : ∀ cat ∈ file.categories, ∀ ch ∈ cat.choices,
      (cat.name ++ ":" ++ ch.name ∈ ch.if_props ∧ ":" ++ ch.name ∈ ch.if_props ∧
        cat.name ++ ":" ++ ch.name ∈ ch.else_props ∧ ":" ++ ch.name ∈ ch.else_props) ∧
      (ch.name = "true" → cat.name ∈ ch.if_props ∧ cat.name ∈ ch.else_props) := by
    obtain ⟨p, rfl⟩ := etsl_parse_eq_finalize h
    exact mem_props_finalize _
  refine ⟨hmem, ?_⟩
  intro num state_stack hf d cat st i ch hcat hst hsel hch l hl
  have he := (frame_entry hf).2 d cat st hcat hst
  rw [mem_level_entries] at he
  rcases he with ⟨rfl, -⟩ | ⟨k, ch', p, h1, h2, rfl, -⟩
  · simp only at hsel; omega
  · have hki : k = i := by simpa using hsel
    subst hki
    rw [hch] at h1
    injection h1 with h1
    subst h1
    obtain ⟨⟨m1, m2, m3, m4⟩, m5⟩ := hmem cat (List.getElem?_mem hcat) ch (List.getElem?_mem hch)
    have hp : p = ch.if_props ∨ p = ch.else_props := by
      rw [branch_props_eq_some_iff] at h2
      rcases h2 with ⟨-, -, h⟩ | ⟨-, -, -, -, h⟩ | ⟨-, -, -, -, -, h⟩
      · exact Or.inl h
      · exact Or.inl h
      · exact Or.inr h
    have hin : ({ selected := (k : Int), props := some p } : category_choice_state) ∈
        state_stack.take l := by
      apply List.getElem?_mem (n := d)
      rw [List.getElem?_take_of_lt hl]
      exact hst
    have hlook : ∀ s : String, s ∈ p → prop_map (state_stack.take l) s = true := by
      intro s hs
      rw [frame_prop_map_eq_mem_lookup hsorted hf l]
      simp only [mem_lookup, List.any_eq_true]
      exact ⟨_, hin, by simpa using hs⟩
    rcases hp with rfl | rfl
    · exact ⟨hlook _ m1, hlook _ m2, fun ht => hlook _ (m5 ht).1⟩
    · exact ⟨hlook _ m3, hlook _ m4, fun ht => hlook _ (m5 ht).2⟩

/-! ## The theorems on the example documents -/

/-- The choice `fast` of `sample_file`, which is marked `single`, is not the selection of
the category `Mode` in the first normal frame. -/
theorem single_choice_never_selected_witness :
    ({ selected := -1, props := none } : category_choice_state).selected ≠ ((1 : Nat) : Int) :=
  single_choice_never_selected sample_file 2 sample_stack_1
    (by rw [write_tsl_frames_sample]; decide) 1 sample_Mode { selected := -1, props := none }
    (by decide) (by decide) 1 sample_fast (by decide) (by decide)

/-- In `sample_file` the category `Size` is not mutually exclusive, and its eligible choice
`large` is selected in a normal frame; the category `Result` is mutually exclusive, and in
the second normal frame its selection is its first eligible choice or not-applicable. -/
theorem mutually_exclusive_selection_witness :
    (∃ (num' : Int) (s' : List category_choice_state),
      (⟨num', .normal s'⟩ : frame) ∈ write_tsl_frames sample_file ∧
      s'.take 0 = sample_stack_1.take 0 ∧
      s'[0]?.map (fun st => st.selected) = some ((1 : Nat) : Int)) ∧
    ((({ selected := 0, props := some [":ok", "Result:ok"] } :
          category_choice_state).selected = -1 ∧
        ∀ ch ∈ sample_Result.choices, ¬ eligible (prop_map (sample_stack_2.take 2)) ch) ∨
      ∃ (i : Nat) (ch : etsl_choice),
        ({ selected := 0, props := some [":ok", "Result:ok"] } :
          category_choice_state).selected = (i : Int) ∧
        sample_Result.choices[i]? = some ch ∧
        eligible (prop_map (sample_stack_2.take 2)) ch ∧
        ∀ (j : Nat) (ch' : etsl_choice), j < i → sample_Result.choices[j]? = some ch' →
          ¬ eligible (prop_map (sample_stack_2.take 2)) ch') :=
  ⟨(mutually_exclusive_selection sample_file 0 sample_Size (by decide)).2 (by decide) 2
      sample_stack_1 (by rw [write_tsl_frames_sample]; decide) 1 sample_large (by decide)
      (by decide),
   ((mutually_exclusive_selection sample_file 2 sample_Result (by decide)).1 (by decide)).2 3
      sample_stack_2 { selected := 0, props := some [":ok", "Result:ok"] }
      (by rw [write_tsl_frames_sample]; decide) (by decide)⟩

/-- The property sets of the choice `large` of the document of `sample_tokens` are sorted. -/
theorem etsl_parse_props_sorted_witness :
    sample_large.if_props.Pairwise (fun a b => string_lt a b = true) ∧
    sample_large.else_props.Pairwise (fun a b => string_lt a b = true) ∧
    sample_large.if_props.Nodup ∧ sample_large.else_props.Nodup ∧
    (∀ s : String, binary_search sample_large.if_props s =
      decide (s ∈ sample_large.if_props)) ∧
    (∀ s : String, binary_search sample_large.else_props s =
      decide (s ∈ sample_large.else_props)) :=
  etsl_parse_props_sorted sample_tokens sample_file etsl_parse_sample sample_Size (by decide)
    sample_large (by decide)

/-- In the second normal frame of `sample_file` the choice `true` of `Mode` is selected, and
the lookup of the level of `Result` is true for `Mode:true`, `:true` and `Mode`. -/
theorem automatic_properties_witness :
    prop_map (sample_stack_2.take 2) (sample_Mode.name ++ ":" ++ sample_true.name) = true ∧
    prop_map (sample_stack_2.take 2) (":" ++ sample_true.name) = true ∧
    (sample_true.name = "true" → prop_map (sample_stack_2.take 2) sample_Mode.name = true) :=
  (automatic_properties sample_tokens sample_file etsl_parse_sample).2 3 sample_stack_2
    (by rw [write_tsl_frames_sample]; decide) 1 sample_Mode
    { selected := 0, props := some [":true", "Mode", "Mode:true"] } 0 sample_true
    (by decide) (by decide) (by decide) (by decide) 2 (by decide)

/-! ## The predicate parser and the grammar -/

/-- C11: sub-tokenizing the attribute text `if a && (b || !c)` gives the keyword `if` and
the sub-tokens `a && ( b || ! c )`; parsing the sub-tokens after `if` yields the tree
`and(a, or(b, not(c)))`; and the evaluation of this tree is `a && (b || !c)` for every
lookup, hence for the eight assignments of `a`, `b`, `c`; it is false for `a` true, `b`
false, `c` true. -/
theorem parse_nested_example :
    (∀ (kind : token_kind) (line_num col_num : Nat),
      etsl_attr_subtokenize
        { kind := kind, str := "if a && (b || !c)", line_num := line_num, col_num := col_num } =
        .ok ["if", "a", "&&", "(", "b", "||", "!", "c", ")"]) ∧
    etsl_predicate.parse ["a", "&&", "(", "b", "||", "!", "c", ")"] =
      .ok { expr_ := some nested_tree } ∧
    (∀ prop_map : String → Bool, etsl_predicate.call { expr_ := some nested_tree } prop_map =
      (prop_map "a" && (prop_map "b" || !prop_map "c"))) ∧
    (∀ va vb vc : Bool,
      etsl_predicate.call { expr_ := some nested_tree } (assignment va vb vc) =
        (va && (vb || !vc))) ∧
    etsl_predicate.call { expr_ := some nested_tree } (assignment true false true) = false := by
  refine ⟨fun _ _ _ => rfl, by decide, fun _ => rfl, ?_, by decide⟩
  intro va vb vc
  cases va <;> cases vb <;> cases vc <;> decide

theorem parse_prop_error (toks : List String) (e : etsl_exception) :
    parse_prop toks ≠ .error e := by
  cases toks with
  | nil => simp [parse_prop]
  | cons t rest =>
    simp only [parse_prop]
    split_ifs <;> simp

/-- The parsing functions throw nothing but `etsl_invalid_predicate_error`. -/
theorem parse_error_kind : ∀ n : Nat,
    (∀ (toks : List String) (e : etsl_exception), parse_primary n toks = .error e →
      e = .fuel_exhausted ∨ ∃ what, e = .etsl_invalid_predicate_error what) ∧
    (∀ (term : expression) (toks : List String) (e : etsl_exception),
      parse_term_loop n term toks = .error e →
      e = .fuel_exhausted ∨ ∃ what, e = .etsl_invalid_predicate_error what) ∧
    (∀ (toks : List String) (e : etsl_exception), parse_term n toks = .error e →
      e = .fuel_exhausted ∨ ∃ what, e = .etsl_invalid_predicate_error what) ∧
    (∀ (expr : expression) (toks : List String) (e : etsl_exception),
      parse_expr_loop n expr toks = .error e →
      e = .fuel_exhausted ∨ ∃ what, e = .etsl_invalid_predicate_error what) ∧
    (∀ (toks : List String) (e : etsl_exception), parse_expr n toks = .error e →
      e = .fuel_exhausted ∨ ∃ what, e = .etsl_invalid_predicate_error what) := by
  intro n
  induction n with
  | zero =>
    refine ⟨?_, ?_, ?_, ?_, ?_⟩ <;> intros <;>
      simp_all [parse_primary, parse_term_loop, parse_term, parse_expr_loop, parse_expr]
  | succ n ih =>
    obtain ⟨ihp, ihtl, iht, ihel, ihe⟩ := ih
    refine ⟨?_, ?_, ?_, ?_, ?_⟩
    · intro toks e h
      cases toks with
      | nil => exact absurd h (parse_prop_error [] e)
      | cons t rest =>
        rw [parse_primary_succ] at h
        split_ifs at h
        · cases hs : parse_primary n rest with
          | error e' =>
            rw [hs] at h
            simp only [Except.error.injEq] at h
            exact h ▸ ihp rest e' hs
          | ok v =>
            obtain ⟨o, r⟩ := v
            rw [hs] at h
            cases o <;> simp at h
            exact Or.inr ⟨_, h.symm⟩
        · cases hs : parse_expr n rest with
          | error e' =>
            rw [hs] at h
            simp only [Except.error.injEq] at h
            exact h ▸ ihe rest e' hs
          | ok v =>
            obtain ⟨o, r⟩ := v
            rw [hs] at h
            cases o with
            | none => simp at h; exact Or.inr ⟨_, h.symm⟩
            | some x =>
              cases r with
              | nil => simp at h; exact Or.inr ⟨_, h.symm⟩
              | cons t' r' =>
                simp only at h
                split_ifs at h
                simp at h
                exact Or.inr ⟨_, h.symm⟩
        · exact absurd h (parse_prop_error _ e)
    · intro term toks e h
      cases toks with
      | nil => simp [parse_term_loop] at h
      | cons t rest =>
        rw [parse_term_loop_succ] at h
        split_ifs at h
        cases hs : parse_primary n rest with
        | error e' =>
          rw [hs] at h
          simp only [Except.error.injEq] at h
          exact h ▸ ihp rest e' hs
        | ok v =>
          obtain ⟨o, r⟩ := v
          rw [hs] at h
          cases o with
          | none => simp at h; exact Or.inr ⟨_, h.symm⟩
          | some x => exact ihtl _ _ e h
    · intro toks e h
      rw [parse_term_succ] at h
      cases hs : parse_primary n toks with
      | error e' =>
        rw [hs] at h
        simp only [Except.error.injEq] at h
        exact h ▸ ihp toks e' hs
      | ok v =>
        obtain ⟨o, r⟩ := v
        rw [hs] at h
        cases o with
        | none => simp at h
        | some x => exact ihtl _ _ e h
    · intro expr toks e h
      cases toks with
      | nil => simp [parse_expr_loop] at h
      | cons t rest =>
        rw [parse_expr_loop_succ] at h
        split_ifs at h
        cases hs : parse_term n rest with
        | error e' =>
          rw [hs] at h
          simp only [Except.error.injEq] at h
          exact h ▸ iht rest e' hs
        | ok v =>
          obtain ⟨o, r⟩ := v
          rw [hs] at h
          cases o with
          | none => simp at h; exact Or.inr ⟨_, h.symm⟩
          | some x => exact ihel _ _ e h
    · intro toks e h
      rw [parse_expr_succ] at h
      cases hs : parse_term n toks with
      | error e' =>
        rw [hs] at h
        simp only [Except.error.injEq] at h
        exact h ▸ iht toks e' hs
      | ok v =>
        obtain ⟨o, r⟩ := v
        rw [hs] at h
        cases o with
        | none => simp at h
        | some x => exact ihel _ _ e h

/-- The function `etsl_predicate.parse` throws nothing but `etsl_invalid_predicate_error`. -/
theorem parse_error_invalid_predicate {toks : List String} {e : etsl_exception}
    (h : etsl_predicate.parse toks = .error e) :
    ∃ what, e = .etsl_invalid_predicate_error what := by
  have hfa := parse_fuel_adequate toks
  rw [h] at hfa
  unfold etsl_predicate.parse at h
  cases hs : parse_expr (parse_fuel toks) toks with
  | error e' =>
    rw [hs] at h
    simp only [Except.error.injEq] at h
    subst h
    rcases (parse_error_kind _).2.2.2.2 toks e' hs with h1 | h1
    · subst h1; exact absurd rfl hfa
    · exact h1
  | ok v =>
    obtain ⟨o, r⟩ := v
    rw [hs] at h
    cases o with
    | none => simp at h; exact ⟨_, h.symm⟩
    | some x => simp at h

/-- What the parsing functions return on success is derived by the grammar from the
sub-tokens that they consume. -/
theorem parse_sound : ∀ n : Nat,
    (∀ (toks : List String) (e : expression) (rest : List String),
      parse_primary n toks = .ok (some e, rest) →
      ∃ pre, toks = pre ++ rest ∧ derives .primary pre e) ∧
    (∀ (term : expression) (toks : List String) (e : expression) (rest : List String),
      parse_term_loop n term toks = .ok (some e, rest) →
      ∀ pre0, derives .term pre0 term →
      ∃ pre, toks = pre ++ rest ∧ derives .term (pre0 ++ pre) e) ∧
    (∀ (toks : List String) (e : expression) (rest : List String),
      parse_term n toks = .ok (some e, rest) →
      ∃ pre, toks = pre ++ rest ∧ derives .term pre e) ∧
    (∀ (expr : expression) (toks : List String) (e : expression) (rest : List String),
      parse_expr_loop n expr toks = .ok (some e, rest) →
      ∀ pre0, derives .expr pre0 expr →
      ∃ pre, toks = pre ++ rest ∧ derives .expr (pre0 ++ pre) e) ∧
    (∀ (toks : List String) (e : expression) (rest : List String),
      parse_expr n toks = .ok (some e, rest) →
      ∃ pre, toks = pre ++ rest ∧ derives .expr pre e) := by
  intro n
  induction n with
  | zero =>
    refine ⟨?_, ?_, ?_, ?_, ?_⟩ <;> intros <;>
      simp_all [parse_primary, parse_term_loop, parse_term, parse_expr_loop, parse_expr]
  | succ n ih =>
    obtain ⟨ihp, ihtl, iht, ihel, ihe⟩ := ih
    refine ⟨?_, ?_, ?_, ?_, ?_⟩
    · intro toks e rest h
      cases toks with
      | nil => simp [parse_primary, parse_prop] at h
      | cons t rest0 =>
        rw [parse_primary_succ] at h
        split_ifs at h with h1 h2
        · cases hs : parse_primary n rest0 with
          | error e' => rw [hs] at h; simp at h
          | ok v =>
            obtain ⟨o, r⟩ := v
            rw [hs] at h
            cases o with
            | none => simp at h
            | some operand =>
              simp only [Except.ok.injEq, Prod.mk.injEq, Option.some.injEq] at h
              obtain ⟨he, hr⟩ := h
              subst he hr h1
              obtain ⟨pre, hpre, hd⟩ := ihp rest0 operand r hs
              exact ⟨"!" :: pre, by rw [hpre]; rfl, derives.not pre operand hd⟩
        · cases hs : parse_expr n rest0 with
          | error e' => rw [hs] at h; simp at h
          | ok v =>
            obtain ⟨o, r⟩ := v
            rw [hs] at h
            cases o with
            | none => simp at h
            | some x =>
              cases r with
              | nil => simp at h
              | cons t' r' =>
                simp only at h
                split_ifs at h with h3
                simp only [Except.ok.injEq, Prod.mk.injEq, Option.some.injEq] at h
                obtain ⟨he, hr⟩ := h
                subst he hr h2 h3
                obtain ⟨pre, hpre, hd⟩ := ihe rest0 x _ hs
                exact ⟨"(" :: (pre ++ [")"]), by rw [hpre]; simp, derives.paren pre x hd⟩
        · simp only [parse_prop] at h
          split_ifs at h with h3
          · simp only [Except.ok.injEq, Prod.mk.injEq, Option.some.injEq] at h
            obtain ⟨he, hr⟩ := h
            subst he hr
            exact ⟨[t], rfl, derives.prop t h3⟩
          · simp at h
    · intro term toks e rest h pre0 hd0
      cases toks with
      | nil =>
        simp only [parse_term_loop, Except.ok.injEq, Prod.mk.injEq, Option.some.injEq] at h
        obtain ⟨he, hr⟩ := h
        subst he hr
        exact ⟨[], rfl, by simpa using hd0⟩
      | cons t rest0 =>
        rw [parse_term_loop_succ] at h
        split_ifs at h with h1
        · cases hs : parse_primary n rest0 with
          | error e' => rw [hs] at h; simp at h
          | ok v =>
            obtain ⟨o, r⟩ := v
            rw [hs] at h
            cases o with
            | none => simp at h
            | some rhs =>
              simp only at h
              subst h1
              obtain ⟨pre1, hpre1, hd1⟩ := ihp rest0 rhs r hs
              obtain ⟨pre2, hpre2, hd2⟩ := ihtl _ r e rest h (pre0 ++ "&&" :: pre1)
                (derives.and pre0 pre1 term rhs hd0 hd1)
              refine ⟨"&&" :: (pre1 ++ pre2), by rw [hpre1, hpre2]; simp, ?_⟩
              simpa using hd2
        · simp only [Except.ok.injEq, Prod.mk.injEq, Option.some.injEq] at h
          obtain ⟨he, hr⟩ := h
          subst he hr
          exact ⟨[], rfl, by simpa using hd0⟩
    · intro toks e rest h
      rw [parse_term_succ] at h
      cases hs : parse_primary n toks with
      | error e' => rw [hs] at h; simp at h
      | ok v =>
        obtain ⟨o, r⟩ := v
        rw [hs] at h
        cases o with
        | none => simp at h
        | some t1 =>
          simp only at h
          obtain ⟨pre1, hpre1, hd1⟩ := ihp toks t1 r hs
          obtain ⟨pre2, hpre2, hd2⟩ := ihtl t1 r e rest h pre1 (derives.primary pre1 t1 hd1)
          exact ⟨pre1 ++ pre2, by rw [hpre1, hpre2]; simp, hd2⟩
    · intro expr toks e rest h pre0 hd0
      cases toks with
      | nil =>
        simp only [parse_expr_loop, Except.ok.injEq, Prod.mk.injEq, Option.some.injEq] at h
        obtain ⟨he, hr⟩ := h
        subst he hr
        exact ⟨[], rfl, by simpa using hd0⟩
      | cons t rest0 =>
        rw [parse_expr_loop_succ] at h
        split_ifs at h with h1
        · cases hs : parse_term n rest0 with
          | error e' => rw [hs] at h; simp at h
          | ok v =>
            obtain ⟨o, r⟩ := v
            rw [hs] at h
            cases o with
            | none => simp at h
            | some rhs =>
              simp only at h
              subst h1
              obtain ⟨pre1, hpre1, hd1⟩ := iht rest0 rhs r hs
              obtain ⟨pre2, hpre2, hd2⟩ := ihel _ r e rest h (pre0 ++ "||" :: pre1)
                (derives.or pre0 pre1 expr rhs hd0 hd1)
              refine ⟨"||" :: (pre1 ++ pre2), by rw [hpre1, hpre2]; simp, ?_⟩
              simpa using hd2
        · simp only [Except.ok.injEq, Prod.mk.injEq, Option.some.injEq] at h
          obtain ⟨he, hr⟩ := h
          subst he hr
          exact ⟨[], rfl, by simpa using hd0⟩
    · intro toks e rest h
      rw [parse_expr_succ] at h
      cases hs : parse_term n toks with
      | error e' => rw [hs] at h; simp at h
      | ok v =>
        obtain ⟨o, r⟩ := v
        rw [hs] at h
        cases o with
        | none => simp at h
        | some t1 =>
          simp only at h
          obtain ⟨pre1, hpre1, hd1⟩ := iht toks t1 r hs
          obtain ⟨pre2, hpre2, hd2⟩ := ihel t1 r e rest h pre1 (derives.term pre1 t1 hd1)
          exact ⟨pre1 ++ pre2, by rw [hpre1, hpre2]; simp, hd2⟩

theorem parse_primary_no_operand (n : Nat) {toks : List String} (h : no_operand toks) :
    parse_primary (n + 1) toks = .ok (none, toks) := by
  cases toks with
  | nil => rfl
  | cons t rest =>
    obtain ⟨h1, h2, h3⟩ := h
    rw [parse_primary_succ, if_neg h1, if_neg h2]
    simp [parse_prop, h3]

theorem parse_primary_prop_name (n : Nat) {a : String} (rest : List String)
    (h : is_prop_name a = true) :
    parse_primary (n + 1) (a :: rest) = .ok (some (.kind_prop a), rest) := by
  obtain ⟨h1, h2, -⟩ := is_prop_name_ne_operator h
  rw [parse_primary_succ, if_neg h1, if_neg h2]
  simp [parse_prop, h]

theorem derives_open_paren {nt : nonterminal} {pre : List String} {e : expression}
    (h : derives nt pre e) : pre ≠ [] ∧ ∀ l, pre = "(" :: l → ")" ∈ l := by
  induction h with
  | prop t ht =>
    refine ⟨by simp, ?_⟩
    intro l hl
    simp only [List.cons.injEq] at hl
    exact absurd hl.1 (is_prop_name_ne_operator ht).2.1
  | not l e _ _ =>
    refine ⟨by simp, ?_⟩
    intro l' hl
    simp only [List.cons.injEq] at hl
    exact absurd hl.1 (by decide)
  | paren l e _ _ =>
    refine ⟨by simp, ?_⟩
    intro l' hl
    simp only [List.cons.injEq, true_and] at hl
    rw [← hl]
    simp
  | primary l e _ ih => exact ih
  | and l r e f _ _ ih1 _ =>
    refine ⟨by simp, ?_⟩
    intro l' hl
    cases l with
    | nil => exact absurd rfl ih1.1
    | cons t l1 =>
      simp only [List.cons_append, List.cons.injEq] at hl
      obtain ⟨ht, hl⟩ := hl
      subst ht
      rw [← hl]
      exact List.mem_append_left _ (ih1.2 l1 rfl)
  | term l e _ ih => exact ih
  | or l r e f _ _ ih1 _ =>
    refine ⟨by simp, ?_⟩
    intro l' hl
    cases l with
    | nil => exact absurd rfl ih1.1
    | cons t l1 =>
      simp only [List.cons_append, List.cons.injEq] at hl
      obtain ⟨ht, hl⟩ := hl
      subst ht
      rw [← hl]
      exact List.mem_append_left _ (ih1.2 l1 rfl)

theorem parse_ok_prefix_derived {toks : List String} {pred : etsl_predicate}
    (h : etsl_predicate.parse toks = .ok pred) :
    ∃ (e : expression) (pre rest : List String),
      pred = { expr_ := some e } ∧ toks = pre ++ rest ∧ derives .expr pre e := by
  unfold etsl_predicate.parse at h
  cases hs : parse_expr (parse_fuel toks) toks with
  | error e' => rw [hs] at h; simp at h
  | ok v =>
    obtain ⟨o, r⟩ := v
    rw [hs] at h
    cases o with
    | none => simp at h
    | some e =>
      simp only [Except.ok.injEq] at h
      obtain ⟨pre, hpre, hd⟩ := (parse_sound _).2.2.2.2 toks e r hs
      exact ⟨e, pre, r, h.symm, hpre, hd⟩

theorem parse_error_or_prefix_derived (toks : List String) :
    (∃ what, etsl_predicate.parse toks = .error (.etsl_invalid_predicate_error what)) ∨
    ∃ (e : expression) (pre rest : List String),
      etsl_predicate.parse toks = .ok { expr_ := some e } ∧ toks = pre ++ rest ∧
      derives .expr pre e := by
  cases h : etsl_predicate.parse toks with
  | error e =>
    obtain ⟨what, rfl⟩ := parse_error_invalid_predicate h
    exact Or.inl ⟨what, rfl⟩
  | ok pred =>
    obtain ⟨e, pre, rest, rfl, h1, h2⟩ := parse_ok_prefix_derived h
    exact Or.inr ⟨e, pre, rest, rfl, h1, h2⟩

theorem parse_of_no_operand {toks : List String} (h : no_operand toks) :
    etsl_predicate.parse toks = .error (.etsl_invalid_predicate_error "invalid predicate") := by
  have hf : parse_fuel toks = 3 * toks.length + 2 + 1 := rfl
  rw [etsl_predicate.parse, hf, parse_expr_succ, parse_term_succ,
    parse_primary_no_operand _ h]

theorem parse_binary_no_operand {a : String} {rest : List String}
    (ha : is_prop_name a = true) (h : no_operand rest) :
    etsl_predicate.parse (a :: "&&" :: rest) =
      .error (.etsl_invalid_predicate_error "invalid operator &&") ∧
    etsl_predicate.parse (a :: "||" :: rest) =
      .error (.etsl_invalid_predicate_error "invalid operator ||") := by
  have hf1 : parse_fuel (a :: "&&" :: rest) = 3 * rest.length + 5 + 1 + 1 + 1 + 1 := by
    simp [parse_fuel]; omega
  have hf2 : parse_fuel (a :: "||" :: rest) = 3 * rest.length + 5 + 1 + 1 + 1 + 1 := by
    simp [parse_fuel]; omega
  constructor
  · rw [etsl_predicate.parse, hf1, parse_expr_succ, parse_term_succ,
      parse_primary_prop_name _ _ ha]
    simp only
    rw [parse_term_loop_succ, if_pos rfl, parse_primary_no_operand _ h]
  · rw [etsl_predicate.parse, hf2, parse_expr_succ, parse_term_succ,
      parse_primary_prop_name _ _ ha]
    simp only
    rw [parse_term_loop_succ, if_neg (by decide)]
    simp only
    rw [parse_expr_loop_succ, if_pos rfl, parse_term_succ, parse_primary_no_operand _ h]

theorem parse_not_no_operand {rest : List String} (h : no_operand rest) :
    etsl_predicate.parse ("!" :: rest) =
      .error (.etsl_invalid_predicate_error "invalid operator !") := by
  have hf : parse_fuel ("!" :: rest) = 3 * rest.length + 2 + 1 + 1 + 1 + 1 := by
    simp [parse_fuel]; omega
  rw [etsl_predicate.parse, hf, parse_expr_succ, parse_term_succ, parse_primary_succ,
    if_pos rfl, parse_primary_no_operand _ h]

theorem parse_paren_unmatched {rest : List String} (h : ")" ∉ rest) :
    ∃ what, etsl_predicate.parse ("(" :: rest) =
      .error (.etsl_invalid_predicate_error what) := by
  cases hp : etsl_predicate.parse ("(" :: rest) with
  | error e =>
    obtain ⟨what, rfl⟩ := parse_error_invalid_predicate hp
    exact ⟨what, rfl⟩
  | ok pred =>
    obtain ⟨e, pre, rest', -, h1, h2⟩ := parse_ok_prefix_derived hp
    obtain ⟨hne, hparen⟩ := derives_open_paren h2
    cases pre with
    | nil => exact absurd rfl hne
    | cons t pre' =>
      simp only [List.cons_append, List.cons.injEq] at h1
      obtain ⟨ht, hrest⟩ := h1
      subst ht
      have := hparen pre' rfl
      exact absurd (hrest ▸ List.mem_append_left _ this) h

/-- The sub-token sequences `a ) (`, `a b &&`, `a b !` and `a ) && b` contain a `(`
without `)`, a `&&` without right operand, a `!` without operand and a `&&` without left
operand, and `etsl_predicate.parse` returns the tree of `a` on them. -/
theorem parse_ignores_trailing_operators :
    etsl_predicate.parse ["a", ")", "("] = .ok { expr_ := some (.kind_prop "a") } ∧
    etsl_predicate.parse ["a", "b", "&&"] = .ok { expr_ := some (.kind_prop "a") } ∧
    etsl_predicate.parse ["a", "b", "!"] = .ok { expr_ := some (.kind_prop "a") } ∧
    etsl_predicate.parse ["a", ")", "&&", "b"] = .ok { expr_ := some (.kind_prop "a") } := by
  decide

/-! ## The attribute sub-tokenizer -/

theorem attr_subtokenize_loop_operator (token : etsl_token) (c : Char) (rest : List Char)
    (subs : List String) (h : c = '|' ∨ c = '&') :
    attr_subtokenize_loop token (c :: rest) subs =
      match rest with
      | [] => .error (.etsl_syntax_error token.line_num token.col_num "invalid attribute")
      | c' :: rest' =>
        if c ≠ c' then
          .error (.etsl_syntax_error token.line_num token.col_num "invalid attribute")
        else attr_subtokenize_loop token rest' (push_operator ⟨[c', c']⟩ subs) := by
  have h1 : isspace c = false := by rcases h with rfl | rfl <;> decide
  have h2 : ¬ (c = '(' ∨ c = ')' ∨ c = '!' ∨ c = ',') := by rcases h with rfl | rfl <;> decide
  cases rest with
  | nil => simp [attr_subtokenize_loop, h1, h2, h]
  | cons c' rest' => simp [attr_subtokenize_loop, h1, h2, h]

theorem attr_subtokenize_loop_other (token : etsl_token) (c : Char) (rest : List Char)
    (subs : List String) (h : ¬ (c = '|' ∨ c = '&')) :
    ∃ subs', attr_subtokenize_loop token (c :: rest) subs =
      attr_subtokenize_loop token rest subs' := by
  cases rest <;> simp only [attr_subtokenize_loop, h, if_false] <;> split_ifs <;>
    exact ⟨_, rfl⟩

theorem attr_subtokenize_loop_spec (token : etsl_token) :
    ∀ cs : List Char,
      (∀ subs, attr_subtokenize_loop token cs subs =
          .error (.etsl_syntax_error token.line_num token.col_num "invalid attribute") ∨
        ∃ r, attr_subtokenize_loop token cs subs = .ok r) ∧
      (∀ subs, (∃ e, attr_subtokenize_loop token cs subs = .error e) ↔
        lone_operator cs = true) ∧
      ∀ c : Char,
        (∀ subs, attr_subtokenize_loop token (c :: cs) subs =
            .error (.etsl_syntax_error token.line_num token.col_num "invalid attribute") ∨
          ∃ r, attr_subtokenize_loop token (c :: cs) subs = .ok r) ∧
        (∀ subs, (∃ e, attr_subtokenize_loop token (c :: cs) subs = .error e) ↔
          lone_operator (c :: cs) = true) := by
  intro cs
  induction cs with
  | nil =>
    refine ⟨fun subs => Or.inr ⟨subs, rfl⟩, fun subs => by simp [attr_subtokenize_loop,
      lone_operator], ?_⟩
    intro c
    by_cases h : c = '|' ∨ c = '&'
    · refine ⟨fun subs => Or.inl ?_, fun subs => ?_⟩
      · rw [attr_subtokenize_loop_operator token c [] subs h]
      · rw [attr_subtokenize_loop_operator token c [] subs h]
        simp [lone_operator, h]
    · refine ⟨fun subs => ?_, fun subs => ?_⟩
      · obtain ⟨subs', hs⟩ := attr_subtokenize_loop_other token c [] subs h
        rw [hs]
        exact Or.inr ⟨subs', rfl⟩
      · obtain ⟨subs', hs⟩ := attr_subtokenize_loop_other token c [] subs h
        rw [hs]
        simp [attr_subtokenize_loop, lone_operator, h]
  | cons d cs ih =>
    obtain ⟨ih1, ih2, ih3⟩ := ih
    refine ⟨(ih3 d).1, (ih3 d).2, ?_⟩
    intro c
    by_cases h : c = '|' ∨ c = '&'
    · by_cases hcd : c = d
      · subst hcd
        refine ⟨fun subs => ?_, fun subs => ?_⟩
        · rw [attr_subtokenize_loop_operator token c (c :: cs) subs h]
          simp only [ne_eq, not_true_eq_false, if_false]
          exact ih1 _
        · rw [attr_subtokenize_loop_operator token c (c :: cs) subs h]
          simp only [ne_eq, not_true_eq_false, if_false]
          rw [ih2]
          simp [lone_operator, h]
      · refine ⟨fun subs => Or.inl ?_, fun subs => ?_⟩
        · rw [attr_subtokenize_loop_operator token c (d :: cs) subs h]
          simp [hcd]
        · rw [attr_subtokenize_loop_operator token c (d :: cs) subs h]
          simp [lone_operator, h, hcd]
    · refine ⟨fun subs => ?_, fun subs => ?_⟩
      · obtain ⟨subs', hs⟩ := attr_subtokenize_loop_other token c (d :: cs) subs h
        rw [hs]
        exact (ih3 d).1 subs'
      · obtain ⟨subs', hs⟩ := attr_subtokenize_loop_other token c (d :: cs) subs h
        rw [hs, (ih3 d).2 subs']
        conv_rhs => rw [lone_operator]
        simp [h]

theorem etsl_attr_subtokenize_error_iff (token : etsl_token) :
    (∃ e, etsl_attr_subtokenize token = .error e) ↔ lone_operator token.str.data = true := by
  rw [← (attr_subtokenize_loop_spec token token.str.data).2.1 [""]]
  unfold etsl_attr_subtokenize
  cases attr_subtokenize_loop token token.str.data [""] <;> simp

theorem etsl_attr_subtokenize_error {token : etsl_token} {e : etsl_exception}
    (h : etsl_attr_subtokenize token = .error e) :
    e = .etsl_syntax_error token.line_num token.col_num "invalid attribute" := by
  unfold etsl_attr_subtokenize at h
  rcases (attr_subtokenize_loop_spec token token.str.data).1 [""] with h1 | ⟨r, h1⟩
  · rw [h1] at h
    simp only [Except.error.injEq] at h
    exact h.symm
  · rw [h1] at h
    simp at h

/-- C14: `etsl_attr_subtokenize` fails on an attribute token if and only if the scan of its
text from left to right, taking each doubled `&&` or `||` as a pair, meets an `&` or `|`
that is not immediately followed by the same character; when it fails, it throws
`etsl_syntax_error` with the line and column of the token. The scan finds a lone operator
in `a &`, `&|` and `&&&`, and not in `a && b || c`; the body `if a & b` is rejected. -/
theorem subtokenize_fails_iff_lone_operator :
    (∀ token : etsl_token,
      ((∃ e, etsl_attr_subtokenize token = .error e) ↔
        lone_operator token.str.data = true) ∧
      (lone_operator token.str.data = true →
        etsl_attr_subtokenize token =
          .error (.etsl_syntax_error token.line_num token.col_num "invalid attribute")) ∧
      (lone_operator token.str.data = false → ∃ r, etsl_attr_subtokenize token = .ok r)) ∧
    lone_operator "a &".data = true ∧ lone_operator "&|".data = true ∧
    lone_operator "&&&".data = true ∧ lone_operator "a && b || c".data = false ∧
    (∀ (kind : token_kind) (line_num col_num : Nat),
      etsl_attr_subtokenize
        { kind := kind, str := "if a & b", line_num := line_num, col_num := col_num } =
        .error (.etsl_syntax_error line_num col_num "invalid attribute")) := by
  have key : ∀ token : etsl_token,
      ((∃ e, etsl_attr_subtokenize token = .error e) ↔
        lone_operator token.str.data = true) ∧
      (lone_operator token.str.data = true →
        etsl_attr_subtokenize token =
          .error (.etsl_syntax_error token.line_num token.col_num "invalid attribute")) ∧
      (lone_operator token.str.data = false → ∃ r, etsl_attr_subtokenize token = .ok r) := by
    intro token
    refine ⟨etsl_attr_subtokenize_error_iff token, ?_, ?_⟩
    · intro h
      obtain ⟨e, he⟩ := (etsl_attr_subtokenize_error_iff token).2 h
      rw [he, etsl_attr_subtokenize_error he]
    · intro h
      cases hs : etsl_attr_subtokenize token with
      | error e =>
        have := (etsl_attr_subtokenize_error_iff token).1 ⟨e, hs⟩
        rw [h] at this
        exact absurd this (by decide)
      | ok r => exact ⟨r, rfl⟩
  refine ⟨key, by decide, by decide, by decide, by decide, ?_⟩
  intro kind line_num col_num
  exact (key ⟨kind, "if a & b", line_num, col_num⟩).2.1
    (by show lone_operator "if a & b".data = true; decide)

/-- The text `a &|b` has a lone `&`, and sub-tokenizing the token of this text at line 3,
column 7 fails with that line and column. -/
theorem subtokenize_fails_iff_lone_operator_witness :
    etsl_attr_subtokenize { str := "a &|b", line_num := 3, col_num := 7 } =
      .error (.etsl_syntax_error 3 7 "invalid attribute") :=
  (subtokenize_fails_iff_lone_operator.1
    { str := "a &|b", line_num := 3, col_num := 7 }).2.1 (by decide)

/-! ## The exceptions of the assembler -/

theorem parse_tokens_cons (t : etsl_token) (ts : List etsl_token) (p : parser_state) :
    parse_tokens (t :: ts) p =
      match parse_token p t with
      | .error e => .error e
      | .ok p' => parse_tokens ts p' := by
  rw [parse_tokens, parse_token]
  cases t.kind with
  | kind_unknown => rfl
  | kind_category => rfl
  | kind_choice => cases parse_choice p t <;> rfl
  | kind_attribute => cases parse_attribute p t <;> rfl

theorem parse_tokens_append : ∀ (a b : List etsl_token) (p : parser_state),
    parse_tokens (a ++ b) p =
      match parse_tokens a p with
      | .error e => .error e
      | .ok p' => parse_tokens b p'
  | [], b, p => rfl
  | t :: a, b, p => by
    rw [List.cons_append, parse_tokens_cons, parse_tokens_cons]
    cases parse_token p t with
    | error e => rfl
    | ok p' => exact parse_tokens_append a b p'

theorem parse_tokens_error_of_mem {t : etsl_token}
    (ht : ∀ p, ∃ e, parse_token p t = .error e) :
    ∀ (tokens : List etsl_token), t ∈ tokens → ∀ p, ∃ e, parse_tokens tokens p = .error e
  | [], h, _ => absurd h (List.not_mem_nil _)
  | t' :: ts, h, p => by
    rw [parse_tokens_cons]
    cases hs : parse_token p t' with
    | error e => exact ⟨e, rfl⟩
    | ok p' =>
      rcases List.mem_cons.1 h with rfl | h'
      · obtain ⟨e, he⟩ := ht p
        rw [he] at hs
        exact absurd hs (by simp)
      · exact parse_tokens_error_of_mem ht ts h' p'

theorem attr_assert_error {token : etsl_token} {pred : Bool} {e : etsl_exception}
    (h : attr_assert token pred = .error e) :
    pred = false ∧
    e = .etsl_syntax_error token.line_num token.col_num "invalid attribute expression" := by
  unfold attr_assert at h
  cases pred with
  | true => simp at h
  | false =>
    simp only [Bool.false_eq_true, if_false, Except.error.injEq] at h
    exact ⟨rfl, h.symm⟩

theorem property_loop_error (token : etsl_token) (state : attr_state) :
    ∀ (it : List String),
      (∀ (choice : etsl_choice) (e : etsl_exception),
        property_loop token state it choice = .error e →
        e = .etsl_syntax_error token.line_num token.col_num "invalid attribute expression") ∧
      ∀ (name : String) (choice : etsl_choice) (e : etsl_exception),
        property_loop token state (name :: it) choice = .error e →
        e = .etsl_syntax_error token.line_num token.col_num "invalid attribute expression" := by
  intro it
  induction it with
  | nil =>
    refine ⟨fun choice e h => by simp [property_loop] at h, fun name choice e h => ?_⟩
    simp [property_loop] at h
  | cons sep rest ih =>
    refine ⟨ih.2 sep, fun name choice e h => ?_⟩
    simp only [property_loop] at h
    split_ifs at h
    · exact ih.1 _ e h
    · simp only [Except.error.injEq] at h
      exact h.symm

theorem parse_attribute_keyword_error {p : parser_state} {token : etsl_token}
    {choice : etsl_choice} {keyword : String} {it : List String} {e : etsl_exception}
    (h : parse_attribute_keyword p token choice keyword it = .error e) :
    ∃ what, e = .etsl_syntax_error token.line_num token.col_num what := by
  unfold parse_attribute_keyword at h
  split_ifs at h
  · cases ha : attr_assert token (decide (p.attr_state_ = .attr_state_init)) with
    | error e' =>
      rw [ha] at h
      simp only [Except.error.injEq] at h
      exact ⟨_, h ▸ (attr_assert_error ha).2⟩
    | ok u =>
      rw [ha] at h
      cases hp : etsl_predicate.parse it with
      | error e' =>
        obtain ⟨what, rfl⟩ := parse_error_invalid_predicate hp
        rw [hp] at h
        simp only [Except.error.injEq] at h
        exact ⟨what, h.symm⟩
      | ok cond => rw [hp] at h; simp at h
  · cases ha : attr_assert token (decide (p.attr_state_ = .attr_state_if)) with
    | error e' =>
      rw [ha] at h
      simp only [Except.error.injEq] at h
      exact ⟨_, h ▸ (attr_assert_error ha).2⟩
    | ok u => rw [ha] at h; simp at h
  · cases ha : attr_assert token (decide (it = [])) with
    | error e' =>
      rw [ha] at h
      simp only [Except.error.injEq] at h
      exact ⟨_, h ▸ (attr_assert_error ha).2⟩
    | ok u =>
      rw [ha] at h
      cases hst : p.attr_state_ <;> rw [hst] at h <;> simp at h
  · cases ha : attr_assert token (decide (it ≠ [])) with
    | error e' =>
      rw [ha] at h
      simp only [Except.error.injEq] at h
      exact ⟨_, h ▸ (attr_assert_error ha).2⟩
    | ok u =>
      rw [ha] at h
      cases hl : property_loop token p.attr_state_ it choice with
      | error e' =>
        rw [hl] at h
        simp only [Except.error.injEq] at h
        exact ⟨_, h ▸ (property_loop_error token p.attr_state_ it).1 choice e' hl⟩
      | ok c => rw [hl] at h; simp at h

theorem parse_attribute_error {p : parser_state} {token : etsl_token} {e : etsl_exception}
    (h : parse_attribute p token = .error e) :
    ∃ what, e = .etsl_syntax_error token.line_num token.col_num what := by
  unfold parse_attribute at h
  cases hc : p.file_.categories.getLast? with
  | none => rw [hc] at h; simp only [Except.error.injEq] at h; exact ⟨_, h.symm⟩
  | some category =>
    rw [hc] at h
    simp only at h
    cases hch : category.choices.getLast? with
    | none => rw [hch] at h; simp only [Except.error.injEq] at h; exact ⟨_, h.symm⟩
    | some choice =>
      rw [hch] at h
      simp only at h
      cases hs : etsl_attr_subtokenize token with
      | error e' =>
        rw [hs] at h
        simp only [Except.error.injEq] at h
        exact ⟨_, h ▸ etsl_attr_subtokenize_error hs⟩
      | ok subs =>
        rw [hs] at h
        cases subs with
        | nil => simp only [Except.error.injEq] at h; exact ⟨_, h.symm⟩
        | cons keyword it => exact parse_attribute_keyword_error h

theorem parse_token_error {p : parser_state} {t : etsl_token} {e : etsl_exception}
    (h : parse_token p t = .error e) :
    ∃ what, e = .etsl_syntax_error t.line_num t.col_num what := by
  unfold parse_token at h
  cases hk : t.kind with
  | kind_unknown => rw [hk] at h; simp only [Except.error.injEq] at h; exact ⟨_, h.symm⟩
  | kind_category => rw [hk] at h; simp at h
  | kind_choice =>
    rw [hk] at h
    simp only [parse_choice] at h
    split_ifs at h
    simp only [Except.error.injEq] at h
    exact ⟨_, h.symm⟩
  | kind_attribute => rw [hk] at h; exact parse_attribute_error h

theorem parse_tokens_error : ∀ (tokens : List etsl_token) (p : parser_state)
    (e : etsl_exception), parse_tokens tokens p = .error e →
    ∃ t ∈ tokens, ∃ what, e = .etsl_syntax_error t.line_num t.col_num what
  | [], p, e, h => by simp [parse_tokens] at h
  | t :: ts, p, e, h => by
    rw [parse_tokens_cons] at h
    cases hs : parse_token p t with
    | error e' =>
      rw [hs] at h
      simp only [Except.error.injEq] at h
      obtain ⟨what, hw⟩ := parse_token_error hs
      exact ⟨t, List.mem_cons_self _ _, what, h ▸ hw⟩
    | ok p' =>
      rw [hs] at h
      obtain ⟨t', ht', hw⟩ := parse_tokens_error ts p' e h
      exact ⟨t', List.mem_cons_of_mem _ ht', hw⟩

theorem etsl_parse_eq (tokens : List etsl_token) :
    etsl_parse tokens =
      match parse_tokens tokens {} with
      | .error e => .error e
      | .ok p => .ok (finalize p.file_) := rfl

theorem etsl_parse_error {tokens : List etsl_token} {e : etsl_exception}
    (h : etsl_parse tokens = .error e) :
    parse_tokens tokens {} = .error e ∧
    ∃ t ∈ tokens, ∃ what, e = .etsl_syntax_error t.line_num t.col_num what := by
  rw [etsl_parse_eq] at h
  cases hs : parse_tokens tokens {} with
  | error e' =>
    rw [hs] at h
    simp only [Except.error.injEq] at h
    subst h
    exact ⟨rfl, parse_tokens_error tokens {} e' hs⟩
  | ok p => rw [hs] at h; simp at h

theorem is_prop_name_iff (t : String) :
    is_prop_name t = true ↔
      ∃ (c : Char) (cs : List Char), t.data = c :: cs ∧ (isalnum c = true ∨ c = ':') := by
  unfold is_prop_name front
  cases h : t.data with
  | nil =>
    constructor
    · intro h'
      exact absurd h' (by decide)
    · rintro ⟨c, cs, h', -⟩
      exact absurd h' (by simp)
  | cons c cs => simp

theorem parse_singleton_prop_name {t : String} (h : is_prop_name t = true) :
    etsl_predicate.parse [t] = .ok { expr_ := some (.kind_prop t) } := by
  have hf : parse_fuel [t] = 2 + 1 + 1 + 1 + 1 := rfl
  rw [etsl_predicate.parse, hf, parse_expr_succ, parse_term_succ,
    parse_primary_prop_name _ _ h]
  rfl

theorem parse_singleton_other {t : String} (h : is_prop_name t = false) :
    ∃ what, etsl_predicate.parse [t] = .error (.etsl_invalid_predicate_error what) := by
  by_cases h1 : t = "!"
  · subst h1; exact ⟨_, @parse_not_no_operand [] trivial⟩
  · by_cases h2 : t = "("
    · subst h2; exact parse_paren_unmatched (List.not_mem_nil _)
    · exact ⟨_, @parse_of_no_operand [t] ⟨h1, h2, h⟩⟩

theorem etsl_attr_subtokenize_if {token : etsl_token} (h : token.str = "if") :
    etsl_attr_subtokenize token = .ok ["if"] := by
  unfold etsl_attr_subtokenize
  rw [h]
  rfl

theorem parse_attribute_empty_if (p : parser_state) {token : etsl_token}
    (h : token.str = "if") : ∃ e, parse_attribute p token = .error e := by
  unfold parse_attribute
  cases p.file_.categories.getLast? with
  | none => exact ⟨_, rfl⟩
  | some category =>
    simp only
    cases category.choices.getLast? with
    | none => exact ⟨_, rfl⟩
    | some choice =>
      simp only [etsl_attr_subtokenize_if h, parse_attribute_keyword, if_true]
      cases hs : p.attr_state_ <;> simp [attr_assert]
      exact ⟨_, rfl⟩

theorem etsl_parse_error_of_token {tokens : List etsl_token} {t : etsl_token}
    (hmem : t ∈ tokens) (ht : ∀ p, ∃ e, parse_token p t = .error e) :
    ∃ (line_num col_num : Nat) (what : String),
      etsl_parse tokens = .error (.etsl_syntax_error line_num col_num what) := by
  obtain ⟨e, he⟩ := parse_tokens_error_of_mem ht tokens hmem {}
  have h : etsl_parse tokens = .error e := by rw [etsl_parse_eq, he]
  obtain ⟨-, t', -, what, rfl⟩ := etsl_parse_error h
  exact ⟨_, _, what, h⟩

/-- C13: an empty predicate is an error: `etsl_predicate.parse` fails on the empty
sequence with `etsl_invalid_predicate_error`. A property name is a sub-token that begins
with an alphanumeric character or `:`; on a one-element sequence `[t]` the parser returns
the property node of `t` when `t` is a property name and fails with
`etsl_invalid_predicate_error` when it is not. Hence `etsl_parse` fails with
`etsl_syntax_error` on every token sequence that has an attribute token of text `if`, as
on the tokens of `A: x. [if]`. -/
theorem empty_predicate_is_error :
    etsl_predicate.parse [] = .error (.etsl_invalid_predicate_error "invalid predicate") ∧
    (∀ t : String, is_prop_name t = true ↔
      ∃ (c : Char) (cs : List Char), t.data = c :: cs ∧ (isalnum c = true ∨ c = ':')) ∧
    (∀ t : String, is_prop_name t = true →
      etsl_predicate.parse [t] = .ok { expr_ := some (.kind_prop t) }) ∧
    (∀ t : String, is_prop_name t = false →
      ∃ what, etsl_predicate.parse [t] = .error (.etsl_invalid_predicate_error what)) ∧
    (∀ (tokens : List etsl_token) (t : etsl_token), t ∈ tokens →
      t.kind = .kind_attribute → t.str = "if" →
      ∃ (line_num col_num : Nat) (what : String),
        etsl_parse tokens = .error (.etsl_syntax_error line_num col_num what)) ∧
    etsl_tokenize "A: x. [if]".data = empty_if_tokens ∧
    etsl_parse empty_if_tokens = .error (.etsl_syntax_error 1 10 "invalid predicate") := by
  refine ⟨by decide, is_prop_name_iff, fun _ h => parse_singleton_prop_name h,
    fun _ h => parse_singleton_other h, ?_, by decide, by decide⟩
  intro tokens t hmem hk hs
  apply etsl_parse_error_of_token hmem
  intro p
  unfold parse_token
  rw [hk]
  exact parse_attribute_empty_if p hs

/-- The sub-token `:x` is a property name and `#x` is not; the token sequence of
`A: x. [if]` followed by a category token is rejected. -/
theorem empty_predicate_is_error_witness :
    etsl_predicate.parse [":x"] = .ok { expr_ := some (.kind_prop ":x") } ∧
    (∃ what, etsl_predicate.parse ["#x"] = .error (.etsl_invalid_predicate_error what)) ∧
    ∃ (line_num col_num : Nat) (what : String),
      etsl_parse (empty_if_tokens ++ [{ kind := .kind_category, str := "B" }]) =
        .error (.etsl_syntax_error line_num col_num what) :=
  ⟨empty_predicate_is_error.2.2.1 ":x" (by decide),
   empty_predicate_is_error.2.2.2.1 "#x" (by decide),
   empty_predicate_is_error.2.2.2.2.1 _
     { kind := .kind_attribute, str := "if", line_num := 1, col_num := 10 } (by decide) rfl rfl⟩

/-! ## Unknown keywords and the operand of else -/

/-- C16: what the code does on an attribute whose leading sub-token is none of `if`,
`else`, `single`, `error`, `property`: no branch of `parse_attribute` is taken, nothing is
thrown and the state of the parser is unchanged. The text `A: x. [foo]` is tokenized into a
category, a choice and the attribute `foo`, and `etsl_parse` returns for it the document of
`A: x.`. -/
theorem unknown_keyword_accepted :
    (∀ (p : parser_state) (token : etsl_token) (choice : etsl_choice) (keyword : String)
      (it : List String),
      keyword ≠ "if" → keyword ≠ "else" → keyword ≠ "single" → keyword ≠ "error" →
      keyword ≠ "property" →
      parse_attribute_keyword p token choice keyword it = .ok p) ∧
    etsl_tokenize "A: x. [foo]".data = unknown_keyword_tokens ∧
    etsl_attr_subtokenize { kind := .kind_attribute, str := "foo", line_num := 1, col_num := 11 } =
      .ok ["foo"] ∧
    etsl_parse unknown_keyword_tokens = .ok plain_file ∧
    etsl_parse (etsl_tokenize "A: x.".data) = .ok plain_file := by
  refine ⟨?_, by decide, by decide, by decide, by decide⟩
  intro p token choice keyword it h1 h2 h3 h4 h5
  simp [parse_attribute_keyword, h1, h2, h3, h4, h5]

/-- Witness for C16: the keyword `foo` with no further sub-token leaves the state of the
parser as it was after the choice `x` of `A: x.`. -/
theorem unknown_keyword_accepted_witness :
    parse_attribute_keyword { file_ := plain_file }
      { kind := .kind_attribute, str := "foo", line_num := 1, col_num := 11 } plain_x "foo" [] =
      .ok { file_ := plain_file } :=
  unknown_keyword_accepted.1 _ _ _ "foo" [] (by decide) (by decide) (by decide) (by decide)
    (by decide)

/-- C20: what the code does on an attribute whose leading sub-token is `else`: in the
state in-if the branch sets `has_else` and the state in-else whatever sub-tokens follow
`else`, which it never reads. The text `A: x. [if p] [else x]` is tokenized into a
category, a choice and the attributes `if p` and `else x`, and `etsl_parse` returns for it
the document of `A: x. [if p] [else]`. -/
theorem else_operand_accepted :
    (∀ (p : parser_state) (token : etsl_token) (choice : etsl_choice) (it : List String),
      p.attr_state_ = .attr_state_if →
      parse_attribute_keyword p token choice "else" it =
        .ok (modify_choice (fun ch => { ch with has_else := true })
          { p with attr_state_ := .attr_state_else })) ∧
    etsl_tokenize "A: x. [if p] [else x]".data = else_operand_tokens ∧
    etsl_attr_subtokenize
      { kind := .kind_attribute, str := "else x", line_num := 1, col_num := 21 } =
      .ok ["else", "x"] ∧
    etsl_parse else_operand_tokens = .ok else_file ∧
    etsl_parse else_tokens = .ok else_file := by
  refine ⟨?_, by decide, by decide, by decide, by decide⟩
  intro p token choice it h
  simp [parse_attribute_keyword, attr_assert, h]

/-- Witness for C20: in the state in-if the keyword `else` followed by the sub-token `x`
is accepted. -/
theorem else_operand_accepted_witness :
    parse_attribute_keyword { file_ := else_file, attr_state_ := .attr_state_if }
      { kind := .kind_attribute, str := "else x", line_num := 1, col_num := 21 } else_x "else"
      ["x"] =
      .ok (modify_choice (fun ch => { ch with has_else := true })
        { file_ := else_file, attr_state_ := .attr_state_else }) :=
  else_operand_accepted.1 { file_ := else_file, attr_state_ := .attr_state_if } _ _ ["x"] rfl

/-! ## The attribute state machine and explicit properties -/

theorem modify_back_append {α : Type} (f : α → α) (y : α) :
    ∀ l : List α, modify_back f (l ++ [y]) = l ++ [f y]
  | [] => rfl
  | [x] => rfl
  | x :: z :: l => by
    have ih := modify_back_append f y (z :: l)
    simp only [List.cons_append] at ih ⊢
    rw [modify_back, ih]

theorem eq_append_of_getLast? {α : Type} {l : List α} {y : α} (h : l.getLast? = some y) :
    l = l.dropLast ++ [y] :=
  (List.dropLast_append_getLast? y (by simp [h])).symm

theorem modify_choice_eq (f : etsl_choice → etsl_choice) (p : parser_state)
    (cs : List etsl_category) (cat : etsl_category) (chs : List etsl_choice) (ch : etsl_choice)
    (hc : p.file_.categories = cs ++ [cat]) (hch : cat.choices = chs ++ [ch]) :
    modify_choice f p =
      { p with file_ := ⟨cs ++ [{ cat with choices := chs ++ [f ch] }]⟩ } := by
  simp only [modify_choice, hc, modify_back_append, hch]

theorem getLast?_append_singleton {α : Type} (l : List α) (a : α) :
    (l ++ [a]).getLast? = some a := by simp

theorem parse_category_categories (p : parser_state) (t : etsl_token) :
    ∃ (cs : List etsl_category) (flag : Bool),
      (parse_category p t).file_.categories =
        cs ++ [{ name := t.str, mutually_exclusive := flag }] ∧
      (∀ c ∈ cs, c ∈ p.file_.categories) ∧
      (parse_category p t).attr_state_ = p.attr_state_ := by
  unfold parse_category
  cases hl : p.file_.categories.getLast? with
  | none => exact ⟨[], _, rfl, fun c h => absurd h (List.not_mem_nil _), rfl⟩
  | some last =>
    simp only
    by_cases he : last.choices = []
    · rw [if_pos he]
      exact ⟨_, _, rfl, fun c h => List.mem_of_mem_dropLast h, rfl⟩
    · rw [if_neg he]
      exact ⟨_, _, rfl, fun c h => h, rfl⟩

theorem parser_ok_parse_category {p : parser_state} (t : etsl_token) (h : parser_ok p) :
    parser_ok (parse_category p t) := by
  obtain ⟨h1, h2⟩ := h
  obtain ⟨cs, flag, hc, hsub, hs⟩ := parse_category_categories p t
  refine ⟨?_, ?_⟩
  · intro cat hcat ch hch
    rw [hc] at hcat
    simp only [List.mem_append, List.mem_singleton] at hcat
    rcases hcat with hcat | rfl
    · exact h1 cat (hsub cat hcat) ch hch
    · simp at hch
  · intro cat hcat ch hch
    rw [hc, getLast?_append_singleton] at hcat
    simp only [Option.some.injEq] at hcat
    subst hcat
    simp at hch

theorem parser_ok_parse_choice {p p' : parser_state} {t : etsl_token}
    (hp : parse_choice p t = .ok p') (h : parser_ok p) :
    parser_ok { p' with attr_state_ := .attr_state_init } := by
  obtain ⟨h1, h2⟩ := h
  unfold parse_choice at hp
  split_ifs at hp with he
  simp only [Except.ok.injEq] at hp
  subst hp
  obtain ⟨cat, hcat⟩ : ∃ cat, p.file_.categories.getLast? = some cat := by
    cases hl : p.file_.categories.getLast? with
    | none => exact absurd (List.getLast?_eq_none_iff.1 hl) he
    | some cat => exact ⟨cat, rfl⟩
  have hc := eq_append_of_getLast? hcat
  have hnew : choice_ok ({ name := t.str } : etsl_choice) :=
    ⟨fun h => by simp at h, fun _ => ⟨rfl, rfl⟩, fun h => by simp at h⟩
  refine ⟨?_, ?_⟩
  · intro cat' hcat' ch hch
    simp only at hcat'
    rw [hc, modify_back_append] at hcat'
    simp only [List.mem_append, List.mem_singleton] at hcat'
    rcases hcat' with hcat' | rfl
    · exact h1 cat' (List.mem_of_mem_dropLast hcat') ch hch
    · simp only [emplace_choice, List.mem_append, List.mem_singleton] at hch
      rcases hch with hch | rfl
      · exact h1 cat (List.mem_of_mem_getLast? hcat) ch hch
      · exact hnew
  · intro cat' hcat' ch hch
    simp only at hcat'
    rw [hc, modify_back_append] at hcat'
    simp only [getLast?_append_singleton, Option.some.injEq] at hcat'
    subst hcat'
    simp only [emplace_choice, getLast?_append_singleton, Option.some.injEq] at hch
    subst hch
    rfl

theorem parser_ok_modify_choice {p : parser_state} {cat : etsl_category} {ch : etsl_choice}
    (f : etsl_choice → etsl_choice) (s : attr_state) (h : parser_ok p)
    (hcat : p.file_.categories.getLast? = some cat) (hch : cat.choices.getLast? = some ch)
    (hf : choice_ok ch → current_ok p.attr_state_ ch → choice_ok (f ch) ∧ current_ok s (f ch)) :
    parser_ok { modify_choice f p with attr_state_ := s } := by
  obtain ⟨h1, h2⟩ := h
  have hc := eq_append_of_getLast? hcat
  have hchs := eq_append_of_getLast? hch
  have hok := hf (h1 cat (List.mem_of_mem_getLast? hcat) ch (List.mem_of_mem_getLast? hch))
    (h2 cat hcat ch hch)
  rw [modify_choice_eq f p _ cat _ ch hc hchs]
  refine ⟨?_, ?_⟩
  · intro cat' hcat' ch' hch'
    simp only [List.mem_append, List.mem_singleton] at hcat'
    rcases hcat' with hcat' | rfl
    · exact h1 cat' (List.mem_of_mem_dropLast hcat') ch' hch'
    · simp only [List.mem_append, List.mem_singleton] at hch'
      rcases hch' with hch' | rfl
      · exact h1 cat (List.mem_of_mem_getLast? hcat) ch' (List.mem_of_mem_dropLast hch')
      · exact hok.1
  · intro cat' hcat' ch' hch'
    simp only [getLast?_append_singleton, Option.some.injEq] at hcat'
    subst hcat'
    simp only [getLast?_append_singleton, Option.some.injEq] at hch'
    subst hch'
    exact hok.2

theorem attr_assert_ok {token : etsl_token} {pred : Bool} {u : Unit}
    (h : attr_assert token pred = .ok u) : pred = true := by
  unfold attr_assert at h
  cases pred with
  | true => rfl
  | false => simp at h

theorem add_props_nil (state : attr_state) (choice : etsl_choice) :
    add_props state [] choice = choice := by
  cases state <;> simp [add_props]

theorem add_props_cons (state : attr_state) (name : String) (names : List String)
    (choice : etsl_choice) :
    add_props state (name :: names) choice =
      add_props state names (push_property state name choice) := by
  cases state <;> simp [add_props, push_property]

theorem property_loop_ok (token : etsl_token) (state : attr_state) :
    ∀ (it : List String),
      (∀ (choice choice' : etsl_choice), property_loop token state it choice = .ok choice' →
        ∃ names, (it ≠ [] → names ≠ []) ∧ choice' = add_props state names choice) ∧
      ∀ (name : String) (choice choice' : etsl_choice),
        property_loop token state (name :: it) choice = .ok choice' →
        ∃ names, names ≠ [] ∧ choice' = add_props state names choice := by
  intro it
  induction it with
  | nil =>
    refine ⟨fun choice choice' h => ?_, fun name choice choice' h => ?_⟩
    · simp only [property_loop, Except.ok.injEq] at h
      exact ⟨[], fun h' => absurd rfl h', by rw [add_props_nil, h]⟩
    · simp only [property_loop, Except.ok.injEq] at h
      exact ⟨[name], by simp, by rw [add_props_cons, add_props_nil, h]⟩
  | cons sep rest ih =>
    refine ⟨fun choice choice' h => ?_, fun name choice choice' h => ?_⟩
    · obtain ⟨names, hne, hc⟩ := ih.2 sep choice choice' h
      exact ⟨names, fun _ => hne, hc⟩
    · simp only [property_loop] at h
      split_ifs at h
      obtain ⟨names, -, hc⟩ := ih.1 _ choice' h
      exact ⟨name :: names, by simp, by rw [add_props_cons, hc]⟩

theorem property_loop_intersperse (token : etsl_token) (state : attr_state) :
    ∀ (names : List String) (choice : etsl_choice), names ≠ [] →
      property_loop token state (names.intersperse ",") choice =
        .ok (add_props state names choice)
  | [], _, h => absurd rfl h
  | [name], choice, _ => by
    rw [add_props_cons, add_props_nil]
    rfl
  | name :: name' :: names, choice, _ => by
    rw [add_props_cons, List.intersperse_cons_cons, property_loop]
    simp only [if_true]
    exact property_loop_intersperse token state (name' :: names) _ (by simp)

theorem parse_ok_expr {toks : List String} {cond : etsl_predicate}
    (h : etsl_predicate.parse toks = .ok cond) : cond.expr_ ≠ none := by
  unfold etsl_predicate.parse at h
  split at h
  · simp at h
  · simp at h
  · simp only [Except.ok.injEq] at h
    subst h
    simp

/-- The successful runs of the branches of `parse_attribute`. -/
theorem parse_attribute_keyword_ok {p p' : parser_state} {token : etsl_token}
    {choice : etsl_choice} {keyword : String} {it : List String}
    (h : parse_attribute_keyword p token choice keyword it = .ok p') :
    (keyword = "if" ∧ p.attr_state_ = .attr_state_init ∧
      ∃ cond, etsl_predicate.parse it = .ok cond ∧
        p' = { modify_choice (fun ch => { ch with cond := cond, has_if := true }) p with
          attr_state_ := .attr_state_if }) ∨
    (keyword = "else" ∧ p.attr_state_ = .attr_state_if ∧
      p' = { modify_choice (fun ch => { ch with has_else := true }) p with
        attr_state_ := .attr_state_else }) ∨
    ((keyword = "single" ∨ keyword = "error") ∧ it = [] ∧
      p' = modify_choice (fun ch =>
        match p.attr_state_ with
        | .attr_state_init => { ch with single_str := keyword }
        | .attr_state_if => { ch with if_single_str := keyword }
        | .attr_state_else => { ch with else_single_str := keyword }) p) ∨
    (keyword = "property" ∧ ∃ names, names ≠ [] ∧
      property_loop token p.attr_state_ it choice = .ok (add_props p.attr_state_ names choice) ∧
      p' = modify_choice (fun _ => add_props p.attr_state_ names choice) p) ∨
    (keyword ≠ "if" ∧ keyword ≠ "else" ∧ keyword ≠ "single" ∧ keyword ≠ "error" ∧
      keyword ≠ "property" ∧ p' = p) := by
  unfold parse_attribute_keyword at h
  split_ifs at h with h1 h2 h3 h4
  · left
    cases ha : attr_assert token (decide (p.attr_state_ = .attr_state_init)) with
    | error e' => rw [ha] at h; simp at h
    | ok u =>
      rw [ha] at h
      have hs := of_decide_eq_true (attr_assert_ok ha)
      cases hp : etsl_predicate.parse it with
      | error e' => rw [hp] at h; cases e' <;> simp at h
      | ok cond =>
        rw [hp] at h
        simp only [Except.ok.injEq] at h
        exact ⟨h1, hs, cond, rfl, h.symm⟩
  · right; left
    cases ha : attr_assert token (decide (p.attr_state_ = .attr_state_if)) with
    | error e' => rw [ha] at h; simp at h
    | ok u =>
      rw [ha] at h
      have hs := of_decide_eq_true (attr_assert_ok ha)
      simp only [Except.ok.injEq] at h
      exact ⟨h2, hs, h.symm⟩
  · right; right; left
    cases ha : attr_assert token (decide (it = [])) with
    | error e' => rw [ha] at h; simp at h
    | ok u =>
      rw [ha] at h
      have hs := of_decide_eq_true (attr_assert_ok ha)
      refine ⟨h3, hs, ?_⟩
      cases hst : p.attr_state_ <;> rw [hst] at h <;> simp only [Except.ok.injEq] at h <;>
        exact h.symm
  · right; right; right; left
    cases ha : attr_assert token (decide (it ≠ [])) with
    | error e' => rw [ha] at h; simp at h
    | ok u =>
      rw [ha] at h
      have hs := of_decide_eq_true (attr_assert_ok ha)
      cases hl : property_loop token p.attr_state_ it choice with
      | error e' => rw [hl] at h; simp at h
      | ok c =>
        rw [hl] at h
        simp only [Except.ok.injEq] at h
        obtain ⟨names, hne, hc⟩ := (property_loop_ok token p.attr_state_ it).1 choice c hl
        exact ⟨h4, names, hne hs, by rw [hc], by rw [← hc]; exact h.symm⟩
  · right; right; right; right
    simp only [Except.ok.injEq] at h
    simp only [not_or] at h3
    exact ⟨h1, h2, h3.1, h3.2, h4, h.symm⟩

theorem parse_attribute_ok {p p' : parser_state} {token : etsl_token}
    (h : parse_attribute p token = .ok p') :
    ∃ (category : etsl_category) (choice : etsl_choice) (keyword : String) (it : List String),
      p.file_.categories.getLast? = some category ∧ category.choices.getLast? = some choice ∧
      etsl_attr_subtokenize token = .ok (keyword :: it) ∧
      parse_attribute_keyword p token choice keyword it = .ok p' := by
  unfold parse_attribute at h
  cases hc : p.file_.categories.getLast? with
  | none => rw [hc] at h; simp at h
  | some category =>
    rw [hc] at h
    simp only at h
    cases hch : category.choices.getLast? with
    | none => rw [hch] at h; simp at h
    | some choice =>
      rw [hch] at h
      simp only at h
      cases hs : etsl_attr_subtokenize token with
      | error e => rw [hs] at h; simp at h
      | ok subtokens =>
        rw [hs] at h
        cases subtokens with
        | nil => simp at h
        | cons keyword it => exact ⟨category, choice, keyword, it, rfl, hch, rfl, h⟩

theorem modify_choice_attr_state (f : etsl_choice → etsl_choice) (p : parser_state) :
    (modify_choice f p).attr_state_ = p.attr_state_ := rfl

theorem add_props_fields (state : attr_state) (names : List String) (choice : etsl_choice) :
    (add_props state names choice).has_if = choice.has_if ∧
    (add_props state names choice).has_else = choice.has_else ∧
    (add_props state names choice).cond = choice.cond ∧
    (add_props state names choice).name = choice.name ∧
    (add_props state names choice).single_str = choice.single_str ∧
    (add_props state names choice).if_single_str = choice.if_single_str ∧
    (add_props state names choice).else_single_str = choice.else_single_str := by
  cases state <;> simp [add_props]

theorem parser_ok_parse_attribute {p p' : parser_state} {token : etsl_token}
    (hp : parse_attribute p token = .ok p') (h : parser_ok p) : parser_ok p' := by
  obtain ⟨cat, ch, keyword, it, hcat, hch, -, hk⟩ := parse_attribute_ok hp
  rcases parse_attribute_keyword_ok hk with ⟨-, hs, cond, hc, rfl⟩ | ⟨-, hs, rfl⟩ |
    ⟨-, -, rfl⟩ | ⟨-, names, -, -, rfl⟩ | ⟨-, -, -, -, -, rfl⟩
  · refine parser_ok_modify_choice _ _ h hcat hch (fun _ _ => ⟨⟨?_, ?_, ?_⟩, rfl⟩)
    · intro _; rfl
    · intro h'; simp at h'
    · intro _; exact parse_ok_expr hc
  · refine parser_ok_modify_choice _ _ h hcat hch (fun hok hcur => ?_)
    rw [hs] at hcur
    have hif : ch.has_if = true := hcur
    exact ⟨⟨fun _ => hif, fun h' => absurd (show ch.has_if = false from h') (by simp [hif]),
      fun _ => hok.2.2 hif⟩, hif⟩
  · refine parser_ok_modify_choice _ p.attr_state_ h hcat hch (fun hok hcur => ?_)
    cases hst : p.attr_state_ <;> rw [hst] at hcur <;> exact ⟨hok, hcur⟩
  · refine parser_ok_modify_choice _ p.attr_state_ h hcat hch (fun hok hcur => ?_)
    obtain ⟨h1, h2, h3⟩ := hok
    obtain ⟨f1, f2, f3, -⟩ := add_props_fields p.attr_state_ names ch
    refine ⟨⟨?_, ?_, ?_⟩, ?_⟩
    · rw [f1, f2]; exact h1
    · rw [f1, f3]
      intro h'
      refine ⟨(h2 h').1, ?_⟩
      cases hst : p.attr_state_ <;> rw [hst] at hcur
      · simp only [add_props, (h2 h').2]
      · exact absurd (show ch.has_if = true from hcur) (by simp [h'])
      · exact absurd (show ch.has_if = true from hcur) (by simp [h'])
    · rw [f1, f3]; exact h3
    · cases hst : p.attr_state_ <;> rw [hst] at hcur f1 <;> exact f1.trans hcur
  · exact h

theorem parser_ok_parse_token {p p' : parser_state} {t : etsl_token}
    (hp : parse_token p t = .ok p') (h : parser_ok p) : parser_ok p' := by
  unfold parse_token at hp
  cases hk : t.kind with
  | kind_unknown => rw [hk] at hp; simp at hp
  | kind_category =>
    rw [hk] at hp
    simp only [Except.ok.injEq] at hp
    exact hp ▸ parser_ok_parse_category t h
  | kind_choice =>
    rw [hk] at hp
    cases hc : parse_choice p t with
    | error e => rw [hc] at hp; simp at hp
    | ok p1 =>
      rw [hc] at hp
      simp only [Except.ok.injEq] at hp
      exact hp ▸ parser_ok_parse_choice hc h
  | kind_attribute =>
    rw [hk] at hp
    exact parser_ok_parse_attribute hp h

theorem parser_ok_init : parser_ok {} :=
  ⟨fun cat hcat => absurd hcat (List.not_mem_nil _), fun cat hcat => by simp at hcat⟩

theorem parse_tokens_induction (P : parser_state → Prop)
    (hstep : ∀ p t p', parse_token p t = .ok p' → P p → P p') :
    ∀ (tokens : List etsl_token) (p p' : parser_state),
      parse_tokens tokens p = .ok p' → P p → P p'
  | [], p, p', h, hp => by
    simp only [parse_tokens, Except.ok.injEq] at h
    exact h ▸ hp
  | t :: ts, p, p', h, hp => by
    rw [parse_tokens_cons] at h
    cases hs : parse_token p t with
    | error e => rw [hs] at h; simp at h
    | ok p1 =>
      rw [hs] at h
      exact parse_tokens_induction P hstep ts p1 p' h (hstep p t p1 hs hp)

theorem parser_ok_parse_tokens {tokens : List etsl_token} {p : parser_state}
    (h : parse_tokens tokens {} = .ok p) : parser_ok p :=
  parse_tokens_induction parser_ok (fun _ _ _ hs hp => parser_ok_parse_token hs hp) tokens {} p h
    parser_ok_init

theorem leading_keyword_eq {token : etsl_token} {keyword : String} {it : List String}
    (h : etsl_attr_subtokenize token = .ok (keyword :: it)) :
    leading_keyword token = some keyword := by
  simp only [leading_keyword, h]

theorem parse_token_attr_state {p p' : parser_state} {t : etsl_token}
    (hp : parse_token p t = .ok p') : p'.attr_state_ = attr_state_step p.attr_state_ t := by
  unfold parse_token at hp
  unfold attr_state_step
  cases hk : t.kind with
  | kind_unknown => rw [hk] at hp; simp at hp
  | kind_category =>
    rw [hk] at hp
    simp only [Except.ok.injEq] at hp
    obtain ⟨-, -, -, -, hs⟩ := parse_category_categories p t
    exact hp ▸ hs
  | kind_choice =>
    rw [hk] at hp
    cases hc : parse_choice p t with
    | error e => rw [hc] at hp; simp at hp
    | ok p1 =>
      rw [hc] at hp
      simp only [Except.ok.injEq] at hp
      exact hp ▸ rfl
  | kind_attribute =>
    rw [hk] at hp
    simp only at hp ⊢
    obtain ⟨cat, ch, keyword, it, -, -, hsub, hkw⟩ := parse_attribute_ok hp
    rw [leading_keyword_eq hsub]
    rcases parse_attribute_keyword_ok hkw with ⟨rfl, -, cond, -, rfl⟩ | ⟨rfl, -, rfl⟩ |
      ⟨hkey, -, rfl⟩ | ⟨rfl, names, -, -, rfl⟩ | ⟨h1, h2, -, -, -, rfl⟩
    · simp
    · simp
    · rcases hkey with rfl | rfl <;> simp [modify_choice_attr_state]
    · simp [modify_choice_attr_state]
    · simp [h1, h2]

theorem parse_tokens_attr_state : ∀ (tokens : List etsl_token) (p p' : parser_state),
    parse_tokens tokens p = .ok p' →
    p'.attr_state_ = tokens.foldl attr_state_step p.attr_state_
  | [], p, p', h => by
    simp only [parse_tokens, Except.ok.injEq] at h
    exact h ▸ rfl
  | t :: ts, p, p', h => by
    rw [parse_tokens_cons] at h
    cases hs : parse_token p t with
    | error e => rw [hs] at h; simp at h
    | ok p1 =>
      rw [hs] at h
      rw [List.foldl_cons, ← parse_token_attr_state hs]
      exact parse_tokens_attr_state ts p1 p' h

theorem parse_attribute_if_error {p : parser_state} {t : etsl_token}
    (hk : leading_keyword t = some "if") (hs : p.attr_state_ ≠ .attr_state_init) :
    ∃ e, parse_attribute p t = .error e := by
  cases hp : parse_attribute p t with
  | error e => exact ⟨e, rfl⟩
  | ok p' =>
    obtain ⟨cat, ch, keyword, it, -, -, hsub, hkw⟩ := parse_attribute_ok hp
    rw [leading_keyword_eq hsub, Option.some.injEq] at hk
    subst hk
    rcases parse_attribute_keyword_ok hkw with ⟨-, h, -⟩ | ⟨h, -⟩ | ⟨h, -⟩ | ⟨h, -⟩ | ⟨h, -⟩
    · exact absurd h hs
    · exact absurd h (by decide)
    · exact absurd h (by decide)
    · exact absurd h (by decide)
    · exact absurd rfl h

theorem parse_attribute_else_error {p : parser_state} {t : etsl_token}
    (hk : leading_keyword t = some "else") (hs : p.attr_state_ ≠ .attr_state_if) :
    ∃ e, parse_attribute p t = .error e := by
  cases hp : parse_attribute p t with
  | error e => exact ⟨e, rfl⟩
  | ok p' =>
    obtain ⟨cat, ch, keyword, it, -, -, hsub, hkw⟩ := parse_attribute_ok hp
    rw [leading_keyword_eq hsub, Option.some.injEq] at hk
    subst hk
    rcases parse_attribute_keyword_ok hkw with ⟨h, -⟩ | ⟨-, h, -⟩ | ⟨h, -⟩ | ⟨h, -⟩ |
      ⟨-, h, -⟩
    · exact absurd h (by decide)
    · exact absurd h hs
    · exact absurd h (by decide)
    · exact absurd h (by decide)
    · exact absurd rfl h

/-- A token that fails after a prefix that is accepted makes `etsl_parse` fail at the
position of that token. -/
theorem etsl_parse_error_at {pre post : List etsl_token} {t : etsl_token} {p : parser_state}
    (hpre : parse_tokens pre {} = .ok p) (ht : ∃ e, parse_token p t = .error e) :
    ∃ what, etsl_parse (pre ++ t :: post) =
      .error (.etsl_syntax_error t.line_num t.col_num what) := by
  obtain ⟨e, he⟩ := ht
  obtain ⟨what, rfl⟩ := parse_token_error he
  refine ⟨what, ?_⟩
  rw [etsl_parse_eq, parse_tokens_append, hpre]
  simp only
  rw [parse_tokens_cons, he]

/-- A token that fails in every state, or a failure before it, makes `etsl_parse` fail. -/
theorem etsl_parse_error_after {pre post : List etsl_token} {t : etsl_token}
    (ht : ∀ p, parse_tokens pre {} = .ok p → ∃ e, parse_token p t = .error e) :
    ∃ line_num col_num what, etsl_parse (pre ++ t :: post) =
      .error (.etsl_syntax_error line_num col_num what) := by
  cases hpre : parse_tokens pre {} with
  | error e =>
    have h : etsl_parse (pre ++ t :: post) = .error e := by
      rw [etsl_parse_eq, parse_tokens_append, hpre]
    obtain ⟨-, t', -, what, rfl⟩ := etsl_parse_error h
    exact ⟨_, _, what, h⟩
  | ok p =>
    obtain ⟨what, h⟩ := @etsl_parse_error_at pre post t p hpre (ht p hpre)
    exact ⟨_, _, what, h⟩

theorem parse_token_attribute {p : parser_state} {t : etsl_token}
    (hk : t.kind = .kind_attribute) : parse_token p t = parse_attribute p t := by
  simp only [parse_token, hk]

theorem finalize_choice (file : etsl_file) :
    ∀ cat ∈ (finalize file).categories, ∀ ch ∈ cat.choices,
      ∃ cat0 ∈ file.categories, ∃ ch0 ∈ cat0.choices,
        ch = unique_sort_choice (add_automatic_properties cat0 ch0) ∧
        cat.name = cat0.name ∧ cat.mutually_exclusive = cat0.mutually_exclusive := by
  intro cat hcat ch hch
  simp only [finalize, List.mem_map] at hcat
  obtain ⟨cat1, ⟨cat0, hcat0, rfl⟩, rfl⟩ := hcat
  simp only [List.mem_map] at hch
  obtain ⟨ch1, ⟨ch0, hch0, rfl⟩, rfl⟩ := hch
  exact ⟨cat0, hcat0, ch0, hch0, rfl, rfl, rfl⟩

theorem finalize_choice_fields (cat : etsl_category) (ch : etsl_choice) :
    (unique_sort_choice (add_automatic_properties cat ch)).has_if = ch.has_if ∧
    (unique_sort_choice (add_automatic_properties cat ch)).has_else = ch.has_else ∧
    (unique_sort_choice (add_automatic_properties cat ch)).cond = ch.cond ∧
    (ch.if_props = ch.else_props →
      (unique_sort_choice (add_automatic_properties cat ch)).if_props =
        (unique_sort_choice (add_automatic_properties cat ch)).else_props) := by
  unfold unique_sort_choice add_automatic_properties
  split_ifs <;> refine ⟨rfl, rfl, rfl, fun h => ?_⟩ <;> simp only [h]

theorem choice_ok_etsl_parse {tokens : List etsl_token} {file : etsl_file}
    (h : etsl_parse tokens = .ok file) :
    ∀ cat ∈ file.categories, ∀ ch ∈ cat.choices, choice_ok ch := by
  rw [etsl_parse_eq] at h
  cases hs : parse_tokens tokens {} with
  | error e => rw [hs] at h; simp at h
  | ok p =>
    rw [hs] at h
    simp only [Except.ok.injEq] at h
    subst h
    intro cat hcat ch hch
    obtain ⟨cat0, hcat0, ch0, hch0, rfl, -, -⟩ := finalize_choice _ cat hcat ch hch
    obtain ⟨h1, h2, h3⟩ := (parser_ok_parse_tokens hs).1 cat0 hcat0 ch0 hch0
    obtain ⟨f1, f2, f3, f4⟩ := finalize_choice_fields cat0 ch0
    refine ⟨?_, ?_, ?_⟩
    · rw [f1, f2]; exact h1
    · rw [f1, f3]; exact fun h' => ⟨(h2 h').1, f4 (h2 h').2⟩
    · rw [f1, f3]; exact h3

theorem attr_state_after_append (pre : List etsl_token) (t : etsl_token) :
    attr_state_after (pre ++ [t]) = attr_state_step (attr_state_after pre) t := by
  simp [attr_state_after, List.foldl_append]

theorem attr_state_foldl_ne_init : ∀ (b : List etsl_token) (s : attr_state),
    (∀ t ∈ b, t.kind ≠ .kind_choice) → s ≠ .attr_state_init →
    b.foldl attr_state_step s ≠ .attr_state_init
  | [], s, _, hs => hs
  | t :: b, s, hb, hs => by
    rw [List.foldl_cons]
    refine attr_state_foldl_ne_init b _ (fun t' ht' => hb t' (List.mem_cons_of_mem _ ht')) ?_
    have hk := hb t (List.mem_cons_self _ _)
    unfold attr_state_step
    cases hkind : t.kind with
    | kind_choice => exact absurd hkind hk
    | kind_unknown => exact hs
    | kind_category => exact hs
    | kind_attribute =>
      simp only
      split_ifs
      · decide
      · decide
      · exact hs

/-- C15: the attribute state machine of a choice. The state of the parser after a prefix
that it accepts is the state that the words of the specification give (`attr_state_after`:
a choice token resets it to `init`, an `if` attribute moves it to `in-if`, an `else`
attribute to `in-else`). An `if` attribute that arrives in a state other than `init`, and
an `else` attribute that arrives in a state other than `in-if`, make `etsl_parse` fail with
`etsl_syntax_error`, at the position of that attribute when the tokens before it are
accepted. Consequently, in every assembled document `has_else` implies `has_if`, a choice has
a condition exactly when `has_if` is set, and two `if` attributes of an accepted token
sequence are separated by a choice token. -/
theorem attribute_state_machine :
    (∀ (pre post : List etsl_token) (t : etsl_token),
      t.kind = .kind_attribute → leading_keyword t = some "if" →
      attr_state_after pre ≠ .attr_state_init →
      (∃ line_num col_num what, etsl_parse (pre ++ t :: post) =
        .error (.etsl_syntax_error line_num col_num what)) ∧
      ∀ p, parse_tokens pre {} = .ok p →
        ∃ what, etsl_parse (pre ++ t :: post) =
          .error (.etsl_syntax_error t.line_num t.col_num what)) ∧
    (∀ (pre post : List etsl_token) (t : etsl_token),
      t.kind = .kind_attribute → leading_keyword t = some "else" →
      attr_state_after pre ≠ .attr_state_if →
      (∃ line_num col_num what, etsl_parse (pre ++ t :: post) =
        .error (.etsl_syntax_error line_num col_num what)) ∧
      ∀ p, parse_tokens pre {} = .ok p →
        ∃ what, etsl_parse (pre ++ t :: post) =
          .error (.etsl_syntax_error t.line_num t.col_num what)) ∧
    (∀ (pre : List etsl_token) (p : parser_state),
      parse_tokens pre {} = .ok p → p.attr_state_ = attr_state_after pre) ∧
    (∀ (p p' : parser_state) (t : etsl_token),
      t.kind = .kind_choice → parse_token p t = .ok p' → p'.attr_state_ = .attr_state_init) ∧
    (∀ (tokens : List etsl_token) (file : etsl_file), etsl_parse tokens = .ok file →
      ∀ cat ∈ file.categories, ∀ ch ∈ cat.choices,
        (ch.has_else = true → ch.has_if = true) ∧ (ch.has_if = true ↔ ch.cond.expr_ ≠ none)) ∧
    (∀ (a b c : List etsl_token) (t1 t2 : etsl_token) (file : etsl_file),
      etsl_parse (a ++ t1 :: b ++ t2 :: c) = .ok file →
      t1.kind = .kind_attribute → leading_keyword t1 = some "if" →
      t2.kind = .kind_attribute → leading_keyword t2 = some "if" →
      ∃ t ∈ b, t.kind = .kind_choice) := by
  have key_if : ∀ (pre post : List etsl_token) (t : etsl_token),
      t.kind = .kind_attribute → leading_keyword t = some "if" →
      attr_state_after pre ≠ .attr_state_init →
      (∃ line_num col_num what, etsl_parse (pre ++ t :: post) =
        .error (.etsl_syntax_error line_num col_num what)) ∧
      ∀ p, parse_tokens pre {} = .ok p →
        ∃ what, etsl_parse (pre ++ t :: post) =
          .error (.etsl_syntax_error t.line_num t.col_num what) := by
    intro pre post t hk hl hs
    have ht : ∀ p, parse_tokens pre {} = .ok p → ∃ e, parse_token p t = .error e := by
      intro p hp
      rw [parse_token_attribute hk]
      refine parse_attribute_if_error hl ?_
      rw [parse_tokens_attr_state pre {} p hp]
      exact hs
    exact ⟨etsl_parse_error_after ht, fun p hp => etsl_parse_error_at hp (ht p hp)⟩
  refine ⟨key_if, ?_, ?_, ?_, ?_, ?_⟩
  · intro pre post t hk hl hs
    have ht : ∀ p, parse_tokens pre {} = .ok p → ∃ e, parse_token p t = .error e := by
      intro p hp
      rw [parse_token_attribute hk]
      refine parse_attribute_else_error hl ?_
      rw [parse_tokens_attr_state pre {} p hp]
      exact hs
    exact ⟨etsl_parse_error_after ht, fun p hp => etsl_parse_error_at hp (ht p hp)⟩
  · intro pre p hp
    exact parse_tokens_attr_state pre {} p hp
  · intro p p' t hk hp
    rw [parse_token_attr_state hp]
    simp only [attr_state_step, hk]
  · intro tokens file h cat hcat ch hch
    obtain ⟨h1, h2, h3⟩ := choice_ok_etsl_parse h cat hcat ch hch
    refine ⟨h1, h3, fun hc => ?_⟩
    cases hif : ch.has_if with
    | true => rfl
    | false => exact absurd (h2 hif).1 hc
  · intro a b c t1 t2 file h hk1 hl1 hk2 hl2
    by_contra hb
    have hb' : ∀ t ∈ b, t.kind ≠ .kind_choice := fun t ht hk => hb ⟨t, ht, hk⟩
    have hs : attr_state_after (a ++ t1 :: b) ≠ .attr_state_init := by
      have h1 : attr_state_after (a ++ t1 :: b) =
          b.foldl attr_state_step (attr_state_step (attr_state_after a) t1) := by
        simp [attr_state_after, List.foldl_append]
      rw [h1]
      refine attr_state_foldl_ne_init b _ hb' ?_
      simp [attr_state_step, hk1, hl1]
    obtain ⟨⟨line_num, col_num, what, he⟩, -⟩ := key_if (a ++ t1 :: b) c t2 hk2 hl2 hs
    rw [he] at h
    simp at h

/-- Witness for C15: after the tokens of `A: x. [if p]` the state is `in-if`, and a second
`if` attribute makes `etsl_parse` fail at its position. -/
theorem attribute_state_machine_witness :
    ∃ what, etsl_parse (if_tokens ++ second_if_token :: []) =
      .error (.etsl_syntax_error 1 19 what) :=
  (attribute_state_machine.1 if_tokens [] second_if_token rfl (by decide) (by decide)).2
    if_state (by decide)

theorem parse_attribute_property {p : parser_state} {token : etsl_token}
    {category : etsl_category} {choice : etsl_choice} {names : List String}
    (hcat : p.file_.categories.getLast? = some category)
    (hch : category.choices.getLast? = some choice) (hne : names ≠ [])
    (hs : etsl_attr_subtokenize token = .ok ("property" :: names.intersperse ",")) :
    parse_attribute p token =
      .ok { p with file_ := ⟨p.file_.categories.dropLast ++
        [{ category with choices :=
          category.choices.dropLast ++ [add_props p.attr_state_ names choice] }]⟩ } := by
  have hi : names.intersperse "," ≠ [] := by
    cases names with
    | nil => exact absurd rfl hne
    | cons n ns => cases ns <;> simp
  unfold parse_attribute
  rw [hcat]
  simp only
  rw [hch]
  simp only
  rw [hs]
  simp only
  unfold parse_attribute_keyword
  simp only [String.reduceEq, if_false, if_true, false_or]
  rw [property_loop_intersperse token p.attr_state_ names choice hne]
  simp only [attr_assert, hi, ne_eq, not_false_eq_true, decide_True, if_true]
  rw [modify_choice_eq _ p _ category _ choice (eq_append_of_getLast? hcat)
    (eq_append_of_getLast? hch)]

theorem parse_attribute_property_empty (p : parser_state) {token : etsl_token}
    (hs : etsl_attr_subtokenize token = .ok ["property"]) :
    ∃ what, parse_attribute p token =
      .error (.etsl_syntax_error token.line_num token.col_num what) := by
  unfold parse_attribute
  cases p.file_.categories.getLast? with
  | none => exact ⟨_, rfl⟩
  | some category =>
    simp only
    cases category.choices.getLast? with
    | none => exact ⟨_, rfl⟩
    | some choice =>
      simp only [hs]
      unfold parse_attribute_keyword
      simp only [String.reduceEq, if_false, if_true, false_or, attr_assert]
      exact ⟨_, rfl⟩

/-- C18: the placement of explicit properties. A `property` attribute whose sub-tokens are
`property` and the names `n1, ..., nk` (k at least one) separated by commas, processed for
the current choice, replaces that choice by `add_props`: in the state `init` the names are
appended to both `if_props` and `else_props`, in the state `in-if` only to `if_props`, in
the state `in-else` only to `else_props`; the other fields of the choice, the other choices
and categories, the flag of the scope and the state are unchanged. A `property` attribute
with no name is a syntax error at the position of the attribute. Consequently a choice of
an assembled document with `has_if` not set has `if_props` equal to `else_props`. -/
theorem property_placement :
    (∀ (p : parser_state) (token : etsl_token) (category : etsl_category)
      (choice : etsl_choice) (names : List String),
      p.file_.categories.getLast? = some category → category.choices.getLast? = some choice →
      names ≠ [] →
      etsl_attr_subtokenize token = .ok ("property" :: names.intersperse ",") →
      parse_attribute p token =
        .ok { p with file_ := ⟨p.file_.categories.dropLast ++
          [{ category with choices :=
            category.choices.dropLast ++ [add_props p.attr_state_ names choice] }]⟩ }) ∧
    (∀ (choice : etsl_choice) (names : List String),
      add_props .attr_state_init names choice =
        { choice with if_props := choice.if_props ++ names,
                      else_props := choice.else_props ++ names } ∧
      add_props .attr_state_if names choice =
        { choice with if_props := choice.if_props ++ names } ∧
      add_props .attr_state_else names choice =
        { choice with else_props := choice.else_props ++ names }) ∧
    (∀ (p : parser_state) (token : etsl_token),
      etsl_attr_subtokenize token = .ok ["property"] →
      ∃ what, parse_attribute p token =
        .error (.etsl_syntax_error token.line_num token.col_num what)) ∧
    (∀ (pre post : List etsl_token) (t : etsl_token) (p : parser_state),
      parse_tokens pre {} = .ok p → t.kind = .kind_attribute →
      etsl_attr_subtokenize t = .ok ["property"] →
      ∃ what, etsl_parse (pre ++ t :: post) =
        .error (.etsl_syntax_error t.line_num t.col_num what)) ∧
    (∀ (tokens : List etsl_token) (file : etsl_file), etsl_parse tokens = .ok file →
      ∀ cat ∈ file.categories, ∀ ch ∈ cat.choices,
        ch.has_if = false → ch.if_props = ch.else_props) ∧
    etsl_attr_subtokenize property_token = .ok ("property" :: ["a", "b"].intersperse ",") ∧
    etsl_attr_subtokenize { kind := .kind_attribute, str := "property", line_num := 1, col_num := 15 } =
      .ok ["property"] := by
  refine ⟨fun p token category choice names hcat hch hne hs =>
      parse_attribute_property hcat hch hne hs,
    fun choice names => ⟨rfl, rfl, rfl⟩,
    fun p token hs => parse_attribute_property_empty p hs, ?_, ?_, by decide, by decide⟩
  · intro pre post t p hp hk hs
    refine etsl_parse_error_at hp ?_
    rw [parse_token_attribute hk]
    obtain ⟨what, h⟩ := parse_attribute_property_empty p hs
    exact ⟨_, h⟩
  · intro tokens file h cat hcat ch hch hif
    exact ((choice_ok_etsl_parse h cat hcat ch hch).2.1 hif).2

/-- Witness for C18: after the tokens of `A: x.`, in the state `init`, the attribute
`property a, b` appends `a` and `b` to both property lists of the choice `x`. -/
theorem property_placement_witness :
    parse_attribute plain_state property_token =
      .ok { plain_state with file_ := ⟨plain_state.file_.categories.dropLast ++
        [{ bare_A with choices :=
          bare_A.choices.dropLast ++ [add_props plain_state.attr_state_ ["a", "b"] bare_x] }]⟩ } :=
  property_placement.1 plain_state property_token bare_A bare_x ["a", "b"] (by decide)
    (by decide) (by decide) (by decide)

/-! ## The scope of Expectations -/

theorem undecided_append (ts : List etsl_token) (t : etsl_token) :
    undecided (ts ++ [t]) =
      (undecided ts && !decide (t.kind = .kind_category) && !decide (t.kind = .kind_choice)) := by
  induction ts with
  | nil => cases hk : t.kind <;> simp [undecided, hk]
  | cons e r ih => cases hk : e.kind <;> simp [undecided, hk, ih]

theorem collected_none_append (ts : List etsl_token) (t : etsl_token) :
    collected_none (ts ++ [t]) =
      (collected_none ts || (undecided ts && decide (t.kind = .kind_category))) := by
  induction ts with
  | nil => cases hk : t.kind <;> simp [collected_none, undecided, hk]
  | cons e r ih => cases hk : e.kind <;> simp [collected_none, undecided, hk, ih]

theorem pending_append (ts : List etsl_token) (t : etsl_token) :
    pending (ts ++ [t]) =
      match t.kind with
      | .kind_category => some t.str
      | .kind_choice => none
      | _ => pending ts := by
  induction ts with
  | nil => cases hk : t.kind <;> simp [pending, undecided, hk]
  | cons e r ih =>
    rw [List.cons_append, pending, undecided_append, ih, pending]
    cases hu : undecided r <;> cases hk : t.kind <;> simp [hk]

theorem undecided_facts : ∀ (ts : List etsl_token), undecided ts = true →
    pending ts = none ∧ collected_none ts = false ∧ scope_entered ts = false
  | [], _ => ⟨rfl, rfl, rfl⟩
  | e :: r, h => by
    have hr : undecided r = true := by
      cases hk : e.kind <;> simp [undecided, hk] at h <;> exact h
    obtain ⟨h1, h2, h3⟩ := undecided_facts r hr
    cases hk : e.kind <;> simp [undecided, hk] at h <;>
      simp [pending, collected_none, scope_entered, hk, hr, h2, h3]

theorem scope_entered_append (ts : List etsl_token) (t : etsl_token) :
    scope_entered (ts ++ [t]) =
      (scope_entered ts ||
        (decide (t.kind = .kind_category) && decide (pending ts = some "Expectations"))) := by
  induction ts with
  | nil => cases hk : t.kind <;> simp [scope_entered, collected_none, pending, hk]
  | cons e r ih =>
    rw [List.cons_append, scope_entered, collected_none_append, ih, scope_entered, pending]
    cases hu : undecided r
    · cases hk : t.kind <;> cases hk' : e.kind <;> simp [hk, hk', Bool.or_assoc]
    · obtain ⟨h1, h2, h3⟩ := undecided_facts r hu
      cases hk : t.kind <;> cases hk' : e.kind <;> simp [hk, hk', h1, h2, h3]

theorem undecided_expected : ∀ (r a : List etsl_token), undecided r = true →
    expected_categories a r = []
  | [], _, _ => rfl
  | e :: r, a, h => by
    have hr : undecided r = true := by
      cases hk : e.kind <;> simp [undecided, hk] at h <;> exact h
    have hk : e.kind ≠ .kind_category := by
      intro hk
      simp [undecided, hk] at h
    rw [expected_categories, if_neg (fun hc => hk hc.1)]
    exact undecided_expected r _ hr

theorem pending_expected : ∀ (r a : List etsl_token), (pending r).isSome = true →
    expected_categories a r ≠ []
  | [], _, h => by simp [pending] at h
  | e :: r, a, h => by
    rw [pending] at h
    rw [expected_categories]
    cases hu : undecided r with
    | true =>
      rw [hu] at h
      simp only [if_true] at h
      have hk : e.kind = .kind_category := by
        cases hk : e.kind <;> simp [hk] at h
        rfl
      rw [if_pos ⟨hk, (undecided_facts r hu).2.1⟩]
      exact List.cons_ne_nil _ _
    | false =>
      rw [hu] at h
      simp only [Bool.false_eq_true, if_false] at h
      have ih := pending_expected r (a ++ [e]) h
      split_ifs
      · exact List.cons_ne_nil _ _
      · exact ih

theorem expected_categories_append : ∀ (ts a : List etsl_token) (t : etsl_token),
    expected_categories a (ts ++ [t]) =
      if t.kind = .kind_category then
        (if (pending ts).isSome = true then (expected_categories a ts).dropLast
          else expected_categories a ts) ++ [(t.str, scope_entered (a ++ ts ++ [t]))]
      else expected_categories a ts
  | [], a, t => by
    by_cases hk : t.kind = .kind_category <;>
      simp [expected_categories, collected_none, pending, hk]
  | e :: r, a, t => by
    have ih := expected_categories_append r (a ++ [e]) t
    have hl : a ++ [e] ++ r ++ [t] = a ++ e :: r ++ [t] := by simp
    rw [hl] at ih
    rw [List.cons_append, expected_categories, ih, collected_none_append, pending,
      expected_categories]
    by_cases hk : t.kind = .kind_category
    · simp only [hk, if_true, decide_True, Bool.and_true]
      cases hu : undecided r with
      | true =>
        obtain ⟨h1, h2, -⟩ := undecided_facts r hu
        simp only [h1, h2, undecided_expected r _ hu, Bool.or_true, Bool.true_eq_false,
          and_false, if_false, if_true, Option.isSome_none, Bool.false_eq_true, and_true,
          List.nil_append]
        by_cases hk' : e.kind = .kind_category
        · simp [hk']
        · cases hk'' : e.kind <;> simp [hk''] at hk' ⊢
      | false =>
        simp only [Bool.or_false, Bool.false_eq_true, if_false]
        by_cases hp : (pending r).isSome = true
        · have hne := pending_expected r (a ++ [e]) hp
          simp only [if_pos hp]
          split_ifs
          · rw [List.dropLast_cons_of_ne_nil hne, List.cons_append]
          · rfl
        · simp only [if_neg hp]
          split_ifs
          · rw [List.cons_append]
          · rfl
    · simp only [hk, if_false, decide_False, Bool.and_false, Bool.or_false]

theorem scope_ok_parse_category {pre : List etsl_token} {p : parser_state} (t : etsl_token)
    (hk : t.kind = .kind_category) (h : scope_ok pre p) :
    scope_ok (pre ++ [t]) (parse_category p t) := by
  obtain ⟨h1, h2, h3⟩ := h
  unfold scope_ok
  rw [scope_entered_append, expected_categories_append, pending_append, ← h3, ← h2, ← h1]
  simp only [hk, if_true, decide_True, Bool.true_and, List.nil_append]
  rw [scope_entered_append, ← h3, ← h1]
  simp only [hk, decide_True, Bool.true_and]
  unfold parse_category pending_category
  cases hl : p.file_.categories.getLast? with
  | none =>
    have hnil : p.file_.categories = [] := List.getLast?_eq_none_iff.1 hl
    simp [hnil, category_flag]
  | some last =>
    simp only
    by_cases he : last.choices = []
    · simp only [if_pos he, Option.isSome_some, if_true, getLast?_append_singleton,
        List.map_append, List.map_dropLast, List.map_cons, List.map_nil, category_flag,
        Option.some.injEq]
      by_cases hn : last.name = "Expectations"
      · simp [hn]
      · simp [hn]
    · simp only [if_neg he, Option.isSome_none, Bool.false_eq_true, if_false,
        getLast?_append_singleton, List.map_append, List.map_cons, List.map_nil, category_flag]
      simp

theorem scope_ok_parse_choice {pre : List etsl_token} {p p' : parser_state} {t : etsl_token}
    (hk : t.kind = .kind_choice) (hp : parse_choice p t = .ok p') (h : scope_ok pre p) :
    scope_ok (pre ++ [t]) { p' with attr_state_ := .attr_state_init } := by
  obtain ⟨h1, h2, h3⟩ := h
  unfold parse_choice at hp
  split_ifs at hp with he
  simp only [Except.ok.injEq] at hp
  subst hp
  obtain ⟨cat, hcat⟩ : ∃ cat, p.file_.categories.getLast? = some cat := by
    cases hl : p.file_.categories.getLast? with
    | none => exact absurd (List.getLast?_eq_none_iff.1 hl) he
    | some cat => exact ⟨cat, rfl⟩
  have hc := eq_append_of_getLast? hcat
  unfold scope_ok
  rw [scope_entered_append, expected_categories_append, pending_append, ← h2, ← h1]
  simp only [hk, if_false, decide_False, Bool.false_and, Bool.or_false, reduceCtorEq]
  refine ⟨trivial, ?_, ?_⟩
  · rw [hc, modify_back_append, ← hc]
    conv_rhs => rw [hc]
    simp [category_flag, emplace_choice]
  · unfold pending_category
    simp only
    rw [hc, modify_back_append, getLast?_append_singleton]
    simp [emplace_choice]

theorem scope_ok_modify_choice {pre : List etsl_token} {p : parser_state}
    {cat : etsl_category} {ch : etsl_choice} (f : etsl_choice → etsl_choice) (s : attr_state)
    (hcat : p.file_.categories.getLast? = some cat) (hch : cat.choices.getLast? = some ch)
    (h : scope_ok pre p) : scope_ok pre { modify_choice f p with attr_state_ := s } := by
  obtain ⟨h1, h2, h3⟩ := h
  have hc := eq_append_of_getLast? hcat
  have hchs := eq_append_of_getLast? hch
  have hne : cat.choices ≠ [] := by
    intro h'
    rw [h'] at hch
    simp at hch
  rw [modify_choice_eq f p _ cat _ ch hc hchs]
  refine ⟨h1, ?_, ?_⟩
  · rw [← h2]
    conv_rhs => rw [hc]
    simp [category_flag]
  · rw [← h3]
    unfold pending_category
    simp only [getLast?_append_singleton, hcat, if_neg hne]
    simp

theorem scope_ok_parse_attribute {pre : List etsl_token} {p p' : parser_state}
    {t : etsl_token} (hk : t.kind = .kind_attribute) (hp : parse_attribute p t = .ok p')
    (h : scope_ok pre p) : scope_ok (pre ++ [t]) p' := by
  have hsame : scope_ok pre p' := by
    obtain ⟨cat, ch, keyword, it, hcat, hch, -, hkw⟩ := parse_attribute_ok hp
    rcases parse_attribute_keyword_ok hkw with ⟨-, -, cond, -, rfl⟩ | ⟨-, -, rfl⟩ |
      ⟨-, -, rfl⟩ | ⟨-, names, -, -, rfl⟩ | ⟨-, -, -, -, -, rfl⟩
    · exact scope_ok_modify_choice _ _ hcat hch h
    · exact scope_ok_modify_choice _ _ hcat hch h
    · exact scope_ok_modify_choice _ p.attr_state_ hcat hch h
    · exact scope_ok_modify_choice _ p.attr_state_ hcat hch h
    · exact h
  obtain ⟨h1, h2, h3⟩ := hsame
  unfold scope_ok
  rw [scope_entered_append, expected_categories_append, pending_append]
  simp only [hk, if_false, decide_False, Bool.false_and, Bool.or_false, reduceCtorEq]
  exact ⟨h1, h2, h3⟩

theorem scope_ok_parse_token {pre : List etsl_token} {p p' : parser_state} {t : etsl_token}
    (hp : parse_token p t = .ok p') (h : scope_ok pre p) : scope_ok (pre ++ [t]) p' := by
  unfold parse_token at hp
  cases hk : t.kind with
  | kind_unknown => rw [hk] at hp; simp at hp
  | kind_category =>
    rw [hk] at hp
    simp only [Except.ok.injEq] at hp
    exact hp ▸ scope_ok_parse_category t hk h
  | kind_choice =>
    rw [hk] at hp
    cases hc : parse_choice p t with
    | error e => rw [hc] at hp; simp at hp
    | ok p1 =>
      rw [hc] at hp
      simp only [Except.ok.injEq] at hp
      exact hp ▸ scope_ok_parse_choice hk hc h
  | kind_attribute =>
    rw [hk] at hp
    exact scope_ok_parse_attribute hk hp h

theorem scope_ok_parse_tokens : ∀ (tokens pre : List etsl_token) (p p' : parser_state),
    parse_tokens tokens p = .ok p' → scope_ok pre p → scope_ok (pre ++ tokens) p'
  | [], pre, p, p', h, hp => by
    simp only [parse_tokens, Except.ok.injEq] at h
    rw [List.append_nil]
    exact h ▸ hp
  | t :: ts, pre, p, p', h, hp => by
    rw [parse_tokens_cons] at h
    cases hs : parse_token p t with
    | error e => rw [hs] at h; simp at h
    | ok p1 =>
      rw [hs] at h
      have := scope_ok_parse_tokens ts (pre ++ [t]) p1 p' h (scope_ok_parse_token hs hp)
      rwa [List.append_assoc, List.singleton_append] at this

theorem finalize_category_flag (file : etsl_file) :
    (finalize file).categories.map category_flag = file.categories.map category_flag := by
  simp only [finalize, List.map_map]
  rfl

theorem etsl_parse_categories {tokens : List etsl_token} {file : etsl_file}
    (h : etsl_parse tokens = .ok file) :
    file.categories.map category_flag = expected_categories [] tokens := by
  rw [etsl_parse_eq] at h
  cases hs : parse_tokens tokens {} with
  | error e => rw [hs] at h; simp at h
  | ok p =>
    rw [hs] at h
    simp only [Except.ok.injEq] at h
    subst h
    have hok := scope_ok_parse_tokens tokens [] {} p hs ⟨rfl, rfl, rfl⟩
    rw [finalize_category_flag, hok.2.1, List.nil_append]

theorem collected_none_mono : ∀ (xs ys : List etsl_token), collected_none xs = true →
    collected_none (xs ++ ys) = true
  | [], _, h => by simp [collected_none] at h
  | e :: r, ys, h => by
    rw [List.cons_append, collected_none]
    rw [collected_none] at h
    cases hk : e.kind <;> rw [hk] at h <;> simp only at h ⊢
    · exact collected_none_mono r ys h
    · exact absurd h (by simp)
    · exact collected_none_mono r ys h

theorem scope_entered_mono : ∀ (xs ys : List etsl_token), scope_entered xs = true →
    scope_entered (xs ++ ys) = true
  | [], _, h => by simp [scope_entered] at h
  | e :: r, ys, h => by
    rw [List.cons_append, scope_entered]
    rw [scope_entered] at h
    simp only [Bool.or_eq_true, Bool.and_eq_true] at h ⊢
    rcases h with ⟨h1, h2⟩ | h
    · exact Or.inl ⟨h1, collected_none_mono r ys h2⟩
    · exact Or.inr (scope_entered_mono r ys h)

theorem expected_categories_flag : ∀ (ts pre : List etsl_token),
    ∀ x ∈ expected_categories pre ts, ∃ mid, x.2 = scope_entered (pre ++ mid)
  | [], _, x, h => by simp [expected_categories] at h
  | t :: ts, pre, x, h => by
    rw [expected_categories] at h
    have ih := expected_categories_flag ts (pre ++ [t]) x
    have hrest : x ∈ expected_categories (pre ++ [t]) ts → ∃ mid, x.2 = scope_entered (pre ++ mid) := by
      intro hx
      obtain ⟨mid, hmid⟩ := ih hx
      exact ⟨t :: mid, by rw [hmid, List.append_assoc, List.singleton_append]⟩
    split_ifs at h
    · rcases List.mem_cons.1 h with rfl | hx
      · exact ⟨[t], rfl⟩
      · exact hrest hx
    · exact hrest h

theorem expected_categories_pairwise : ∀ (ts pre : List etsl_token),
    List.Pairwise (fun x y : String × Bool => x.2 = true → y.2 = true)
      (expected_categories pre ts)
  | [], _ => by simp [expected_categories]
  | t :: ts, pre => by
    rw [expected_categories]
    have ih := expected_categories_pairwise ts (pre ++ [t])
    split_ifs
    · refine List.pairwise_cons.2 ⟨fun y hy hx => ?_, ih⟩
      obtain ⟨mid, hmid⟩ := expected_categories_flag ts (pre ++ [t]) y hy
      rw [hmid]
      exact scope_entered_mono _ mid hx
    · exact ih

theorem collected_none_iff : ∀ (r : List etsl_token),
    collected_none r = true ↔
      ∃ (mid : List etsl_token) (c : etsl_token) (rest : List etsl_token),
        r = mid ++ c :: rest ∧ c.kind = .kind_category ∧
        ∀ m ∈ mid, m.kind ≠ .kind_category ∧ m.kind ≠ .kind_choice
  | [] => by simp [collected_none]
  | e :: r => by
    have ih := collected_none_iff r
    have hcons : ∀ (hne : e.kind ≠ .kind_category),
        (∃ (mid : List etsl_token) (c : etsl_token) (rest : List etsl_token),
          e :: r = mid ++ c :: rest ∧ c.kind = .kind_category ∧
          ∀ m ∈ mid, m.kind ≠ .kind_category ∧ m.kind ≠ .kind_choice) →
        e.kind ≠ .kind_choice ∧ collected_none r = true := by
      rintro hne ⟨mid, c, rest, heq, hc, hmid⟩
      cases mid with
      | nil =>
        simp only [List.nil_append, List.cons.injEq] at heq
        exact absurd (heq.1 ▸ hc) hne
      | cons m mid =>
        simp only [List.cons_append, List.cons.injEq] at heq
        obtain ⟨rfl, rfl⟩ := heq
        exact ⟨(hmid e (List.mem_cons_self _ _)).2,
          ih.2 ⟨mid, c, rest, rfl, hc, fun m hm => hmid m (List.mem_cons_of_mem _ hm)⟩⟩
    have hback : ∀ (h1 : e.kind ≠ .kind_category) (h2 : e.kind ≠ .kind_choice),
        collected_none r = true →
        ∃ (mid : List etsl_token) (c : etsl_token) (rest : List etsl_token),
          e :: r = mid ++ c :: rest ∧ c.kind = .kind_category ∧
          ∀ m ∈ mid, m.kind ≠ .kind_category ∧ m.kind ≠ .kind_choice := by
      intro h1 h2 h
      obtain ⟨mid, c, rest, rfl, hc, hmid⟩ := ih.1 h
      refine ⟨e :: mid, c, rest, rfl, hc, fun m hm => ?_⟩
      rcases List.mem_cons.1 hm with rfl | hm
      · exact ⟨h1, h2⟩
      · exact hmid m hm
    rw [collected_none]
    cases hk : e.kind with
    | kind_category =>
      simp only [true_iff]
      exact ⟨[], e, r, rfl, hk, fun m hm => absurd hm (List.not_mem_nil _)⟩
    | kind_choice =>
      simp only [Bool.false_eq_true, false_iff]
      intro h
      exact (hcons (by rw [hk]; decide) h).1 hk
    | kind_unknown =>
      simp only
      exact ⟨hback (by rw [hk]; decide) (by rw [hk]; decide),
        fun h => (hcons (by rw [hk]; decide) h).2⟩
    | kind_attribute =>
      simp only
      exact ⟨hback (by rw [hk]; decide) (by rw [hk]; decide),
        fun h => (hcons (by rw [hk]; decide) h).2⟩

theorem scope_entered_iff : ∀ (ts : List etsl_token),
    scope_entered ts = true ↔
      ∃ (a : List etsl_token) (e : etsl_token) (mid : List etsl_token) (c : etsl_token)
        (rest : List etsl_token),
        ts = a ++ e :: mid ++ c :: rest ∧
        e.kind = .kind_category ∧ e.str = "Expectations" ∧ c.kind = .kind_category ∧
        ∀ m ∈ mid, m.kind ≠ .kind_category ∧ m.kind ≠ .kind_choice
  | [] => by simp [scope_entered]
  | t :: ts => by
    have ih := scope_entered_iff ts
    rw [scope_entered]
    simp only [Bool.or_eq_true, Bool.and_eq_true, decide_eq_true_eq]
    constructor
    · rintro (⟨⟨hk, hs⟩, hc⟩ | h)
      · obtain ⟨mid, c, rest, rfl, hc, hmid⟩ := (collected_none_iff ts).1 hc
        exact ⟨[], t, mid, c, rest, rfl, hk, hs, hc, hmid⟩
      · obtain ⟨a, e, mid, c, rest, rfl, he, hs, hc, hmid⟩ := ih.1 h
        exact ⟨t :: a, e, mid, c, rest, rfl, he, hs, hc, hmid⟩
    · rintro ⟨a, e, mid, c, rest, heq, he, hs, hc, hmid⟩
      cases a with
      | nil =>
        simp only [List.nil_append, List.cons_append, List.cons.injEq] at heq
        obtain ⟨rfl, rfl⟩ := heq
        exact Or.inl ⟨⟨he, hs⟩, (collected_none_iff _).2 ⟨mid, c, rest, rfl, hc, hmid⟩⟩
      | cons x a =>
        simp only [List.cons_append, List.cons.injEq] at heq
        obtain ⟨rfl, rfl⟩ := heq
        exact Or.inr (ih.2 ⟨a, e, mid, c, rest, by simp, he, hs, hc, hmid⟩)

theorem mem_expected_categories : ∀ (pre a : List etsl_token) (t : etsl_token)
    (post : List etsl_token), t.kind = .kind_category → collected_none post = false →
    (t.str, scope_entered (a ++ pre ++ [t])) ∈ expected_categories a (pre ++ t :: post)
  | [], a, t, post, hk, hc => by
    rw [List.nil_append, expected_categories, if_pos ⟨hk, hc⟩, List.append_nil]
    exact List.mem_cons_self _ _
  | e :: r, a, t, post, hk, hc => by
    have ih := mem_expected_categories r (a ++ [e]) t post hk hc
    have hl : a ++ [e] ++ r ++ [t] = a ++ e :: r ++ [t] := by simp
    rw [hl] at ih
    rw [List.cons_append, expected_categories]
    split_ifs
    · exact List.mem_cons_of_mem _ ih
    · exact ih

/-- C17: the scope of `Expectations`. On every token sequence that `etsl_parse` accepts,
the names and flags of the categories of the document are the ones the specification
describes (`expected_categories`): a category token that is directly followed by the next
category token is discarded, and a category that is kept is mutually exclusive exactly when,
in the tokens up to its own, a category token with the text `Expectations` had collected no
choice when the next category token arrived (`scope_entered`, characterised by the
decomposition of the token sequence). The flag depends on the tokens up to the category
only, so categories declared before the scope is entered keep `false`; once it is true it is
true for every longer prefix, and the flags of the document never go back from true to
false. -/
theorem expectations_scope :
    (∀ (tokens : List etsl_token) (file : etsl_file), etsl_parse tokens = .ok file →
      file.categories.map category_flag = expected_categories [] tokens) ∧
    (∀ (pre post : List etsl_token) (t : etsl_token) (file : etsl_file),
      etsl_parse (pre ++ t :: post) = .ok file → t.kind = .kind_category →
      collected_none post = false →
      (t.str, scope_entered (pre ++ [t])) ∈ file.categories.map category_flag) ∧
    (∀ (ts : List etsl_token), scope_entered ts = true ↔
      ∃ (a : List etsl_token) (e : etsl_token) (mid : List etsl_token) (c : etsl_token)
        (rest : List etsl_token),
        ts = a ++ e :: mid ++ c :: rest ∧
        e.kind = .kind_category ∧ e.str = "Expectations" ∧ c.kind = .kind_category ∧
        ∀ m ∈ mid, m.kind ≠ .kind_category ∧ m.kind ≠ .kind_choice) ∧
    (∀ (pre post : List etsl_token), scope_entered pre = true →
      scope_entered (pre ++ post) = true) ∧
    (∀ (tokens : List etsl_token) (file : etsl_file), etsl_parse tokens = .ok file →
      List.Pairwise
        (fun a b : etsl_category => a.mutually_exclusive = true → b.mutually_exclusive = true)
        file.categories) ∧
    etsl_tokenize "A: x. Expectations: B: y.".data = scope_tokens ∧
    etsl_parse scope_tokens = .ok scope_file ∧
    expected_categories [] scope_tokens = [("A", false), ("B", true)] := by
  refine ⟨fun tokens file h => etsl_parse_categories h, ?_, scope_entered_iff,
    scope_entered_mono, ?_, by decide, by decide, by decide⟩
  · intro pre post t file h hk hc
    rw [etsl_parse_categories h]
    have := mem_expected_categories pre [] t post hk hc
    rwa [List.nil_append] at this
  · intro tokens file h
    have hp := expected_categories_pairwise tokens []
    rw [← etsl_parse_categories h, List.pairwise_map] at hp
    exact hp

/-- Witness for C17: the document of `A: x. Expectations: B: y.` has the category `A` with
the flag false and the category `B` with the flag true, and no category `Expectations`. -/
theorem expectations_scope_witness :
    scope_file.categories.map category_flag = expected_categories [] scope_tokens :=
  expectations_scope.1 scope_tokens scope_file (by decide)

/-! ## Unterminated attribute blocks -/

theorem tokenize_char_flag (c : Char) (st : tokenizer_state) :
    (tokenize_char c st).2 = if c = '\n' then false else false || decide (c = '#') := by
  unfold tokenize_char
  by_cases h1 : c = '\n'
  · simp [h1]
  · by_cases h2 : c = '#'
    · simp [h2]
    · simp only [if_neg h1, if_neg h2, Bool.false_or]
      split_ifs <;> simp [h2]

theorem tokenize_loop_append : ∀ (s u : List Char) (ignoring : Bool) (st : tokenizer_state),
    tokenize_loop (s ++ u) ignoring st =
      tokenize_loop u (in_comment s ignoring) (tokenize_loop s ignoring st)
  | [], u, ignoring, st => by cases ignoring <;> rfl
  | c :: cs, u, true, st => by
    rw [List.cons_append, tokenize_loop, tokenize_loop, in_comment,
      tokenize_loop_append cs u _ st]
    by_cases hc : c = '\n'
    · simp [hc]
    · have hb : (c != '\n') = true := by simp [hc]
      simp [hc, hb]
  | c :: cs, u, false, st => by
    rw [List.cons_append, tokenize_loop, tokenize_loop, in_comment]
    by_cases hr : c = '\r'
    · subst hr
      simp only [if_true]
      rw [tokenize_loop_append cs u false st]
      simp
    · simp only [if_neg hr]
      rw [tokenize_loop_append cs u _ _, tokenize_char_flag]

theorem dropLast_modify_back {α : Type} (f : α → α) : ∀ l : List α,
    (modify_back f l).dropLast = l.dropLast
  | [] => rfl
  | [x] => rfl
  | x :: y :: l => by
    have ih := dropLast_modify_back f (y :: l)
    have hne : modify_back f (y :: l) ≠ [] := by
      cases l <;> simp [modify_back]
    rw [modify_back, List.dropLast_cons_of_ne_nil hne, ih,
      List.dropLast_cons_of_ne_nil (List.cons_ne_nil _ _)]

theorem tokenize_char_open {c : Char} {st : tokenizer_state} (hc : c ≠ ']')
    (hin : st.in_constraints = true) :
    (tokenize_char c st).1.in_constraints = true ∧
    (tokenize_char c st).1.tokens.dropLast = st.tokens.dropLast := by
  unfold tokenize_char
  simp only [if_neg hc, hin, Bool.not_true, Bool.false_eq_true, if_false]
  split_ifs <;> simp [hin, push_char, dropLast_modify_back]

theorem block_closed_of_not_mem : ∀ (t : List Char) (b : Bool),
    ']' ∉ t → block_closed t b = false
  | [], _, _ => rfl
  | c :: cs, b, h => by
    have hc : c ≠ ']' := fun e => h (e ▸ List.mem_cons_self _ _)
    rw [block_closed, block_closed_of_not_mem cs _ (fun e => h (List.mem_cons_of_mem _ e))]
    simp [hc]

theorem block_closed_iff : ∀ (t : List Char) (b : Bool),
    block_closed t b = true ↔
      ∃ pre post, t = pre ++ ']' :: post ∧ in_comment pre b = false
  | [], b => by simp [block_closed]
  | c :: cs, b => by
    rw [block_closed, Bool.or_eq_true, block_closed_iff cs]
    constructor
    · rintro (h | ⟨pre, post, rfl, hp⟩)
      · simp only [Bool.and_eq_true, Bool.not_eq_true', decide_eq_true_eq] at h
        exact ⟨[], cs, by simp [h.2], by simp [in_comment, h.1]⟩
      · exact ⟨c :: pre, post, rfl, by rw [in_comment]; exact hp⟩
    · rintro ⟨pre, post, h, hp⟩
      cases pre with
      | nil =>
        simp only [List.nil_append, List.cons.injEq] at h
        simp only [in_comment] at hp
        left
        simp [h.1, hp]
      | cons x pre =>
        simp only [List.cons_append, List.cons.injEq] at h
        rw [in_comment] at hp
        right
        exact ⟨pre, post, h.2, h.1 ▸ hp⟩

theorem tokenize_loop_unclosed : ∀ (t : List Char) (ignoring : Bool) (st : tokenizer_state),
    block_closed t ignoring = false → st.in_constraints = true →
    (tokenize_loop t ignoring st).tokens.dropLast = st.tokens.dropLast
  | [], _, _, _, _ => rfl
  | c :: cs, true, st, ht, hin => by
    rw [block_closed] at ht
    simp only [Bool.not_true, Bool.false_and, Bool.false_or, Bool.true_or] at ht
    rw [tokenize_loop]
    have hf : (c != '\n') = (if c = '\n' then false else true) := by
      by_cases h : c = '\n' <;> simp [h]
    rw [hf]
    exact tokenize_loop_unclosed cs _ st ht hin
  | c :: cs, false, st, ht, hin => by
    rw [block_closed] at ht
    simp only [Bool.not_false, Bool.true_and, Bool.or_eq_false_iff, decide_eq_false_iff_not] at ht
    obtain ⟨hc, hcs⟩ := ht
    rw [tokenize_loop]
    split_ifs with hr
    · have : (if c = '\n' then false else false || decide (c = '#')) = false := by
        rw [hr]; decide
      rw [this] at hcs
      exact tokenize_loop_unclosed cs false st hcs hin
    · have h := @tokenize_char_open c { st with col_num := st.col_num + 1 } hc hin
      simp only
      rw [tokenize_char_flag] at *
      rw [tokenize_loop_unclosed cs _ _ hcs h.1, h.2]

theorem etsl_tokenize_unclosed (s t : List Char) (hs : in_comment s false = false)
    (ht : block_closed t false = false) :
    etsl_tokenize (s ++ '[' :: t) = etsl_tokenize s := by
  unfold etsl_tokenize
  rw [tokenize_loop_append, hs, tokenize_loop]
  simp only [Char.reduceEq, if_false]
  have h1 : (tokenize_char '[' { tokenize_loop s false {} with
      col_num := (tokenize_loop s false {}).col_num + 1 }) =
      ({ tokenize_loop s false {} with
        col_num := (tokenize_loop s false {}).col_num + 1, in_constraints := true }, false) := by
    simp [tokenize_char]
  rw [h1]
  simp only
  rw [tokenize_loop_unclosed t false _ ht rfl]

theorem compile_error {is : List Char} {e : etsl_exception} (h : compile is = .error e) :
    ∃ line_num col_num what, e = .etsl_syntax_error line_num col_num what := by
  unfold compile at h
  cases hp : etsl_parse (etsl_tokenize is) with
  | error e' =>
    rw [hp] at h
    simp only [Except.error.injEq] at h
    obtain ⟨-, t, -, what, he⟩ := etsl_parse_error hp
    exact ⟨_, _, what, h ▸ he⟩
  | ok file => rw [hp] at h; simp at h

/-- C19, as the code has it: an attribute block that is opened with `[` outside a comment
and is not closed before the end of the input, no `]` outside a comment following it, is
dropped by the tokenizer, with the text of the token it belongs to. The tokens, and so the
result of the compilation, are those of the text before the `[`; when the compilation
fails, it fails with an `etsl_syntax_error`, which carries a line and a column. The block
is closed exactly when a `]` follows that the tokenizer reads outside a comment; a text
without any `]` leaves it open, and so does `if p # ]`, where the `]` is in a comment. -/
theorem unterminated_attribute_dropped :
    (∀ s t : List Char, in_comment s false = false → block_closed t false = false →
      etsl_tokenize (s ++ '[' :: t) = etsl_tokenize s ∧
      compile (s ++ '[' :: t) = compile s ∧
      ∀ e, compile (s ++ '[' :: t) = .error e →
        ∃ line_num col_num what, e = .etsl_syntax_error line_num col_num what) ∧
    (∀ (t : List Char) (b : Bool), block_closed t b = true ↔
      ∃ pre post, t = pre ++ ']' :: post ∧ in_comment pre b = false) ∧
    (∀ t : List Char, ']' ∉ t → block_closed t false = false) ∧
    block_closed "if p # ]".data false = false ∧
    etsl_tokenize "A: x. [if p # ]".data = etsl_tokenize "A: x. ".data := by
  refine ⟨fun s t hs ht => ?_, block_closed_iff, fun t h => block_closed_of_not_mem t false h,
    by decide, etsl_tokenize_unclosed "A: x. ".data "if p # ]".data (by decide) (by decide)⟩
  have h := etsl_tokenize_unclosed s t hs ht
  exact ⟨h, by unfold compile; rw [h], fun e he => compile_error he⟩

/-- Witness for C19: the text `A: x. [if p # ]` has the tokens and the frames of
`A: x. `. -/
theorem unterminated_attribute_dropped_witness :
    in_comment "A: x. ".data false = false ∧ block_closed "if p # ]".data false = false ∧
    etsl_tokenize ("A: x. ".data ++ '[' :: "if p # ]".data) = etsl_tokenize "A: x. ".data ∧
    compile ("A: x. ".data ++ '[' :: "if p # ]".data) = compile "A: x. ".data :=
  ⟨by decide, by decide,
    (unterminated_attribute_dropped.1 "A: x. ".data "if p # ]".data (by decide) (by decide)).1,
    (unterminated_attribute_dropped.1 "A: x. ".data "if p # ]".data (by decide) (by decide)).2.1⟩

/-- Counterexample for C19: the text `A: x. [if p` opens an attribute block that is never
closed, and its compilation does not fail: it returns the frame of `A: x.`. -/
theorem unterminated_attribute_compiles :
    etsl_tokenize "A: x. [if p".data = etsl_tokenize "A: x.".data ∧
    compile "A: x. [if p".data = .ok plain_frames ∧
    ¬ ∃ line_num col_num what,
      compile "A: x. [if p".data = .error (.etsl_syntax_error line_num col_num what) := by
  have h1 : etsl_tokenize "A: x. [if p".data = etsl_tokenize "A: x.".data := by decide
  have h2 : etsl_parse (etsl_tokenize "A: x.".data) = .ok plain_file := by decide
  have h3 : write_tsl_frames plain_file = plain_frames := by decide
  have h4 : compile "A: x. [if p".data = .ok plain_frames := by
    unfold compile
    rw [h1, h2]
    simp only [h3]
  refine ⟨h1, h4, ?_⟩
  rintro ⟨line_num, col_num, what, h⟩
  rw [h4] at h
  exact absurd h (by simp)

/-! ## Trailing sub-tokens and the parenthesized rendering -/

theorem parse_term_loop_exit (n : Nat) (term : expression) (rest : List String)
    (h : rest.head? ≠ some "&&") :
    parse_term_loop (n + 1) term rest = .ok (some term, rest) := by
  cases rest with
  | nil => rfl
  | cons t r =>
    rw [parse_term_loop_succ, if_neg]
    intro ht
    exact h (by simp [ht])

theorem parse_expr_loop_exit (n : Nat) (expr : expression) (rest : List String)
    (h : rest.head? ≠ some "||") :
    parse_expr_loop (n + 1) expr rest = .ok (some expr, rest) := by
  cases rest with
  | nil => rfl
  | cons t r =>
    rw [parse_expr_loop_succ, if_neg]
    intro ht
    exact h (by simp [ht])

theorem parse_expr_prop_name (n : Nat) {a : String} (rest : List String)
    (ha : is_prop_name a = true) (h1 : rest.head? ≠ some "&&") (h2 : rest.head? ≠ some "||") :
    parse_expr (n + 1 + 1 + 1) (a :: rest) = .ok (some (.kind_prop a), rest) := by
  rw [parse_expr_succ, parse_term_succ, parse_primary_prop_name n rest ha]
  simp only
  rw [parse_term_loop_exit n _ rest h1]
  simp only
  rw [parse_expr_loop_exit (n + 1) _ rest h2]

theorem parse_prop_name_cons {a : String} (rest : List String)
    (ha : is_prop_name a = true) (h1 : rest.head? ≠ some "&&") (h2 : rest.head? ≠ some "||") :
    etsl_predicate.parse (a :: rest) = .ok { expr_ := some (.kind_prop a) } := by
  have hf : parse_fuel (a :: rest) = 3 * rest.length + 3 + 1 + 1 + 1 := by
    simp [parse_fuel]
    omega
  rw [etsl_predicate.parse, hf, parse_expr_prop_name _ rest ha h1 h2]

/-- C25: `etsl_predicate.parse` does not require the whole sequence of sub-tokens to be
consumed. For a property name `a` (a sub-token that begins with an alphanumeric character
or `:`) and a sequence `rest` whose first element is neither `&&` nor `||`, the parse of
`a :: rest` succeeds with the property node of `a`, the tree of the parse of `[a]`. The
attributes `if a ) b`, `if a ( b` and `if a ! b` have the sub-tokens `if`, `a`, the
operator and `b`, and `etsl_parse` accepts them with the document of `A: x. [if a]`. -/
theorem parse_ignores_rest :
    (∀ (a : String) (rest : List String), is_prop_name a = true →
      rest.head? ≠ some "&&" → rest.head? ≠ some "||" →
      etsl_predicate.parse (a :: rest) = .ok { expr_ := some (.kind_prop a) } ∧
      etsl_predicate.parse (a :: rest) = etsl_predicate.parse [a]) ∧
    etsl_tokenize "A: x. [if a ) b]".data = trailing_paren_tokens ∧
    etsl_tokenize "A: x. [if a ( b]".data = trailing_open_tokens ∧
    etsl_tokenize "A: x. [if a ! b]".data = trailing_not_tokens ∧
    etsl_attr_subtokenize { kind := .kind_attribute, str := "if a ) b", line_num := 1, col_num := 16 } =
      .ok ["if", "a", ")", "b"] ∧
    etsl_attr_subtokenize { kind := .kind_attribute, str := "if a ( b", line_num := 1, col_num := 16 } =
      .ok ["if", "a", "(", "b"] ∧
    etsl_attr_subtokenize { kind := .kind_attribute, str := "if a ! b", line_num := 1, col_num := 16 } =
      .ok ["if", "a", "!", "b"] ∧
    etsl_parse trailing_paren_tokens = .ok cond_a_file ∧
    etsl_parse trailing_open_tokens = .ok cond_a_file ∧
    etsl_parse trailing_not_tokens = .ok cond_a_file ∧
    etsl_tokenize "A: x. [if a]".data = cond_a_tokens ∧
    etsl_parse cond_a_tokens = .ok cond_a_file := by
  refine ⟨fun a rest ha h1 h2 => ?_, by decide, by decide, by decide, by decide, by decide,
    by decide, by decide, by decide, by decide, by decide, by decide⟩
  rw [parse_prop_name_cons rest ha h1 h2, parse_prop_name_cons [] ha (by simp) (by simp)]
  exact ⟨rfl, rfl⟩

/-- Witness for C25: the sub-tokens `a`, `)`, `b` parse to the property node of `a`. -/
theorem parse_ignores_rest_witness :
    etsl_predicate.parse ["a", ")", "b"] = .ok { expr_ := some (.kind_prop "a") } ∧
    etsl_predicate.parse ["a", ")", "b"] = etsl_predicate.parse ["a"] :=
  parse_ignores_rest.1 "a" [")", "b"] (by decide) (by decide) (by decide)

theorem parse_fuel_mono_le :
    ∀ (k n : Nat) (toks : List String) (r : parse_result), parse_expr n toks = r →
      r ≠ .error .fuel_exhausted → parse_expr (n + k) toks = r
  | 0, _, _, _, h, _ => h
  | k + 1, n, toks, r, h, hr =>
    (parse_fuel_mono (n + k)).2.2.2.2 toks r (parse_fuel_mono_le k n toks r h hr) hr

theorem parse_primary_mono_le :
    ∀ (k n : Nat) (toks : List String) (r : parse_result), parse_primary n toks = r →
      r ≠ .error .fuel_exhausted → parse_primary (n + k) toks = r
  | 0, _, _, _, h, _ => h
  | k + 1, n, toks, r, h, hr =>
    (parse_fuel_mono (n + k)).1 toks r (parse_primary_mono_le k n toks r h hr) hr

/-- A parenthesized group is read by `parse_primary` when its contents are read by
`parse_expr`. -/
theorem parse_primary_paren {n : Nat} {x : expression} {toks rest : List String}
    (h : parse_expr n (toks ++ ")" :: rest) = .ok (some x, ")" :: rest)) :
    parse_primary (n + 1) ("(" :: (toks ++ ")" :: rest)) = .ok (some x, rest) := by
  rw [parse_primary_succ, if_neg (by decide), if_pos rfl, h]
  simp

theorem parse_expr_render : ∀ (e : expression), names_ok e = true →
    ∃ n : Nat, ∀ rest : List String, rest.head? ≠ some "&&" → rest.head? ≠ some "||" →
      parse_expr n (render e ++ rest) = .ok (some e, rest)
  | .kind_prop a, ha => by
    refine ⟨0 + 1 + 1 + 1, fun rest h1 h2 => ?_⟩
    exact parse_expr_prop_name 0 rest ha h1 h2
  | .kind_not x, hx => by
    obtain ⟨n, ih⟩ := parse_expr_render x hx
    refine ⟨n + 1 + 1 + 1 + 1, fun rest h1 h2 => ?_⟩
    have hp := parse_primary_paren (ih (")" :: rest) (by simp) (by simp))
    have hl : render (.kind_not x) ++ rest = "!" :: "(" :: (render x ++ ")" :: rest) := by
      simp [render]
    rw [hl, parse_expr_succ, parse_term_succ, parse_primary_succ, if_pos rfl, hp]
    simp only
    rw [parse_term_loop_exit _ _ rest h1]
    simp only
    rw [parse_expr_loop_exit _ _ rest h2]
  | .kind_and l r, h => by
    simp only [names_ok, Bool.and_eq_true] at h
    obtain ⟨nl, ihl⟩ := parse_expr_render l h.1
    obtain ⟨nr, ihr⟩ := parse_expr_render r h.2
    refine ⟨nl + nr + 1 + 1 + 1 + 1, fun rest h1 h2 => ?_⟩
    have hl := parse_primary_paren
      (ihl (")" :: "&&" :: "(" :: (render r ++ ")" :: rest)) (by simp) (by simp))
    have hr := parse_primary_paren (ihr (")" :: rest) (by simp) (by simp))
    have hl' := parse_primary_mono_le (nr + 1) _ _ _ hl (by simp)
    have hr' := parse_primary_mono_le nl _ _ _ hr (by simp)
    have e1 : nl + 1 + (nr + 1) = nl + nr + 1 + 1 := by omega
    have e2 : nr + 1 + nl = nl + nr + 1 := by omega
    rw [e1] at hl'
    rw [e2] at hr'
    have hlist : render (.kind_and l r) ++ rest =
        "(" :: (render l ++ ")" :: "&&" :: "(" :: (render r ++ ")" :: rest)) := by
      simp [render]
    rw [hlist, parse_expr_succ, parse_term_succ, hl']
    simp only
    rw [parse_term_loop_succ, if_pos rfl, hr']
    simp only
    have hnl : nl ≠ 0 := by
      intro h0
      have := ihl [] (by simp) (by simp)
      rw [h0] at this
      simp [parse_expr] at this
    obtain ⟨m, hm⟩ : ∃ m, nl + nr = m + 1 := ⟨nl + nr - 1, by omega⟩
    rw [hm, parse_term_loop_exit _ _ rest h1]
    simp only
    rw [parse_expr_loop_exit _ _ rest h2]
  | .kind_or l r, h => by
    simp only [names_ok, Bool.and_eq_true] at h
    obtain ⟨nl, ihl⟩ := parse_expr_render l h.1
    obtain ⟨nr, ihr⟩ := parse_expr_render r h.2
    refine ⟨nl + nr + 1 + 1 + 1 + 1, fun rest h1 h2 => ?_⟩
    have hl := parse_primary_paren
      (ihl (")" :: "||" :: "(" :: (render r ++ ")" :: rest)) (by simp) (by simp))
    have hr := parse_primary_paren (ihr (")" :: rest) (by simp) (by simp))
    have hl' := parse_primary_mono_le (nr + 1) _ _ _ hl (by simp)
    have hr' := parse_primary_mono_le nl _ _ _ hr (by simp)
    have e1 : nl + 1 + (nr + 1) = nl + nr + 1 + 1 := by omega
    have e2 : nr + 1 + nl = nl + nr + 1 := by omega
    rw [e1] at hl'
    rw [e2] at hr'
    have hlist : render (.kind_or l r) ++ rest =
        "(" :: (render l ++ ")" :: "||" :: "(" :: (render r ++ ")" :: rest)) := by
      simp [render]
    have hnl : nl ≠ 0 := by
      intro h0
      have := ihl [] (by simp) (by simp)
      rw [h0] at this
      simp [parse_expr] at this
    obtain ⟨m, hm⟩ : ∃ m, nl + nr = m + 1 := ⟨nl + nr - 1, by omega⟩
    rw [hlist, parse_expr_succ, parse_term_succ, hl']
    simp only
    rw [parse_term_loop_exit _ _ _ (by simp)]
    simp only
    rw [parse_expr_loop_succ, if_pos rfl, parse_term_succ, hr']
    simp only
    rw [hm, parse_term_loop_exit _ _ rest h1]
    simp only
    rw [parse_expr_loop_exit _ _ rest h2]

/-- C26: parsing inverts the fully parenthesized rendering. For every expression tree whose
property names all begin with an alphanumeric character or `:`, `parse_expr` with the fuel
of `etsl_predicate.parse` reads the rendering of the tree to its end and returns the tree,
and `etsl_predicate.parse` succeeds with it. -/
theorem parse_render (e : expression) (h : names_ok e = true) :
    parse_expr (parse_fuel (render e)) (render e) = .ok (some e, []) ∧
    etsl_predicate.parse (render e) = .ok { expr_ := some e } := by
  obtain ⟨n, hn⟩ := parse_expr_render e h
  have h1 := hn [] (by simp) (by simp)
  rw [List.append_nil] at h1
  have h2 := parse_fuel_mono_le (parse_fuel (render e)) n (render e) _ h1 (by simp)
  rw [Nat.add_comm, parse_expr_fuel_irrelevant] at h2
  exact ⟨h2, by rw [etsl_predicate.parse, h2]⟩

/-- Witness for C26: the rendering `( a ) && ( ! ( b ) )` of `and(a, not(b))` is parsed back
to the tree. -/
theorem parse_render_witness :
    parse_expr (parse_fuel ["(", "a", ")", "&&", "(", "!", "(", "b", ")", ")"])
      ["(", "a", ")", "&&", "(", "!", "(", "b", ")", ")"] =
      .ok (some (.kind_and (.kind_prop "a") (.kind_not (.kind_prop "b"))), []) ∧
    etsl_predicate.parse ["(", "a", ")", "&&", "(", "!", "(", "b", ")", ")"] =
      .ok { expr_ := some (.kind_and (.kind_prop "a") (.kind_not (.kind_prop "b"))) } :=
  parse_render (.kind_and (.kind_prop "a") (.kind_not (.kind_prop "b")))
    (by decide)

/-! ## Headers with no choice -/

theorem headers_ok_parse_category {p : parser_state} (t : etsl_token) (h : headers_ok p) :
    headers_ok (parse_category p t) ∧
    ∃ flag, (parse_category p t).file_.categories.getLast? =
      some { name := t.str, mutually_exclusive := flag, choices := [] } := by
  unfold headers_ok parse_category
  cases hl : p.file_.categories.getLast? with
  | none => exact ⟨fun cat hcat => by simp at hcat, _, rfl⟩
  | some last =>
    simp only
    by_cases he : last.choices = []
    · rw [if_pos he]
      refine ⟨fun cat hcat => ?_, _, getLast?_append_singleton _ _⟩
      simp only [List.dropLast_concat] at hcat
      exact h cat hcat
    · rw [if_neg he]
      refine ⟨fun cat hcat => ?_, _, getLast?_append_singleton _ _⟩
      simp only [List.dropLast_concat] at hcat
      have hc := eq_append_of_getLast? hl
      rw [hc, List.mem_append, List.mem_singleton] at hcat
      rcases hcat with hcat | rfl
      · exact h cat hcat
      · exact he

theorem modify_choice_dropLast (f : etsl_choice → etsl_choice) (p : parser_state) :
    (modify_choice f p).file_.categories.dropLast = p.file_.categories.dropLast := by
  simp only [modify_choice, dropLast_modify_back]

theorem modify_choice_length (f : etsl_choice → etsl_choice) (p : parser_state) :
    (modify_choice f p).file_.categories.length = p.file_.categories.length := by
  have length_modify_back : ∀ (g : etsl_category → etsl_category) (l : List etsl_category),
      (modify_back g l).length = l.length := by
    intro g l
    induction l with
    | nil => rfl
    | cons x l ih =>
      cases l with
      | nil => rfl
      | cons y l => simp only [modify_back, List.length_cons] at ih ⊢; rw [ih]
  simp only [modify_choice, length_modify_back]

theorem parse_attribute_categories {p p' : parser_state} {token : etsl_token}
    (hp : parse_attribute p token = .ok p') :
    p'.file_.categories.dropLast = p.file_.categories.dropLast ∧
    p'.file_.categories.length = p.file_.categories.length := by
  obtain ⟨cat, ch, keyword, it, -, -, -, hk⟩ := parse_attribute_ok hp
  rcases parse_attribute_keyword_ok hk with ⟨-, -, cond, -, rfl⟩ | ⟨-, -, rfl⟩ |
    ⟨-, -, rfl⟩ | ⟨-, names, -, -, rfl⟩ | ⟨-, -, -, -, -, rfl⟩
  · exact ⟨modify_choice_dropLast _ p, modify_choice_length _ p⟩
  · exact ⟨modify_choice_dropLast _ p, modify_choice_length _ p⟩
  · exact ⟨modify_choice_dropLast _ p, modify_choice_length _ p⟩
  · exact ⟨modify_choice_dropLast _ p, modify_choice_length _ p⟩
  · exact ⟨rfl, rfl⟩

theorem parse_choice_categories {p p' : parser_state} {t : etsl_token}
    (hp : parse_choice p t = .ok p') :
    p'.file_.categories.dropLast = p.file_.categories.dropLast ∧
    p'.file_.categories.length = p.file_.categories.length := by
  unfold parse_choice at hp
  split_ifs at hp
  simp only [Except.ok.injEq] at hp
  subst hp
  refine ⟨dropLast_modify_back _ _, ?_⟩
  have h := congrArg List.length (dropLast_modify_back (emplace_choice t.str) p.file_.categories)
  simp only [List.length_dropLast] at h
  have hne : modify_back (emplace_choice t.str) p.file_.categories ≠ [] := by
    cases hc : p.file_.categories with
    | nil => contradiction
    | cons x l => cases l <;> simp [modify_back]
  have h1 := List.length_pos.2 hne
  have h2 : 0 < p.file_.categories.length := List.length_pos.2 (by assumption)
  simp only
  omega

/-- A token that is not a category token neither adds nor removes a category. -/
theorem parse_token_categories {p p' : parser_state} {t : etsl_token}
    (hk : t.kind ≠ .kind_category) (hp : parse_token p t = .ok p') :
    p'.file_.categories.dropLast = p.file_.categories.dropLast ∧
    p'.file_.categories.length = p.file_.categories.length := by
  unfold parse_token at hp
  cases hkind : t.kind with
  | kind_unknown => rw [hkind] at hp; simp at hp
  | kind_category => exact absurd hkind hk
  | kind_choice =>
    rw [hkind] at hp
    cases hc : parse_choice p t with
    | error e => rw [hc] at hp; simp at hp
    | ok p1 =>
      rw [hc] at hp
      simp only [Except.ok.injEq] at hp
      subst hp
      have h := parse_choice_categories hc
      exact h
  | kind_attribute =>
    rw [hkind] at hp
    exact parse_attribute_categories hp

theorem headers_ok_parse_token {p p' : parser_state} {t : etsl_token}
    (hp : parse_token p t = .ok p') (h : headers_ok p) : headers_ok p' := by
  by_cases hk : t.kind = .kind_category
  · simp only [parse_token, hk, Except.ok.injEq] at hp
    exact hp ▸ (headers_ok_parse_category t h).1
  · unfold headers_ok
    rw [(parse_token_categories hk hp).1]
    exact h

theorem headers_ok_parse_tokens {tokens : List etsl_token} {p : parser_state}
    (h : parse_tokens tokens {} = .ok p) : headers_ok p :=
  parse_tokens_induction headers_ok (fun _ _ _ hs hp => headers_ok_parse_token hs hp) tokens {}
    p h (fun cat hcat => by simp at hcat)

theorem finalize_categories (file : etsl_file) :
    (finalize file).categories = file.categories.map finalize_category := by
  simp only [finalize, List.map_map]
  congr 1
  funext cat
  simp [finalize_category, List.map_map]

theorem level_entries_no_choice {cat : etsl_category} (state_stack : List category_choice_state)
    (h : cat.choices = []) :
    level_entries cat state_stack = [{ selected := -1, props := none }] := by
  simp [level_entries, h, choice_entries]

/-- C28: the headers of the document. On every token sequence that `etsl_parse` accepts,
every category of the document but the last has a choice. A token that is not a category
token neither adds nor removes a category, so a header with no choice is discarded only by
a later category token, and a category token at the end of the sequence stays in the
document as a category with no choice. A category with no choice is not applicable in
every normal frame: its entry has the selection `-1` and no property set, and its line
shows `<n/a>`. The texts `A: x. B:` and `A: x. Expectations:` give documents whose last
category has no choice, and the frame of the first is `x` for `A` and `<n/a>` for `B`. -/
theorem trailing_header_kept :
    (∀ (tokens : List etsl_token) (file : etsl_file), etsl_parse tokens = .ok file →
      ∀ cat ∈ file.categories.dropLast, cat.choices ≠ []) ∧
    (∀ (pre : List etsl_token) (t : etsl_token) (file : etsl_file),
      t.kind = .kind_category → etsl_parse (pre ++ [t]) = .ok file →
      ∃ flag, file.categories.getLast? =
        some { name := t.str, mutually_exclusive := flag, choices := [] }) ∧
    (∀ (p p' : parser_state) (t : etsl_token), t.kind ≠ .kind_category →
      parse_token p t = .ok p' →
      p'.file_.categories.dropLast = p.file_.categories.dropLast ∧
      p'.file_.categories.length = p.file_.categories.length) ∧
    (∀ (file : etsl_file), (finalize file).categories.length = file.categories.length) ∧
    (∀ (file : etsl_file) (num : Int) (state_stack : List category_choice_state),
      (⟨num, .normal state_stack⟩ : frame) ∈ write_tsl_frames file →
      ∀ (d : Nat) (cat : etsl_category) (st : category_choice_state),
      file.categories[d]? = some cat → state_stack[d]? = some st → cat.choices = [] →
      st.selected = -1 ∧ st.props = none ∧ selected_name cat st.selected = some "<n/a>") ∧
    etsl_tokenize "A: x. B:".data = trailing_header_tokens ∧
    etsl_parse trailing_header_tokens = .ok trailing_header_file ∧
    write_tsl_frames trailing_header_file = [⟨1, .normal trailing_header_stack⟩] ∧
    frame_lines trailing_header_file trailing_header_stack =
      [some ("A", "x"), some ("B", "<n/a>")] ∧
    etsl_tokenize "A: x. Expectations:".data = trailing_expectations_tokens ∧
    etsl_parse trailing_expectations_tokens = .ok trailing_expectations_file ∧
    write_tsl_frames trailing_expectations_file = [⟨1, .normal trailing_header_stack⟩] := by
  refine ⟨?_, ?_, fun p p' t hk hp => parse_token_categories hk hp, ?_, ?_, by decide,
    by decide, by decide, by decide, by decide, by decide, by decide⟩
  · intro tokens file h cat hcat
    rw [etsl_parse_eq] at h
    cases hs : parse_tokens tokens {} with
    | error e => rw [hs] at h; simp at h
    | ok p =>
      rw [hs] at h
      simp only [Except.ok.injEq] at h
      subst h
      rw [finalize_categories, ← List.map_dropLast, List.mem_map] at hcat
      obtain ⟨cat0, hcat0, rfl⟩ := hcat
      have := headers_ok_parse_tokens hs cat0 hcat0
      simpa [finalize_category] using this
  · intro pre t file hk h
    rw [etsl_parse_eq, parse_tokens_append] at h
    cases hs : parse_tokens pre {} with
    | error e => rw [hs] at h; simp at h
    | ok p =>
      rw [hs] at h
      simp only [parse_tokens_cons, parse_token, hk, parse_tokens, Except.ok.injEq] at h
      subst h
      obtain ⟨flag, hflag⟩ := (headers_ok_parse_category t (headers_ok_parse_tokens hs)).2
      refine ⟨flag, ?_⟩
      rw [finalize_categories, List.getLast?_map, hflag]
      rfl
  · intro file
    rw [finalize_categories, List.length_map]
  · intro file num state_stack hf d cat st hcat hst hno
    have he := (frame_entry hf).2 d cat st hcat hst
    rw [level_entries_no_choice _ hno, List.mem_singleton] at he
    subst he
    exact ⟨rfl, rfl, rfl⟩

/-- Witness for C28: in the document of `A: x. B:` the category `A`, which is not the
last, has a choice. -/
theorem trailing_header_kept_witness : trailing_header_A.choices ≠ [] :=
  trailing_header_kept.1 trailing_header_tokens trailing_header_file (by decide)
    trailing_header_A (by decide)

/-! ## The token buffer -/

theorem tokenize_loop_snoc (s : List Char) (c : Char) :
    tokenizer_after (s ++ [c]) =
      if in_comment s false = true then tokenizer_after s
      else if c = '\r' then tokenizer_after s
      else (tokenize_char c { tokenizer_after s with
        col_num := (tokenizer_after s).col_num + 1 }).1 := by
  unfold tokenizer_after
  rw [tokenize_loop_append]
  cases hc : in_comment s false with
  | true => simp [tokenize_loop]
  | false =>
    simp only [Bool.false_eq_true, if_false]
    rw [tokenize_loop]
    split_ifs
    · rfl
    · rfl

theorem modify_back_ne_nil {α : Type} (f : α → α) : ∀ {l : List α}, l ≠ [] →
    modify_back f l ≠ []
  | [], h => absurd rfl h
  | [_], _ => by simp [modify_back]
  | _ :: _ :: _, _ => by simp [modify_back]

theorem tokenize_char_tokens_ne_nil (c : Char) {st : tokenizer_state} (h : st.tokens ≠ []) :
    (tokenize_char c st).1.tokens ≠ [] := by
  unfold tokenize_char
  split_ifs <;> simp [close_token, push_char, h, modify_back_ne_nil]

theorem tokenize_loop_tokens_ne_nil : ∀ (s : List Char) (ignoring : Bool)
    (st : tokenizer_state), st.tokens ≠ [] → (tokenize_loop s ignoring st).tokens ≠ []
  | [], _, _, h => h
  | c :: cs, true, st, h => by
    rw [tokenize_loop]
    exact tokenize_loop_tokens_ne_nil cs _ st h
  | c :: cs, false, st, h => by
    rw [tokenize_loop]
    split_ifs
    · exact tokenize_loop_tokens_ne_nil cs false st h
    · exact tokenize_loop_tokens_ne_nil cs _ _ (tokenize_char_tokens_ne_nil c h)

theorem tokenizer_after_tokens (s : List Char) :
    ∃ (closed : List etsl_token) (b : etsl_token),
      (tokenizer_after s).tokens = closed ++ [b] ∧ buffer (tokenizer_after s) = b.str := by
  have hne : (tokenizer_after s).tokens ≠ [] :=
    tokenize_loop_tokens_ne_nil s false {} (by simp)
  obtain ⟨b, hb⟩ : ∃ b, (tokenizer_after s).tokens.getLast? = some b := by
    cases h : (tokenizer_after s).tokens.getLast? with
    | none => exact absurd (List.getLast?_eq_none_iff.1 h) hne
    | some b => exact ⟨b, rfl⟩
  refine ⟨_, b, eq_append_of_getLast? hb, ?_⟩
  unfold buffer
  rw [List.getLastD_eq_getLast?, hb]
  rfl

theorem etsl_tokenize_eq (s : List Char) :
    etsl_tokenize s = ((tokenizer_after s).tokens.dropLast).map
      (fun t => { t with str := trim_inplace t.str }) := rfl

/-- What one character does to the token list of the tokenizer. -/
theorem tokens_snoc (s : List Char) (c : Char) (closed : List etsl_token) (b : etsl_token)
    (h : (tokenizer_after s).tokens = closed ++ [b]) :
    (tokenizer_after (s ++ [c])).tokens =
      if in_comment s false = true then closed ++ [b]
      else if c = '\r' ∨ c = '\n' ∨ c = '#' ∨ c = '[' then closed ++ [b]
      else if closes (tokenizer_after s).in_constraints c = true then
        closed ++ [{ b with kind := closer_kind c, line_num := (tokenizer_after s).line_num,
                            col_num := (tokenizer_after s).col_num + 1 }, {}]
      else closed ++ [{ b with str := b.str.push c }] := by
  rw [tokenize_loop_snoc]
  by_cases hc : in_comment s false = true
  · simp only [if_pos hc, h]
  · simp only [if_neg hc]
    by_cases h1 : c = '\r'
    · simp [h1, h]
    · simp only [if_neg h1]
      unfold tokenize_char
      by_cases h2 : c = '\n'
      · simp [h2, h]
      · by_cases h3 : c = '#'
        · simp [h3, h]
        · by_cases h4 : c = '['
          · simp [h4, h]
          · have hnot : ¬ (c = '\r' ∨ c = '\n' ∨ c = '#' ∨ c = '[') := by
              simp [h1, h2, h3, h4]
            simp only [if_neg h2, if_neg h3, if_neg h4, if_neg hnot]
            by_cases h5 : c = ']'
            · subst h5
              simp [closes, closer_kind, close_token, h, modify_back_append]
            · simp only [if_neg h5]
              cases hin : (tokenizer_after s).in_constraints with
              | true =>
                have hcl : closes true c = false := by simp [closes, h5]
                simp only [hcl, Bool.false_eq_true, if_false, Bool.not_true]
                split_ifs <;> simp [push_char, h, modify_back_append]
              | false =>
                by_cases h6 : c = ':'
                · subst h6
                  simp [closes, closer_kind, close_token, h, modify_back_append]
                · by_cases h7 : c = '.'
                  · subst h7
                    simp [closes, closer_kind, close_token, h, modify_back_append]
                  · have hcl : closes false c = false := by simp [closes, h5, h6, h7]
                    simp [hcl, h6, h7, push_char, h, modify_back_append]

theorem in_comment_snoc : ∀ (s : List Char) (c : Char) (b : Bool),
    in_comment (s ++ [c]) b =
      if c = '\n' then false else in_comment s b || decide (c = '#')
  | [], c, b => by simp [in_comment]
  | x :: s, c, b => by
    rw [List.cons_append, in_comment, in_comment, in_comment_snoc s c]

/-- The state after a character that is appended to the buffer. -/
theorem tokenizer_after_push (s : List Char) (c : Char) (hc : in_comment s false = false)
    (h1 : is_control c = false) (h2 : closes (tokenizer_after s).in_constraints c = false) :
    tokenizer_after (s ++ [c]) =
      { tokenizer_after s with
        tokens := push_char c (tokenizer_after s),
        col_num := (tokenizer_after s).col_num + 1 } := by
  simp only [is_control, Bool.or_eq_false_iff, decide_eq_false_iff_not] at h1
  obtain ⟨⟨⟨⟨h3, h4⟩, h5⟩, h6⟩, h7⟩ := h1
  rw [tokenize_loop_snoc, hc]
  simp only [Bool.false_eq_true, if_false, if_neg h6]
  unfold tokenize_char
  simp only [if_neg h3, if_neg h4, if_neg h5, if_neg h7]
  simp only [closes, h5, decide_False, Bool.false_or, Bool.and_eq_false_imp,
    Bool.or_eq_true, decide_eq_true_eq, Bool.not_eq_false'] at h2
  by_cases h8 : c = ':'
  · have hin := h2 (Or.inl h8)
    simp [h8, hin, push_char]
  · by_cases h9 : c = '.'
    · have hin := h2 (Or.inr h9)
      simp [h9, hin, push_char]
    · simp [h8, h9, push_char]

/-- The state after a newline outside a comment: the tokens are unchanged. -/
theorem tokenizer_after_newline (s : List Char) (hc : in_comment s false = false) :
    tokenizer_after (s ++ ['\n']) =
      { tokenizer_after s with line_num := (tokenizer_after s).line_num + 1, col_num := 0 } := by
  rw [tokenize_loop_snoc, hc]
  simp [tokenize_char]

/-- The state after a character that finalizes the current token. -/
theorem tokenizer_after_close (s : List Char) (c : Char) (hc : in_comment s false = false)
    (h : closes (tokenizer_after s).in_constraints c = true) :
    tokenizer_after (s ++ [c]) =
      { tokenizer_after s with
        tokens := close_token (closer_kind c)
          { tokenizer_after s with col_num := (tokenizer_after s).col_num + 1 },
        col_num := (tokenizer_after s).col_num + 1,
        in_constraints := false } := by
  rw [tokenize_loop_snoc, hc]
  simp only [closes, Bool.or_eq_true, decide_eq_true_eq, Bool.and_eq_true,
    Bool.not_eq_true'] at h
  rcases h with h | ⟨h | h, hin⟩
  · subst h
    simp [tokenize_char, closer_kind]
  · subst h
    simp [tokenize_char, closer_kind, hin]
  · subst h
    simp [tokenize_char, closer_kind, hin]

theorem string_push_data (s : String) (c : Char) : s.push c = ⟨s.data ++ [c]⟩ := rfl

theorem tokenizer_after_run (s : List Char) (closed : List etsl_token) (b : etsl_token)
    (hc : in_comment s false = false) (h : (tokenizer_after s).tokens = closed ++ [b]) :
    ∀ (t : List Char),
    (∀ c ∈ t, is_control c = false ∧ closes (tokenizer_after s).in_constraints c = false) →
    tokenizer_after (s ++ t) =
      { tokenizer_after s with
        tokens := closed ++ [{ b with str := ⟨b.str.data ++ t⟩ }],
        col_num := (tokenizer_after s).col_num + t.length } ∧
    in_comment (s ++ t) false = false := by
  intro t
  induction t using List.reverseRecOn with
  | nil =>
    intro _
    simp only [List.append_nil, List.length_nil, Nat.add_zero]
    exact ⟨by rw [← h], hc⟩
  | append_singleton t c ih =>
    intro ht
    obtain ⟨ih1, ih2⟩ := ih (fun x hx => ht x (List.mem_append_left _ hx))
    obtain ⟨hc1, hc2⟩ := ht c (by simp)
    have hin : (tokenizer_after (s ++ t)).in_constraints = (tokenizer_after s).in_constraints := by
      rw [ih1]
    rw [← List.append_assoc, tokenizer_after_push (s ++ t) c ih2 hc1 (by rw [hin]; exact hc2)]
    refine ⟨?_, ?_⟩
    · rw [ih1]
      simp only [push_char, modify_back_append, string_push_data, List.length_append,
        List.length_singleton, List.append_assoc]
      rfl
    · rw [in_comment_snoc, ih2]
      simp only [is_control, Bool.or_eq_false_iff, decide_eq_false_iff_not] at hc1
      simp [hc1.2, hc1.1.1.1.1]

/-- The tokens of a text whose last character finalizes a token. -/
theorem etsl_tokenize_close (s : List Char) (c : Char) (closed : List etsl_token)
    (b : etsl_token) (hc : in_comment s false = false)
    (h : (tokenizer_after s).tokens = closed ++ [b])
    (hcl : closes (tokenizer_after s).in_constraints c = true) :
    etsl_tokenize (s ++ [c]) = etsl_tokenize s ++
      [{ kind := closer_kind c, str := trim_inplace b.str,
         line_num := (tokenizer_after s).line_num,
         col_num := (tokenizer_after s).col_num + 1 }] ∧
    buffer (tokenizer_after (s ++ [c])) = "" ∧
    (tokenizer_after (s ++ [c])).in_constraints = false ∧
    in_comment (s ++ [c]) false = false := by
  have hst := tokenizer_after_close s c hc hcl
  have hne : c ≠ '\n' ∧ c ≠ '#' := by
    simp only [closes, Bool.or_eq_true, decide_eq_true_eq, Bool.and_eq_true] at hcl
    rcases hcl with h' | ⟨h' | h', -⟩ <;> subst h' <;> decide
  refine ⟨?_, ?_, ?_, ?_⟩
  · rw [etsl_tokenize_eq, etsl_tokenize_eq, hst]
    simp only [close_token, List.dropLast_concat]
    rw [h, modify_back_append]
    simp
  · rw [hst]
    simp [buffer, close_token]
  · rw [hst]
  · rw [in_comment_snoc, hc]
    simp [hne.1, hne.2]

theorem etsl_tokenize_run_close (s t : List Char) (k : Char)
    (hc : in_comment s false = false)
    (ht : ∀ c ∈ t, is_control c = false ∧ closes (tokenizer_after s).in_constraints c = false)
    (hk : closes (tokenizer_after s).in_constraints k = true) :
    etsl_tokenize (s ++ t ++ [k]) = etsl_tokenize s ++
      [{ kind := closer_kind k, str := trim_inplace ⟨(buffer (tokenizer_after s)).data ++ t⟩,
         line_num := (tokenizer_after s).line_num,
         col_num := (tokenizer_after s).col_num + t.length + 1 }] ∧
    buffer (tokenizer_after (s ++ t ++ [k])) = "" ∧
    (tokenizer_after (s ++ t ++ [k])).in_constraints = false ∧
    in_comment (s ++ t ++ [k]) false = false := by
  obtain ⟨closed, b, hb, hbuf⟩ := tokenizer_after_tokens s
  obtain ⟨h1, h2⟩ := tokenizer_after_run s closed b hc hb t ht
  have hb' : (tokenizer_after (s ++ t)).tokens =
      closed ++ [{ b with str := ⟨b.str.data ++ t⟩ }] := by rw [h1]
  have hin : (tokenizer_after (s ++ t)).in_constraints = (tokenizer_after s).in_constraints := by
    rw [h1]
  have hline : (tokenizer_after (s ++ t)).line_num = (tokenizer_after s).line_num := by rw [h1]
  have hcol : (tokenizer_after (s ++ t)).col_num = (tokenizer_after s).col_num + t.length := by
    rw [h1]
  obtain ⟨g1, g2, g3, g4⟩ := etsl_tokenize_close (s ++ t) k closed _ h2 hb' (by rw [hin]; exact hk)
  refine ⟨?_, g2, g3, g4⟩
  rw [g1, hline, hcol, hbuf, etsl_tokenize_eq (s ++ t), etsl_tokenize_eq s, hb', hb]
  simp

/-- C21: `:` and `.` are structural only outside an attribute block. For a text `t` with
none of `#`, `[`, `]`, carriage return and newline, the tokens of `[` ++ t ++ `]` are one
attribute token whose text is `t` trimmed, every `:` and `.` of it kept. Outside an
attribute block and outside a comment, a run of characters with none of those five and
neither `:` nor `.`, followed by `:` or `.`, adds one token to the tokens of the text before
it: a category token for `:` and a choice token for `.`, whose text is the buffer with the
run, trimmed; the buffer is empty after it, so the next token carries the text accumulated
since this one. -/
theorem colon_and_period_in_attribute :
    (∀ t : List Char, (∀ c ∈ t, is_control c = false) →
      etsl_tokenize ('[' :: t ++ [']']) =
        [{ kind := .kind_attribute, str := trim_inplace ⟨t⟩, line_num := 1,
           col_num := t.length + 2 }]) ∧
    (∀ (s t : List Char) (k : Char), in_comment s false = false →
      (tokenizer_after s).in_constraints = false → (k = ':' ∨ k = '.') →
      (∀ c ∈ t, is_control c = false ∧ c ≠ ':' ∧ c ≠ '.') →
      etsl_tokenize (s ++ t ++ [k]) = etsl_tokenize s ++
        [{ kind := if k = ':' then .kind_category else .kind_choice,
           str := trim_inplace ⟨(buffer (tokenizer_after s)).data ++ t⟩,
           line_num := (tokenizer_after s).line_num,
           col_num := (tokenizer_after s).col_num + t.length + 1 }] ∧
      buffer (tokenizer_after (s ++ t ++ [k])) = "" ∧
      (tokenizer_after (s ++ t ++ [k])).in_constraints = false ∧
      in_comment (s ++ t ++ [k]) false = false) ∧
    (∀ t : List Char, (∀ c ∈ t, is_control c = false ∧ c ≠ ':' ∧ c ≠ '.') →
      etsl_tokenize (t ++ [':']) =
        [{ kind := .kind_category, str := trim_inplace ⟨t⟩, line_num := 1,
           col_num := t.length + 1 }] ∧
      etsl_tokenize (t ++ ['.']) =
        [{ kind := .kind_choice, str := trim_inplace ⟨t⟩, line_num := 1,
           col_num := t.length + 1 }]) ∧
    etsl_tokenize "[ a:b. c ]".data =
      [{ kind := .kind_attribute, str := "a:b. c", line_num := 1, col_num := 10 }] ∧
    etsl_tokenize " a:b. c .".data =
      [{ kind := .kind_category, str := "a", line_num := 1, col_num := 3 },
       { kind := .kind_choice, str := "b", line_num := 1, col_num := 5 },
       { kind := .kind_choice, str := "c", line_num := 1, col_num := 9 }] := by
  have key : ∀ (s t : List Char) (k : Char), in_comment s false = false →
      (tokenizer_after s).in_constraints = false → (k = ':' ∨ k = '.') →
      (∀ c ∈ t, is_control c = false ∧ c ≠ ':' ∧ c ≠ '.') →
      etsl_tokenize (s ++ t ++ [k]) = etsl_tokenize s ++
        [{ kind := if k = ':' then .kind_category else .kind_choice,
           str := trim_inplace ⟨(buffer (tokenizer_after s)).data ++ t⟩,
           line_num := (tokenizer_after s).line_num,
           col_num := (tokenizer_after s).col_num + t.length + 1 }] ∧
      buffer (tokenizer_after (s ++ t ++ [k])) = "" ∧
      (tokenizer_after (s ++ t ++ [k])).in_constraints = false ∧
      in_comment (s ++ t ++ [k]) false = false := by
    intro s t k hc hin hk ht
    have hrun : ∀ c ∈ t, is_control c = false ∧
        closes (tokenizer_after s).in_constraints c = false := by
      intro c hmem
      obtain ⟨h1, h2, h3⟩ := ht c hmem
      refine ⟨h1, ?_⟩
      simp only [is_control, Bool.or_eq_false_iff, decide_eq_false_iff_not] at h1
      simp [closes, hin, h2, h3, h1.1.1.2]
    have hcl : closes (tokenizer_after s).in_constraints k = true := by
      rcases hk with rfl | rfl <;> simp [closes, hin]
    have hkind : closer_kind k = if k = ':' then .kind_category else .kind_choice := by
      rcases hk with rfl | rfl <;> simp [closer_kind]
    have h := etsl_tokenize_run_close s t k hc hrun hcl
    rw [hkind] at h
    exact h
  refine ⟨?_, key, ?_, by decide, by decide⟩
  · intro t ht
    have hrun : ∀ c ∈ t, is_control c = false ∧
        closes (tokenizer_after ['[']).in_constraints c = false := by
      intro c hmem
      have h1 := ht c hmem
      refine ⟨h1, ?_⟩
      simp only [is_control, Bool.or_eq_false_iff, decide_eq_false_iff_not] at h1
      have hin : (tokenizer_after ['[']).in_constraints = true := by decide
      simp [closes, hin, h1.1.1.2]
    have h := (etsl_tokenize_run_close ['['] t ']' (by decide) hrun (by decide)).1
    have e1 : etsl_tokenize ['['] = [] := by decide
    have e2 : buffer (tokenizer_after ['[']) = "" := by decide
    have e3 : (tokenizer_after ['[']).line_num = 1 := by decide
    have e4 : (tokenizer_after ['[']).col_num = 1 := by decide
    have e5 : closer_kind ']' = .kind_attribute := by decide
    rw [e1, e2, e3, e4, e5] at h
    simp only [List.singleton_append, List.nil_append] at h
    rw [h]
    have e6 : 1 + t.length + 1 = t.length + 2 := by omega
    rw [e6]
  · intro t ht
    have e1 : etsl_tokenize [] = [] := by decide
    have e2 : buffer (tokenizer_after []) = "" := by decide
    have e3 : (tokenizer_after []).line_num = 1 := by decide
    have e4 : (tokenizer_after []).col_num = 0 := by decide
    have h1 := (key [] t ':' (by decide) (by decide) (Or.inl rfl) ht).1
    have h2 := (key [] t '.' (by decide) (by decide) (Or.inr rfl) ht).1
    rw [e1, e2, e3, e4] at h1 h2
    simp only [List.nil_append, Nat.zero_add] at h1 h2
    constructor
    · rw [h1]
      rfl
    · rw [h2]
      rfl

/-- Witness for C21: the text ` a:b. c ` between brackets is one attribute token. -/
theorem colon_and_period_in_attribute_witness :
    etsl_tokenize ('[' :: " a:b. c ".data ++ [']']) =
      [{ kind := .kind_attribute, str := trim_inplace ⟨" a:b. c ".data⟩, line_num := 1,
         col_num := " a:b. c ".data.length + 2 }] :=
  colon_and_period_in_attribute.1 " a:b. c ".data (by decide)

/-- C22, as the code has it: outside a comment, every character that is none of `#`, `[`,
`]`, carriage return and newline, and that does not finalize a token (it is not a `:` or
`.` outside an attribute block), is appended to the current token buffer. A newline
outside a comment is not appended: it leaves the tokens and the buffer as they are and
only moves the line counter. A character that does not finalize a token never removes a
character from the buffer, and the character that finalizes a token gives it the buffer,
trimmed, as its text: an appended character is in the text of the token that is finalized
next unless the trim removes it. The text `A`, newline, `B:` has the category token `AB`. -/
theorem characters_appended_to_buffer :
    (∀ (s : List Char) (c : Char), in_comment s false = false → is_control c = false →
      closes (tokenizer_after s).in_constraints c = false →
      buffer (tokenizer_after (s ++ [c])) = (buffer (tokenizer_after s)).push c ∧
      (tokenizer_after (s ++ [c])).tokens.dropLast = (tokenizer_after s).tokens.dropLast) ∧
    (∀ (s : List Char), in_comment s false = false →
      (tokenizer_after (s ++ ['\n'])).tokens = (tokenizer_after s).tokens ∧
      buffer (tokenizer_after (s ++ ['\n'])) = buffer (tokenizer_after s) ∧
      (tokenizer_after (s ++ ['\n'])).line_num = (tokenizer_after s).line_num + 1 ∧
      (tokenizer_after (s ++ ['\n'])).col_num = 0) ∧
    (∀ (s : List Char) (c : Char),
      ¬ (in_comment s false = false ∧ closes (tokenizer_after s).in_constraints c = true) →
      (∃ d : List Char, buffer (tokenizer_after (s ++ [c])) =
        ⟨(buffer (tokenizer_after s)).data ++ d⟩) ∧
      (tokenizer_after (s ++ [c])).tokens.dropLast = (tokenizer_after s).tokens.dropLast) ∧
    (∀ (s : List Char) (c : Char), in_comment s false = false →
      closes (tokenizer_after s).in_constraints c = true →
      etsl_tokenize (s ++ [c]) = etsl_tokenize s ++
        [{ kind := closer_kind c, str := trim_inplace (buffer (tokenizer_after s)),
           line_num := (tokenizer_after s).line_num,
           col_num := (tokenizer_after s).col_num + 1 }]) ∧
    etsl_tokenize "A\nB:".data =
      [{ kind := .kind_category, str := "AB", line_num := 2, col_num := 2 }] := by
  refine ⟨?_, ?_, ?_, ?_, by decide⟩
  · intro s c hc h1 h2
    obtain ⟨closed, b, hb, hbuf⟩ := tokenizer_after_tokens s
    rw [tokenizer_after_push s c hc h1 h2]
    simp only [buffer, push_char, hb, modify_back_append, List.dropLast_concat]
    simp
  · intro s hc
    rw [tokenizer_after_newline s hc]
    exact ⟨rfl, rfl, rfl, rfl⟩
  · intro s c hnot
    obtain ⟨closed, b, hb, hbuf⟩ := tokenizer_after_tokens s
    have h := tokens_snoc s c closed b hb
    have hbuf' : buffer (tokenizer_after s) = b.str := hbuf
    by_cases hc : in_comment s false = true
    · rw [if_pos hc] at h
      refine ⟨⟨[], ?_⟩, by rw [h, hb]⟩
      simp only [buffer, h, hb, List.append_nil]
    · rw [if_neg hc] at h
      by_cases h1 : c = '\r' ∨ c = '\n' ∨ c = '#' ∨ c = '['
      · rw [if_pos h1] at h
        refine ⟨⟨[], ?_⟩, by rw [h, hb]⟩
        simp only [buffer, h, hb, List.append_nil]
      · have hcl : closes (tokenizer_after s).in_constraints c = false := by
          cases hcl : closes (tokenizer_after s).in_constraints c with
          | false => rfl
          | true => exact absurd ⟨by simpa using hc, hcl⟩ hnot
        rw [if_neg h1, hcl] at h
        simp only [Bool.false_eq_true, if_false] at h
        refine ⟨⟨[c], ?_⟩, by rw [h, hb]; simp⟩
        simp only [buffer, h, hb]
        simp [string_push_data]
  · intro s c hc hcl
    obtain ⟨closed, b, hb, hbuf⟩ := tokenizer_after_tokens s
    rw [(etsl_tokenize_close s c closed b hc hb hcl).1, hbuf]

/-- Witness for C22: after the text `A` the character `B` is appended to the buffer. -/
theorem characters_appended_to_buffer_witness :
    buffer (tokenizer_after ("A".data ++ ['B'])) = (buffer (tokenizer_after "A".data)).push 'B' ∧
    (tokenizer_after ("A".data ++ ['B'])).tokens.dropLast =
      (tokenizer_after "A".data).tokens.dropLast :=
  characters_appended_to_buffer.1 "A".data 'B' (by decide) (by decide) (by decide)

/-- Counterexample for C22: the newline in the middle of the category name of the text
`A`, newline, `B:` is outside a comment and is none of the characters that the claim
excepts, and the only token of the text is the category `AB`: no token has the newline in
its text, although the trim of `A`, newline, `B` would keep it. -/
theorem newline_not_in_token :
    in_comment "A".data false = false ∧
    etsl_tokenize "A\nB:".data =
      [{ kind := .kind_category, str := "AB", line_num := 2, col_num := 2 }] ∧
    (∀ t ∈ etsl_tokenize "A\nB:".data, '\n' ∉ t.str.data) ∧
    trim_inplace "A\nB" = "A\nB" ∧
    buffer (tokenizer_after "A\n".data) = "A" := by
  refine ⟨by decide, by decide, ?_, by decide, by decide⟩
  have h : etsl_tokenize "A\nB:".data =
      [{ kind := .kind_category, str := "AB", line_num := 2, col_num := 2 }] := by decide
  rw [h]
  decide

/-! ## The sub-tokens of an attribute -/

theorem string_ne_empty_iff (t : String) : t ≠ "" ↔ t.data ≠ [] := by
  constructor
  · intro h hd
    exact h (String.ext hd)
  · intro h ht
    exact h (by rw [ht])

theorem is_word_spec {w : String} (h : is_word w = true) :
    ∃ c cs, w.data = c :: cs ∧ isspace c = false ∧ ∀ x ∈ c :: cs, x ∉ operator_chars := by
  unfold is_word at h
  cases hd : w.data with
  | nil => rw [hd] at h; simp at h
  | cons c cs =>
    rw [hd] at h
    simp only [Bool.and_eq_true, Bool.not_eq_true', List.all_eq_true, decide_eq_true_eq] at h
    exact ⟨c, cs, rfl, h.1, h.2⟩

theorem is_word_of {w : String} {c : Char} {cs : List Char} (hd : w.data = c :: cs)
    (h1 : isspace c = false) (h2 : ∀ x ∈ c :: cs, x ∉ operator_chars) : is_word w = true := by
  unfold is_word
  rw [hd]
  simp only [Bool.and_eq_true, Bool.not_eq_true', List.all_eq_true, decide_eq_true_eq]
  exact ⟨h1, h2⟩

theorem is_word_ne_empty {w : String} (h : is_word w = true) : w ≠ "" := by
  obtain ⟨c, cs, hd, -, -⟩ := is_word_spec h
  rw [string_ne_empty_iff, hd]
  exact List.cons_ne_nil _ _

theorem is_word_push {w : String} {c : Char} (h : is_word w = true)
    (hc : c ∉ operator_chars) : is_word (w.push c) = true := by
  obtain ⟨x, xs, hd, h1, h2⟩ := is_word_spec h
  refine @is_word_of _ x (xs ++ [c]) ?_ h1 ?_
  · rw [string_push_data]
    simp [hd]
  · intro y hy
    rw [← List.cons_append, List.mem_append, List.mem_singleton] at hy
    rcases hy with hy | rfl
    · exact h2 y hy
    · exact hc

theorem is_word_singleton {c : Char} (h1 : isspace c = false) (hc : c ∉ operator_chars) :
    is_word (("" : String).push c) = true := by
  refine @is_word_of _ c [] rfl h1 ?_
  intro y hy
  rw [List.mem_singleton] at hy
  exact hy ▸ hc

theorem back_eq {subs : List String} {l : String} (h : subs.getLast? = some l) :
    back subs = l := by
  unfold back
  rw [List.getLastD_eq_getLast?, h]
  rfl

theorem subtokens_inv_append {subs : List String} {l : String}
    (h : subtokens_inv subs) (hl : subs.getLast? = some l) (hne : l ≠ "") :
    subtokens_inv (subs ++ [""]) := by
  obtain ⟨h1, l', hl', h2⟩ := h
  rw [hl] at hl'
  simp only [Option.some.injEq] at hl'
  subst hl'
  refine ⟨fun t ht => ?_, "", getLast?_append_singleton _ _, Or.inl rfl⟩
  rw [List.dropLast_concat, eq_append_of_getLast? hl, List.mem_append, List.mem_singleton] at ht
  rcases ht with ht | rfl
  · exact h1 t ht
  · rcases h2 with h2 | h2
    · exact absurd h2 hne
    · exact Or.inr h2

theorem subtokens_inv_push {subs : List String} {c : Char} (h : subtokens_inv subs)
    (hsp : back subs = "" → isspace c = false) (hc : c ∉ operator_chars) :
    subtokens_inv (modify_back (fun t => t.push c) subs) := by
  obtain ⟨h1, l, hl, h2⟩ := h
  have hb := back_eq hl
  rw [eq_append_of_getLast? hl, modify_back_append]
  refine ⟨fun t ht => ?_, l.push c, getLast?_append_singleton _ _, Or.inr ?_⟩
  · rw [List.dropLast_concat] at ht
    exact h1 t ht
  · rcases h2 with h2 | h2
    · subst h2
      exact is_word_singleton (hsp hb) hc
    · exact is_word_push h2 hc

theorem subtokens_inv_push_operator {subs : List String} {op : String}
    (h : subtokens_inv subs) (hop : is_operator op = true) :
    subtokens_inv (push_operator op subs) := by
  obtain ⟨h1, l, hl, h2⟩ := h
  have hb := back_eq hl
  have hs := eq_append_of_getLast? hl
  unfold push_operator
  rw [hb]
  refine ⟨fun t ht => ?_, "", getLast?_append_singleton _ _, Or.inl rfl⟩
  rw [List.dropLast_concat] at ht
  by_cases hne : l ≠ ""
  · rw [if_pos hne, modify_back_append, List.mem_append, List.mem_singleton] at ht
    rcases ht with ht | rfl
    · rw [hs, List.mem_append, List.mem_singleton] at ht
      rcases ht with ht | rfl
      · exact h1 t ht
      · rcases h2 with h2 | h2
        · exact absurd h2 hne
        · exact Or.inr h2
    · exact Or.inl hop
  · rw [if_neg hne, hs, modify_back_append, List.mem_append, List.mem_singleton] at ht
    rcases ht with ht | rfl
    · exact h1 t ht
    · exact Or.inl hop

theorem not_operator_char_of {c : Char} (h1 : ¬ (c = '(' ∨ c = ')' ∨ c = '!' ∨ c = ','))
    (h2 : ¬ (c = '|' ∨ c = '&')) : c ∉ operator_chars := by
  simp only [not_or] at h1 h2
  simp [operator_chars, h1, h2]

theorem isspace_not_operator_char {c : Char} (h : isspace c = true) : c ∉ operator_chars := by
  intro hc
  simp only [operator_chars, List.mem_cons, List.mem_singleton, List.not_mem_nil,
    or_false] at hc
  rcases hc with rfl | rfl | rfl | rfl | rfl | rfl <;> exact absurd h (by decide)

theorem attr_subtokenize_loop_inv (token : etsl_token) : ∀ (n : Nat) (cs : List Char),
    cs.length ≤ n → ∀ (subs r : List String), subtokens_inv subs →
    attr_subtokenize_loop token cs subs = .ok r → subtokens_inv r := by
  intro n
  induction n with
  | zero =>
    intro cs hlen subs r hinv h
    have hcs : cs = [] := List.length_eq_zero.1 (Nat.le_zero.1 hlen)
    subst hcs
    simp only [attr_subtokenize_loop, Except.ok.injEq] at h
    exact h ▸ hinv
  | succ n ih =>
    intro cs hlen subs r hinv h
    cases cs with
    | nil =>
      simp only [attr_subtokenize_loop, Except.ok.injEq] at h
      exact h ▸ hinv
    | cons c rest =>
      have hrest : rest.length ≤ n := by
        simp only [List.length_cons] at hlen
        omega
      by_cases hop : c = '|' ∨ c = '&'
      · rw [attr_subtokenize_loop_operator token c rest subs hop] at h
        cases rest with
        | nil => simp at h
        | cons c' rest' =>
          simp only at h
          split_ifs at h with hne
          have hc' : c' = c := by
            by_contra hcc
            exact hne (fun heq => hcc heq.symm)
          have hlen' : rest'.length ≤ n := by
            simp only [List.length_cons] at hrest
            omega
          refine ih rest' hlen' _ r (subtokens_inv_push_operator hinv ?_) h
          rw [hc']
          rcases hop with rfl | rfl <;> decide
      · unfold attr_subtokenize_loop at h
        by_cases hsp : isspace c = true
        · simp only [hsp, if_true] at h
          obtain ⟨h1, l, hl, h2⟩ := hinv
          have hb := back_eq hl
          split_ifs at h with hk hne
          · refine ih rest hrest _ r (subtokens_inv_append ⟨h1, l, hl, h2⟩ hl ?_) h
            intro hl0
            rw [hb, hl0] at hk
            exact absurd hk (by decide)
          · refine ih rest hrest _ r
              (subtokens_inv_push ⟨h1, l, hl, h2⟩ (fun h0 => absurd h0 hne)
                (isspace_not_operator_char hsp)) h
          · exact ih rest hrest _ r ⟨h1, l, hl, h2⟩ h
        · simp only [hsp, Bool.false_eq_true, if_false] at h
          have hsp' : isspace c = false := by simpa using hsp
          by_cases h4 : c = '(' ∨ c = ')' ∨ c = '!' ∨ c = ','
          · simp only [if_pos h4] at h
            refine ih rest hrest _ r (subtokens_inv_push_operator hinv ?_) h
            rcases h4 with rfl | rfl | rfl | rfl <;> decide
          · simp only [if_neg h4, if_neg hop] at h
            exact ih rest hrest _ r
              (subtokens_inv_push hinv (fun _ => hsp') (not_operator_char_of h4 hop)) h

theorem trim_inplace_operator {t : String} (h : is_operator t = true) :
    trim_inplace t = t := by
  simp only [is_operator, decide_eq_true_eq, List.mem_cons, List.mem_singleton,
    List.not_mem_nil, or_false] at h
  rcases h with rfl | rfl | rfl | rfl | rfl | rfl <;> decide

theorem subtoken_ok_operator {t : String} (h : is_operator t = true) : subtoken_ok t := by
  have h' := h
  simp only [is_operator, decide_eq_true_eq, List.mem_cons, List.mem_singleton,
    List.not_mem_nil, or_false] at h'
  refine ⟨?_, ?_, ?_, Or.inl h⟩
  · rcases h' with rfl | rfl | rfl | rfl | rfl | rfl <;> decide
  · intro c hc
    rcases h' with rfl | rfl | rfl | rfl | rfl | rfl <;>
      (simp only [List.head?_cons, Option.some.injEq] at hc; subst hc; decide)
  · intro c hc
    rcases h' with rfl | rfl | rfl | rfl | rfl | rfl <;>
      (simp only [List.getLast?_singleton, List.getLast?_cons_cons,
        Option.some.injEq] at hc; subst hc; decide)

theorem subtoken_ok_trim_word {w : String} (h : is_word w = true) :
    subtoken_ok (trim_inplace w) ∧ trim_inplace w ≠ "" := by
  obtain ⟨c, cs, hd, h1, h2⟩ := is_word_spec h
  have hdrop : (w.data.dropWhile isspace) = c :: cs := by
    rw [hd, List.dropWhile_cons_of_neg (by simp [h1])]
  have hdata : (trim_inplace w).data = (c :: cs).rdropWhile isspace := by
    simp only [trim_inplace, hdrop]
  have hne : (c :: cs).rdropWhile isspace ≠ [] := by
    intro hnil
    rw [List.rdropWhile_eq_nil_iff] at hnil
    have := hnil c (List.mem_cons_self _ _)
    rw [h1] at this
    exact absurd this (by decide)
  have hpre : (c :: cs).rdropWhile isspace <+: c :: cs := List.rdropWhile_prefix _ _
  have hne' : trim_inplace w ≠ "" := by
    rw [string_ne_empty_iff, hdata]
    exact hne
  refine ⟨⟨hne', ?_, ?_, Or.inr ?_⟩, hne'⟩
  · intro x hx
    rw [hdata] at hx
    obtain ⟨y, ys, hy⟩ := List.exists_cons_of_ne_nil hne
    rw [hy] at hx hpre
    simp only [List.head?_cons, Option.some.injEq] at hx
    have := List.cons_prefix_cons.1 hpre
    rw [← hx, this.1]
    exact h1
  · intro x hx
    rw [hdata, List.getLast?_eq_getLast _ hne, Option.some.injEq] at hx
    have := List.rdropWhile_last_not isspace (c :: cs) hne
    rw [hx] at this
    simpa using this
  · intro x hx
    rw [hdata] at hx
    exact h2 x (hpre.subset hx)

theorem trim_inplace_empty : trim_inplace "" = "" := by decide

/-- C23: the sub-tokens that `etsl_attr_subtokenize` returns. Every one of them is not
empty, neither begins nor ends with whitespace, and is one of the operators `(`, `)`, `!`,
`,`, `&&`, `||` or has none of the characters `(`, `)`, `!`, `,`, `&`, `|`; so the first
character that `parse_prop` reads of a sub-token is a character of the sub-token. -/
theorem subtokens_well_formed (token : etsl_token) (subtokens : List String)
    (h : etsl_attr_subtokenize token = .ok subtokens) :
    ∀ t ∈ subtokens, subtoken_ok t ∧ ∃ c cs, t.data = c :: cs ∧ front t = c := by
  have key : ∀ t ∈ subtokens, subtoken_ok t := by
    unfold etsl_attr_subtokenize at h
    cases hl : attr_subtokenize_loop token token.str.data [""] with
    | error e => rw [hl] at h; simp at h
    | ok r =>
      rw [hl] at h
      simp only [Except.ok.injEq] at h
      have hinit : subtokens_inv [""] :=
        ⟨fun t ht => by simp at ht, "", rfl, Or.inl rfl⟩
      obtain ⟨h1, l, hlast, h2⟩ :=
        attr_subtokenize_loop_inv token _ _ (Nat.le_refl _) [""] r hinit hl
      have hs := eq_append_of_getLast? hlast
      have hback : back (r.map trim_inplace) = trim_inplace l := by
        apply back_eq
        rw [List.getLast?_map, hlast]
        rfl
      have hinit_ok : ∀ t ∈ (r.dropLast).map trim_inplace, subtoken_ok t := by
        intro t ht
        rw [List.mem_map] at ht
        obtain ⟨t0, ht0, rfl⟩ := ht
        rcases h1 t0 ht0 with hop | hw
        · rw [trim_inplace_operator hop]
          exact subtoken_ok_operator hop
        · exact (subtoken_ok_trim_word hw).1
      rw [hback] at h
      intro t ht
      rcases h2 with h2 | h2
      · subst h2
        rw [trim_inplace_empty, if_pos rfl, ← List.map_dropLast] at h
        rw [← h] at ht
        exact hinit_ok t ht
      · rw [if_neg (subtoken_ok_trim_word h2).2] at h
        rw [← h, hs, List.map_append, List.mem_append] at ht
        rcases ht with ht | ht
        · exact hinit_ok t ht
        · simp only [List.map_cons, List.map_nil, List.mem_singleton] at ht
          subst ht
          exact (subtoken_ok_trim_word h2).1
  intro t ht
  have hok := key t ht
  refine ⟨hok, ?_⟩
  have hne := (string_ne_empty_iff t).1 hok.1
  obtain ⟨c, cs, hc⟩ := List.exists_cons_of_ne_nil hne
  exact ⟨c, cs, hc, by simp [front, hc]⟩

/-- Witness for C23: the sub-token `&&` of the attribute `if a && (b || !c)`. -/
theorem subtokens_well_formed_witness :
    subtoken_ok "&&" ∧ ∃ c cs, "&&".data = c :: cs ∧ front "&&" = c :=
  subtokens_well_formed
    { kind := .kind_attribute, str := "if a && (b || !c)", line_num := 1, col_num := 1 }
    ["if", "a", "&&", "(", "b", "||", "!", "c", ")"] (by decide) "&&" (by decide)

/-! ## The keys and the selection sequences of the second phase -/

theorem normal_keys_number_from : ∀ (bs : List frame_body) (n : Int),
    normal_keys (number_from n bs) =
      bs.filterMap (fun b => normal_key ⟨0, b⟩)
  | [], _ => rfl
  | b :: bs, n => by
    have ih := normal_keys_number_from bs (int_wrap (n + 1))
    unfold normal_keys at ih ⊢
    rw [number_from, List.filterMap_cons, List.filterMap_cons, ih]
    cases b <;> rfl

theorem single_bodies_single {file : etsl_file} {b : frame_body} (h : b ∈ single_bodies file) :
    ∃ s io c n : String, b = .single s io c n := by
  simp only [single_bodies, List.mem_flatMap] at h
  obtain ⟨cat, -, ch, -, hb⟩ := h
  obtain ⟨s, io, rfl⟩ := choice_single_bodies_single hb
  exact ⟨s, io, _, _, rfl⟩

theorem normal_keys_write_tsl_frames (file : etsl_file) :
    normal_keys (write_tsl_frames file) = (normal_stacks file.categories []).map frame_key := by
  rw [write_tsl_frames_eq, normal_keys_number_from, List.filterMap_append]
  have h1 : (single_bodies file).filterMap (fun b => normal_key ⟨0, b⟩) = [] := by
    rw [List.filterMap_eq_nil_iff]
    intro b hb
    obtain ⟨s, io, c, n, rfl⟩ := single_bodies_single hb
    rfl
  rw [h1, List.nil_append, List.filterMap_map]
  induction normal_stacks file.categories [] with
  | nil => rfl
  | cons s l ih => rw [List.filterMap_cons, ih]; rfl

theorem choice_entries_sorted (cat : etsl_category) (state_stack : List category_choice_state) :
    ∀ (chs : List etsl_choice) (i : Nat),
      (∀ e ∈ choice_entries cat state_stack i chs, (i : Int) ≤ e.selected) ∧
      List.Pairwise (fun a b : category_choice_state => a.selected < b.selected)
        (choice_entries cat state_stack i chs)
  | [], i => by simp [choice_entries]
  | ch :: chs, i => by
    obtain ⟨ih1, ih2⟩ := choice_entries_sorted cat state_stack chs (i + 1)
    have ih1' : ∀ e ∈ choice_entries cat state_stack (i + 1) chs, (i : Int) < e.selected := by
      intro e he
      have := ih1 e he
      push_cast at this
      omega
    rw [choice_entries]
    cases hb : branch_props state_stack ch with
    | none =>
      simp only
      exact ⟨fun e he => le_of_lt (ih1' e he), ih2⟩
    | some p =>
      simp only
      cases hme : cat.mutually_exclusive with
      | true => simp
      | false =>
        simp only [Bool.false_eq_true, if_false]
        refine ⟨fun e he => ?_, List.pairwise_cons.2 ⟨fun e he => ih1' e he, ih2⟩⟩
        rcases List.mem_cons.1 he with rfl | he
        · exact le_refl _
        · exact le_of_lt (ih1' e he)

theorem level_entries_sorted (cat : etsl_category) (state_stack : List category_choice_state) :
    List.Pairwise (fun a b : category_choice_state => a.selected < b.selected)
      (level_entries cat state_stack) := by
  unfold level_entries
  split_ifs
  · simp
  · exact (choice_entries_sorted cat state_stack cat.choices 0).2

theorem normal_stacks_extend {cats : List etsl_category}
    {state_stack s : List category_choice_state} (h : s ∈ normal_stacks cats state_stack) :
    ∃ u, s = state_stack ++ u := by
  obtain ⟨-, h2, -⟩ := normal_stacks_spec cats state_stack s h
  exact ⟨s.drop state_stack.length, by
    conv_lhs => rw [← List.take_append_drop state_stack.length s, h2]⟩

theorem frame_key_append (a b : List category_choice_state) :
    frame_key (a ++ b) = frame_key a ++ frame_key b := by
  simp [frame_key]

theorem normal_stacks_sorted : ∀ (cats : List etsl_category)
    (state_stack : List category_choice_state),
    List.Pairwise (fun a b => key_lt (frame_key a) (frame_key b))
      (normal_stacks cats state_stack)
  | [], state_stack => by simp [normal_stacks]
  | cat :: rest, state_stack => by
    rw [normal_stacks, List.pairwise_flatMap]
    refine ⟨fun e _ => normal_stacks_sorted rest _, ?_⟩
    refine (level_entries_sorted cat state_stack).imp ?_
    intro e1 e2 hlt x hx y hy
    obtain ⟨u, rfl⟩ := normal_stacks_extend hx
    obtain ⟨v, rfl⟩ := normal_stacks_extend hy
    simp only [List.append_assoc, List.singleton_append, frame_key_append]
    refine List.Lex.append_left _ ?_ _
    simp only [frame_key, List.map_cons]
    exact List.Lex.rel (by omega)

theorem key_lt_irrefl : ∀ (a : List Int), ¬ key_lt a a
  | [], h => by cases h
  | x :: a, h => by
    cases h with
    | cons h' => exact key_lt_irrefl a h'
    | rel h' => exact lt_irrefl x h'

theorem nodup_of_pairwise_key_lt {α : Type} (f : α → List Int) {l : List α}
    (h : List.Pairwise (fun a b => key_lt (f a) (f b)) l) : l.Nodup := by
  unfold List.Nodup
  refine h.imp ?_
  intro a b hab heq
  subst heq
  exact key_lt_irrefl _ hab

theorem normal_stacks_nodup (cats : List etsl_category)
    (state_stack : List category_choice_state) : (normal_stacks cats state_stack).Nodup :=
  nodup_of_pairwise_key_lt frame_key (normal_stacks_sorted cats state_stack)

/-- C27: the keys of the frames of the second phase. The key of a frame has for each
category the index of the selected choice plus one, and `0` for not applicable
(`frame_key`). For every document the keys are written in strictly increasing
lexicographic order, each key has one entry for each category, no two frames have the same
key, and at least one frame is written; for the empty document exactly one, with the empty
key. The document of the sample text has the keys `1.0.2` and `2.1.1`. -/
theorem keys_strictly_increasing (file : etsl_file) :
    List.Pairwise key_lt (normal_keys (write_tsl_frames file)) ∧
    (∀ key ∈ normal_keys (write_tsl_frames file), key.length = file.categories.length) ∧
    (normal_keys (write_tsl_frames file)).Nodup ∧
    normal_keys (write_tsl_frames file) ≠ [] ∧
    normal_keys (write_tsl_frames { categories := [] }) = [[]] ∧
    write_tsl_frames { categories := [] } = [⟨1, .normal []⟩] ∧
    normal_keys (write_tsl_frames sample_file) = [[1, 0, 2], [2, 1, 1]] := by
  have hs : List.Pairwise key_lt (normal_keys (write_tsl_frames file)) := by
    rw [normal_keys_write_tsl_frames, List.pairwise_map]
    exact normal_stacks_sorted _ _
  refine ⟨hs, ?_, nodup_of_pairwise_key_lt id hs, ?_, by decide, by decide, ?_⟩
  · intro key hkey
    rw [normal_keys_write_tsl_frames, List.mem_map] at hkey
    obtain ⟨s, hs', rfl⟩ := hkey
    have := (normal_stacks_spec _ _ s hs').1
    simpa [frame_key] using this
  · rw [normal_keys_write_tsl_frames]
    intro h
    exact normal_stacks_ne_nil _ _ (List.map_eq_nil_iff.1 h)
  · have h : write_tsl_frames sample_file = sample_frames := by decide
    rw [h]
    decide

theorem branch_props_eligible {state_stack : List category_choice_state} {ch : etsl_choice}
    (p : List String) :
    branch_props state_stack ch = some p ↔
      eligible (prop_map state_stack) ch ∧ p = selected_props (prop_map state_stack) ch := by
  rw [branch_props_eq_some_iff]
  unfold eligible selected_props
  constructor
  · rintro (⟨h1, h2, rfl⟩ | ⟨h1, h2, h3, h4, rfl⟩ | ⟨h1, h2, h3, h4, h5, rfl⟩)
    · exact ⟨Or.inl ⟨h1, h2⟩, by simp [h1]⟩
    · exact ⟨Or.inr (Or.inl ⟨h1, h2, h3, h4⟩), by simp [h2]⟩
    · exact ⟨Or.inr (Or.inr ⟨h1, h2, h3, h4, h5⟩), by simp [h1, h2]⟩
  · rintro ⟨⟨h1, h2⟩ | ⟨h1, h2, h3, h4⟩ | ⟨h1, h2, h3, h4, h5⟩, rfl⟩
    · exact Or.inl ⟨h1, h2, by simp [h1]⟩
    · exact Or.inr (Or.inl ⟨h1, h2, h3, h4, by simp [h2]⟩)
    · exact Or.inr (Or.inr ⟨h1, h2, h3, h4, h5, by simp [h1, h2]⟩)

theorem valid_entry_iff (cat : etsl_category) (below : List category_choice_state)
    (st : category_choice_state) :
    valid_entry (prop_map below) cat st ↔ st ∈ level_entries cat below := by
  rw [mem_level_entries]
  unfold valid_entry
  constructor
  · rintro (⟨h1, h2, h3⟩ | ⟨i, ch, h1, h2, h3, h4, h5⟩)
    · left
      refine ⟨?_, fun ch hch => (branch_props_eq_none_iff below ch).2 (h3 ch hch)⟩
      cases st
      simp only at h1 h2
      rw [h1, h2]
    · right
      refine ⟨i, ch, _, h2, (branch_props_eligible _).2 ⟨h3, rfl⟩, ?_, ?_⟩
      · cases st
        simp only at h1 h4
        rw [h1, h4]
      · intro hme j ch' hj hch'
        exact (branch_props_eq_none_iff below ch').2 (h5 hme j ch' hj hch')
  · rintro (⟨rfl, h⟩ | ⟨i, ch, p, h1, h2, rfl, h3⟩)
    · left
      exact ⟨rfl, rfl, fun ch hch => (branch_props_eq_none_iff below ch).1 (h ch hch)⟩
    · right
      obtain ⟨he, rfl⟩ := (branch_props_eligible p).1 h2
      refine ⟨i, ch, rfl, h1, he, rfl, ?_⟩
      intro hme j ch' hj hch'
      exact (branch_props_eq_none_iff below ch').1 (h3 hme j ch' hj hch')

/-- The converse of `normal_stacks_spec`. -/
theorem mem_normal_stacks : ∀ (cats : List etsl_category)
    (state_stack s : List category_choice_state),
    s.length = state_stack.length + cats.length → s.take state_stack.length = state_stack →
    (∀ (d : Nat) (cat : etsl_category) (st : category_choice_state),
      cats[d]? = some cat → s[state_stack.length + d]? = some st →
      st ∈ level_entries cat (s.take (state_stack.length + d))) →
    s ∈ normal_stacks cats state_stack
  | [], state_stack, s, h1, h2, _ => by
    simp only [List.length_nil, Nat.add_zero] at h1
    rw [normal_stacks, List.mem_singleton, ← h2, ← h1, List.take_length]
  | cat :: rest, state_stack, s, h1, h2, h3 => by
    simp only [List.length_cons] at h1
    have hlt : state_stack.length < s.length := by omega
    have he : s[state_stack.length]? = some s[state_stack.length] :=
      List.getElem?_eq_getElem hlt
    have hmem := h3 0 cat _ (by simp) he
    rw [Nat.add_zero, h2] at hmem
    have htake : s.take (state_stack.length + 1) = state_stack ++ [s[state_stack.length]] := by
      rw [List.take_succ, h2, he]
      rfl
    rw [normal_stacks, List.mem_flatMap]
    refine ⟨_, hmem, mem_normal_stacks rest _ s ?_ ?_ ?_⟩
    · simp only [List.length_append, List.length_singleton]
      omega
    · simp only [List.length_append, List.length_singleton]
      exact htake
    · intro d cat' st hcat hst
      simp only [List.length_append, List.length_singleton] at hst ⊢
      have e : state_stack.length + 1 + d = state_stack.length + (d + 1) := by omega
      rw [e] at hst ⊢
      exact h3 (d + 1) cat' st (by simpa using hcat) hst

theorem valid_selection_iff (file : etsl_file) (s : List category_choice_state) :
    valid_selection prop_map file s ↔ s ∈ normal_stacks file.categories [] := by
  unfold valid_selection
  constructor
  · rintro ⟨h1, h2⟩
    refine mem_normal_stacks _ [] s (by simpa using h1) rfl ?_
    intro d cat st hcat hst
    simp only [List.length_nil, Nat.zero_add] at hst ⊢
    exact (valid_entry_iff _ _ _).1 (h2 d cat st hcat hst)
  · intro h
    obtain ⟨h1, -, h3⟩ := normal_stacks_spec _ _ s h
    refine ⟨by simpa using h1, fun d cat st hcat hst => ?_⟩
    have := h3 d cat st hcat (by simpa using hst)
    simp only [List.length_nil, Nat.zero_add] at this
    exact (valid_entry_iff _ _ _).2 this

theorem selected_props_cases (lookup : String → Bool) (ch : etsl_choice) :
    selected_props lookup ch = ch.if_props ∨ selected_props lookup ch = ch.else_props := by
  unfold selected_props
  split_ifs
  · exact Or.inr rfl
  · exact Or.inl rfl

theorem valid_selection_props_sorted {look : List category_choice_state → String → Bool}
    {file : etsl_file} {s : List category_choice_state} (hs : props_sorted file)
    (h : valid_selection look file s) :
    ∀ st ∈ s, ∀ p, st.props = some p → p.Pairwise (fun a b => string_lt a b = true) := by
  intro st hst p hp
  obtain ⟨d, hd, hget⟩ := List.getElem_of_mem hst
  have hd' : d < file.categories.length := h.1 ▸ hd
  have hcat : file.categories[d]? = some file.categories[d] := List.getElem?_eq_getElem hd'
  have hst' : s[d]? = some st := by rw [List.getElem?_eq_getElem hd, hget]
  rcases h.2 d _ st hcat hst' with ⟨-, h2, -⟩ | ⟨i, ch, -, h2, -, h4, -⟩
  · rw [h2] at hp
    exact absurd hp (by simp)
  · rw [h4, Option.some.injEq] at hp
    have hsorted := hs _ (List.getElem_mem hd') ch (List.getElem?_mem h2)
    rcases selected_props_cases (look (s.take d)) ch with hc | hc
    · rw [← hp, hc]
      exact hsorted.1
    · rw [← hp, hc]
      exact hsorted.2

theorem valid_selection_lookup {file : etsl_file} (hs : props_sorted file)
    (s : List category_choice_state) :
    valid_selection mem_lookup file s ↔ valid_selection prop_map file s := by
  have key : ∀ look, valid_selection look file s → ∀ d, prop_map (s.take d) = mem_lookup (s.take d) := by
    intro look h d
    exact prop_map_eq_mem_lookup (fun st hst p hp =>
      valid_selection_props_sorted hs h st (List.mem_of_mem_take hst) p hp)
  constructor
  · intro h
    refine ⟨h.1, fun d cat st hcat hst => ?_⟩
    rw [key _ h d]
    exact h.2 d cat st hcat hst
  · intro h
    refine ⟨h.1, fun d cat st hcat hst => ?_⟩
    rw [← key _ h d]
    exact h.2 d cat st hcat hst

theorem countP_eq_one_of_mem {α : Type} [DecidableEq α] {l : List α} {a : α}
    (hn : l.Nodup) (h : a ∈ l) : l.countP (fun x => decide (x = a)) = 1 := by
  induction l with
  | nil => exact absurd h (List.not_mem_nil _)
  | cons x l ih =>
    rw [List.nodup_cons] at hn
    rw [List.countP_cons]
    rcases List.mem_cons.1 h with rfl | h'
    · have h0 : l.countP (fun x => decide (x = a)) = 0 := by
        rw [List.countP_eq_zero]
        intro y hy
        simp only [decide_eq_true_eq]
        rintro rfl
        exact hn.1 hy
      simp [h0]
    · have hne : x ≠ a := by
        rintro rfl
        exact hn.1 h'
      simp [ih hn.2 h', hne]

theorem count_normal_write_tsl_frames (file : etsl_file) (s : List category_choice_state) :
    (write_tsl_frames file).countP (fun f => decide (f.body = .normal s)) =
      (normal_stacks file.categories []).countP (fun x => decide (x = s)) := by
  have h0 : (write_tsl_frames file).countP (fun f => decide (f.body = .normal s)) =
      ((write_tsl_frames file).map (fun f => f.body)).countP
        (fun b => decide (b = .normal s)) := by
    rw [List.countP_map]
    rfl
  rw [h0, write_tsl_frames_eq, map_body_number_from, List.countP_append]
  have h1 : (single_bodies file).countP (fun b => decide (b = .normal s)) = 0 := by
    rw [List.countP_eq_zero]
    intro b hb
    obtain ⟨x, y, z, w, rfl⟩ := single_bodies_single hb
    simp
  rw [h1, Nat.zero_add, List.countP_map]
  congr 1
  funext x
  simp

/-- C24: the completeness of the second phase. A selection sequence of the document is
valid when it has one entry for each category and each entry is either a choice of its
category that is eligible given the property sets of the entries before it, with the
property set that this choice contributes (and the first eligible choice when the category
is mutually exclusive), or not applicable when the category has no eligible choice. The
normal frames of the document are exactly the valid selection sequences, and each valid
selection sequence is the body of exactly one frame. This holds with the lookup of the
program, and with plain membership for every document whose property sets are in
increasing order, as those of `etsl_parse` are. -/
theorem phase_b_complete :
    (∀ (file : etsl_file) (s : List category_choice_state),
      valid_selection prop_map file s ↔
        ∃ num : Int, (⟨num, .normal s⟩ : frame) ∈ write_tsl_frames file) ∧
    (∀ (file : etsl_file) (s : List category_choice_state), valid_selection prop_map file s →
      (write_tsl_frames file).countP (fun f => decide (f.body = .normal s)) = 1) ∧
    (∀ (file : etsl_file) (s : List category_choice_state), ¬ valid_selection prop_map file s →
      (write_tsl_frames file).countP (fun f => decide (f.body = .normal s)) = 0) ∧
    (∀ (file : etsl_file) (s : List category_choice_state), props_sorted file →
      (valid_selection mem_lookup file s ↔
        ∃ num : Int, (⟨num, .normal s⟩ : frame) ∈ write_tsl_frames file) ∧
      (valid_selection mem_lookup file s →
        (write_tsl_frames file).countP (fun f => decide (f.body = .normal s)) = 1)) ∧
    (∀ (tokens : List etsl_token) (file : etsl_file), etsl_parse tokens = .ok file →
      props_sorted file) := by
  have h1 : ∀ (file : etsl_file) (s : List category_choice_state),
      valid_selection prop_map file s ↔
        ∃ num : Int, (⟨num, .normal s⟩ : frame) ∈ write_tsl_frames file := by
    intro file s
    rw [valid_selection_iff, normal_mem_write_tsl_frames]
  have h2 : ∀ (file : etsl_file) (s : List category_choice_state),
      valid_selection prop_map file s →
      (write_tsl_frames file).countP (fun f => decide (f.body = .normal s)) = 1 := by
    intro file s h
    rw [count_normal_write_tsl_frames]
    exact countP_eq_one_of_mem (normal_stacks_nodup _ _) ((valid_selection_iff _ _).1 h)
  refine ⟨h1, h2, fun file s h => ?_, fun file s hs => ?_,
    fun tokens file h => props_sorted_etsl_parse h⟩
  · rw [count_normal_write_tsl_frames, List.countP_eq_zero]
    intro x hx
    simp only [decide_eq_true_eq]
    rintro rfl
    exact h ((valid_selection_iff _ _).2 hx)
  · rw [valid_selection_lookup hs]
    exact ⟨h1 file s, h2 file s⟩

/-- Witness for C24: the selection sequence `n/a`, `y` of the example document is valid
and is the body of exactly one frame. -/
theorem phase_b_complete_witness :
    valid_selection prop_map example_file example_stack ∧
    (write_tsl_frames example_file).countP
      (fun f => decide (f.body = .normal example_stack)) = 1 :=
  ⟨(phase_b_complete.1 example_file example_stack).2 ⟨1, by decide⟩,
   phase_b_complete.2.1 example_file example_stack
     ((phase_b_complete.1 example_file example_stack).2 ⟨1, by decide⟩)⟩

/-! ## The sequences that `etsl_predicate.parse` accepts -/

/-- With a recursion budget that is enough for the sequence, one more level changes
nothing. -/
theorem parse_fuel_stable (n : Nat) :
    (∀ toks : List String, 3 * toks.length + 3 ≤ n →
      parse_primary (n + 1) toks = parse_primary n toks) ∧
    (∀ (term : expression) (toks : List String), 3 * toks.length + 3 ≤ n →
      parse_term_loop (n + 1) term toks = parse_term_loop n term toks) ∧
    (∀ toks : List String, 3 * toks.length + 3 ≤ n →
      parse_term (n + 1) toks = parse_term n toks) ∧
    (∀ (expr : expression) (toks : List String), 3 * toks.length + 3 ≤ n →
      parse_expr_loop (n + 1) expr toks = parse_expr_loop n expr toks) ∧
    (∀ toks : List String, 3 * toks.length + 3 ≤ n →
      parse_expr (n + 1) toks = parse_expr n toks) := by
  obtain ⟨hp, htl, ht, hel, he⟩ := parse_fuel_enough n
  obtain ⟨mp, mtl, mt, mel, me⟩ := parse_fuel_mono n
  exact ⟨fun toks h => mp toks _ rfl (hp toks (by omega)).1,
    fun term toks h => mtl term toks _ rfl (htl term toks (by omega)).1,
    fun toks h => mt toks _ rfl (ht toks (by omega)).1,
    fun expr toks h => mel expr toks _ rfl (hel expr toks (by omega)).1,
    fun toks h => me toks _ rfl (he toks h).1⟩

theorem parse_primary_big {m : Nat} (t : String) (rest : List String)
    (h : 3 * (t :: rest).length + 3 ≤ m) :
    parse_primary m (t :: rest) =
      if t = "!" then
        match parse_primary m rest with
        | .error e => .error e
        | .ok (none, _) => .error (.etsl_invalid_predicate_error "invalid operator !")
        | .ok (some operand, rest') => .ok (some (.kind_not operand), rest')
      else if t = "(" then
        match parse_expr m rest with
        | .error e => .error e
        | .ok (none, _) => .error (.etsl_invalid_predicate_error "invalid parentheses")
        | .ok (some _, []) => .error (.etsl_invalid_predicate_error "invalid parentheses")
        | .ok (some expr, t' :: rest') =>
          if t' = ")" then .ok (some expr, rest')
          else .error (.etsl_invalid_predicate_error "invalid parentheses")
      else parse_prop (t :: rest) :=
  ((parse_fuel_stable m).1 _ h).symm.trans (parse_primary_succ m t rest)

theorem parse_term_loop_big {m : Nat} (term : expression) (t : String) (rest : List String)
    (h : 3 * (t :: rest).length + 3 ≤ m) :
    parse_term_loop m term (t :: rest) =
      if t = "&&" then
        match parse_primary m rest with
        | .error e => .error e
        | .ok (none, _) => .error (.etsl_invalid_predicate_error "invalid operator &&")
        | .ok (some rhs, rest') => parse_term_loop m (.kind_and term rhs) rest'
      else .ok (some term, t :: rest) :=
  ((parse_fuel_stable m).2.1 term _ h).symm.trans (parse_term_loop_succ m term t rest)

theorem parse_term_big {m : Nat} (toks : List String) (h : 3 * toks.length + 3 ≤ m) :
    parse_term m toks =
      match parse_primary m toks with
      | .error e => .error e
      | .ok (none, rest) => .ok (none, rest)
      | .ok (some term, rest) => parse_term_loop m term rest :=
  ((parse_fuel_stable m).2.2.1 _ h).symm.trans (parse_term_succ m toks)

theorem parse_expr_loop_big {m : Nat} (expr : expression) (t : String) (rest : List String)
    (h : 3 * (t :: rest).length + 3 ≤ m) :
    parse_expr_loop m expr (t :: rest) =
      if t = "||" then
        match parse_term m rest with
        | .error e => .error e
        | .ok (none, _) => .error (.etsl_invalid_predicate_error "invalid operator ||")
        | .ok (some rhs, rest') => parse_expr_loop m (.kind_or expr rhs) rest'
      else .ok (some expr, t :: rest) :=
  ((parse_fuel_stable m).2.2.2.1 expr _ h).symm.trans (parse_expr_loop_succ m expr t rest)

theorem parse_expr_big {m : Nat} (toks : List String) (h : 3 * toks.length + 3 ≤ m) :
    parse_expr m toks =
      match parse_term m toks with
      | .error e => .error e
      | .ok (none, rest) => .ok (none, rest)
      | .ok (some expr, rest) => parse_expr_loop m expr rest :=
  ((parse_fuel_stable m).2.2.2.2 _ h).symm.trans (parse_expr_succ m toks)

theorem parse_term_loop_stop {m : Nat} (term : expression) (rest : List String)
    (hm : 0 < m) (h : rest.head? ≠ some "&&") :
    parse_term_loop m term rest = .ok (some term, rest) := by
  obtain ⟨n, rfl⟩ : ∃ n, m = n + 1 := ⟨m - 1, by omega⟩
  exact parse_term_loop_exit n term rest h

theorem parse_expr_loop_stop {m : Nat} (expr : expression) (rest : List String)
    (hm : 0 < m) (h : rest.head? ≠ some "||") :
    parse_expr_loop m expr rest = .ok (some expr, rest) := by
  obtain ⟨n, rfl⟩ : ∃ n, m = n + 1 := ⟨m - 1, by omega⟩
  exact parse_expr_loop_exit n expr rest h

/-- The parsing functions read what the grammar derives: on a sequence that a nonterminal
derives, followed by any sub-tokens, `parse_primary` returns the tree and the sub-tokens
that follow, and `parse_term` and `parse_expr` go on with their loops on the tree and the
sub-tokens that follow. -/
theorem parse_complete {nt : nonterminal} {l : List String} {e : expression}
    (h : derives nt l e) :
    match nt with
    | .primary => ∀ (rest : List String) (m : Nat), 3 * (l ++ rest).length + 3 ≤ m →
        parse_primary m (l ++ rest) = .ok (some e, rest)
    | .term => ∀ (rest : List String) (m : Nat), 3 * (l ++ rest).length + 3 ≤ m →
        parse_term m (l ++ rest) = parse_term_loop m e rest
    | .expr => ∀ (rest : List String) (m : Nat), 3 * (l ++ rest).length + 3 ≤ m →
        rest.head? ≠ some "&&" → parse_expr m (l ++ rest) = parse_expr_loop m e rest := by
  induction h with
  | prop t ht =>
    intro rest m hm
    obtain ⟨n, rfl⟩ : ∃ n, m = n + 1 := ⟨m - 1, by omega⟩
    exact parse_primary_prop_name n rest ht
  | not l e _ ih =>
    intro rest m hm
    simp only [List.cons_append, List.length_cons] at hm
    rw [List.cons_append, parse_primary_big _ _ (by simp only [List.length_cons]; omega),
      if_pos rfl, ih rest m (by omega)]
  | paren l e _ ih =>
    intro rest m hm
    simp only [List.cons_append, List.append_assoc, List.length_cons, List.length_append,
      List.length_nil, List.length_singleton] at hm
    have h1 := ih (")" :: rest) m (by simp only [List.length_append, List.length_cons]; omega)
      (by simp)
    rw [parse_expr_loop_stop _ _ (by omega) (by simp)] at h1
    rw [List.cons_append, List.append_assoc, List.singleton_append,
      parse_primary_big _ _ (by simp only [List.length_cons, List.length_append]; omega),
      if_neg (by decide), if_pos rfl, h1]
    simp
  | primary l e _ ih =>
    intro rest m hm
    rw [parse_term_big _ hm, ih rest m hm]
  | and l r e f _ _ ihl ihr =>
    intro rest m hm
    simp only [List.append_assoc, List.cons_append, List.length_append, List.length_cons] at hm
    rw [List.append_assoc, List.cons_append,
      ihl ("&&" :: (r ++ rest)) m
        (by simp only [List.length_append, List.length_cons]; omega),
      parse_term_loop_big _ _ _ (by simp only [List.length_append, List.length_cons]; omega),
      if_pos rfl, ihr rest m (by simp only [List.length_append]; omega)]
  | term l e _ ih =>
    intro rest m hm hrest
    rw [parse_expr_big _ hm, ih rest m hm, parse_term_loop_stop _ _ (by omega) hrest]
  | or l r e f _ _ ihl ihr =>
    intro rest m hm hrest
    simp only [List.append_assoc, List.cons_append, List.length_append, List.length_cons] at hm
    rw [List.append_assoc, List.cons_append,
      ihl ("||" :: (r ++ rest)) m
        (by simp only [List.length_append, List.length_cons]; omega) (by simp),
      parse_expr_loop_big _ _ _ (by simp only [List.length_append, List.length_cons]; omega),
      if_pos rfl, ihr rest m (by simp only [List.length_append]; omega),
      parse_term_loop_stop _ _ (by omega) hrest]

theorem parse_primary_complete {l : List String} {e : expression} (h : derives .primary l e)
    (rest : List String) (m : Nat) (hm : 3 * (l ++ rest).length + 3 ≤ m) :
    parse_primary m (l ++ rest) = .ok (some e, rest) := parse_complete h rest m hm

theorem parse_term_complete {l : List String} {e : expression} (h : derives .term l e)
    (rest : List String) (m : Nat) (hm : 3 * (l ++ rest).length + 3 ≤ m) :
    parse_term m (l ++ rest) = parse_term_loop m e rest := parse_complete h rest m hm

theorem parse_expr_complete {l : List String} {e : expression} (h : derives .expr l e)
    (rest : List String) (m : Nat) (hm : 3 * (l ++ rest).length + 3 ≤ m)
    (hrest : rest.head? ≠ some "&&") :
    parse_expr m (l ++ rest) = parse_expr_loop m e rest := parse_complete h rest m hm hrest

/-- Where the parsing functions stop: the sub-tokens left by `parse_term` do not begin with
`&&`, and those left by `parse_expr` begin with neither `&&` nor `||`. -/
theorem parse_stops : ∀ n : Nat,
    (∀ (term : expression) (toks : List String) (e : expression) (rest : List String),
      parse_term_loop n term toks = .ok (some e, rest) → rest.head? ≠ some "&&") ∧
    (∀ (toks : List String) (e : expression) (rest : List String),
      parse_term n toks = .ok (some e, rest) → rest.head? ≠ some "&&") ∧
    (∀ (expr : expression) (toks : List String) (e : expression) (rest : List String),
      parse_expr_loop n expr toks = .ok (some e, rest) → toks.head? ≠ some "&&" →
      rest.head? ≠ some "&&" ∧ rest.head? ≠ some "||") ∧
    (∀ (toks : List String) (e : expression) (rest : List String),
      parse_expr n toks = .ok (some e, rest) →
      rest.head? ≠ some "&&" ∧ rest.head? ≠ some "||") := by
  intro n
  induction n with
  | zero =>
    refine ⟨?_, ?_, ?_, ?_⟩ <;> intros <;>
      simp_all [parse_term_loop, parse_term, parse_expr_loop, parse_expr]
  | succ n ih =>
    obtain ⟨ihtl, iht, ihel, ihe⟩ := ih
    refine ⟨?_, ?_, ?_, ?_⟩
    · intro term toks e rest h
      cases toks with
      | nil =>
        simp only [parse_term_loop, Except.ok.injEq, Prod.mk.injEq, Option.some.injEq] at h
        rw [← h.2]
        simp
      | cons t rest0 =>
        rw [parse_term_loop_succ] at h
        split_ifs at h with h1
        · cases hs : parse_primary n rest0 with
          | error e' => rw [hs] at h; simp at h
          | ok v =>
            obtain ⟨o, r⟩ := v
            rw [hs] at h
            cases o with
            | none => simp at h
            | some rhs => exact ihtl _ r e rest h
        · simp only [Except.ok.injEq, Prod.mk.injEq, Option.some.injEq] at h
          rw [← h.2]
          simpa using h1
    · intro toks e rest h
      rw [parse_term_succ] at h
      cases hs : parse_primary n toks with
      | error e' => rw [hs] at h; simp at h
      | ok v =>
        obtain ⟨o, r⟩ := v
        rw [hs] at h
        cases o with
        | none => simp at h
        | some t1 => exact ihtl t1 r e rest h
    · intro expr toks e rest h htoks
      cases toks with
      | nil =>
        simp only [parse_expr_loop, Except.ok.injEq, Prod.mk.injEq, Option.some.injEq] at h
        rw [← h.2]
        simp
      | cons t rest0 =>
        rw [parse_expr_loop_succ] at h
        split_ifs at h with h1
        · cases hs : parse_term n rest0 with
          | error e' => rw [hs] at h; simp at h
          | ok v =>
            obtain ⟨o, r⟩ := v
            rw [hs] at h
            cases o with
            | none => simp at h
            | some rhs => exact ihel _ r e rest h (iht rest0 rhs r hs)
        · simp only [Except.ok.injEq, Prod.mk.injEq, Option.some.injEq] at h
          rw [← h.2]
          exact ⟨htoks, by simpa using h1⟩
    · intro toks e rest h
      rw [parse_expr_succ] at h
      cases hs : parse_term n toks with
      | error e' => rw [hs] at h; simp at h
      | ok v =>
        obtain ⟨o, r⟩ := v
        rw [hs] at h
        cases o with
        | none => simp at h
        | some t1 => exact ihel t1 r e rest h (iht toks t1 r hs)

/-- The result of `etsl_predicate.parse` in terms of `parse_expr`. -/
theorem parse_ok_iff (toks : List String) (e : expression) :
    etsl_predicate.parse toks = .ok { expr_ := some e } ↔
      ∃ rest, parse_expr (parse_fuel toks) toks = .ok (some e, rest) := by
  unfold etsl_predicate.parse
  cases hs : parse_expr (parse_fuel toks) toks with
  | error e' => simp
  | ok v =>
    obtain ⟨o, r⟩ := v
    cases o with
    | none => simp
    | some x => simp

/-- The sequences that `etsl_predicate.parse` accepts: it returns the tree `e` exactly when
a prefix of the sequence is derived by the grammar as an expression with the tree `e` and
the sub-tokens after the prefix begin with neither `&&` nor `||`. -/
theorem parse_ok_iff_derives (toks : List String) (e : expression) :
    etsl_predicate.parse toks = .ok { expr_ := some e } ↔
      ∃ pre rest, toks = pre ++ rest ∧ derives .expr pre e ∧
        rest.head? ≠ some "&&" ∧ rest.head? ≠ some "||" := by
  rw [parse_ok_iff]
  constructor
  · rintro ⟨rest, h⟩
    obtain ⟨pre, hpre, hd⟩ := (parse_sound _).2.2.2.2 toks e rest h
    exact ⟨pre, rest, hpre, hd, (parse_stops _).2.2.2 toks e rest h⟩
  · rintro ⟨pre, rest, rfl, hd, h1, h2⟩
    refine ⟨rest, ?_⟩
    rw [parse_expr_complete hd rest (parse_fuel (pre ++ rest)) (le_refl _) h1]
    exact parse_expr_loop_stop _ _ (by simp [parse_fuel]) h2

theorem parse_error_iff_not_ok (toks : List String) :
    (∃ what, etsl_predicate.parse toks = .error (.etsl_invalid_predicate_error what)) ↔
      ¬ ∃ e, etsl_predicate.parse toks = .ok { expr_ := some e } := by
  constructor
  · rintro ⟨what, h⟩ ⟨e, he⟩
    rw [h] at he
    simp at he
  · intro h
    rcases parse_error_or_prefix_derived toks with hw | ⟨e, -, -, he, -⟩
    · exact hw
    · exact absurd ⟨e, he⟩ h

theorem parse_error_iff_no_derives (toks : List String) :
    (∃ what, etsl_predicate.parse toks = .error (.etsl_invalid_predicate_error what)) ↔
      ¬ ∃ e pre rest, toks = pre ++ rest ∧ derives .expr pre e ∧
        rest.head? ≠ some "&&" ∧ rest.head? ≠ some "||" := by
  rw [parse_error_iff_not_ok]
  constructor
  · rintro h ⟨e, pre, rest, hx⟩
    exact h ⟨e, (parse_ok_iff_derives toks e).2 ⟨pre, rest, hx⟩⟩
  · rintro h ⟨e, he⟩
    obtain ⟨pre, rest, hx⟩ := (parse_ok_iff_derives toks e).1 he
    exact h ⟨e, pre, rest, hx⟩

/-- A binary operator that follows a grammar expression and is followed by no operand is
rejected. -/
theorem parse_derived_binary_no_operand {pre rest : List String} {e : expression}
    (hd : derives .expr pre e) (h : no_operand rest) :
    etsl_predicate.parse (pre ++ "&&" :: rest) =
      .error (.etsl_invalid_predicate_error "invalid operator &&") ∧
    etsl_predicate.parse (pre ++ "||" :: rest) =
      .error (.etsl_invalid_predicate_error "invalid operator ||") := by
  have hfuel : ∀ op : String, parse_fuel (pre ++ op :: rest) =
      3 * (pre.length + (rest.length + 1)) + 2 + 1 := by
    intro op
    simp [parse_fuel]
  have hand : ∀ (l : List String) (x : expression) (m : Nat), derives .term l x →
      3 * (l ++ "&&" :: rest).length + 3 ≤ m →
      parse_term m (l ++ "&&" :: rest) =
        .error (.etsl_invalid_predicate_error "invalid operator &&") := by
    intro l x m hl hm
    obtain ⟨n, rfl⟩ : ∃ n, m = n + 1 := ⟨m - 1, by omega⟩
    simp only [List.length_append, List.length_cons] at hm
    rw [parse_term_complete hl _ _ (by simp only [List.length_append, List.length_cons]; omega),
      parse_term_loop_big _ _ _ (by simp only [List.length_cons]; omega), if_pos rfl,
      parse_primary_no_operand n h]
  constructor
  · unfold etsl_predicate.parse
    generalize hm : parse_fuel (pre ++ "&&" :: rest) = m
    have hm' : 3 * (pre ++ "&&" :: rest).length + 3 ≤ m := by rw [← hm]; simp [parse_fuel]
    clear hm
    cases hd with
    | term l x hl =>
      rw [parse_expr_big _ hm', hand pre e m hl hm']
    | or l r x f hl hr =>
      simp only [List.append_assoc, List.cons_append, List.length_append,
        List.length_cons] at hm'
      rw [List.append_assoc, List.cons_append,
        parse_expr_complete hl _ _
          (by simp only [List.length_append, List.length_cons]; omega) (by simp),
        parse_expr_loop_big _ _ _
          (by simp only [List.length_append, List.length_cons]; omega), if_pos rfl,
        hand r f m hr (by simp only [List.length_append, List.length_cons]; omega)]
  · unfold etsl_predicate.parse
    rw [hfuel, parse_expr_complete hd _ _
        (by simp only [List.length_append, List.length_cons]; omega) (by simp),
      parse_expr_loop_big _ _ _ (by simp only [List.length_cons]; omega), if_pos rfl,
      parse_term_big _ (by omega)]
    have hp := parse_primary_no_operand (3 * (pre.length + (rest.length + 1)) + 2) h
    rw [hp]

/-- A parenthesized grammar expression that is followed by no `)` is rejected. -/
theorem parse_paren_derived_unmatched {pre rest : List String} {e : expression}
    (hd : derives .expr pre e) (h0 : rest.head? ≠ some ")") (h1 : rest.head? ≠ some "&&")
    (h2 : rest.head? ≠ some "||") :
    etsl_predicate.parse ("(" :: (pre ++ rest)) =
      .error (.etsl_invalid_predicate_error "invalid parentheses") := by
  unfold etsl_predicate.parse
  generalize hm : parse_fuel ("(" :: (pre ++ rest)) = m
  have hm' : 3 * (pre.length + rest.length + 1) + 3 ≤ m := by
    rw [← hm]; simp [parse_fuel]
  clear hm
  rw [parse_expr_big _ (by simp only [List.length_append, List.length_cons]; omega),
    parse_term_big _ (by simp only [List.length_append, List.length_cons]; omega),
    parse_primary_big _ _ (by simp only [List.length_append, List.length_cons]; omega),
    if_neg (by decide), if_pos rfl,
    parse_expr_complete hd _ _ (by simp only [List.length_append]; omega) h1,
    parse_expr_loop_stop _ _ (by omega) h2]
  cases rest with
  | nil => rfl
  | cons t r =>
    have ht : t ≠ ")" := fun ht => h0 (by simp [ht])
    simp [ht]

/-- Whether the loop of `parse_term` returns, and what it leaves, does not depend on the
tree it has built so far. -/
theorem parse_term_loop_ok_any : ∀ (n : Nat) (t t' : expression) (toks : List String)
    (o : Option expression) (r : List String), parse_term_loop n t toks = .ok (o, r) →
    ∃ g, parse_term_loop n t' toks = .ok (some g, r)
  | 0, _, _, _, _, _, h => by simp [parse_term_loop] at h
  | n + 1, t, t', [], o, r, h => by
    simp only [parse_term_loop, Except.ok.injEq, Prod.mk.injEq] at h
    exact ⟨t', by simp [parse_term_loop, h.2]⟩
  | n + 1, t, t', x :: rest0, o, r, h => by
    rw [parse_term_loop_succ] at h ⊢
    split_ifs at h ⊢ with h1
    · cases hs : parse_primary n rest0 with
      | error e' => rw [hs] at h; simp at h
      | ok v =>
        obtain ⟨o1, r1⟩ := v
        rw [hs] at h
        cases o1 with
        | none => simp at h
        | some rhs => exact parse_term_loop_ok_any n _ _ r1 o r h
    · simp only [Except.ok.injEq, Prod.mk.injEq] at h
      exact ⟨t', by rw [h.2]⟩

/-- Whether the loop of `parse_expr` returns, and what it leaves, does not depend on the
tree it has built so far. -/
theorem parse_expr_loop_ok_any : ∀ (n : Nat) (t t' : expression) (toks : List String)
    (o : Option expression) (r : List String), parse_expr_loop n t toks = .ok (o, r) →
    ∃ g, parse_expr_loop n t' toks = .ok (some g, r)
  | 0, _, _, _, _, _, h => by simp [parse_expr_loop] at h
  | n + 1, t, t', [], o, r, h => by
    simp only [parse_expr_loop, Except.ok.injEq, Prod.mk.injEq] at h
    exact ⟨t', by simp [parse_expr_loop, h.2]⟩
  | n + 1, t, t', x :: rest0, o, r, h => by
    rw [parse_expr_loop_succ] at h ⊢
    split_ifs at h ⊢ with h1
    · cases hs : parse_term n rest0 with
      | error e' => rw [hs] at h; simp at h
      | ok v =>
        obtain ⟨o1, r1⟩ := v
        rw [hs] at h
        cases o1 with
        | none => simp at h
        | some rhs => exact parse_expr_loop_ok_any n _ _ r1 o r h
    · simp only [Except.ok.injEq, Prod.mk.injEq] at h
      exact ⟨t', by rw [h.2]⟩

theorem parse_ok_big (toks : List String) (m : Nat) (hm : 3 * toks.length + 3 ≤ m) :
    (∃ e, etsl_predicate.parse toks = .ok { expr_ := some e }) ↔
      ∃ e r, parse_expr m toks = .ok (some e, r) := by
  have hk : m = parse_fuel toks + (m - parse_fuel toks) := by
    simp only [parse_fuel]; omega
  rw [hk, parse_expr_fuel_irrelevant]
  constructor
  · rintro ⟨e, he⟩
    exact ⟨e, (parse_ok_iff toks e).1 he⟩
  · rintro ⟨e, r, he⟩
    exact ⟨e, (parse_ok_iff toks e).2 ⟨r, he⟩⟩

theorem parse_term_ok_inv {m : Nat} {toks : List String}
    {g : expression} {r : List String} (hm : 3 * toks.length + 3 ≤ m)
    (h : parse_term m toks = .ok (some g, r)) :
    ∃ f r1, parse_primary m toks = .ok (some f, r1) ∧
      parse_term_loop m f r1 = .ok (some g, r) := by
  rw [parse_term_big _ hm] at h
  cases hs : parse_primary m toks with
  | error e' => rw [hs] at h; simp at h
  | ok v =>
    obtain ⟨o1, r1⟩ := v
    rw [hs] at h
    cases o1 with
    | none => simp at h
    | some f => exact ⟨f, r1, rfl, h⟩

theorem parse_expr_ok_inv {m : Nat} {toks : List String} {e : expression}
    {r : List String} (hm : 3 * toks.length + 3 ≤ m)
    (h : parse_expr m toks = .ok (some e, r)) :
    ∃ g r2, parse_term m toks = .ok (some g, r2) ∧
      parse_expr_loop m g r2 = .ok (some e, r) := by
  rw [parse_expr_big _ hm] at h
  cases hs : parse_term m toks with
  | error e' => rw [hs] at h; simp at h
  | ok v =>
    obtain ⟨o1, r1⟩ := v
    rw [hs] at h
    cases o1 with
    | none => simp at h
    | some g => exact ⟨g, r1, rfl, h⟩

/-- An expression is read where a primary is read and the two loops return. -/
theorem parse_expr_ok_of_parts {m : Nat} {rest r' r2 r : List String}
    {rhs t x : expression} {o o' : Option expression} (hm : 3 * rest.length + 3 ≤ m)
    (hp : parse_primary m rest = .ok (some rhs, r'))
    (ht : parse_term_loop m t r' = .ok (o, r2))
    (he : parse_expr_loop m x r2 = .ok (o', r)) :
    ∃ e, parse_expr m rest = .ok (some e, r) := by
  obtain ⟨g, hg⟩ := parse_term_loop_ok_any m t rhs r' o r2 ht
  obtain ⟨e, he'⟩ := parse_expr_loop_ok_any m x g r2 o' r he
  refine ⟨e, ?_⟩
  rw [parse_expr_big _ hm, parse_term_big _ hm, hp]
  simp only
  rw [hg]
  exact he'

theorem parse_term_and_ok_inv {m : Nat} {l rest : List String} {x g : expression}
    {r2 : List String} (hl : derives .term l x)
    (hm : 3 * (l ++ "&&" :: rest).length + 3 ≤ m)
    (h : parse_term m (l ++ "&&" :: rest) = .ok (some g, r2)) :
    ∃ rhs r', parse_primary m rest = .ok (some rhs, r') ∧
      parse_term_loop m (.kind_and x rhs) r' = .ok (some g, r2) := by
  have hm' := hm
  simp only [List.length_append, List.length_cons] at hm'
  rw [parse_term_complete hl _ _ hm,
    parse_term_loop_big _ _ _ (by simp only [List.length_cons]; omega), if_pos rfl] at h
  cases hs : parse_primary m rest with
  | error e' => rw [hs] at h; simp at h
  | ok v =>
    obtain ⟨o1, r1⟩ := v
    rw [hs] at h
    cases o1 with
    | none => simp at h
    | some rhs => exact ⟨rhs, r1, rfl, h⟩

/-- When `etsl_predicate.parse` accepts a sequence that begins with `!` or `(`, or with a
grammar expression and `&&` or `||`, it accepts the sequence after that beginning. -/
theorem parse_ok_operand (rest : List String)
    (h : (∃ e, etsl_predicate.parse ("!" :: rest) = .ok { expr_ := some e }) ∨
      (∃ e, etsl_predicate.parse ("(" :: rest) = .ok { expr_ := some e }) ∨
      (∃ pre x e, derives .expr pre x ∧
        etsl_predicate.parse (pre ++ "&&" :: rest) = .ok { expr_ := some e }) ∨
      (∃ pre x e, derives .expr pre x ∧
        etsl_predicate.parse (pre ++ "||" :: rest) = .ok { expr_ := some e })) :
    ∃ e, etsl_predicate.parse rest = .ok { expr_ := some e } := by
  rcases h with ⟨e, h⟩ | ⟨e, h⟩ | ⟨pre, x, e, hd, h⟩ | ⟨pre, x, e, hd, h⟩
  · obtain ⟨r, h⟩ := (parse_ok_iff _ e).1 h
    generalize hm : parse_fuel ("!" :: rest) = m at h
    have hm' : 3 * (rest.length + 1) + 3 ≤ m := by rw [← hm]; simp [parse_fuel]
    clear hm
    obtain ⟨g, r2, ht, hel⟩ := parse_expr_ok_inv (by simp only [List.length_cons]; omega) h
    obtain ⟨f, r1, hp, htl⟩ := parse_term_ok_inv
      (by simp only [List.length_cons]; omega) ht
    rw [parse_primary_big _ _ (by simp only [List.length_cons]; omega), if_pos rfl] at hp
    cases hs : parse_primary m rest with
    | error e' => rw [hs] at hp; simp at hp
    | ok v =>
      obtain ⟨o1, r1'⟩ := v
      rw [hs] at hp
      cases o1 with
      | none => simp at hp
      | some operand =>
        simp only [Except.ok.injEq, Prod.mk.injEq, Option.some.injEq] at hp
        obtain ⟨-, rfl⟩ := hp
        obtain ⟨e', he'⟩ := parse_expr_ok_of_parts (by omega) hs htl hel
        exact (parse_ok_big rest m (by omega)).2 ⟨e', r, he'⟩
  · obtain ⟨r, h⟩ := (parse_ok_iff _ e).1 h
    generalize hm : parse_fuel ("(" :: rest) = m at h
    have hm' : 3 * (rest.length + 1) + 3 ≤ m := by rw [← hm]; simp [parse_fuel]
    clear hm
    obtain ⟨g, r2, ht, hel⟩ := parse_expr_ok_inv (by simp only [List.length_cons]; omega) h
    obtain ⟨f, r1, hp, htl⟩ := parse_term_ok_inv
      (by simp only [List.length_cons]; omega) ht
    rw [parse_primary_big _ _ (by simp only [List.length_cons]; omega), if_neg (by decide),
      if_pos rfl] at hp
    cases hs : parse_expr m rest with
    | error e' => rw [hs] at hp; simp at hp
    | ok v =>
      obtain ⟨o1, r1'⟩ := v
      cases o1 with
      | none => rw [hs] at hp; simp at hp
      | some y => exact (parse_ok_big rest m (by omega)).2 ⟨y, r1', hs⟩
  · obtain ⟨r, h⟩ := (parse_ok_iff _ e).1 h
    generalize hm : parse_fuel (pre ++ "&&" :: rest) = m at h
    have hm' : 3 * (pre ++ "&&" :: rest).length + 3 ≤ m := by rw [← hm]; simp [parse_fuel]
    clear hm
    cases hd with
    | term l x hl =>
      obtain ⟨g, r2, ht, hel⟩ := parse_expr_ok_inv hm' h
      obtain ⟨rhs, r', hp, htl⟩ := parse_term_and_ok_inv hl hm' ht
      simp only [List.length_append, List.length_cons] at hm'
      obtain ⟨e', he'⟩ := parse_expr_ok_of_parts (by omega) hp htl hel
      exact (parse_ok_big rest m (by omega)).2 ⟨e', r, he'⟩
    | or l r0 x f hl hr =>
      have hm2 := hm'
      simp only [List.append_assoc, List.cons_append, List.length_append,
        List.length_cons] at hm2
      rw [List.append_assoc, List.cons_append,
        parse_expr_complete hl _ _
          (by simp only [List.length_append, List.length_cons]; omega) (by simp),
        parse_expr_loop_big _ _ _
          (by simp only [List.length_append, List.length_cons]; omega), if_pos rfl] at h
      cases hs : parse_term m (r0 ++ "&&" :: rest) with
      | error e' => rw [hs] at h; simp at h
      | ok v =>
        obtain ⟨o1, r1⟩ := v
        rw [hs] at h
        cases o1 with
        | none => simp at h
        | some g =>
          simp only at h
          obtain ⟨rhs, r', hp, htl⟩ := parse_term_and_ok_inv hr
            (by simp only [List.length_append, List.length_cons]; omega) hs
          obtain ⟨e', he'⟩ := parse_expr_ok_of_parts (by omega) hp htl h
          exact (parse_ok_big rest m (by omega)).2 ⟨e', r, he'⟩
  · obtain ⟨r, h⟩ := (parse_ok_iff _ e).1 h
    generalize hm : parse_fuel (pre ++ "||" :: rest) = m at h
    have hm' : 3 * (pre ++ "||" :: rest).length + 3 ≤ m := by rw [← hm]; simp [parse_fuel]
    clear hm
    have hm2 := hm'
    simp only [List.length_append, List.length_cons] at hm2
    rw [parse_expr_complete hd _ _ hm' (by simp),
      parse_expr_loop_big _ _ _ (by simp only [List.length_cons]; omega), if_pos rfl] at h
    cases hs : parse_term m rest with
    | error e' => rw [hs] at h; simp at h
    | ok v =>
      obtain ⟨o1, r1⟩ := v
      rw [hs] at h
      cases o1 with
      | none => simp at h
      | some rhs =>
        simp only at h
        obtain ⟨f, r1', hp, htl⟩ := parse_term_ok_inv (by omega) hs
        obtain ⟨e', he'⟩ := parse_expr_ok_of_parts (by omega) hp htl h
        exact (parse_ok_big rest m (by omega)).2 ⟨e', r, he'⟩

/-- When `etsl_predicate.parse` rejects a sequence, it rejects that sequence after a `!`,
after a `(`, and after a grammar expression and `&&` or `||`. -/
theorem parse_error_operand {rest : List String}
    (h : ∃ what, etsl_predicate.parse rest = .error (.etsl_invalid_predicate_error what)) :
    (∃ what, etsl_predicate.parse ("!" :: rest) =
      .error (.etsl_invalid_predicate_error what)) ∧
    (∃ what, etsl_predicate.parse ("(" :: rest) =
      .error (.etsl_invalid_predicate_error what)) ∧
    ∀ (pre : List String) (x : expression), derives .expr pre x →
      (∃ what, etsl_predicate.parse (pre ++ "&&" :: rest) =
        .error (.etsl_invalid_predicate_error what)) ∧
      (∃ what, etsl_predicate.parse (pre ++ "||" :: rest) =
        .error (.etsl_invalid_predicate_error what)) := by
  rw [parse_error_iff_not_ok] at h
  refine ⟨?_, ?_, fun pre x hd => ⟨?_, ?_⟩⟩
  · rw [parse_error_iff_not_ok]
    exact fun h' => h (parse_ok_operand rest (Or.inl h'))
  · rw [parse_error_iff_not_ok]
    exact fun h' => h (parse_ok_operand rest (Or.inr (Or.inl h')))
  · rw [parse_error_iff_not_ok]
    rintro ⟨e, he⟩
    exact h (parse_ok_operand rest (Or.inr (Or.inr (Or.inl ⟨pre, x, e, hd, he⟩))))
  · rw [parse_error_iff_not_ok]
    rintro ⟨e, he⟩
    exact h (parse_ok_operand rest (Or.inr (Or.inr (Or.inr ⟨pre, x, e, hd, he⟩))))

/-- C12, as amended: `etsl_predicate.parse` reads a prefix of the sub-token sequence. On
every sequence it either fails with `etsl_invalid_predicate_error` or returns a tree that
the grammar derives from a prefix of the sequence, in which every `&&` and `||` has both
operands, every `!` has its operand and every `(` has its `)`; what follows that prefix
need not be well formed. It returns the tree `e` exactly when a prefix is derived by the
grammar as an expression with the tree `e` and is followed by nothing or by a sub-token
other than `&&` and `||`, whatever comes after that sub-token, and it fails with
`etsl_invalid_predicate_error` on every other sequence. In particular it fails when no
operand starts the sequence (so when `&&`, `||` or `)` starts it), when the `&&` or `||`
after a grammar expression is followed by no operand, when a leading `!` is followed by no
operand, when a leading `(` is followed by no `)` at all or by a grammar expression and
then by nothing or by a sub-token other than `)`, `&&` and `||`, and when what follows a
leading `!`, a leading `(` or the `&&` or `||` after a grammar expression is itself a
sequence on which it fails. So it fails on `a && b &&`, `a || !`, `( a b )` and
`a && ( b`. -/
theorem parse_fails_or_prefix_consumed :
    (∀ toks : List String,
      (∃ what, etsl_predicate.parse toks = .error (.etsl_invalid_predicate_error what)) ∨
      ∃ (e : expression) (pre rest : List String),
        etsl_predicate.parse toks = .ok { expr_ := some e } ∧ toks = pre ++ rest ∧
        derives .expr pre e) ∧
    (∀ (toks : List String) (e : expression),
      etsl_predicate.parse toks = .ok { expr_ := some e } ↔
        ∃ pre rest, toks = pre ++ rest ∧ derives .expr pre e ∧
          rest.head? ≠ some "&&" ∧ rest.head? ≠ some "||") ∧
    (∀ toks : List String,
      (∃ what, etsl_predicate.parse toks = .error (.etsl_invalid_predicate_error what)) ↔
        ¬ ∃ e pre rest, toks = pre ++ rest ∧ derives .expr pre e ∧
          rest.head? ≠ some "&&" ∧ rest.head? ≠ some "||") ∧
    (∀ toks : List String, no_operand toks →
      etsl_predicate.parse toks = .error (.etsl_invalid_predicate_error "invalid predicate")) ∧
    (∀ (a : String) (rest : List String), is_prop_name a = true → no_operand rest →
      etsl_predicate.parse (a :: "&&" :: rest) =
        .error (.etsl_invalid_predicate_error "invalid operator &&") ∧
      etsl_predicate.parse (a :: "||" :: rest) =
        .error (.etsl_invalid_predicate_error "invalid operator ||")) ∧
    (∀ (pre : List String) (e : expression) (rest : List String), derives .expr pre e →
      no_operand rest →
      etsl_predicate.parse (pre ++ "&&" :: rest) =
        .error (.etsl_invalid_predicate_error "invalid operator &&") ∧
      etsl_predicate.parse (pre ++ "||" :: rest) =
        .error (.etsl_invalid_predicate_error "invalid operator ||")) ∧
    (∀ rest : List String, no_operand rest →
      etsl_predicate.parse ("!" :: rest) =
        .error (.etsl_invalid_predicate_error "invalid operator !")) ∧
    (∀ rest : List String, ")" ∉ rest →
      ∃ what, etsl_predicate.parse ("(" :: rest) =
        .error (.etsl_invalid_predicate_error what)) ∧
    (∀ (pre : List String) (e : expression) (rest : List String), derives .expr pre e →
      rest.head? ≠ some ")" → rest.head? ≠ some "&&" → rest.head? ≠ some "||" →
      etsl_predicate.parse ("(" :: (pre ++ rest)) =
        .error (.etsl_invalid_predicate_error "invalid parentheses")) ∧
    (∀ rest : List String,
      (∃ what, etsl_predicate.parse rest = .error (.etsl_invalid_predicate_error what)) →
      (∃ what, etsl_predicate.parse ("!" :: rest) =
        .error (.etsl_invalid_predicate_error what)) ∧
      (∃ what, etsl_predicate.parse ("(" :: rest) =
        .error (.etsl_invalid_predicate_error what)) ∧
      ∀ (pre : List String) (x : expression), derives .expr pre x →
        (∃ what, etsl_predicate.parse (pre ++ "&&" :: rest) =
          .error (.etsl_invalid_predicate_error what)) ∧
        (∃ what, etsl_predicate.parse (pre ++ "||" :: rest) =
          .error (.etsl_invalid_predicate_error what))) ∧
    etsl_predicate.parse ["a", "&&", "b", "&&"] =
      .error (.etsl_invalid_predicate_error "invalid operator &&") ∧
    etsl_predicate.parse ["a", "||", "!"] =
      .error (.etsl_invalid_predicate_error "invalid operator !") ∧
    etsl_predicate.parse ["(", "a", "b", ")"] =
      .error (.etsl_invalid_predicate_error "invalid parentheses") ∧
    etsl_predicate.parse ["a", "&&", "(", "b"] =
      .error (.etsl_invalid_predicate_error "invalid parentheses") :=
  ⟨parse_error_or_prefix_derived, parse_ok_iff_derives, parse_error_iff_no_derives,
    fun _ h => parse_of_no_operand h, fun _ _ ha h => parse_binary_no_operand ha h,
    fun _ _ _ hd h => parse_derived_binary_no_operand hd h,
    fun _ h => parse_not_no_operand h, fun _ h => parse_paren_unmatched h,
    fun _ _ _ hd h0 h1 h2 => parse_paren_derived_unmatched hd h0 h1 h2,
    fun _ h => parse_error_operand h, by decide, by decide, by decide, by decide⟩

/-- The sequence `! &&` has a `!` without operand, `( a` a `(` without `)`, `a &&` a `&&`
without right operand, `( a b )` a `(` whose expression is followed by `b`, and in `a || !`
the `||` is followed by the sequence `!`, which is rejected: all five are rejected. The
sequence `a ) (` is accepted, with the tree of `a`, the prefix `a` being followed by `)`. -/
theorem parse_fails_or_prefix_consumed_witness :
    etsl_predicate.parse ("!" :: ["&&"]) =
      .error (.etsl_invalid_predicate_error "invalid operator !") ∧
    (∃ what, etsl_predicate.parse ("(" :: ["a"]) =
      .error (.etsl_invalid_predicate_error what)) ∧
    etsl_predicate.parse (["a"] ++ "&&" :: []) =
      .error (.etsl_invalid_predicate_error "invalid operator &&") ∧
    etsl_predicate.parse ("(" :: (["a"] ++ ["b", ")"])) =
      .error (.etsl_invalid_predicate_error "invalid parentheses") ∧
    (∃ what, etsl_predicate.parse (["a"] ++ "||" :: ["!"]) =
      .error (.etsl_invalid_predicate_error what)) ∧
    etsl_predicate.parse ["a", ")", "("] = .ok { expr_ := some (.kind_prop "a") } :=
  ⟨parse_fails_or_prefix_consumed.2.2.2.2.2.2.1 ["&&"] (by decide),
   parse_fails_or_prefix_consumed.2.2.2.2.2.2.2.1 ["a"] (by decide),
   (parse_fails_or_prefix_consumed.2.2.2.2.2.1 ["a"] (.kind_prop "a") []
     (derives.term _ _ (derives.primary _ _ (derives.prop "a" (by decide))))
     (by decide)).1,
   parse_fails_or_prefix_consumed.2.2.2.2.2.2.2.2.1 ["a"] (.kind_prop "a") ["b", ")"]
     (derives.term _ _ (derives.primary _ _ (derives.prop "a" (by decide))))
     (by decide) (by decide) (by decide),
   ((parse_fails_or_prefix_consumed.2.2.2.2.2.2.2.2.2.1 ["!"]
     ⟨_, parse_fails_or_prefix_consumed.2.2.2.2.2.2.1 [] (by decide)⟩).2.2 ["a"]
       (.kind_prop "a")
       (derives.term _ _ (derives.primary _ _ (derives.prop "a" (by decide))))).2,
   (parse_fails_or_prefix_consumed.2.1 ["a", ")", "("] (.kind_prop "a")).2
     ⟨["a"], [")", "("], rfl,
       derives.term _ _ (derives.primary _ _ (derives.prop "a" (by decide))),
       by decide, by decide⟩⟩

end etsl
